import Mathlib

/-!
# Assignment 3: OBJ loading and AABB collision

A shallow embedding of the collision test, the input handling (`processInput`,
`mouse_callback`) and the texture loader of `src/Assignment_3/main.cpp`, and of
the two OBJ loaders (`Model::loadOBJ` in `src/Assignment_3/model.cpp`,
`loadOBJModel` in `src/Assignment_3/main.cpp`) with the material and texture
loading of `model.cpp`.

The C++ `float` is a type parameter `F`.  Each definition asks of `F` only the
operations the embedded function applies (`+`, `*`, `≤`, `<`, literals), with
no algebraic law, so a theorem stated for every `F` holds for IEEE binary32
arithmetic with its rounding as well as for exact arithmetic.  Where a proof
needs the order to be total (no NaN among the compared values) it says so by
asking for a linear order.  The type `Binary32` is binary32 itself, with
round to nearest, ties to even, infinities and NaN; the properties that depend
on rounding (the facing angle modulo 360 and the end of its loops, common
points of boxes, the fallback normal) are stated on it.  The `while` loops on
floats carry a fuel argument.  Concrete evaluations use `ℚ`, `ℤ` or
`Binary32`.
-/

namespace Game3D

/-! ## Vectors (glm) -/

/-- Two-component vector, as `glm::vec2`. -/
structure Vec2 (F : Type) where
  x : F
  y : F
deriving DecidableEq, Repr

/-- Three-component vector, as `glm::vec3`. -/
structure Vec3 (F : Type) where
  x : F
  y : F
  z : F
deriving DecidableEq, Repr

/-- Componentwise sum, glm `operator+` on two `vec3`. -/
instance instAddVec3 {F : Type} [Add F] : Add (Vec3 F) :=
  ⟨fun a b => ⟨a.x + b.x, a.y + b.y, a.z + b.z⟩⟩

/-- Componentwise product, glm `operator*` on two `vec3`. -/
instance instMulVec3 {F : Type} [Mul F] : Mul (Vec3 F) :=
  ⟨fun a b => ⟨a.x * b.x, a.y * b.y, a.z * b.z⟩⟩

/-- Vector times scalar, glm `operator*` on a `vec3` and a `float`. -/
def Vec3.scale {F : Type} [Mul F] (v : Vec3 F) (s : F) : Vec3 F :=
  ⟨v.x * s, v.y * s, v.z * s⟩

/-- The vector with all three components equal, `glm::vec3(s)`. -/
def Vec3.splat {F : Type} (s : F) : Vec3 F := ⟨s, s, s⟩

/-! ## Game objects (`main.cpp`) -/

/-- The `GameObject` record of `main.cpp`; GL handles are natural numbers. -/
structure GameObject (F : Type) where
  position : Vec3 F
  scale : Vec3 F
  color : Vec3 F
  minBounds : Vec3 F
  maxBounds : Vec3 F
  VAO : Nat
  VBO : Nat
  EBO : Nat
  vertices : List F
  indices : List Nat
  textureID : Nat
  loaded : Bool
  hasTexture : Bool
deriving DecidableEq, Repr

/-- AABB intersection test, `checkIntersection` of `main.cpp` (lines 590-603).
`a ≥ b` is `b ≤ a`, as for C++ floats (NaN included: both are false). -/
def checkIntersection {F : Type} [Add F] [Mul F] [LE F]
    [DecidableRel (fun a b : F => a ≤ b)] (obj1 obj2 : GameObject F) : Bool :=
  let obj1Min := obj1.position + obj1.minBounds * obj1.scale
  let obj1Max := obj1.position + obj1.maxBounds * obj1.scale
  let obj2Min := obj2.position + obj2.minBounds * obj2.scale
  let obj2Max := obj2.position + obj2.maxBounds * obj2.scale
  (decide (obj1Min.x ≤ obj2Max.x) && decide (obj1Max.x ≥ obj2Min.x)) &&
  (decide (obj1Min.y ≤ obj2Max.y) && decide (obj1Max.y ≥ obj2Min.y)) &&
  (decide (obj1Min.z ≤ obj2Max.z) && decide (obj1Max.z ≥ obj2Min.z))

/-- A game object with the given placement and local box, every other field
zero or empty; used to build concrete inputs. -/
def boxObject {F : Type} [Zero F] (position scale minBounds maxBounds : Vec3 F) :
    GameObject F :=
  { position := position, scale := scale, color := Vec3.splat 0,
    minBounds := minBounds, maxBounds := maxBounds,
    VAO := 0, VBO := 0, EBO := 0, vertices := [], indices := [],
    textureID := 0, loaded := true, hasTexture := false }

/-! ## Input handling and movement resolution (`processInput`, `main.cpp`) -/

/-- The four movement keys as read by `glfwGetKey` (lines 682-685). -/
structure Keys where
  wPressed : Bool
  sPressed : Bool
  aPressed : Bool
  dPressed : Bool
deriving DecidableEq, Repr

/-- The library functions `cos`, `sin` and `glm::radians` on `float`. -/
structure Trig (F : Type) where
  cos : F → F
  sin : F → F
  radians : F → F

/-- The locals `moving`, `movementAngle` and the global `isADMovement` after
the key dispatch. -/
structure Heading (F : Type) where
  moving : Bool
  movementAngle : F
  isADMovement : Bool
deriving DecidableEq, Repr

/-- Key dispatch of `processInput` (lines 678-703): the if/else-if chain over
W, S, A, D.  The literal `-90.0f` is the negation of `90.0f`. -/
def selectHeading {F : Type} [NatCast F] [Neg F] (k : Keys) : Heading F :=
  if k.wPressed then ⟨true, ((0 : ℕ) : F), false⟩
  else if k.sPressed then ⟨true, ((180 : ℕ) : F), false⟩
  else if k.aPressed then ⟨true, -((90 : ℕ) : F), true⟩
  else if k.dPressed then ⟨true, ((90 : ℕ) : F), true⟩
  else ⟨false, ((0 : ℕ) : F), false⟩

/-- The globals `processInput` reads and writes. -/
structure World (F : Type) where
  player : GameObject F
  obstacle1 : GameObject F
  obstacle2 : GameObject F
  obstacle3 : GameObject F
  collisionBoxes : List (GameObject F)
  yaw : F
  deltaTime : F
  playerRotation : F
  isADMovement : Bool

/-- The local `moveSpeed = 5.0f * deltaTime` (line 673). -/
def moveSpeed {F : Type} [NatCast F] [Mul F] (w : World F) : F :=
  ((5 : ℕ) : F) * w.deltaTime

/-- The local `moveDir` (lines 709-711) for a given `movementAngle`. -/
def moveDir {F : Type} [NatCast F] [Add F] (trig : Trig F) (yaw movementAngle : F) : Vec3 F :=
  let moveAngle := yaw + movementAngle
  let angleRad := trig.radians moveAngle
  ⟨trig.cos angleRad, ((0 : ℕ) : F), trig.sin angleRad⟩

/-- The local `newPos` (line 770) for the heading the keys select. -/
def proposedPosition {F : Type} [NatCast F] [Neg F] [Add F] [Mul F]
    (trig : Trig F) (k : Keys) (w : World F) : Vec3 F :=
  w.player.position +
    (moveDir trig w.yaw (selectHeading k : Heading F).movementAngle).scale (moveSpeed w)

/-- The loop over `collisionBoxes` (lines 793-799), leaving at the first
intersecting box; the pair is `(canMove, collisionReason)`. -/
def boxLoop {F : Type} [Add F] [Mul F] [LE F] [DecidableRel (fun a b : F => a ≤ b)]
    (tempPlayer : GameObject F) : List (GameObject F) → Bool × String → Bool × String
  | [], acc => acc
  | box :: rest, acc =>
    if checkIntersection tempPlayer box then (false, "collision box")
    else boxLoop tempPlayer rest acc

/-- The collision test of `processInput` (lines 776-800): the chain over the
three obstacles, then the loop over the boxes when still allowed. -/
def collisionTest {F : Type} [Add F] [Mul F] [LE F] [DecidableRel (fun a b : F => a ≤ b)]
    (tempPlayer obstacle1 obstacle2 obstacle3 : GameObject F)
    (collisionBoxes : List (GameObject F)) : Bool × String :=
  let r : Bool × String :=
    if checkIntersection tempPlayer obstacle1 then (false, "obstacle1")
    else if checkIntersection tempPlayer obstacle2 then (false, "obstacle2")
    else if checkIntersection tempPlayer obstacle3 then (false, "obstacle3")
    else (true, "")
  if r.1 then boxLoop tempPlayer collisionBoxes r else r

/-- The copy `tempPlayer` of the player placed at `newPos` (lines 773-774). -/
def tempPlayerAt {F : Type} (player : GameObject F) (newPos : Vec3 F) : GameObject F :=
  { player with position := newPos }

/-- The flag `canMove` after the collision test for the proposed position. -/
def canMove {F : Type} [Add F] [Mul F] [LE F] [DecidableRel (fun a b : F => a ≤ b)]
    (w : World F) (newPos : Vec3 F) : Bool :=
  (collisionTest (tempPlayerAt w.player newPos) w.obstacle1 w.obstacle2 w.obstacle3
    w.collisionBoxes).1

/-- Movement resolution of `processInput` (lines 769-811) for a proposed
position: the position is committed when `canMove`, nothing else is written
(the else branch only prints). -/
def movementStep {F : Type} [Add F] [Mul F] [LE F] [DecidableRel (fun a b : F => a ≤ b)]
    (w : World F) (newPos : Vec3 F) : World F :=
  if canMove w newPos then { w with player := { w.player with position := newPos } } else w

/-- Rational stand-ins for `cos`, `sin` and `glm::radians`, exact at 0; they
serve to evaluate a movement request at yaw 0. -/
def sampleTrig : Trig ℚ :=
  { cos := fun x => 1 - x * x / 2, sin := fun x => x, radians := fun x => x * 355 / (113 * 180) }

/-! ## OBJ files: lines, integers, errors -/

/-- One line of an OBJ file after `iss >> type`: the directive and what the
loaders extract from the rest of the line: for `v`, `vt` and `vn` the values
the extractions `iss >> ...` leave in the components, for `f` the
whitespace-separated tokens, for `mtllib` the file name.  Lines with any
other first token are `other`. -/
inductive Line (F : Type) where
  | v (x y z : F)
  | vt (u v : F)
  | vn (x y z : F)
  | f (tokens : List String)
  | mtllib (file : String)
  | other
deriving DecidableEq, Repr

/-- Ways a load leaves the normal path: the two exceptions of `std::stoi`,
the signed overflow of `stoi(s) - 1`, and an unchecked vector access out of
range. -/
inductive LoadError where
  | invalidArgument
  | outOfRange
  | signedOverflow
  | outOfBounds
deriving DecidableEq, Repr

/-- The value of `std::min(a, b)`, which is `(b < a) ? b : a`. -/
def stdMin {F : Type} [LT F] [DecidableRel (fun a b : F => a < b)] (a b : F) : F :=
  if b < a then b else a

/-- The value of `std::max(a, b)`, which is `(a < b) ? b : a`. -/
def stdMax {F : Type} [LT F] [DecidableRel (fun a b : F => a < b)] (a b : F) : F :=
  if a < b then b else a

/-- Conversion of a size to `unsigned int` (32 bits). -/
def toUInt32 (n : Nat) : Nat := n % 2 ^ 32

/-- Conversion of an `int` to `unsigned int` (32 bits). -/
def intToUInt32 (n : Int) : Nat := (n % 2 ^ 32).toNat

/-- Conversion `static_cast<int>` of a size (32 bits, two's complement). -/
def castInt (n : Nat) : Int :=
  if n % 2 ^ 32 < 2 ^ 31 then ((n % 2 ^ 32 : Nat) : Int) else ((n % 2 ^ 32 : Nat) : Int) - 2 ^ 32

/-- The characters `isspace` accepts in the C locale. -/
def isSpaceChar (c : Char) : Bool :=
  c.toNat = 32 || (9 ≤ c.toNat && c.toNat ≤ 13)

/-- Value of a run of decimal digits. -/
def digitsValue (ds : List Char) : Nat :=
  ds.foldl (fun acc c => 10 * acc + (c.toNat - 48)) 0

/-- The call `std::stoi(s)`: leading white space, an optional sign, then the
longest run of decimal digits; `invalid_argument` when there is no digit,
`out_of_range` when the value does not fit an `int`; what follows the digits
is ignored. -/
def stoi (s : List Char) : Except LoadError Int :=
  let s1 := s.dropWhile isSpaceChar
  let signed : Bool × List Char :=
    match s1 with
    | '-' :: r => (true, r)
    | '+' :: r => (false, r)
    | _ => (false, s1)
  let ds := signed.2.takeWhile Char.isDigit
  if ds.isEmpty then .error .invalidArgument
  else
    let val : Int := if signed.1 then -((digitsValue ds : Nat) : Int) else ((digitsValue ds : Nat) : Int)
    if val < -2147483648 ∨ 2147483647 < val then .error .outOfRange else .ok val

/-- The expression `std::stoi(s) - 1` in `int`. -/
def stoiMinusOne (s : List Char) : Except LoadError Int :=
  match stoi s with
  | .error e => .error e
  | .ok n => if n = -2147483648 then .error .signedOverflow else .ok (n - 1)

/-! ## The model loader (`model.cpp`) -/

/-- Modelled from the spec: the `Vertex` record is declared in `model.h`,
which is not among the sources; position (3 floats), normal (3 floats) and
texture coordinate (2 floats), with the field names `model.cpp` uses. -/
structure Vertex (F : Type) where
  Position : Vec3 F
  Normal : Vec3 F
  TexCoords : Vec2 F
deriving DecidableEq, Repr

/-- Modelled from the spec: the `Texture` record is declared in `model.h`;
a handle, a semantic role and the resolved path, as `model.cpp` assigns them. -/
structure Texture where
  id : Nat
  type : String
  path : String
deriving DecidableEq, Repr

/-- Modelled from the spec: the `Mesh` class is declared in `model.h`; the
vertex sequence, the index sequence and the texture references its
constructor stores (the GL buffers `setupMesh` creates are left out). -/
structure Mesh (F : Type) where
  vertices : List (Vertex F)
  indices : List Nat
  textures : List Texture
deriving DecidableEq, Repr

/-- Modelled from the spec: the `Model` class is declared in `model.h`; its
meshes, its `std::map` from material name to textures (as the entries in key
order), the directory and the bounding box, as `model.cpp` uses them. -/
structure Model (F : Type) where
  meshes : List (Mesh F)
  materials : List (String × List Texture)
  directory : String
  boundingBoxMin : Vec3 F
  boundingBoxMax : Vec3 F
deriving DecidableEq, Repr

/-- What `Model::loadOBJ` takes from outside the parser: the indeterminate
value of a default-constructed `glm::vec3`, the effect of `Model::loadMTL`
(directory, path) on the material map, and the handle `TextureFromFile`
returns for a path (0 on failure). -/
structure LoaderEnv (F : Type) where
  uninit : Vec3 F
  loadMTL : String → String → List (String × List Texture) → List (String × List Texture)
  textureFromFile : String → Nat

/-- One call `std::getline(ss, token, '/')`: fails when nothing is left,
otherwise yields the characters before the next slash and the stream after
that slash. -/
def getlineSlash : List Char → Option (List Char × List Char)
  | [] => none
  | c :: cs => some ((c :: cs).takeWhile (fun d => d != '/'),
      ((c :: cs).dropWhile (fun d => d != '/')).drop 1)

/-- One index field of `parseFaceToken` (lines 155-163): the index stays -1
when the `getline` fails or the token is empty, else it is `stoi(token) - 1`. -/
def readIndex (stream : List Char) : Except LoadError (Int × List Char) :=
  match getlineSlash stream with
  | none => .ok (-1, stream)
  | some (token, rest) =>
    if token.isEmpty then .ok (-1, rest)
    else
      match stoiMinusOne token with
      | .error e => .error e
      | .ok n => .ok (n, rest)

/-- The lambda `parseFaceToken` of `Model::loadOBJ` (lines 150-181). -/
def parseFaceToken {F : Type} [Zero F] [One F] (env : LoaderEnv F)
    (positions normals : List (Vec3 F)) (texCoords : List (Vec2 F)) (face : String) :
    Except LoadError (Vertex F) := do
  let (posIdx, s1) ← readIndex face.toList
  let (texIdx, s2) ← readIndex s1
  let (normIdx, _) ← readIndex s2
  let position : Vec3 F :=
    if 0 ≤ posIdx ∧ posIdx < castInt positions.length then
      positions.getD posIdx.toNat env.uninit
    else env.uninit
  let tex : Vec2 F :=
    if 0 ≤ texIdx ∧ texIdx < castInt texCoords.length then
      texCoords.getD texIdx.toNat ⟨0, 0⟩
    else ⟨0, 0⟩
  let normal : Vec3 F :=
    if 0 ≤ normIdx ∧ normIdx < castInt normals.length then
      normals.getD normIdx.toNat ⟨0, 1, 0⟩
    else ⟨0, 1, 0⟩
  return { Position := position, Normal := normal, TexCoords := tex }

/-- The loop filling `faceVertices` (lines 184-188): tokens in order, left at
the first exception. -/
def parseFaceTokens {F : Type} [Zero F] [One F] (env : LoaderEnv F)
    (positions normals : List (Vec3 F)) (texCoords : List (Vec2 F)) :
    List String → Except LoadError (List (Vertex F))
  | [] => .ok []
  | t :: ts =>
    match parseFaceToken env positions normals texCoords t with
    | .error e => .error e
    | .ok v =>
      match parseFaceTokens env positions normals texCoords ts with
      | .error e => .error e
      | .ok vs => .ok (v :: vs)

/-- The fan loop `for (i = 1; i + 1 < faceVertices.size(); ++i)` (lines
191-200), on the pair `(vertices, indices)`; `fuel` bounds the iterations
and `faceVertices.length` is always enough.  `baseIndex` is an `unsigned
int`. -/
def fanLoop {F : Type} (faceVertices : List (Vertex F)) :
    Nat → Nat → List (Vertex F) × List Nat → List (Vertex F) × List Nat
  | 0, _, acc => acc
  | fuel + 1, i, acc =>
    if h : i + 1 < faceVertices.length then
      let baseIndex := toUInt32 acc.1.length
      fanLoop faceVertices fuel (i + 1)
        (acc.1 ++ [faceVertices[0], faceVertices[i], faceVertices[i + 1]],
          acc.2 ++ [baseIndex, toUInt32 (baseIndex + 1), toUInt32 (baseIndex + 2)])
    else acc

/-- The locals of `Model::loadOBJ` together with the model being filled. -/
structure LoadState (F : Type) where
  model : Model F
  positions : List (Vec3 F)
  normals : List (Vec3 F)
  texCoords : List (Vec2 F)
  vertices : List (Vertex F)
  indices : List Nat
deriving DecidableEq, Repr

/-- The body of the line loop of `Model::loadOBJ` (lines 112-210). -/
def processLine {F : Type} [Zero F] [One F] [LT F] [DecidableRel (fun a b : F => a < b)]
    (env : LoaderEnv F) (st : LoadState F) : Line F → Except LoadError (LoadState F)
  | .v x y z =>
    .ok { st with
      positions := st.positions ++ [⟨x, y, z⟩],
      model := { st.model with
        boundingBoxMin := ⟨stdMin st.model.boundingBoxMin.x x, stdMin st.model.boundingBoxMin.y y,
          stdMin st.model.boundingBoxMin.z z⟩,
        boundingBoxMax := ⟨stdMax st.model.boundingBoxMax.x x, stdMax st.model.boundingBoxMax.y y,
          stdMax st.model.boundingBoxMax.z z⟩ } }
  | .vt u v => .ok { st with texCoords := st.texCoords ++ [⟨u, v⟩] }
  | .vn x y z => .ok { st with normals := st.normals ++ [⟨x, y, z⟩] }
  | .f vertexTokens =>
    if vertexTokens.length < 3 then .ok st
    else
      match parseFaceTokens env st.positions st.normals st.texCoords vertexTokens with
      | .error e => .error e
      | .ok faceVertices =>
        let r := fanLoop faceVertices faceVertices.length 1 (st.vertices, st.indices)
        .ok { st with vertices := r.1, indices := r.2 }
  | .mtllib mtlFile =>
    .ok { st with
      model := { st.model with
        materials := env.loadMTL st.model.directory (st.model.directory ++ "/" ++ mtlFile)
          st.model.materials } }
  | .other => .ok st

/-- The line loop `while (std::getline(file, line))` of `Model::loadOBJ`. -/
def processLines {F : Type} [Zero F] [One F] [LT F] [DecidableRel (fun a b : F => a < b)]
    (env : LoaderEnv F) : LoadState F → List (Line F) → Except LoadError (LoadState F)
  | st, [] => .ok st
  | st, l :: ls =>
    match processLine env st l with
    | .error e => .error e
    | .ok st1 => processLines env st1 ls

/-- The loop over `defaultTexturePaths` (lines 232-243): the first path for
which `TextureFromFile` gives a non-zero handle becomes one diffuse texture. -/
def defaultTextureLoop {F : Type} (env : LoaderEnv F) : List String → List Texture
  | [] => []
  | texPath :: rest =>
    if env.textureFromFile texPath ≠ 0 then
      [{ id := env.textureFromFile texPath, type := "diffuse", path := texPath }]
    else defaultTextureLoop env rest

/-- Texture selection of `Model::loadOBJ` (lines 214-244); the local
`textures` is empty when this is reached. -/
def selectTextures {F : Type} (env : LoaderEnv F) (m : Model F) : List Texture :=
  if ¬ m.materials.isEmpty then
    (m.materials.map (fun mat => mat.2)).flatten
  else
    defaultTextureLoop env
      [m.directory ++ "/../textures/Textures_color.png",
        m.directory ++ "/../textures/280z_CarPaint_AO.png",
        m.directory ++ "/../textures/SSR_Color_alternative.png"]

/-- The method `Model::loadOBJ` (lines 93-251).  `file` is `none` when the
file cannot be opened, else its lines. -/
def loadOBJ {F : Type} [Zero F] [One F] [LT F] [DecidableRel (fun a b : F => a < b)]
    (env : LoaderEnv F) (m : Model F) (file : Option (List (Line F))) :
    Except LoadError (Model F) :=
  match file with
  | none => .ok m
  | some lines =>
    match processLines env
        { model := m, positions := [], normals := [], texCoords := [], vertices := [],
          indices := [] } lines with
    | .error e => .error e
    | .ok st =>
      let textures := selectTextures env st.model
      if ¬ st.vertices.isEmpty then
        .ok { st.model with
          meshes := st.model.meshes ++
            [{ vertices := st.vertices, indices := st.indices, textures := textures }] }
      else .ok st.model

/-- The state the constructor `Model::Model` sets before loading (lines
76-77) for a given `FLT_MAX`, with the directory `loadModel` computes. -/
def Model.init {F : Type} [Neg F] (fltMax : F) (directory : String) : Model F :=
  { meshes := [], materials := [], directory := directory,
    boundingBoxMin := Vec3.splat fltMax, boundingBoxMax := Vec3.splat (-fltMax) }

/-! ## The inline loader (`loadOBJModel`, `main.cpp`) -/

/-- The call `vertex.find('/', start)`: the position of the first slash at or
after `start`, `none` for `npos`. -/
def findSlash (cs : List Char) (start : Nat) : Option Nat :=
  let skipped := ((cs.drop start).takeWhile (fun d => d != '/')).length
  if start + skipped < cs.length then some (start + skipped) else none

/-- The three index vectors `processFaceVertex` appends to. -/
structure FaceIndices where
  posIndices : List Nat
  texIndices : List Nat
  normIndices : List Nat
deriving DecidableEq, Repr

/-- One guarded push of `processFaceVertex` (lines 95-103): nothing for an
empty field, else `stoi(field) - 1` converted to `unsigned int`. -/
def pushIndex (field : List Char) (indices : List Nat) : Except LoadError (List Nat) :=
  if field.isEmpty then .ok indices
  else
    match stoiMinusOne field with
    | .error e => .error e
    | .ok n => .ok (indices ++ [intToUInt32 n])

/-- The helper `processFaceVertex` of `main.cpp` (lines 75-104). -/
def processFaceVertex (vertex : String) (ix : FaceIndices) : Except LoadError FaceIndices :=
  let cs := vertex.toList
  let fields : List Char × List Char × List Char :=
    match findSlash cs 0 with
    | some slash1 =>
      match findSlash cs (slash1 + 1) with
      | some slash2 =>
        (cs.take slash1, (cs.drop (slash1 + 1)).take (slash2 - slash1 - 1), cs.drop (slash2 + 1))
      | none => (cs.take slash1, cs.drop (slash1 + 1), [])
    | none => (cs, [], [])
  match pushIndex fields.1 ix.posIndices with
  | .error e => .error e
  | .ok ps =>
    match pushIndex fields.2.1 ix.texIndices with
    | .error e => .error e
    | .ok ts =>
      match pushIndex fields.2.2 ix.normIndices with
      | .error e => .error e
      | .ok ns => .ok { posIndices := ps, texIndices := ts, normIndices := ns }

/-- The face branch of `loadOBJModel` (lines 209-221): the first three
references, then references 0, 2, 3 when the face has exactly four. -/
def processFace (vertices : List String) (ix : FaceIndices) : Except LoadError FaceIndices :=
  if h : 3 ≤ vertices.length then do
    let ix1 ← processFaceVertex vertices[0] ix
    let ix2 ← processFaceVertex vertices[1] ix1
    let ix3 ← processFaceVertex vertices[2] ix2
    if h4 : vertices.length = 4 then do
      let ix4 ← processFaceVertex vertices[0] ix3
      let ix5 ← processFaceVertex vertices[2] ix4
      processFaceVertex vertices[3] ix5
    else pure ix3
  else pure ix

/-- The locals of `loadOBJModel` during the line loop. -/
structure ParseState (F : Type) where
  positions : List (Vec3 F)
  texCoords : List (Vec2 F)
  normals : List (Vec3 F)
  ix : FaceIndices
deriving DecidableEq, Repr

/-- The body of the line loop of `loadOBJModel` (lines 182-222); `mtllib`
is not among its directives. -/
def parseLine {F : Type} (ps : ParseState F) : Line F → Except LoadError (ParseState F)
  | .v x y z => .ok { ps with positions := ps.positions ++ [⟨x, y, z⟩] }
  | .vt u v => .ok { ps with texCoords := ps.texCoords ++ [⟨u, v⟩] }
  | .vn x y z => .ok { ps with normals := ps.normals ++ [⟨x, y, z⟩] }
  | .f vertices =>
    match processFace vertices ps.ix with
    | .error e => .error e
    | .ok ix => .ok { ps with ix := ix }
  | .mtllib _ => .ok ps
  | .other => .ok ps

/-- The line loop of `loadOBJModel`. -/
def parseLines {F : Type} : ParseState F → List (Line F) → Except LoadError (ParseState F)
  | ps, [] => .ok ps
  | ps, l :: ls =>
    match parseLine ps l with
    | .error e => .error e
    | .ok ps1 => parseLines ps1 ls

/-- The loop over `positions` updating the bounds (lines 230-237). -/
def boundsLoop {F : Type} [LT F] [DecidableRel (fun a b : F => a < b)] :
    List (Vec3 F) → Vec3 F × Vec3 F → Vec3 F × Vec3 F
  | [], acc => acc
  | pos :: rest, acc =>
    boundsLoop rest
      (⟨stdMin acc.1.x pos.x, stdMin acc.1.y pos.y, stdMin acc.1.z pos.z⟩,
        ⟨stdMax acc.2.x pos.x, stdMax acc.2.y pos.y, stdMax acc.2.z pos.z⟩)

/-- The AABB computation of `loadOBJModel` (lines 227-238): nothing when
there is no position, else start from `positions[0]` and loop. -/
def computeBounds {F : Type} [LT F] [DecidableRel (fun a b : F => a < b)]
    (obj : GameObject F) (positions : List (Vec3 F)) : GameObject F :=
  match positions with
  | [] => obj
  | p0 :: _ =>
    { obj with
      minBounds := (boundsLoop positions (p0, p0)).1,
      maxBounds := (boundsLoop positions (p0, p0)).2 }

/-- What `loadOBJModel` takes from outside the parser: `glm::normalize` and
the three handles the GL generators return. -/
structure ObjEnv (F : Type) where
  normalize : Vec3 F → Vec3 F
  genVAO : Nat
  genVBO : Nat
  genEBO : Nat

/-- The loop building the interleaved vertex array (lines 244-277), at
counter `i` with the remaining position indices; the pair is `(obj.vertices,
obj.indices)`.  The lookup `positions[posIndices[i]]` is unchecked. -/
def buildVertices {F : Type} [Zero F] (env : ObjEnv F) (positions : List (Vec3 F))
    (texCoords : List (Vec2 F)) (normals : List (Vec3 F)) (texIndices normIndices : List Nat) :
    Nat → List Nat → List F × List Nat → Except LoadError (List F × List Nat)
  | _, [], acc => .ok acc
  | i, p :: rest, acc =>
    match positions[p]? with
    | none => .error .outOfBounds
    | some pos =>
      let tex : Vec2 F :=
        if h1 : i < texIndices.length then
          if h2 : texIndices[i] < texCoords.length then texCoords[texIndices[i]] else ⟨0, 0⟩
        else ⟨0, 0⟩
      let norm : Vec3 F :=
        if h1 : i < normIndices.length then
          if h2 : normIndices[i] < normals.length then normals[normIndices[i]]
          else env.normalize pos
        else env.normalize pos
      buildVertices env positions texCoords normals texIndices normIndices (i + 1) rest
        (acc.1 ++ [pos.x, pos.y, pos.z, tex.x, tex.y, norm.x, norm.y, norm.z],
          acc.2 ++ [toUInt32 i])

/-- The function `loadOBJModel` (lines 166-315): the returned flag and the
object after the call.  `file` is `none` when the file cannot be opened,
else its lines. -/
def loadOBJModel {F : Type} [Zero F] [LT F] [DecidableRel (fun a b : F => a < b)]
    (env : ObjEnv F) (obj : GameObject F) (file : Option (List (Line F))) :
    Except LoadError (Bool × GameObject F) :=
  match file with
  | none => .ok (false, obj)
  | some lines =>
    match parseLines
        { positions := [], texCoords := [], normals := [],
          ix := { posIndices := [], texIndices := [], normIndices := [] } } lines with
    | .error e => .error e
    | .ok ps =>
      let obj1 := computeBounds obj ps.positions
      match buildVertices env ps.positions ps.texCoords ps.normals ps.ix.texIndices
          ps.ix.normIndices 0 ps.ix.posIndices ([], []) with
      | .error e => .error e
      | .ok r =>
        .ok (true,
          { obj1 with
            vertices := r.1, indices := r.2,
            VAO := env.genVAO, VBO := env.genVBO, EBO := env.genEBO,
            loaded := true, hasTexture := false, textureID := 0 })

/-! ## Construction of a `Model` (`model.cpp`) -/

/-- The scan behind `s.find_last_of(set)`: `acc` is the last position found
before position `i`. -/
def findLastOfAux (set : List Char) : List Char → Nat → Option Nat → Option Nat
  | [], _, acc => acc
  | c :: cs, i, acc => findLastOfAux set cs (i + 1) (if set.contains c then some i else acc)

/-- The call `s.find_last_of(set)`: the position of the last character of `s`
that belongs to `set`, `none` for `npos`. -/
def findLastOf (set : List Char) (cs : List Char) : Option Nat :=
  findLastOfAux set cs 0 none

/-- The two path separators `/` and `\` searched by `find_last_of("/\\")`. -/
def separators : List Char := ['/', Char.ofNat 92]

/-- The directory `Model::loadModel` derives from the path (lines 82-88). -/
def modelDirectory (path : String) : String :=
  let directory : String :=
    match findLastOf separators path.toList with
    | some lastSlash => String.mk (path.toList.take lastSlash)
    | none => "."
  if directory.isEmpty then "." else directory

/-- The constructor `Model::Model` (lines 75-79): the sentinel box, then
`loadModel`, which sets the directory and calls `loadOBJ`. -/
def Model.construct {F : Type} [Zero F] [One F] [Neg F] [LT F]
    [DecidableRel (fun a b : F => a < b)] (env : LoaderEnv F) (fltMax : F) (path : String)
    (file : Option (List (Line F))) : Except LoadError (Model F) :=
  loadOBJ env (Model.init fltMax (modelDirectory path)) file

/-! ## Textures and materials (`model.cpp`) -/

/-- The three directives `map_Kd`, `map_Ks`, `map_Ka`. -/
inductive MapKind where
  | Kd
  | Ks
  | Ka
deriving DecidableEq, Repr

/-- One line of a material file after `iss >> type`: for `newmtl` the name
extracted (`none` when the extraction fails, which leaves `currentMaterial`
as it was), for a `map_*` line the path token extracted (empty when there is
none); lines with any other first token are `other`. -/
inductive MtlLine where
  | newmtl (name : Option String)
  | map (kind : MapKind) (texPath : String)
  | other
deriving DecidableEq, Repr

/-- What the loader sees of the file system, the image decoder and GL:
whether `std::ifstream(path).good()`, the width, height and channel count
`stbi_load` reports (`none` for a null result), the name `glGenTextures`
hands out while that file is loaded, and the lines of a material file
(`none` when it cannot be opened). -/
structure FileSys where
  isGood : String → Bool
  stbiLoad : String → Option (Int × Int × Int)
  genTexture : String → Nat
  readMTL : String → Option (List MtlLine)

/-- The pixel formats `GL_RED`, `GL_RGB`, `GL_RGBA`. -/
inductive GLFormat where
  | red
  | rgb
  | rgba
deriving DecidableEq, Repr

/-- The format chosen for a channel count in `Model::TextureFromFile` (lines
427-437); `none` is the branch that returns 0. -/
def formatOfChannels (nrComponents : Int) : Option GLFormat :=
  if nrComponents = 1 then some .red
  else if nrComponents = 3 then some .rgb
  else if nrComponents = 4 then some .rgba
  else none

/-- The result of the loop replacing `//` by `/` (lines 404-407): every run
of slashes becomes one slash. -/
def collapseSlashes : List Char → List Char
  | [] => []
  | c :: rest =>
    if c = '/' ∧ rest.head? = some '/' then collapseSlashes rest else c :: collapseSlashes rest

/-- The file name `Model::TextureFromFile` opens (lines 398-407): backslashes
become slashes, then double slashes are removed. -/
def normalizePath (path : String) : String :=
  String.mk (collapseSlashes (path.toList.map (fun c => if c = Char.ofNat 92 then '/' else c)))

/-- The function `Model::TextureFromFile` (lines 397-459): 0 when the file is
not there, cannot be decoded, has a non-positive size or a channel count
other than 1, 3, 4; else the generated texture name. -/
def TextureFromFile (fs : FileSys) (path : String) : Nat :=
  let filename := normalizePath path
  if fs.isGood filename then
    match fs.stbiLoad filename with
    | some (width, height, nrComponents) =>
      if 0 < width ∧ 0 < height ∧ 0 < nrComponents then
        match formatOfChannels nrComponents with
        | some _ => fs.genTexture filename
        | none => 0
      else 0
    | none => 0
  else 0

/-- The order `std::less<std::string>` of the keys of `materials`: the
lexicographic comparison of the characters. -/
def keyLess : List Char → List Char → Bool
  | _, [] => false
  | [], _ :: _ => true
  | a :: as, b :: bs =>
    if a.toNat < b.toNat then true
    else if b.toNat < a.toNat then false
    else keyLess as bs

/-- The assignment `materials[key] = value` on the entries in key order. -/
def mapAssign (key : String) (value : List Texture) :
    List (String × List Texture) → List (String × List Texture)
  | [] => [(key, value)]
  | (k, v) :: rest =>
    if keyLess key.toList k.toList then (key, value) :: (k, v) :: rest
    else if key = k then (k, value) :: rest
    else (k, v) :: mapAssign key value rest

/-- The call `materials[key].push_back(t)` on the entries in key order; a
missing key is inserted with an empty list first. -/
def mapPush (key : String) (t : Texture) :
    List (String × List Texture) → List (String × List Texture)
  | [] => [(key, [t])]
  | (k, v) :: rest =>
    if keyLess key.toList k.toList then (key, [t]) :: (k, v) :: rest
    else if key = k then (k, v ++ [t]) :: rest
    else (k, v) :: mapPush key t rest

/-- The path with its directory part removed (lines 303-306): what follows
the last `/` or `\`, unless that separator is the last character. -/
def stripDirectory (texPath : String) : String :=
  match findLastOf separators texPath.toList with
  | some lastSlash =>
    if lastSlash < texPath.toList.length - 1 then String.mk (texPath.toList.drop (lastSlash + 1))
    else texPath
  | none => texPath

/-- The directory without trailing separators (lines 318-321). -/
def stripTrailingSeparators (directory : String) : String :=
  String.mk (directory.toList.reverse.dropWhile (fun c => separators.contains c)).reverse

/-- The candidate paths of a `map_*` line in the order they are pushed (lines
311-368), for the path token of the line. -/
def textureCandidates (directory texPathToken : String) : List String :=
  let texPath := stripDirectory texPathToken
  let dotPos := findLastOf ['.'] texPath.toList
  let baseName : String :=
    match dotPos with
    | some d => String.mk (texPath.toList.take d)
    | none => texPath
  let dir := stripTrailingSeparators directory
  let keepsExtension : Bool :=
    match dotPos with
    | some d => String.mk ((texPath.toList.drop d).map Char.toLower) != ".dds"
    | none => false
  let baseNameLower : String := String.mk (baseName.toList.map Char.toLower)
  [dir ++ "/Textures/" ++ baseName ++ ".png",
    dir ++ "/../textures/" ++ baseName ++ ".png",
    dir ++ "/" ++ baseName ++ ".png"] ++
  (if keepsExtension then [dir ++ "/Textures/" ++ texPath] else []) ++
  (if keepsExtension then [dir ++ "/../textures/" ++ texPath] else []) ++
  (if keepsExtension then [dir ++ "/" ++ texPath] else []) ++
  [dir ++ "/" ++ baseName ++ ".bmp",
    dir ++ "/../textures/" ++ baseName ++ ".bmp",
    dir ++ "/Textures/" ++ baseName ++ ".bmp",
    dir ++ "/" ++ baseName ++ ".tga",
    dir ++ "/../textures/" ++ baseName ++ ".tga",
    dir ++ "/Textures/" ++ baseName ++ ".tga",
    dir ++ "/Textures/" ++ baseNameLower ++ ".png",
    dir ++ "/../textures/" ++ baseNameLower ++ ".png",
    dir ++ "/" ++ baseNameLower ++ ".png"]

/-- The texture type recorded for a directive (line 377). -/
def textureType : MapKind → String
  | .Kd => "diffuse"
  | .Ks => "specular"
  | .Ka => "ambient"

/-- The loop over the candidate paths (lines 370-384): the texture of the
first path for which `TextureFromFile` gives a non-zero name. -/
def loadTextureLoop (fs : FileSys) (type : String) : List String → Option Texture
  | [] => none
  | texFile :: rest =>
    if TextureFromFile fs texFile ≠ 0 then
      some { id := TextureFromFile fs texFile, type := type, path := texFile }
    else loadTextureLoop fs type rest

/-- The material map of the model and the local `currentMaterial`. -/
structure MtlState where
  materials : List (String × List Texture)
  currentMaterial : String
deriving DecidableEq, Repr

/-- The body of the line loop of `Model::loadMTL` (lines 285-390). -/
def processMtlLine (fs : FileSys) (directory : String) (st : MtlState) : MtlLine → MtlState
  | .newmtl name =>
    { materials := mapAssign (name.getD st.currentMaterial) [] st.materials,
      currentMaterial := name.getD st.currentMaterial }
  | .map kind texPath =>
    if texPath = "" then st
    else
      match loadTextureLoop fs (textureType kind) (textureCandidates directory texPath) with
      | some texture =>
        { st with materials := mapPush st.currentMaterial texture st.materials }
      | none => st
  | .other => st

/-- The first of the alternative paths that opens (lines 264-272). -/
def openFirst (fs : FileSys) : List String → Option (List MtlLine)
  | [] => none
  | altPath :: rest =>
    match fs.readMTL altPath with
    | some lines => some lines
    | none => openFirst fs rest

/-- The method `Model::loadMTL` (lines 253-395) as the change it makes to the
material map. -/
def loadMTL (fs : FileSys) (directory path : String)
    (materials : List (String × List Texture)) : List (String × List Texture) :=
  let opened : Option (List MtlLine) :=
    match fs.readMTL path with
    | some lines => some lines
    | none =>
      let mtlFileName : String :=
        match findLastOf separators path.toList with
        | some lastSlash => String.mk (path.toList.drop (lastSlash + 1))
        | none => path
      openFirst fs [directory ++ "/" ++ mtlFileName, "../" ++ path, "../../" ++ path]
  match opened with
  | none => materials
  | some lines =>
    (lines.foldl (processMtlLine fs directory)
      { materials := materials, currentMaterial := "" }).materials

/-- The environment of `Model::loadOBJ` given by a file system: `loadMTL`
and `TextureFromFile` as embedded above. -/
def fileSysEnv {F : Type} (fs : FileSys) (uninit : Vec3 F) : LoaderEnv F :=
  { uninit := uninit, loadMTL := loadMTL fs, textureFromFile := TextureFromFile fs }

/-- Whether a line has none of the directives `v`, `vt`, `vn`, `f`, `mtllib`. -/
def Line.isOther {F : Type} : Line F → Bool
  | .other => true
  | _ => false

/-! ## Face references made of digit strings -/

/-- A nonempty string of decimal digits. -/
def DigitString (ds : List Char) : Prop := ds ≠ [] ∧ ∀ c ∈ ds, c.isDigit = true

/-- An index field of a face reference: empty (omitted) or a digit string. -/
def IndexField (cs : List Char) : Prop := cs = [] ∨ DigitString cs

/-- The index `parseFaceToken` takes from a field: -1 for an empty field,
else its value minus one. -/
def fieldIndex (cs : List Char) : Int :=
  if cs.isEmpty then -1 else (digitsValue cs : Int) - 1

/-- The vertex `parseFaceToken` builds from the three indices it has read
(lines 165-180). -/
def vertexAt {F : Type} [Zero F] [One F] (env : LoaderEnv F)
    (positions normals : List (Vec3 F)) (texCoords : List (Vec2 F))
    (posIdx texIdx normIdx : Int) : Vertex F :=
  { Position :=
      if 0 ≤ posIdx ∧ posIdx < castInt positions.length then
        positions.getD posIdx.toNat env.uninit
      else env.uninit,
    Normal :=
      if 0 ≤ normIdx ∧ normIdx < castInt normals.length then
        normals.getD normIdx.toNat ⟨0, 1, 0⟩
      else ⟨0, 1, 0⟩,
    TexCoords :=
      if 0 ≤ texIdx ∧ texIdx < castInt texCoords.length then
        texCoords.getD texIdx.toNat ⟨0, 0⟩
      else ⟨0, 0⟩ }

/-- A face reference `p`, `p/t` or `p/t/n` whose position field is a digit
string and whose other fields are digit strings or empty, each value at most
`INT_MAX`. -/
def WellFormedRef (t : String) : Prop :=
  ∃ pd td nd : List Char, DigitString pd ∧ IndexField td ∧ IndexField nd ∧
    digitsValue pd ≤ 2147483647 ∧ digitsValue td ≤ 2147483647 ∧ digitsValue nd ≤ 2147483647 ∧
    (t = String.mk (pd ++ '/' :: (td ++ '/' :: nd)) ∨ t = String.mk (pd ++ '/' :: td) ∨
      t = String.mk pd)

/-! ## Normalisation (glm) -/

/-- The dot product `glm::dot` of two `vec3`: the sum of the componentwise
products. -/
def Vec3.dot {F : Type} [Add F] [Mul F] (a b : Vec3 F) : F :=
  a.x * b.x + a.y * b.y + a.z * b.z

/-- The function `glm::normalize` on a `vec3`, which is `v *
inversesqrt(dot(v, v))`, for a given `inversesqrt`. -/
def glmNormalize {F : Type} [Add F] [Mul F] (inversesqrt : F → F) (v : Vec3 F) : Vec3 F :=
  v.scale (inversesqrt (Vec3.dot v v))

/-! ## The texture loader of `main.cpp` (`loadTexture`) -/

/-- The value of the local `format` of `loadTexture` when it is passed to
`glTexImage2D` (lines 116-125): the chain `if 1 / else if 3 / else if 4` has
no final `else`, so for any other channel count `format` is still
uninitialised, which is `none` here. -/
def loadTextureFormat (nrComponents : Int) : Option GLFormat :=
  if nrComponents = 1 then some .red
  else if nrComponents = 3 then some .rgb
  else if nrComponents = 4 then some .rgba
  else none

/-- The function `loadTexture` of `main.cpp` (lines 107-143): the name taken
from `glGenTextures` whenever `stbi_load` returns data, whatever the channel
count, and 0 when it returns null.  The path is opened as given. -/
def loadTexture (fs : FileSys) (path : String) : Nat :=
  match fs.stbiLoad path with
  | some _ => fs.genTexture path
  | none => 0

/-! ## Mouse look (`mouse_callback`, `main.cpp`) -/

/-- The globals `mouse_callback` reads and writes. -/
structure MouseState (F : Type) where
  firstMouse : Bool
  lastX : F
  lastY : F
  yaw : F
  pitch : F
  cameraFront : Vec3 F
deriving DecidableEq, Repr

/-- The two statements constraining `pitch` (lines 638-641), in their order:
above 89 it becomes 89, then below -89 it becomes -89. -/
def clampPitch {F : Type} [NatCast F] [Neg F] [LT F] [DecidableRel (fun a b : F => a < b)]
    (pitch : F) : F :=
  let pitch1 := if ((89 : ℕ) : F) < pitch then ((89 : ℕ) : F) else pitch
  if pitch1 < -((89 : ℕ) : F) then -((89 : ℕ) : F) else pitch1

/-- The function `mouse_callback` (lines 606-650) on the cursor position
already converted to `float`; `normalize` is `glm::normalize` and the literal
`0.1f` is one tenth. -/
def mouse_callback {F : Type} [NatCast F] [Neg F] [Add F] [Sub F] [Mul F] [Div F] [LT F]
    [DecidableRel (fun a b : F => a < b)] (trig : Trig F) (normalize : Vec3 F → Vec3 F)
    (s : MouseState F) (xpos ypos : F) : MouseState F :=
  let lastX := if s.firstMouse then xpos else s.lastX
  let lastY := if s.firstMouse then ypos else s.lastY
  let sensitivity : F := ((1 : ℕ) : F) / ((10 : ℕ) : F)
  let xoffset := (xpos - lastX) * sensitivity
  let yoffset := (lastY - ypos) * sensitivity
  let yaw := s.yaw + xoffset
  let pitch := clampPitch (s.pitch + yoffset)
  let front : Vec3 F :=
    ⟨trig.cos (trig.radians yaw) * trig.cos (trig.radians pitch),
      trig.sin (trig.radians pitch),
      trig.sin (trig.radians yaw) * trig.cos (trig.radians pitch)⟩
  { firstMouse := false, lastX := xpos, lastY := ypos, yaw := yaw, pitch := pitch,
    cameraFront := normalize front }

/-! ## The facing angle of `processInput` (`main.cpp`) -/

/-- The call `std::abs(x)` on a `float`. -/
def stdAbs {F : Type} [NatCast F] [Neg F] [LT F] [DecidableRel (fun a b : F => a < b)]
    (x : F) : F :=
  if x < ((0 : ℕ) : F) then -x else x

/-- The loop `while (x > 180.0f) x -= 360.0f;` run for at most `fuel` tests
of its condition; `none` when the fuel runs out before the loop ends. -/
def wrapAbove {F : Type} [NatCast F] [Sub F] [LT F] [DecidableRel (fun a b : F => a < b)] :
    Nat → F → Option F
  | 0, _ => none
  | fuel + 1, x =>
    if ((180 : ℕ) : F) < x then wrapAbove fuel (x - ((360 : ℕ) : F)) else some x

/-- The loop `while (x < -180.0f) x += 360.0f;` run for at most `fuel` tests
of its condition; `none` when the fuel runs out before the loop ends. -/
def wrapBelow {F : Type} [NatCast F] [Neg F] [Add F] [LT F]
    [DecidableRel (fun a b : F => a < b)] : Nat → F → Option F
  | 0, _ => none
  | fuel + 1, x =>
    if x < -((180 : ℕ) : F) then wrapBelow fuel (x + ((360 : ℕ) : F)) else some x

/-- The two loops one after the other (lines 734-735 and 752-753). -/
def normalizeAngle {F : Type} [NatCast F] [Neg F] [Add F] [Sub F] [LT F]
    [DecidableRel (fun a b : F => a < b)] (fuel : Nat) (x : F) : Option F :=
  match wrapAbove fuel x with
  | none => none
  | some x1 => wrapBelow fuel x1

/-- The local `rotationOffset` (lines 725-745) for the `movementAngle` of the
heading and `moveAngle = yaw + movementAngle`. -/
def rotationOffset {F : Type} [NatCast F] [Neg F] [Add F] [Sub F] [LT F]
    [DecidableRel (fun a b : F => a < b)] (fuel : Nat) (movementAngle moveAngle : F) :
    Option F :=
  if stdAbs movementAngle < ((1 : ℕ) : F) ∨
      stdAbs (stdAbs movementAngle - ((180 : ℕ) : F)) < ((1 : ℕ) : F) then
    some (-((90 : ℕ) : F))
  else if stdAbs (movementAngle - -((90 : ℕ) : F)) < ((1 : ℕ) : F) then
    some ((90 : ℕ) : F)
  else if stdAbs (movementAngle - ((90 : ℕ) : F)) < ((1 : ℕ) : F) then
    match normalizeAngle fuel (moveAngle + ((90 : ℕ) : F)) with
    | none => none
    | some testWith90 =>
      if stdAbs (testWith90 - ((90 : ℕ) : F)) < ((1 : ℕ) : F) then some (-((270 : ℕ) : F))
      else some ((90 : ℕ) : F)
  else some ((0 : ℕ) : F)

/-- The value `processInput` leaves in `playerRotation` (lines 709, 747-754)
when a heading is selected. -/
def newPlayerRotation {F : Type} [NatCast F] [Neg F] [Add F] [Sub F] [LT F]
    [DecidableRel (fun a b : F => a < b)] (fuel : Nat) (yaw movementAngle : F) : Option F :=
  let moveAngle := yaw + movementAngle
  match rotationOffset fuel movementAngle moveAngle with
  | none => none
  | some offset =>
    let playerRotation := moveAngle + offset
    if ¬ (stdAbs (offset - -((270 : ℕ) : F)) < ((1 : ℕ) : F) ∧
        stdAbs (playerRotation - -((270 : ℕ) : F)) < ((1 : ℕ) : F)) then
      normalizeAngle fuel playerRotation
    else some playerRotation

/-- The function `processInput` (lines 669-812) on the globals it touches,
the four movement keys given; the normalisation loops get `fuel` tests each,
and the result is `none` when one of them does not end within that.  The
Escape key, which only marks the window for closing, is left out. -/
def processInput {F : Type} [NatCast F] [Neg F] [Add F] [Sub F] [Mul F] [LE F] [LT F]
    [DecidableRel (fun a b : F => a ≤ b)] [DecidableRel (fun a b : F => a < b)]
    (fuel : Nat) (trig : Trig F) (k : Keys) (w : World F) : Option (World F) :=
  let heading : Heading F := selectHeading k
  if heading.moving then
    match newPlayerRotation fuel w.yaw heading.movementAngle with
    | none => none
    | some playerRotation =>
      some (movementStep
        { w with isADMovement := heading.isADMovement, playerRotation := playerRotation }
        (proposedPosition trig k w))
  else some { w with isADMovement := heading.isADMovement }

/-! ## The type `float`: IEEE 754 binary32 -/

/-- The values of binary32.  Every finite value is an integer multiple of
`2^-149`, the least positive value, and `fin n` is the value `n * 2^-149`;
the values of the format are those `n` of at most 24 significant bits below
`2^277`, which is what the operations below return.  The two zeros are the one
value `fin 0`: they compare equal, and differ in C++ only in the sign they give
to a quotient by zero and to their own square root and negation; a quotient by
zero has the sign of its numerator here. -/
inductive Binary32 where
  | fin (n : Int)
  | inf (negative : Bool)
  | nan
deriving DecidableEq, Repr

/-- The number of binary digits of `a` by repeated halving, at most `fuel`
of them. -/
def bitLengthAux : Nat → Nat → Nat
  | 0, _ => 0
  | fuel + 1, a => if a = 0 then 0 else bitLengthAux fuel (a / 2) + 1

/-- The number of binary digits of `a`, 0 for 0. -/
def bitLength (a : Nat) : Nat := bitLengthAux a a

/-- The number `a` rounded to a multiple of `2 ^ k`: to the nearest one, and
of two equally near ones to the one with the even quotient (round to nearest,
ties to even).  `sticky` says that the number rounded is `a` plus a fraction
strictly between 0 and 1; it is used with `k ≥ 1` only. -/
def roundToMultiple (a k : Nat) (sticky : Bool) : Nat :=
  let q := a / 2 ^ k
  let r := a % 2 ^ k
  if 2 ^ k < 2 * r ∨ (2 * r = 2 ^ k ∧ (sticky = true ∨ q % 2 = 1)) then (q + 1) * 2 ^ k
  else q * 2 ^ k

/-- The magnitude `a * 2^-(149 + extra)` rounded to 24 significant bits and to
a multiple of `2^-149`, in units of `2^-149`. -/
def roundMagnitude (extra a : Nat) (sticky : Bool) : Nat :=
  roundToMultiple a (max extra (bitLength a - 24)) sticky / 2 ^ extra

/-- The binary32 value nearest to plus or minus `a * 2^-(149 + extra)`;
infinity from `2^128` on. -/
def Binary32.round (extra : Nat) (negative : Bool) (a : Nat) (sticky : Bool) : Binary32 :=
  let n := roundMagnitude extra a sticky
  if 2 ^ 128 * 2 ^ 149 ≤ n then .inf negative
  else .fin (if negative then -(n : Int) else (n : Int))

/-- The binary32 value nearest to `p * 2^-(149 + extra)`. -/
def Binary32.ofInt (extra : Nat) (p : Int) : Binary32 :=
  Binary32.round extra (decide (p < 0)) p.natAbs false

/-- Addition of binary32. -/
def Binary32.add : Binary32 → Binary32 → Binary32
  | .fin a, .fin b => Binary32.ofInt 0 (a + b)
  | .fin _, .inf t => .inf t
  | .inf s, .fin _ => .inf s
  | .inf s, .inf t => if s = t then .inf s else .nan
  | .nan, _ => .nan
  | _, .nan => .nan

/-- Negation of binary32. -/
def Binary32.neg : Binary32 → Binary32
  | .fin a => .fin (-a)
  | .inf s => .inf (!s)
  | .nan => .nan

/-- Multiplication of binary32. -/
def Binary32.mul : Binary32 → Binary32 → Binary32
  | .fin a, .fin b => Binary32.ofInt 149 (a * b)
  | .fin a, .inf t => if a = 0 then .nan else .inf (xor (decide (a < 0)) t)
  | .inf s, .fin b => if b = 0 then .nan else .inf (xor s (decide (b < 0)))
  | .inf s, .inf t => .inf (xor s t)
  | .nan, _ => .nan
  | _, .nan => .nan

/-- Division of binary32. -/
def Binary32.div : Binary32 → Binary32 → Binary32
  | .fin a, .fin b =>
    if b = 0 then (if a = 0 then .nan else .inf (decide (a < 0)))
    else
      Binary32.round 1 (xor (decide (a < 0)) (decide (b < 0)))
        (a.natAbs * 2 ^ 150 / b.natAbs) (decide (a.natAbs * 2 ^ 150 % b.natAbs ≠ 0))
  | .fin _, .inf _ => .fin 0
  | .inf s, .fin b => .inf (xor s (decide (b < 0)))
  | .inf _, .inf _ => .nan
  | .nan, _ => .nan
  | _, .nan => .nan

/-- The integer square root by bits: `r` is the root found so far, the bits
below `2 ^ i` are still to be tried. -/
def isqrtAux (x : Nat) : Nat → Nat → Nat
  | 0, r => r
  | i + 1, r => isqrtAux x i (if (r + 2 ^ i) * (r + 2 ^ i) ≤ x then r + 2 ^ i else r)

/-- The integer square root, rounded down. -/
def isqrt (x : Nat) : Nat := isqrtAux x (bitLength x / 2 + 1) 0

/-- The square root `sqrt` on binary32. -/
def Binary32.sqrt : Binary32 → Binary32
  | .fin a =>
    if a < 0 then .nan
    else
      Binary32.round 1 false (isqrt (a.natAbs * 2 ^ 151))
        (decide (isqrt (a.natAbs * 2 ^ 151) * isqrt (a.natAbs * 2 ^ 151) ≠ a.natAbs * 2 ^ 151))
  | .inf s => if s then .nan else .inf false
  | .nan => .nan

/-- The comparison `<` of binary32; false when an operand is NaN. -/
def Binary32.blt : Binary32 → Binary32 → Bool
  | .fin a, .fin b => decide (a < b)
  | .fin _, .inf t => !t
  | .inf s, .fin _ => s
  | .inf s, .inf t => s && !t
  | .nan, _ => false
  | _, .nan => false

/-- The comparison `<=` of binary32; false when an operand is NaN. -/
def Binary32.ble : Binary32 → Binary32 → Bool
  | .fin a, .fin b => decide (a ≤ b)
  | .fin _, .inf t => !t
  | .inf s, .fin _ => s
  | .inf s, .inf t => s || !t
  | .nan, _ => false
  | _, .nan => false

instance instAddBinary32 : Add Binary32 := ⟨Binary32.add⟩
instance instNegBinary32 : Neg Binary32 := ⟨Binary32.neg⟩
instance instSubBinary32 : Sub Binary32 := ⟨fun a b => Binary32.add a (Binary32.neg b)⟩
instance instMulBinary32 : Mul Binary32 := ⟨Binary32.mul⟩
instance instDivBinary32 : Div Binary32 := ⟨Binary32.div⟩
instance instLTBinary32 : LT Binary32 := ⟨fun a b => Binary32.blt a b = true⟩
instance instLEBinary32 : LE Binary32 := ⟨fun a b => Binary32.ble a b = true⟩
instance instDecidableLTBinary32 : DecidableRel (fun a b : Binary32 => a < b) :=
  fun a b => inferInstanceAs (Decidable (Binary32.blt a b = true))
instance instDecidableLEBinary32 : DecidableRel (fun a b : Binary32 => a ≤ b) :=
  fun a b => inferInstanceAs (Decidable (Binary32.ble a b = true))
instance instNatCastBinary32 : NatCast Binary32 :=
  ⟨fun n => Binary32.ofInt 0 ((n * 2 ^ 149 : Nat) : Int)⟩
instance instZeroBinary32 : Zero Binary32 := ⟨.fin 0⟩
instance instOneBinary32 : One Binary32 := ⟨.fin ((2 ^ 149 : Nat) : Int)⟩

/-- The function `glm::inversesqrt` on `float`, which is `1 / sqrt(x)`. -/
def Binary32.inversesqrt (x : Binary32) : Binary32 :=
  (1 : Binary32) / Binary32.sqrt x


/-- The call `std::isnan(x)`. -/
def Binary32.isNaN : Binary32 → Bool
  | .nan => true
  | _ => false

/-- The call `std::isfinite(x)`. -/
def Binary32.isFinite : Binary32 → Bool
  | .fin _ => true
  | _ => false

/-- A value of the format: a finite one has at most 24 significant bits and
lies below `2^128`. -/
def Binary32.isValue : Binary32 → Bool
  | .fin n => decide (n.natAbs % 2 ^ (bitLength n.natAbs - 24) = 0 ∧ n.natAbs < 2 ^ 128 * 2 ^ 149)
  | _ => true

/-- Whether a component of the vector is NaN. -/
def Vec3.hasNaN (v : Vec3 Binary32) : Bool :=
  v.x.isNaN || v.y.isNaN || v.z.isNaN

/-! ## Componentwise order -/

/-- Componentwise `≤` on vectors. -/
def Vec3.le {F : Type} [LE F] (a b : Vec3 F) : Prop :=
  a.x ≤ b.x ∧ a.y ≤ b.y ∧ a.z ≤ b.z

/-- The componentwise order is decidable when the order of the components is. -/
instance instDecidableVec3Le {F : Type} [LE F] [DecidableRel (fun a b : F => a ≤ b)]
    (a b : Vec3 F) : Decidable (Vec3.le a b) :=
  inferInstanceAs (Decidable (a.x ≤ b.x ∧ a.y ≤ b.y ∧ a.z ≤ b.z))

/-- The minimum corner of the world-space box of an object,
`position + minBounds * scale`. -/
def worldMin {F : Type} [Add F] [Mul F] (obj : GameObject F) : Vec3 F :=
  obj.position + obj.minBounds * obj.scale

/-- The maximum corner of the world-space box of an object,
`position + maxBounds * scale`. -/
def worldMax {F : Type} [Add F] [Mul F] (obj : GameObject F) : Vec3 F :=
  obj.position + obj.maxBounds * obj.scale

/-- A point of the closed world-space box of an object: between the two
corners on every axis, the corners included. -/
def inWorldBox {F : Type} [Add F] [Mul F] [LE F] (p : Vec3 F) (obj : GameObject F) : Prop :=
  Vec3.le (worldMin obj) p ∧ Vec3.le p (worldMax obj)

/-- The positions of the `v` lines of a file, in file order. -/
def vPositions {F : Type} : List (Line F) → List (Vec3 F)
  | [] => []
  | .v x y z :: rest => ⟨x, y, z⟩ :: vPositions rest
  | _ :: rest => vPositions rest

/-- The componentwise minimum of a position and a list of positions. -/
def positionsMin {F : Type} [Min F] (p0 : Vec3 F) (rest : List (Vec3 F)) : Vec3 F :=
  rest.foldl (fun acc p => ⟨min acc.x p.x, min acc.y p.y, min acc.z p.z⟩) p0

/-- The componentwise maximum of a position and a list of positions. -/
def positionsMax {F : Type} [Max F] (p0 : Vec3 F) (rest : List (Vec3 F)) : Vec3 F :=
  rest.foldl (fun acc p => ⟨max acc.x p.x, max acc.y p.y, max acc.z p.z⟩) p0

/-- The position field of a face reference: what precedes its first slash. -/
def positionField (vertex : String) : List Char :=
  vertex.toList.takeWhile (fun c => c != '/')

/-- A face reference whose position index lies in `1 .. n`: its position
field is read by `std::stoi` as some `p` with `1 ≤ p ≤ n`. -/
def PositionInRange (n : Nat) (vertex : String) : Prop :=
  ∃ p : Int, stoi (positionField vertex) = .ok p ∧ 1 ≤ p ∧ p ≤ (n : Int)

/-- Two rationals, meant non-negative, that are within `k` roundings of each
other: each is at most the other times `(1 + 2^-22) ^ k`. -/
def RelErr (k : Nat) (A B : ℚ) : Prop :=
  A ≤ B * (1 + 1 / 2 ^ 22) ^ k ∧ B ≤ A * (1 + 1 / 2 ^ 22) ^ k

/-! ## Counting triangles -/

/-- The number of triangles a file asks for: `n - 2` for every face line
with `n ≥ 3` references, summed over the lines. -/
def triangleCount {F : Type} : List (Line F) → Nat
  | [] => 0
  | .f tokens :: rest => (if 3 ≤ tokens.length then tokens.length - 2 else 0) + triangleCount rest
  | _ :: rest => triangleCount rest

/-! ## Concrete inputs -/

/-- An environment for `Model::loadOBJ` over `ℤ`: no material file has any
effect and no texture file exists. -/
def sampleEnv : LoaderEnv ℤ :=
  { uninit := ⟨0, 0, 0⟩, loadMTL := fun _ _ mats => mats, textureFromFile := fun _ => 0 }

/-- An environment for `loadOBJModel` over `ℤ`; the stand-in for
`glm::normalize` returns its argument. -/
def sampleObjEnv : ObjEnv ℤ :=
  { normalize := fun v => v, genVAO := 1, genVBO := 2, genEBO := 3 }

/-- An object over `ℤ` at the origin with scale 1 and the cube bounds
`-h .. h`, before any model is loaded into it. -/
def cubeObject (h : ℤ) : GameObject ℤ :=
  boxObject ⟨0, 0, 0⟩ ⟨1, 1, 1⟩ ⟨-h, -h, -h⟩ ⟨h, h, h⟩

/-- Four positions (a unit square), four texture coordinates and four
normals, followed by the quad face with full `p/t/n` references. -/
def quadFile : List (Line ℤ) :=
  [.v 0 0 0, .v 1 0 0, .v 1 1 0, .v 0 1 0,
    .vt 0 0, .vt 1 0, .vt 1 1, .vt 0 1,
    .vn 0 0 1, .vn 0 0 1, .vn 0 0 1, .vn 0 0 1,
    .f ["1/1/1", "2/2/2", "3/3/3", "4/4/4"]]

/-- The locals of `Model::loadOBJ` after the position, texture and normal
lines of `quadFile`. -/
def quadState : LoadState ℤ :=
  { model := { Model.init 1000 "." with
      boundingBoxMin := ⟨0, 0, 0⟩, boundingBoxMax := ⟨1, 1, 0⟩ },
    positions := [⟨0, 0, 0⟩, ⟨1, 0, 0⟩, ⟨1, 1, 0⟩, ⟨0, 1, 0⟩],
    normals := [⟨0, 0, 1⟩, ⟨0, 0, 1⟩, ⟨0, 0, 1⟩, ⟨0, 0, 1⟩],
    texCoords := [⟨0, 0⟩, ⟨1, 0⟩, ⟨1, 1⟩, ⟨0, 1⟩], vertices := [], indices := [] }

/-- A file of one position and one face line with 1431655768 references to
it, which asks for 1431655766 triangles, that is 4294967298 vertices. -/
def hugeFaceFile : List (Line ℤ) :=
  [.v 0 0 0, .f (List.replicate 1431655768 "1")]

/-- Three positions and one texture coordinate, a face without texture
indices, then a face whose references carry the texture index 1. -/
def mixedTexFile : List (Line ℤ) :=
  [.v 0 0 0, .v 1 0 0, .v 0 1 0, .vt 5 7, .f ["1", "2", "3"], .f ["1/1", "2/1", "3/1"]]

/-- A file whose only line is the face `f a b c`. -/
def lettersFile : List (Line ℤ) :=
  [.f ["a", "b", "c"]]

/-- The environment `sampleEnv` with (7, 7, 7) for the value of a
default-constructed `glm::vec3`. -/
def markedEnv : LoaderEnv ℤ :=
  { sampleEnv with uninit := ⟨7, 7, 7⟩ }

/-- A file system in which only the second default texture is there; it
decodes to a 64 by 64 image of 4 channels and gets the name 9. -/
def secondDefaultFs : FileSys :=
  { isGood := fun p => p == "./../textures/280z_CarPaint_AO.png",
    stbiLoad := fun _ => some (64, 64, 4),
    genTexture := fun _ => 9,
    readMTL := fun _ => none }

/-- A file system with the material file `./car.mtl`, whose one material
`body` names a texture that is nowhere to be found, and with the first
default texture, which loads with the name 7. -/
def emptyMaterialFs : FileSys :=
  { isGood := fun p => p == "./../textures/Textures_color.png",
    stbiLoad := fun _ => some (64, 64, 3),
    genTexture := fun _ => 7,
    readMTL := fun p =>
      if p = "./car.mtl" then some [.newmtl (some "body"), .map .Kd "body.dds"] else none }

/-- A triangle preceded by a reference to the material file `car.mtl`. -/
def emptyMaterialFile : List (Line ℤ) :=
  [.mtllib "car.mtl", .v 0 0 0, .v 1 0 0, .v 0 1 0, .f ["1", "2", "3"]]

/-- A file system in which, of all candidates for `body_color`, only
`models/car/Textures/body_color.png` is there; it loads with the name 5. -/
def bodyFs : FileSys :=
  { isGood := fun p => p == "models/car/Textures/body_color.png",
    stbiLoad := fun _ => some (64, 64, 3),
    genTexture := fun _ => 5,
    readMTL := fun _ => none }

/-- A file system with two of the candidates for `body_color`: the one in
`Textures` decodes to 2 channels (grey with alpha), the one next to the model
to 3 channels. -/
def undecodableFs : FileSys :=
  { isGood := fun p =>
      p == "models/car/Textures/body_color.png" || p == "models/car/body_color.png",
    stbiLoad := fun p =>
      if p = "models/car/Textures/body_color.png" then some (64, 64, 2) else some (64, 64, 3),
    genTexture := fun _ => 5,
    readMTL := fun _ => none }

/-- A file system with the material file `./car.mtl` of two materials: the
texture of `body` is a `.dds` file for which no candidate is there, the
texture of `glass` is `./Textures/glass.png`, which loads with the name 3. -/
def ddsFs : FileSys :=
  { isGood := fun p => p == "./Textures/glass.png",
    stbiLoad := fun _ => some (16, 16, 4),
    genTexture := fun _ => 3,
    readMTL := fun p =>
      if p = "./car.mtl" then
        some [.newmtl (some "body"), .map .Kd "C:/cars/Body.DDS",
          .newmtl (some "glass"), .map .Kd "glass.png"]
      else none }

/-- A file system with the image `grey.png`, which decodes to 64 by 64 pixels
of 2 channels (grey with alpha); textures get the name 9. -/
def greyAlphaFs : FileSys :=
  { isGood := fun p => p == "grey.png",
    stbiLoad := fun p => if p = "grey.png" then some (64, 64, 2) else none,
    genTexture := fun _ => 9,
    readMTL := fun _ => none }

/-- Integer stand-ins for `cos`, `sin` and `glm::radians`, exact at 0. -/
def gridTrig : Trig ℤ :=
  { cos := fun _ => 1, sin := fun _ => 0, radians := fun x => x }

/-- A world over `ℤ` with the camera at `yaw` degrees: a cube player of half
size 1 at the origin, the three obstacles far away on the axes, one collision
box, and a frame time of 1. -/
def gridWorld (yaw : ℤ) : World ℤ :=
  { player := cubeObject 1,
    obstacle1 := { cubeObject 1 with position := ⟨100, 0, 0⟩ },
    obstacle2 := { cubeObject 1 with position := ⟨-100, 0, 0⟩ },
    obstacle3 := { cubeObject 1 with position := ⟨0, 0, 100⟩ },
    collisionBoxes := [{ cubeObject 1 with position := ⟨0, 0, -100⟩ }],
    yaw := yaw, deltaTime := 1, playerRotation := 7, isADMovement := false }

/-- A file of one position and 1431655766 triangles on it, which asks for
4294967298 vertices. -/
def hugeTriangleFile : List (Line ℤ) :=
  .v 0 0 0 :: List.replicate 1431655766 (.f ["1", "1", "1"])

/-- Stand-ins on binary32 for `cos`, `sin` and `glm::radians`, exact at 0;
the facing angle does not depend on them. -/
def floatTrig : Trig Binary32 :=
  { cos := fun _ => 1, sin := fun _ => 0, radians := fun x => x }

/-- An object on binary32 with scale 1 and the cube bounds -1 .. 1 at
`position`. -/
def floatCube (position : Vec3 Binary32) : GameObject Binary32 :=
  boxObject position ⟨1, 1, 1⟩ ⟨-1, -1, -1⟩ ⟨1, 1, 1⟩

/-- A world on binary32 with the camera at `yaw` degrees: a cube player at
the origin, the three obstacles far away on the axes, one collision box, and a
frame time of 1. -/
def floatWorld (yaw : Binary32) : World Binary32 :=
  { player := floatCube ⟨0, 0, 0⟩,
    obstacle1 := floatCube ⟨((100 : ℕ) : Binary32), 0, 0⟩,
    obstacle2 := floatCube ⟨-((100 : ℕ) : Binary32), 0, 0⟩,
    obstacle3 := floatCube ⟨0, 0, ((100 : ℕ) : Binary32)⟩,
    collisionBoxes := [floatCube ⟨0, 0, -((100 : ℕ) : Binary32)⟩],
    yaw := yaw, deltaTime := 1, playerRotation := 0, isADMovement := false }

/-- A box at x = 16777216 = 2^24 with scale 1 whose local box reaches from 0
to 3 on the x axis and from 0 to 1 on the others. -/
def roundedBoxA (F : Type) [NatCast F] [Zero F] : GameObject F :=
  boxObject ⟨((16777216 : ℕ) : F), ((0 : ℕ) : F), ((0 : ℕ) : F)⟩
    ⟨((1 : ℕ) : F), ((1 : ℕ) : F), ((1 : ℕ) : F)⟩ ⟨((0 : ℕ) : F), ((0 : ℕ) : F), ((0 : ℕ) : F)⟩
    ⟨((3 : ℕ) : F), ((1 : ℕ) : F), ((1 : ℕ) : F)⟩

/-- A unit box at x = 16777220 with scale 1. -/
def roundedBoxB (F : Type) [NatCast F] [Zero F] : GameObject F :=
  boxObject ⟨((16777220 : ℕ) : F), ((0 : ℕ) : F), ((0 : ℕ) : F)⟩
    ⟨((1 : ℕ) : F), ((1 : ℕ) : F), ((1 : ℕ) : F)⟩ ⟨((0 : ℕ) : F), ((0 : ℕ) : F), ((0 : ℕ) : F)⟩
    ⟨((1 : ℕ) : F), ((1 : ℕ) : F), ((1 : ℕ) : F)⟩

/-- An environment for `loadOBJModel` on binary32 with `glm::normalize`, which
is `v * inversesqrt(dot(v, v))` with `inversesqrt(x) = 1 / sqrt(x)`. -/
def floatObjEnv : ObjEnv Binary32 :=
  { normalize := glmNormalize Binary32.inversesqrt, genVAO := 1, genVBO := 2, genEBO := 3 }

/-- Three positions on binary32, the first at the origin, and a face without
normal indices. -/
def floatOriginFile : List (Line Binary32) :=
  [.v 0 0 0, .v 1 0 0, .v 0 1 0, .f ["1", "2", "3"]]

/-- Three positions on binary32 and the normal (0, 0, 1), a face without
normal indices, then a face whose references carry the normal index 1. -/
def floatMixedNormFile : List (Line Binary32) :=
  [.v 1 0 0, .v 0 1 0, .v 1 1 0, .vn 0 0 1, .f ["1", "2", "3"], .f ["1//1", "2//1", "3//1"]]

/-- Positions on binary32 with a face without normal indices: (1, 1, 0), then
(2^64, 0, 0), whose squared length is above the largest finite value, then
(2^-75, 0, 0), whose squared length is rounded to 0. -/
def floatRangeFile : List (Line Binary32) :=
  [.v 1 1 0, .v (.fin (2 ^ 64 * 2 ^ 149)) 0 0, .v (.fin (2 ^ 74)) 0 0, .f ["1", "2", "3"]]

/-- Five positions followed by a pentagon face. -/
def pentagonFile : List (Line ℤ) :=
  [.v 0 0 0, .v 2 0 0, .v 3 2 0, .v 1 3 0, .v (-1) 2 0, .f ["1", "2", "3", "4", "5"]]

/-- The cube bounds set by `createCube` for a cube of half size `h`, placed
at `position` with scale 1. -/
def cubeAt (position : Vec3 ℚ) (h : ℚ) : GameObject ℚ :=
  boxObject position ⟨1, 1, 1⟩ ⟨-h, -h, -h⟩ ⟨h, h, h⟩

/-- The scene of `initializeObjects` with a unit-cube player at `playerPos`:
the three obstacles at their source positions and two of the collision boxes;
yaw 0 and a frame time of 1/10. -/
def sampleWorld (playerPos : Vec3 ℚ) : World ℚ :=
  { player := cubeAt playerPos (1 / 2),
    obstacle1 := cubeAt ⟨6, 2 / 5, 0⟩ (3 / 5),
    obstacle2 := cubeAt ⟨-6, 2 / 5, 0⟩ (3 / 5),
    obstacle3 := cubeAt ⟨0, 2 / 5, -5⟩ (1 / 2),
    collisionBoxes := [cubeAt ⟨-24, 1 / 4, -24⟩ (2 / 5), cubeAt ⟨-24, 1 / 4, -15⟩ (2 / 5)],
    yaw := 0, deltaTime := 1 / 10, playerRotation := 0, isADMovement := false }

/-- The world `sampleWorld` with `obstacle1` and `obstacle2` exchanged. -/
def sampleWorldSwapped (playerPos : Vec3 ℚ) : World ℚ :=
  { sampleWorld playerPos with
    obstacle1 := (sampleWorld playerPos).obstacle2,
    obstacle2 := (sampleWorld playerPos).obstacle1 }

/-! ## Theorems -/

/-! ### Collision test -/

theorem vec3_add_x {F : Type} [Add F] (a b : Vec3 F) : (a + b).x = a.x + b.x := rfl

theorem vec3_add_y {F : Type} [Add F] (a b : Vec3 F) : (a + b).y = a.y + b.y := rfl

theorem vec3_add_z {F : Type} [Add F] (a b : Vec3 F) : (a + b).z = a.z + b.z := rfl

theorem vec3_mul_x {F : Type} [Mul F] (a b : Vec3 F) : (a * b).x = a.x * b.x := rfl

theorem vec3_mul_y {F : Type} [Mul F] (a b : Vec3 F) : (a * b).y = a.y * b.y := rfl

theorem vec3_mul_z {F : Type} [Mul F] (a b : Vec3 F) : (a * b).z = a.z * b.z := rfl

/-- The test is true exactly when the six per-axis inequalities on the
world-space corners hold. -/
theorem checkIntersection_iff {F : Type} [Add F] [Mul F] [LE F]
    [DecidableRel (fun a b : F => a ≤ b)] (a b : GameObject F) :
    checkIntersection a b = true ↔
      (a.position.x + a.minBounds.x * a.scale.x ≤ b.position.x + b.maxBounds.x * b.scale.x ∧
        a.position.x + a.maxBounds.x * a.scale.x ≥ b.position.x + b.minBounds.x * b.scale.x) ∧
      (a.position.y + a.minBounds.y * a.scale.y ≤ b.position.y + b.maxBounds.y * b.scale.y ∧
        a.position.y + a.maxBounds.y * a.scale.y ≥ b.position.y + b.minBounds.y * b.scale.y) ∧
      (a.position.z + a.minBounds.z * a.scale.z ≤ b.position.z + b.maxBounds.z * b.scale.z ∧
        a.position.z + a.maxBounds.z * a.scale.z ≥ b.position.z + b.minBounds.z * b.scale.z) := by
  simp only [checkIntersection, vec3_add_x, vec3_add_y, vec3_add_z, vec3_mul_x, vec3_mul_y,
    vec3_mul_z, Bool.and_eq_true, decide_eq_true_eq, and_assoc]

/-- C1: `checkIntersection a b` is true iff on each of the x, y and z axes
`aMin ≤ bMax` and `aMax ≥ bMin`, the world box of an object being
`position + minBounds*scale .. position + maxBounds*scale` componentwise (for
every arithmetic `F`); and over `ℚ`, with position 0 and scale 1, the boxes
(0,0,0)-(1,1,1) and (0.5,0.5,0.5)-(2,2,2) overlap while (0,0,0)-(1,1,1) and
(2,2,2)-(3,3,3) do not. -/
theorem checkIntersection_spec :
    (∀ (F : Type) [Add F] [Mul F] [LE F] [DecidableRel (fun a b : F => a ≤ b)]
        (a b : GameObject F),
      checkIntersection a b = true ↔
        (a.position.x + a.minBounds.x * a.scale.x ≤ b.position.x + b.maxBounds.x * b.scale.x ∧
          a.position.x + a.maxBounds.x * a.scale.x ≥ b.position.x + b.minBounds.x * b.scale.x) ∧
        (a.position.y + a.minBounds.y * a.scale.y ≤ b.position.y + b.maxBounds.y * b.scale.y ∧
          a.position.y + a.maxBounds.y * a.scale.y ≥ b.position.y + b.minBounds.y * b.scale.y) ∧
        (a.position.z + a.minBounds.z * a.scale.z ≤ b.position.z + b.maxBounds.z * b.scale.z ∧
          a.position.z + a.maxBounds.z * a.scale.z ≥
            b.position.z + b.minBounds.z * b.scale.z)) ∧
    (∀ a b : GameObject ℚ,
      a.position = ⟨0, 0, 0⟩ → a.scale = ⟨1, 1, 1⟩ →
      a.minBounds = ⟨0, 0, 0⟩ → a.maxBounds = ⟨1, 1, 1⟩ →
      b.position = ⟨0, 0, 0⟩ → b.scale = ⟨1, 1, 1⟩ →
      b.minBounds = ⟨1 / 2, 1 / 2, 1 / 2⟩ → b.maxBounds = ⟨2, 2, 2⟩ →
      checkIntersection a b = true) ∧
    (∀ a b : GameObject ℚ,
      a.position = ⟨0, 0, 0⟩ → a.scale = ⟨1, 1, 1⟩ →
      a.minBounds = ⟨0, 0, 0⟩ → a.maxBounds = ⟨1, 1, 1⟩ →
      b.position = ⟨0, 0, 0⟩ → b.scale = ⟨1, 1, 1⟩ →
      b.minBounds = ⟨2, 2, 2⟩ → b.maxBounds = ⟨3, 3, 3⟩ →
      checkIntersection a b = false) := by
  refine ⟨fun F _ _ _ _ a b => checkIntersection_iff a b, ?_, ?_⟩
  · intro a b h1 h2 h3 h4 h5 h6 h7 h8
    rw [checkIntersection_iff, h1, h2, h3, h4, h5, h6, h7, h8]
    norm_num
  · intro a b h1 h2 h3 h4 h5 h6 h7 h8
    rw [← Bool.not_eq_true, checkIntersection_iff, h1, h2, h3, h4, h5, h6, h7, h8]
    norm_num

/-- The two concrete box pairs of C1, evaluated. -/
theorem checkIntersection_spec_witness :
    checkIntersection
        (boxObject (⟨0, 0, 0⟩ : Vec3 ℚ) ⟨1, 1, 1⟩ ⟨0, 0, 0⟩ ⟨1, 1, 1⟩)
        (boxObject ⟨0, 0, 0⟩ ⟨1, 1, 1⟩ ⟨1 / 2, 1 / 2, 1 / 2⟩ ⟨2, 2, 2⟩) = true ∧
    checkIntersection
        (boxObject (⟨0, 0, 0⟩ : Vec3 ℚ) ⟨1, 1, 1⟩ ⟨0, 0, 0⟩ ⟨1, 1, 1⟩)
        (boxObject ⟨0, 0, 0⟩ ⟨1, 1, 1⟩ ⟨2, 2, 2⟩ ⟨3, 3, 3⟩) = false :=
  ⟨checkIntersection_spec.2.1 _ _ rfl rfl rfl rfl rfl rfl rfl rfl,
    checkIntersection_spec.2.2 _ _ rfl rfl rfl rfl rfl rfl rfl rfl⟩

/-- C2: the AABB overlap test is symmetric, for every pair of objects and
every arithmetic `F`. -/
theorem checkIntersection_symm {F : Type} [Add F] [Mul F] [LE F]
    [DecidableRel (fun a b : F => a ≤ b)] (a b : GameObject F) :
    checkIntersection a b = checkIntersection b a := by
  rw [Bool.eq_iff_iff, checkIntersection_iff, checkIntersection_iff]
  simp only [ge_iff_le]
  tauto

/-! ### Movement resolution -/

theorem boxLoop_fst {F : Type} [Add F] [Mul F] [LE F] [DecidableRel (fun a b : F => a ≤ b)]
    (tp : GameObject F) (boxes : List (GameObject F)) (acc : Bool × String) :
    (boxLoop tp boxes acc).1 = true ↔
      acc.1 = true ∧ ∀ o ∈ boxes, checkIntersection tp o = false := by
  induction boxes with
  | nil => simp [boxLoop]
  | cons box rest ih =>
    cases h : checkIntersection tp box
    · simp [boxLoop, h, ih]
    · simp [boxLoop, h]

/-- The verdict of the collision test is `true` exactly when no obstacle and
no box intersects the tested body. -/
theorem collisionTest_fst {F : Type} [Add F] [Mul F] [LE F]
    [DecidableRel (fun a b : F => a ≤ b)] (tp o1 o2 o3 : GameObject F)
    (boxes : List (GameObject F)) :
    (collisionTest tp o1 o2 o3 boxes).1 = true ↔
      ∀ o ∈ o1 :: o2 :: o3 :: boxes, checkIntersection tp o = false := by
  unfold collisionTest
  cases h1 : checkIntersection tp o1 <;> cases h2 : checkIntersection tp o2 <;>
    cases h3 : checkIntersection tp o3 <;> simp [boxLoop_fst, h1, h2, h3]

/-- C3: the move is allowed (`canMove` is true) iff `checkIntersection
tempPlayer o` is false for every `o` among `obstacle1`, `obstacle2`,
`obstacle3` and the elements of `collisionBoxes`, where `tempPlayer` is the
player with its position replaced by the proposed position. -/
theorem canMove_iff {F : Type} [Add F] [Mul F] [LE F]
    [DecidableRel (fun a b : F => a ≤ b)] (w : World F) (newPos : Vec3 F) :
    canMove w newPos = true ↔
      ∀ o ∈ [w.obstacle1, w.obstacle2, w.obstacle3] ++ w.collisionBoxes,
        checkIntersection { w.player with position := newPos } o = false := by
  unfold canMove
  rw [collisionTest_fst]
  rfl

/-- C4: the verdict does not depend on the order of the obstacles: two worlds
with the same player whose obstacle sequences (the three obstacles followed by
the collision boxes) are permutations of each other give the same `canMove`
for every proposed position. -/
theorem canMove_perm {F : Type} [Add F] [Mul F] [LE F]
    [DecidableRel (fun a b : F => a ≤ b)] (w v : World F) (newPos : Vec3 F)
    (hplayer : v.player = w.player)
    (hperm : List.Perm ([w.obstacle1, w.obstacle2, w.obstacle3] ++ w.collisionBoxes)
      ([v.obstacle1, v.obstacle2, v.obstacle3] ++ v.collisionBoxes)) :
    canMove v newPos = canMove w newPos := by
  rw [Bool.eq_iff_iff]
  unfold canMove
  rw [collisionTest_fst, collisionTest_fst, hplayer]
  constructor
  · intro h o ho
    exact h o ((List.Perm.mem_iff hperm).1 ho)
  · intro h o ho
    exact h o ((List.Perm.mem_iff hperm).2 ho)

/-- The verdict for the sample scene is the same with two obstacles exchanged. -/
theorem canMove_perm_witness :
    canMove (sampleWorldSwapped ⟨5, 0, 0⟩) ⟨11 / 2, 0, 0⟩ =
      canMove (sampleWorld ⟨5, 0, 0⟩) ⟨11 / 2, 0, 0⟩ :=
  canMove_perm (sampleWorld ⟨5, 0, 0⟩) (sampleWorldSwapped ⟨5, 0, 0⟩) ⟨11 / 2, 0, 0⟩ rfl
    (List.Perm.swap _ _ _)

/-- C5: a movement step sets `player.position` to the proposed position when
the collision test allows the move and leaves it unchanged when it is blocked;
in both cases every other field of the player (scale and local bounds among
them) and every obstacle and collision box are unchanged. -/
theorem movementStep_frame {F : Type} [Add F] [Mul F] [LE F]
    [DecidableRel (fun a b : F => a ≤ b)] (w : World F) (newPos : Vec3 F) :
    (movementStep w newPos).player.position =
        (if canMove w newPos = true then newPos else w.player.position) ∧
      (movementStep w newPos).player.scale = w.player.scale ∧
      (movementStep w newPos).player.minBounds = w.player.minBounds ∧
      (movementStep w newPos).player.maxBounds = w.player.maxBounds ∧
      (movementStep w newPos).player =
        { w.player with position := (movementStep w newPos).player.position } ∧
      (movementStep w newPos).obstacle1 = w.obstacle1 ∧
      (movementStep w newPos).obstacle2 = w.obstacle2 ∧
      (movementStep w newPos).obstacle3 = w.obstacle3 ∧
      (movementStep w newPos).collisionBoxes = w.collisionBoxes := by
  unfold movementStep
  cases h : canMove w newPos <;> simp

theorem selectHeading_w {F : Type} [NatCast F] [Neg F] (k : Keys) (h : k.wPressed = true) :
    (selectHeading k : Heading F).movementAngle = ((0 : ℕ) : F) := by
  simp [selectHeading, h]

/-- C6: for a movement request the proposed position is
`player.position + (cos t, 0, sin t) * moveSpeed` with `moveSpeed = 5 *
deltaTime`, `t = radians (yaw + heading)` and heading 0 for W, 180 for S (W
not pressed), -90 for A (W, S not pressed), 90 for D (W, S, A not pressed);
and when `cos (radians (0 + 0)) = 1` and `sin (radians (0 + 0)) = 0`, as for
floats, a forward request at yaw 0 proposes `position + (1,0,0) * moveSpeed`. -/
theorem proposedPosition_spec {F : Type} [NatCast F] [Neg F] [Add F] [Mul F]
    (trig : Trig F) (k : Keys) (w : World F) :
    (k.wPressed = true →
      proposedPosition trig k w = w.player.position +
        (Vec3.mk (trig.cos (trig.radians (w.yaw + ((0 : ℕ) : F)))) ((0 : ℕ) : F)
          (trig.sin (trig.radians (w.yaw + ((0 : ℕ) : F))))).scale
            (((5 : ℕ) : F) * w.deltaTime)) ∧
    (k.wPressed = false → k.sPressed = true →
      proposedPosition trig k w = w.player.position +
        (Vec3.mk (trig.cos (trig.radians (w.yaw + ((180 : ℕ) : F)))) ((0 : ℕ) : F)
          (trig.sin (trig.radians (w.yaw + ((180 : ℕ) : F))))).scale
            (((5 : ℕ) : F) * w.deltaTime)) ∧
    (k.wPressed = false → k.sPressed = false → k.aPressed = true →
      proposedPosition trig k w = w.player.position +
        (Vec3.mk (trig.cos (trig.radians (w.yaw + -((90 : ℕ) : F)))) ((0 : ℕ) : F)
          (trig.sin (trig.radians (w.yaw + -((90 : ℕ) : F))))).scale
            (((5 : ℕ) : F) * w.deltaTime)) ∧
    (k.wPressed = false → k.sPressed = false → k.aPressed = false → k.dPressed = true →
      proposedPosition trig k w = w.player.position +
        (Vec3.mk (trig.cos (trig.radians (w.yaw + ((90 : ℕ) : F)))) ((0 : ℕ) : F)
          (trig.sin (trig.radians (w.yaw + ((90 : ℕ) : F))))).scale
            (((5 : ℕ) : F) * w.deltaTime)) ∧
    (k.wPressed = true → w.yaw = ((0 : ℕ) : F) →
      trig.cos (trig.radians (((0 : ℕ) : F) + ((0 : ℕ) : F))) = ((1 : ℕ) : F) →
      trig.sin (trig.radians (((0 : ℕ) : F) + ((0 : ℕ) : F))) = ((0 : ℕ) : F) →
      proposedPosition trig k w = w.player.position +
        (Vec3.mk ((1 : ℕ) : F) ((0 : ℕ) : F) ((0 : ℕ) : F)).scale
          (((5 : ℕ) : F) * w.deltaTime)) := by
  refine ⟨?_, ?_, ?_, ?_, ?_⟩
  · intro hw
    simp [proposedPosition, moveDir, moveSpeed, selectHeading, hw]
  · intro hw hs
    simp [proposedPosition, moveDir, moveSpeed, selectHeading, hw, hs]
  · intro hw hs ha
    simp [proposedPosition, moveDir, moveSpeed, selectHeading, hw, hs, ha]
  · intro hw hs ha hd
    simp [proposedPosition, moveDir, moveSpeed, selectHeading, hw, hs, ha, hd]
  · intro hw hyaw hcos hsin
    unfold proposedPosition moveDir moveSpeed
    rw [selectHeading_w k hw, hyaw]
    simp only [hcos, hsin]

/-- A forward request at yaw 0 in the sample scene, from (0,0,8) with frame
time 1/10, proposes (1/2, 0, 8). -/
theorem proposedPosition_spec_witness :
    proposedPosition sampleTrig ⟨true, false, false, false⟩ (sampleWorld ⟨0, 0, 8⟩) =
      (sampleWorld ⟨0, 0, 8⟩).player.position +
        (Vec3.mk ((1 : ℕ) : ℚ) ((0 : ℕ) : ℚ) ((0 : ℕ) : ℚ)).scale
          (((5 : ℕ) : ℚ) * (sampleWorld ⟨0, 0, 8⟩).deltaTime) :=
  (proposedPosition_spec sampleTrig ⟨true, false, false, false⟩ (sampleWorld ⟨0, 0, 8⟩)).2.2.2.2
    rfl (by simp [sampleWorld]) (by simp [sampleTrig]) (by simp [sampleTrig])

/-! ### Fan triangulation in `Model::loadOBJ` -/

theorem toUInt32_succ_add (a b : Nat) : toUInt32 (toUInt32 a + b) = toUInt32 (a + b) := by
  unfold toUInt32
  omega

/-- The fuel `faceVertices.length` never runs out: with that much fuel or
more the loop ends on its own condition, so more fuel changes nothing. -/
theorem fanLoop_fuel {F : Type} (fv : List (Vertex F)) :
    ∀ (fuel i : Nat) (acc : List (Vertex F) × List Nat), fv.length ≤ fuel + i + 1 →
      fanLoop fv (fuel + 1) i acc = fanLoop fv fuel i acc := by
  intro fuel
  induction fuel with
  | zero =>
    intro i acc h
    have hi : ¬ i + 1 < fv.length := by omega
    simp only [fanLoop, dif_neg hi]
  | succ fuel ih =>
    intro i acc h
    by_cases hi : i + 1 < fv.length
    · rw [fanLoop, dif_pos hi, ih (i + 1) _ (by omega)]
      conv_rhs => rw [fanLoop, dif_pos hi]
    · rw [fanLoop, dif_neg hi]
      conv_rhs => rw [fanLoop, dif_neg hi]

theorem fanLoop_fst_length {F : Type} (fv : List (Vertex F)) :
    ∀ (fuel i : Nat) (acc : List (Vertex F) × List Nat), fv.length ≤ fuel + i + 1 →
      (fanLoop fv fuel i acc).1.length = acc.1.length + 3 * (fv.length - 1 - i) := by
  intro fuel
  induction fuel with
  | zero =>
    intro i acc h
    simp only [fanLoop]
    omega
  | succ fuel ih =>
    intro i acc h
    unfold fanLoop
    by_cases hi : i + 1 < fv.length
    · rw [dif_pos hi, ih (i + 1) _ (by omega)]
      simp only [List.length_append, List.length_cons, List.length_nil]
      omega
    · rw [dif_neg hi]
      omega

theorem fanLoop_indices {F : Type} (fv : List (Vertex F)) :
    ∀ (fuel i : Nat) (acc : List (Vertex F) × List Nat),
      acc.2 = (List.range acc.1.length).map toUInt32 →
      (fanLoop fv fuel i acc).2 = (List.range (fanLoop fv fuel i acc).1.length).map toUInt32 := by
  intro fuel
  induction fuel with
  | zero =>
    intro i acc h
    simpa only [fanLoop] using h
  | succ fuel ih =>
    intro i acc h
    unfold fanLoop
    by_cases hi : i + 1 < fv.length
    · rw [dif_pos hi]
      apply ih
      simp only [List.length_append, List.length_cons, List.length_nil, h]
      rw [show acc.1.length + (0 + 1 + 1 + 1) = acc.1.length + 1 + 1 + 1 by omega]
      simp only [List.range_succ, List.map_append, List.map_cons, List.map_nil,
        List.append_assoc, List.cons_append, List.nil_append, toUInt32_succ_add]
    · rw [dif_neg hi]
      exact h

theorem fanLoop_corners {F : Type} (fv : List (Vertex F)) :
    ∀ (fuel i : Nat) (acc : List (Vertex F) × List Nat), fv.length ≤ fuel + i + 1 →
      ∃ t : List (Vertex F), (fanLoop fv fuel i acc).1 = acc.1 ++ t ∧
        ∀ k, i + k + 1 < fv.length →
          t[3 * k]? = fv[0]? ∧ t[3 * k + 1]? = fv[i + k]? ∧ t[3 * k + 2]? = fv[i + k + 1]? := by
  intro fuel
  induction fuel with
  | zero =>
    intro i acc h
    refine ⟨[], by simp [fanLoop], ?_⟩
    intro k hk
    omega
  | succ fuel ih =>
    intro i acc h
    unfold fanLoop
    by_cases hi : i + 1 < fv.length
    · rw [dif_pos hi]
      obtain ⟨t, ht, hk⟩ := ih (i + 1) (acc.1 ++ [fv[0], fv[i], fv[i + 1]],
          acc.2 ++ [toUInt32 acc.1.length, toUInt32 (toUInt32 acc.1.length + 1),
            toUInt32 (toUInt32 acc.1.length + 2)]) (by omega)
      refine ⟨fv[0] :: fv[i] :: fv[i + 1] :: t, ?_, ?_⟩
      · rw [ht]
        simp
      · intro k hlt
        cases k with
        | zero =>
          simp [List.getElem?_eq_getElem]
        | succ k =>
          have := hk k (by omega)
          rw [show 3 * (k + 1) = 3 * k + 1 + 1 + 1 by omega,
            show i + (k + 1) = i + 1 + k by omega]
          simpa only [List.getElem?_cons_succ] using this
    · rw [dif_neg hi]
      refine ⟨[], by simp, ?_⟩
      intro k hk
      omega

/-- The index list grows by appending, three entries per iteration. -/
theorem fanLoop_snd {F : Type} (fv : List (Vertex F)) :
    ∀ (fuel i : Nat) (acc : List (Vertex F) × List Nat), fv.length ≤ fuel + i + 1 →
      ∃ t : List Nat, (fanLoop fv fuel i acc).2 = acc.2 ++ t ∧
        t.length = 3 * (fv.length - 1 - i) ∧
        ∀ j, j < 3 * (fv.length - 1 - i) → t[j]? = some (toUInt32 (acc.1.length + j)) := by
  intro fuel
  induction fuel with
  | zero =>
    intro i acc h
    refine ⟨[], by simp [fanLoop], by simp; omega, ?_⟩
    intro j hj
    omega
  | succ fuel ih =>
    intro i acc h
    unfold fanLoop
    by_cases hi : i + 1 < fv.length
    · rw [dif_pos hi]
      obtain ⟨t, ht, hlen, hj⟩ := ih (i + 1) (acc.1 ++ [fv[0], fv[i], fv[i + 1]],
          acc.2 ++ [toUInt32 acc.1.length, toUInt32 (toUInt32 acc.1.length + 1),
            toUInt32 (toUInt32 acc.1.length + 2)]) (by omega)
      refine ⟨toUInt32 acc.1.length :: toUInt32 (toUInt32 acc.1.length + 1) ::
        toUInt32 (toUInt32 acc.1.length + 2) :: t, ?_, ?_, ?_⟩
      · rw [ht]
        simp
      · simp only [List.length_cons, hlen]
        omega
      · intro j hlt
        match j with
        | 0 => simp
        | 1 => simp [toUInt32]
        | 2 => simp [toUInt32]
        | j + 3 =>
          have := hj j (by omega)
          simp only [List.getElem?_cons_succ, this, List.length_append, List.length_cons,
            List.length_nil]
          congr 2
          omega
    · rw [dif_neg hi]
      refine ⟨[], by simp, by simp; omega, ?_⟩
      intro j hj
      omega

theorem parseFaceTokens_ok {F : Type} [Zero F] [One F] (env : LoaderEnv F)
    (positions normals : List (Vec3 F)) (texCoords : List (Vec2 F)) :
    ∀ (tokens : List String) (fv : List (Vertex F)),
      parseFaceTokens env positions normals texCoords tokens = .ok fv →
      fv.length = tokens.length ∧
      ∀ (i : Nat) (t : String), tokens[i]? = some t →
        ∃ v, fv[i]? = some v ∧ parseFaceToken env positions normals texCoords t = .ok v := by
  intro tokens
  induction tokens with
  | nil =>
    intro fv h
    simp only [parseFaceTokens, Except.ok.injEq] at h
    subst h
    simp
  | cons t ts ih =>
    intro fv h
    unfold parseFaceTokens at h
    cases hv : parseFaceToken env positions normals texCoords t with
    | error e => rw [hv] at h; cases h
    | ok v =>
      rw [hv] at h
      cases hvs : parseFaceTokens env positions normals texCoords ts with
      | error e => rw [hvs] at h; cases h
      | ok vs =>
        rw [hvs] at h
        simp only [Except.ok.injEq] at h
        subst h
        obtain ⟨hl, hi⟩ := ih vs hvs
        refine ⟨by simp [hl], ?_⟩
        intro i t1 hget
        cases i with
        | zero =>
          simp only [List.getElem?_cons_zero, Option.some.injEq] at hget
          subst hget
          exact ⟨v, by simp, hv⟩
        | succ i =>
          simp only [List.getElem?_cons_succ] at hget ⊢
          exact hi i t1 hget

/-- C7: for a face line with `n ≥ 3` references whose index fields `stoi`
accepts, `Model::loadOBJ` appends exactly `n-2` triangles to the vertex
buffer, the `i`-th one (`i = 1..n-2`) with the corners `(r0, ri, r(i+1))` in
that order (`r j` being the vertex `parseFaceToken` builds from reference
`j`), and three indices per triangle, leaving what was there untouched; and
the quad `f 1/1/1 2/2/2 3/3/3 4/4/4` after 4 positions yields 2 triangles and
6 indices, both triangles starting at the first position. -/
theorem loadOBJ_face_fan :
    (∀ (F : Type) [Zero F] [One F] [LT F] [DecidableRel (fun a b : F => a < b)]
        (env : LoaderEnv F) (st : LoadState F) (tokens : List String) (fv : List (Vertex F)),
      3 ≤ tokens.length →
      parseFaceTokens env st.positions st.normals st.texCoords tokens = .ok fv →
      ∃ st1 : LoadState F, processLine env st (.f tokens) = .ok st1 ∧
        fv.length = tokens.length ∧
        (∀ (i : Nat) (t : String), tokens[i]? = some t →
          ∃ v, fv[i]? = some v ∧
            parseFaceToken env st.positions st.normals st.texCoords t = .ok v) ∧
        st1.vertices.length = st.vertices.length + 3 * (tokens.length - 2) ∧
        st1.indices.length = st.indices.length + 3 * (tokens.length - 2) ∧
        st1.vertices.take st.vertices.length = st.vertices ∧
        st1.indices.take st.indices.length = st.indices ∧
        (∀ i : Nat, 1 ≤ i → i ≤ tokens.length - 2 →
          st1.vertices[st.vertices.length + 3 * (i - 1)]? = fv[0]? ∧
          st1.vertices[st.vertices.length + 3 * (i - 1) + 1]? = fv[i]? ∧
          st1.vertices[st.vertices.length + 3 * (i - 1) + 2]? = fv[i + 1]?) ∧
        (∀ j : Nat, j < 3 * (tokens.length - 2) →
          st1.indices[st.indices.length + j]? = some ((st.vertices.length + j) % 2 ^ 32))) ∧
    (loadOBJ sampleEnv (Model.init 1000 ".") (some quadFile)).toOption.map
        (fun m => m.meshes.map
          (fun mesh => (mesh.vertices.map (fun vx => vx.Position), mesh.indices))) =
      some [([⟨0, 0, 0⟩, ⟨1, 0, 0⟩, ⟨1, 1, 0⟩, ⟨0, 0, 0⟩, ⟨1, 1, 0⟩, ⟨0, 1, 0⟩],
        [0, 1, 2, 3, 4, 5])] := by
  refine ⟨?_, by decide⟩
  intro F _ _ _ _ env st tokens fv hn hparse
  obtain ⟨hlen, htok⟩ := parseFaceTokens_ok env st.positions st.normals st.texCoords tokens fv hparse
  have hfuel : fv.length ≤ fv.length + 1 + 1 := by omega
  obtain ⟨tv, htv, hcorner⟩ := fanLoop_corners fv fv.length 1 (st.vertices, st.indices) hfuel
  obtain ⟨ti, hti, htilen, hidx⟩ := fanLoop_snd fv fv.length 1 (st.vertices, st.indices) hfuel
  have hvlen := fanLoop_fst_length fv fv.length 1 (st.vertices, st.indices) hfuel
  refine ⟨{ st with
      vertices := (fanLoop fv fv.length 1 (st.vertices, st.indices)).1,
      indices := (fanLoop fv fv.length 1 (st.vertices, st.indices)).2 }, ?_, hlen, htok, ?_, ?_,
    ?_, ?_, ?_, ?_⟩
  · simp only [processLine, hparse]
    rw [if_neg (by omega)]
  · simp only [hvlen]
    omega
  · simp only [hti, List.length_append, htilen]
    omega
  · simp only [htv, List.take_left']
  · simp only [hti, List.take_left']
  · intro i h1 h2
    obtain ⟨c0, c1, c2⟩ := hcorner (i - 1) (by omega)
    simp only [htv]
    rw [List.getElem?_append_right (by omega), List.getElem?_append_right (by omega),
      List.getElem?_append_right (by omega)]
    rw [show st.vertices.length + 3 * (i - 1) - st.vertices.length = 3 * (i - 1) by omega,
      show st.vertices.length + 3 * (i - 1) + 1 - st.vertices.length = 3 * (i - 1) + 1 by omega,
      show st.vertices.length + 3 * (i - 1) + 2 - st.vertices.length = 3 * (i - 1) + 2 by omega,
      c0, c1, c2]
    rw [show 1 + (i - 1) = i by omega]
    exact ⟨rfl, rfl, rfl⟩
  · intro j hj
    simp only [hti]
    rw [List.getElem?_append_right (by omega),
      show st.indices.length + j - st.indices.length = j by omega]
    exact hidx j (by omega)

/-- The quad face of `quadFile` processed in the state its preceding lines
leave: one state results, with 6 vertices. -/
theorem loadOBJ_face_fan_witness :
    ∃ st1 : LoadState ℤ,
      processLine sampleEnv quadState (.f ["1/1/1", "2/2/2", "3/3/3", "4/4/4"]) = .ok st1 ∧
      st1.vertices.length = 6 := by
  obtain ⟨st1, h, _, _, hl, _⟩ :=
    loadOBJ_face_fan.1 ℤ sampleEnv quadState ["1/1/1", "2/2/2", "3/3/3", "4/4/4"]
      [⟨⟨0, 0, 0⟩, ⟨0, 0, 1⟩, ⟨0, 0⟩⟩, ⟨⟨1, 0, 0⟩, ⟨0, 0, 1⟩, ⟨1, 0⟩⟩,
        ⟨⟨1, 1, 0⟩, ⟨0, 0, 1⟩, ⟨1, 1⟩⟩, ⟨⟨0, 1, 0⟩, ⟨0, 0, 1⟩, ⟨0, 1⟩⟩]
      (by decide) rfl
  exact ⟨st1, h, hl⟩

/-! ### The mesh buffers of `Model::loadOBJ` -/

/-- What the line loop of `Model::loadOBJ` maintains about the mesh buffers. -/
theorem processLine_buffers {F : Type} [Zero F] [One F] [LT F]
    [DecidableRel (fun a b : F => a < b)] (env : LoaderEnv F) (st st1 : LoadState F)
    (l : Line F) (h : processLine env st l = .ok st1) :
    st1.vertices.length = st.vertices.length + 3 * triangleCount [l] ∧
      (st.indices = (List.range st.vertices.length).map toUInt32 →
        st1.indices = (List.range st1.vertices.length).map toUInt32) ∧
      st1.model.meshes = st.model.meshes := by
  cases l with
  | v x y z =>
    simp only [processLine, Except.ok.injEq] at h
    subst h
    simp [triangleCount]
  | vt u v =>
    simp only [processLine, Except.ok.injEq] at h
    subst h
    simp [triangleCount]
  | vn x y z =>
    simp only [processLine, Except.ok.injEq] at h
    subst h
    simp [triangleCount]
  | mtllib file =>
    simp only [processLine, Except.ok.injEq] at h
    subst h
    simp [triangleCount]
  | other =>
    simp only [processLine, Except.ok.injEq] at h
    subst h
    simp [triangleCount]
  | f tokens =>
    simp only [processLine] at h
    by_cases hlt : tokens.length < 3
    · rw [if_pos hlt] at h
      simp only [Except.ok.injEq] at h
      subst h
      have : ¬ 3 ≤ tokens.length := by omega
      simp [triangleCount, this]
    · rw [if_neg hlt] at h
      cases hp : parseFaceTokens env st.positions st.normals st.texCoords tokens with
      | error e => rw [hp] at h; cases h
      | ok fv =>
        rw [hp] at h
        simp only [Except.ok.injEq] at h
        subst h
        have hlen := (parseFaceTokens_ok env st.positions st.normals st.texCoords tokens fv hp).1
        have hfuel : fv.length ≤ fv.length + 1 + 1 := by omega
        have hvlen := fanLoop_fst_length fv fv.length 1 (st.vertices, st.indices) hfuel
        have h3 : 3 ≤ tokens.length := by omega
        refine ⟨?_, ?_, rfl⟩
        · show (fanLoop fv fv.length 1 (st.vertices, st.indices)).1.length = _
          rw [hvlen]
          simp only [triangleCount, if_pos h3, hlen]
          omega
        · intro hidx
          exact fanLoop_indices fv fv.length 1 (st.vertices, st.indices) hidx

theorem triangleCount_cons {F : Type} (l : Line F) (ls : List (Line F)) :
    triangleCount (l :: ls) = triangleCount [l] + triangleCount ls := by
  cases l <;> simp [triangleCount]

theorem processLines_buffers {F : Type} [Zero F] [One F] [LT F]
    [DecidableRel (fun a b : F => a < b)] (env : LoaderEnv F) :
    ∀ (lines : List (Line F)) (st st1 : LoadState F), processLines env st lines = .ok st1 →
      st1.vertices.length = st.vertices.length + 3 * triangleCount lines ∧
        (st.indices = (List.range st.vertices.length).map toUInt32 →
          st1.indices = (List.range st1.vertices.length).map toUInt32) ∧
        st1.model.meshes = st.model.meshes := by
  intro lines
  induction lines with
  | nil =>
    intro st st1 h
    simp only [processLines, Except.ok.injEq] at h
    subst h
    simp [triangleCount]
  | cons l ls ih =>
    intro st st1 h
    unfold processLines at h
    cases hl : processLine env st l with
    | error e => rw [hl] at h; cases h
    | ok st2 =>
      rw [hl] at h
      obtain ⟨a1, a2, a3⟩ := processLine_buffers env st st2 l hl
      obtain ⟨b1, b2, b3⟩ := ih st2 st1 h
      refine ⟨?_, fun hidx => b2 (a2 hidx), by rw [b3, a3]⟩
      rw [b1, a1, triangleCount_cons l ls]
      omega

theorem range_map_toUInt32 (k : Nat) (hk : k ≤ 2 ^ 32) :
    (List.range k).map toUInt32 = List.range k := by
  apply List.ext_getElem?
  intro i
  by_cases hi : i < k
  · simp only [List.getElem?_map, List.getElem?_range hi, Option.map_some', toUInt32]
    congr 1
    omega
  · simp only [List.getElem?_map]
    rw [List.getElem?_eq_none (by simpa using hi)]
    rfl

theorem range_map_toUInt32_ne (k : Nat) (hk : 2 ^ 32 < k) :
    (List.range k).map toUInt32 ≠ List.range k := by
  intro h
  have h1 := congrArg (fun l => l[2 ^ 32]?) h
  simp only [List.getElem?_map, List.getElem?_range hk, Option.map_some', toUInt32] at h1
  simp at h1

theorem mem_range_map_toUInt32 (k i : Nat) (h : i ∈ (List.range k).map toUInt32) : i < k := by
  simp only [List.mem_map, List.mem_range] at h
  obtain ⟨j, hj, rfl⟩ := h
  unfold toUInt32
  omega

/-- The mesh `Model::loadOBJ` builds, in terms of the triangle count. -/
theorem loadOBJ_meshes {F : Type} [Zero F] [One F] [LT F]
    [DecidableRel (fun a b : F => a < b)] (env : LoaderEnv F) (m m1 : Model F)
    (lines : List (Line F)) (h : loadOBJ env m (some lines) = .ok m1) :
    (triangleCount lines = 0 ∧ m1.meshes = m.meshes) ∨
      (0 < triangleCount lines ∧ ∃ mesh : Mesh F, m1.meshes = m.meshes ++ [mesh] ∧
        mesh.vertices.length = 3 * triangleCount lines ∧
        mesh.indices = (List.range (3 * triangleCount lines)).map toUInt32) := by
  simp only [loadOBJ] at h
  cases hp : processLines env
      { model := m, positions := [], normals := [], texCoords := [], vertices := [],
        indices := [] } lines with
  | error e => rw [hp] at h; cases h
  | ok st =>
    rw [hp] at h
    dsimp only at h
    obtain ⟨hlen, hidx, hmesh⟩ := processLines_buffers env lines _ st hp
    simp only [List.length_nil, Nat.zero_add, List.range_zero, List.map_nil,
      forall_const] at hlen hidx hmesh
    by_cases hv : st.vertices.isEmpty = true
    · rw [if_neg (by simp [hv])] at h
      simp only [Except.ok.injEq] at h
      subst h
      left
      rw [List.isEmpty_iff] at hv
      rw [hv] at hlen
      simp only [List.length_nil] at hlen
      exact ⟨by omega, hmesh⟩
    · rw [if_pos (by simp [hv])] at h
      simp only [Except.ok.injEq] at h
      subst h
      right
      have hne : st.vertices ≠ [] := by
        intro h0
        exact hv (by simp [h0])
      have hpos : 0 < st.vertices.length := List.length_pos.2 hne
      refine ⟨by omega, _, by rw [hmesh], hlen, ?_⟩
      show st.indices = _
      rw [hidx, hlen]

theorem parseFaceTokens_replicate {F : Type} [Zero F] [One F] (env : LoaderEnv F)
    (positions normals : List (Vec3 F)) (texCoords : List (Vec2 F)) (t : String) (v : Vertex F)
    (h : parseFaceToken env positions normals texCoords t = .ok v) (n : Nat) :
    parseFaceTokens env positions normals texCoords (List.replicate n t) =
      .ok (List.replicate n v) := by
  induction n with
  | zero => rfl
  | succ n ih =>
    rw [List.replicate_succ, parseFaceTokens, h, ih, List.replicate_succ]

/-- The load succeeds whenever the line loop does. -/
theorem loadOBJ_ok_of_processLines {F : Type} [Zero F] [One F] [LT F]
    [DecidableRel (fun a b : F => a < b)] (env : LoaderEnv F) (m : Model F)
    (lines : List (Line F)) (st : LoadState F)
    (h : processLines env
      { model := m, positions := [], normals := [], texCoords := [], vertices := [],
        indices := [] } lines = .ok st) :
    ∃ m1, loadOBJ env m (some lines) = .ok m1 := by
  simp only [loadOBJ, h]
  by_cases hv : st.vertices.isEmpty = true
  · rw [if_neg (by simp [hv])]
    exact ⟨_, rfl⟩
  · rw [if_pos (by simp [hv])]
    exact ⟨_, rfl⟩

/-- A position line followed by a face line of equal references that parse
always loads. -/
theorem loadOBJ_replicate_ok {F : Type} [Zero F] [One F] [LT F]
    [DecidableRel (fun a b : F => a < b)] (env : LoaderEnv F) (m : Model F) (x y z : F)
    (t : String) (v : Vertex F) (h : parseFaceToken env [⟨x, y, z⟩] [] [] t = .ok v) (n : Nat) :
    ∃ m1, loadOBJ env m (some [.v x y z, .f (List.replicate n t)]) = .ok m1 := by
  have hp : ∃ st, processLines env ⟨m, [], [], [], [], []⟩
      [Line.v x y z, Line.f (List.replicate n t)] = .ok st := by
    by_cases hn : (List.replicate n t).length < 3
    · simp only [processLines, processLine, if_pos hn]
      exact ⟨_, rfl⟩
    · simp only [processLines, processLine, if_neg hn, List.nil_append,
        parseFaceTokens_replicate env [⟨x, y, z⟩] [] [] t v h n]
      exact ⟨_, rfl⟩
  obtain ⟨st, hst⟩ := hp
  exact loadOBJ_ok_of_processLines env m _ st hst

/-- Such a file with more than `2^32` triangle corners loads into one mesh
whose index buffer is not `0, 1, ..., k-1`. -/
theorem loadOBJ_replicate_wrap {F : Type} [Zero F] [One F] [LT F]
    [DecidableRel (fun a b : F => a < b)] (env : LoaderEnv F) (m : Model F)
    (hm : m.meshes = []) (x y z : F) (t : String)
    (v : Vertex F) (h : parseFaceToken env [⟨x, y, z⟩] [] [] t = .ok v) (n : Nat)
    (hn : 2 ^ 32 < 3 * (n - 2)) :
    (loadOBJ env m (some [.v x y z, .f (List.replicate n t)])).toOption.map
        (fun m1 => m1.meshes.map (fun mesh =>
          (mesh.vertices.length, decide (mesh.indices = List.range mesh.vertices.length)))) =
      some [(3 * (n - 2), false)] := by
  obtain ⟨m1, hm1⟩ := loadOBJ_replicate_ok env m x y z t v h n
  have h3 : 3 ≤ n := by omega
  have hcount : triangleCount [Line.v x y z, Line.f (List.replicate n t)] = n - 2 := by
    simp only [triangleCount, List.length_replicate, if_pos h3, Nat.add_zero]
  rcases loadOBJ_meshes env m m1 _ hm1 with ⟨h0, _⟩ | ⟨_, mesh, hmesh, hvl, hix⟩
  · rw [hcount] at h0
    omega
  · rw [hcount] at hvl hix
    rw [hm1]
    simp only [Except.toOption, Option.map_some', hmesh, hm, List.nil_append, List.map_cons,
      List.map_nil, hvl, hix, Option.some.injEq, List.cons.injEq, Prod.mk.injEq, true_and,
      and_true, decide_eq_false_iff_not]
    exact range_map_toUInt32_ne _ hn

/-- C9 (amended): when `Model::loadOBJ` returns, with `k = 3 *` (the sum of
`n-2` over the face lines with `n ≥ 3` references): for `k = 0` no mesh is
built; otherwise exactly one mesh is added, it has `k` vertices (one per
triangle corner) and its index buffer is `j mod 2^32` for `j = 0..k-1`, which
is `0, 1, ..., k-1` whenever `k ≤ 2^32`; every index is below the vertex count
and the index count is a multiple of 3. -/
theorem loadOBJ_index_buffer {F : Type} [Zero F] [One F] [LT F]
    [DecidableRel (fun a b : F => a < b)] (env : LoaderEnv F) (m m1 : Model F)
    (lines : List (Line F)) (h : loadOBJ env m (some lines) = .ok m1) :
    (triangleCount lines = 0 ∧ m1.meshes = m.meshes) ∨
      (0 < triangleCount lines ∧ ∃ mesh : Mesh F, m1.meshes = m.meshes ++ [mesh] ∧
        mesh.vertices.length = 3 * triangleCount lines ∧
        mesh.indices = (List.range (3 * triangleCount lines)).map (fun j => j % 2 ^ 32) ∧
        (3 * triangleCount lines ≤ 2 ^ 32 →
          mesh.indices = List.range (3 * triangleCount lines)) ∧
        (∀ i ∈ mesh.indices, i < mesh.vertices.length) ∧
        mesh.indices.length % 3 = 0) := by
  rcases loadOBJ_meshes env m m1 lines h with h0 | ⟨hpos, mesh, hmesh, hvl, hix⟩
  · exact Or.inl h0
  · refine Or.inr ⟨hpos, mesh, hmesh, hvl, hix, ?_, ?_, ?_⟩
    · intro hk
      rw [hix]
      exact range_map_toUInt32 _ hk
    · intro i hi
      rw [hix] at hi
      rw [hvl]
      exact mem_range_map_toUInt32 _ i hi
    · rw [hix, List.length_map, List.length_range]
      omega

/-- The buffers of the quad file: one mesh, 6 vertices, indices 0 to 5. -/
theorem loadOBJ_index_buffer_witness :
    ∃ m1 : Model ℤ, loadOBJ sampleEnv (Model.init 1000 ".") (some quadFile) = .ok m1 ∧
      ∃ mesh : Mesh ℤ, m1.meshes = [mesh] ∧ mesh.vertices.length = 6 ∧
        mesh.indices = List.range 6 := by
  obtain ⟨m1, hm1⟩ : ∃ m1 : Model ℤ,
      loadOBJ sampleEnv (Model.init 1000 ".") (some quadFile) = .ok m1 := ⟨_, rfl⟩
  rcases loadOBJ_index_buffer sampleEnv (Model.init 1000 ".") m1 quadFile hm1 with
    ⟨h0, _⟩ | ⟨_, mesh, hmesh, hvl, _, hrange, _, _⟩
  · exact absurd h0 (by decide)
  · exact ⟨m1, hm1, mesh, hmesh, hvl, hrange (by decide)⟩

/-- C9 as stated fails on `hugeFaceFile`: the load succeeds with one mesh of
4294967298 vertices whose index buffer is not `0, 1, ..., 4294967297` (the
entry at position `2^32` is 0). -/
theorem loadOBJ_index_buffer_wraps :
    (loadOBJ sampleEnv (Model.init 1000 ".") (some hugeFaceFile)).toOption.map
        (fun m1 => m1.meshes.map (fun mesh =>
          (mesh.vertices.length, decide (mesh.indices = List.range mesh.vertices.length)))) =
      some [(4294967298, false)] :=
  loadOBJ_replicate_wrap sampleEnv (Model.init 1000 ".") rfl 0 0 0 "1"
    ⟨⟨0, 0, 0⟩, ⟨0, 1, 0⟩, ⟨0, 0⟩⟩ rfl 1431655768 (by norm_num)

/-! ### Bounding boxes -/

theorem stdMin_le_left {F : Type} [LinearOrder F] (a b : F) : stdMin a b ≤ a := by
  unfold stdMin
  split_ifs with h
  · exact le_of_lt h
  · exact le_refl a

theorem stdMin_le_right {F : Type} [LinearOrder F] (a b : F) : stdMin a b ≤ b := by
  unfold stdMin
  split_ifs with h
  · exact le_refl b
  · exact not_lt.1 h

theorem le_stdMax_left {F : Type} [LinearOrder F] (a b : F) : a ≤ stdMax a b := by
  unfold stdMax
  split_ifs with h
  · exact le_of_lt h
  · exact le_refl a

theorem le_stdMax_right {F : Type} [LinearOrder F] (a b : F) : b ≤ stdMax a b := by
  unfold stdMax
  split_ifs with h
  · exact le_refl b
  · exact not_lt.1 h

theorem vec3_le_trans {F : Type} [Preorder F] {a b c : Vec3 F} (h1 : Vec3.le a b)
    (h2 : Vec3.le b c) : Vec3.le a c :=
  ⟨le_trans h1.1 h2.1, le_trans h1.2.1 h2.2.1, le_trans h1.2.2 h2.2.2⟩

theorem vec3_le_refl {F : Type} [Preorder F] (a : Vec3 F) : Vec3.le a a :=
  ⟨le_refl _, le_refl _, le_refl _⟩

/-- One line never shrinks the bounding box of `Model::loadOBJ`, and a `v`
line ends inside it. -/
theorem processLine_box {F : Type} [Zero F] [One F] [LinearOrder F] (env : LoaderEnv F)
    (st st1 : LoadState F) (l : Line F) (h : processLine env st l = .ok st1) :
    Vec3.le st1.model.boundingBoxMin st.model.boundingBoxMin ∧
      Vec3.le st.model.boundingBoxMax st1.model.boundingBoxMax ∧
      ∀ x y z, l = .v x y z →
        Vec3.le st1.model.boundingBoxMin ⟨x, y, z⟩ ∧
          Vec3.le ⟨x, y, z⟩ st1.model.boundingBoxMax := by
  cases l with
  | v x y z =>
    simp only [processLine, Except.ok.injEq] at h
    subst h
    refine ⟨⟨stdMin_le_left _ _, stdMin_le_left _ _, stdMin_le_left _ _⟩,
      ⟨le_stdMax_left _ _, le_stdMax_left _ _, le_stdMax_left _ _⟩, ?_⟩
    intro x1 y1 z1 heq
    cases heq
    exact ⟨⟨stdMin_le_right _ _, stdMin_le_right _ _, stdMin_le_right _ _⟩,
      ⟨le_stdMax_right _ _, le_stdMax_right _ _, le_stdMax_right _ _⟩⟩
  | vt u v =>
    simp only [processLine, Except.ok.injEq] at h
    subst h
    exact ⟨vec3_le_refl _, vec3_le_refl _, fun _ _ _ heq => by cases heq⟩
  | vn x y z =>
    simp only [processLine, Except.ok.injEq] at h
    subst h
    exact ⟨vec3_le_refl _, vec3_le_refl _, fun _ _ _ heq => by cases heq⟩
  | mtllib file =>
    simp only [processLine, Except.ok.injEq] at h
    subst h
    exact ⟨vec3_le_refl _, vec3_le_refl _, fun _ _ _ heq => by cases heq⟩
  | other =>
    simp only [processLine, Except.ok.injEq] at h
    subst h
    exact ⟨vec3_le_refl _, vec3_le_refl _, fun _ _ _ heq => by cases heq⟩
  | f tokens =>
    simp only [processLine] at h
    by_cases hlt : tokens.length < 3
    · rw [if_pos hlt] at h
      simp only [Except.ok.injEq] at h
      subst h
      exact ⟨vec3_le_refl _, vec3_le_refl _, fun _ _ _ heq => by cases heq⟩
    · rw [if_neg hlt] at h
      cases hp : parseFaceTokens env st.positions st.normals st.texCoords tokens with
      | error e => rw [hp] at h; cases h
      | ok fv =>
        rw [hp] at h
        simp only [Except.ok.injEq] at h
        subst h
        exact ⟨vec3_le_refl _, vec3_le_refl _, fun _ _ _ heq => by cases heq⟩

theorem processLines_box {F : Type} [Zero F] [One F] [LinearOrder F] (env : LoaderEnv F) :
    ∀ (lines : List (Line F)) (st st1 : LoadState F), processLines env st lines = .ok st1 →
      Vec3.le st1.model.boundingBoxMin st.model.boundingBoxMin ∧
        Vec3.le st.model.boundingBoxMax st1.model.boundingBoxMax ∧
        ∀ x y z, Line.v x y z ∈ lines →
          Vec3.le st1.model.boundingBoxMin ⟨x, y, z⟩ ∧
            Vec3.le ⟨x, y, z⟩ st1.model.boundingBoxMax := by
  intro lines
  induction lines with
  | nil =>
    intro st st1 h
    simp only [processLines, Except.ok.injEq] at h
    subst h
    exact ⟨vec3_le_refl _, vec3_le_refl _, fun _ _ _ hm => by cases hm⟩
  | cons l ls ih =>
    intro st st1 h
    unfold processLines at h
    cases hl : processLine env st l with
    | error e => rw [hl] at h; cases h
    | ok st2 =>
      rw [hl] at h
      obtain ⟨a1, a2, a3⟩ := processLine_box env st st2 l hl
      obtain ⟨b1, b2, b3⟩ := ih st2 st1 h
      refine ⟨vec3_le_trans b1 a1, vec3_le_trans a2 b2, ?_⟩
      intro x y z hm
      rcases List.mem_cons.1 hm with heq | hin
      · obtain ⟨c1, c2⟩ := a3 x y z heq.symm
        exact ⟨vec3_le_trans b1 c1, vec3_le_trans c2 b2⟩
      · exact b3 x y z hin

/-- The bounding box `Model::loadOBJ` leaves is the one of the line loop. -/
theorem loadOBJ_box {F : Type} [Zero F] [One F] [LinearOrder F] (env : LoaderEnv F)
    (m m1 : Model F) (lines : List (Line F)) (h : loadOBJ env m (some lines) = .ok m1) :
    ∀ x y z, Line.v x y z ∈ lines →
      Vec3.le m1.boundingBoxMin ⟨x, y, z⟩ ∧ Vec3.le ⟨x, y, z⟩ m1.boundingBoxMax := by
  simp only [loadOBJ] at h
  cases hp : processLines env ⟨m, [], [], [], [], []⟩ lines with
  | error e => rw [hp] at h; cases h
  | ok st =>
    rw [hp] at h
    dsimp only at h
    obtain ⟨_, _, hin⟩ := processLines_box env lines _ st hp
    by_cases hv : st.vertices.isEmpty = true
    · rw [if_neg (by simp [hv])] at h
      simp only [Except.ok.injEq] at h
      subst h
      exact hin
    · rw [if_pos (by simp [hv])] at h
      simp only [Except.ok.injEq] at h
      subst h
      exact hin

/-- The line loop of `loadOBJModel` keeps the positions it has and appends
the position of every `v` line. -/
theorem parseLines_positions {F : Type} :
    ∀ (lines : List (Line F)) (ps ps1 : ParseState F), parseLines ps lines = .ok ps1 →
      (∀ p ∈ ps.positions, p ∈ ps1.positions) ∧
        ∀ x y z, Line.v x y z ∈ lines → (⟨x, y, z⟩ : Vec3 F) ∈ ps1.positions := by
  intro lines
  induction lines with
  | nil =>
    intro ps ps1 h
    simp only [parseLines, Except.ok.injEq] at h
    subst h
    exact ⟨fun _ hp => hp, fun _ _ _ hm => by cases hm⟩
  | cons l ls ih =>
    intro ps ps1 h
    unfold parseLines at h
    cases hl : parseLine ps l with
    | error e => rw [hl] at h; cases h
    | ok ps2 =>
      rw [hl] at h
      obtain ⟨b1, b2⟩ := ih ps2 ps1 h
      have hstep : (∀ p ∈ ps.positions, p ∈ ps2.positions) ∧
          ∀ x y z, l = Line.v x y z → (⟨x, y, z⟩ : Vec3 F) ∈ ps2.positions := by
        cases l with
        | v x y z =>
          simp only [parseLine, Except.ok.injEq] at hl
          subst hl
          refine ⟨fun p hp => List.mem_append_left _ hp, ?_⟩
          intro x1 y1 z1 heq
          cases heq
          simp
        | vt u v =>
          simp only [parseLine, Except.ok.injEq] at hl
          subst hl
          exact ⟨fun _ hp => hp, fun _ _ _ heq => by cases heq⟩
        | vn x y z =>
          simp only [parseLine, Except.ok.injEq] at hl
          subst hl
          exact ⟨fun _ hp => hp, fun _ _ _ heq => by cases heq⟩
        | mtllib file =>
          simp only [parseLine, Except.ok.injEq] at hl
          subst hl
          exact ⟨fun _ hp => hp, fun _ _ _ heq => by cases heq⟩
        | other =>
          simp only [parseLine, Except.ok.injEq] at hl
          subst hl
          exact ⟨fun _ hp => hp, fun _ _ _ heq => by cases heq⟩
        | f tokens =>
          simp only [parseLine] at hl
          cases hf : processFace tokens ps.ix with
          | error e => rw [hf] at hl; cases hl
          | ok ix =>
            rw [hf] at hl
            simp only [Except.ok.injEq] at hl
            subst hl
            exact ⟨fun _ hp => hp, fun _ _ _ heq => by cases heq⟩
      refine ⟨fun p hp => b1 p (hstep.1 p hp), ?_⟩
      intro x y z hm
      rcases List.mem_cons.1 hm with heq | hin
      · exact b1 _ (hstep.2 x y z heq.symm)
      · exact b2 x y z hin

theorem boundsLoop_box {F : Type} [LinearOrder F] :
    ∀ (positions : List (Vec3 F)) (acc : Vec3 F × Vec3 F),
      Vec3.le (boundsLoop positions acc).1 acc.1 ∧ Vec3.le acc.2 (boundsLoop positions acc).2 ∧
        ∀ p ∈ positions,
          Vec3.le (boundsLoop positions acc).1 p ∧ Vec3.le p (boundsLoop positions acc).2 := by
  intro positions
  induction positions with
  | nil =>
    intro acc
    exact ⟨vec3_le_refl _, vec3_le_refl _, fun _ hm => by cases hm⟩
  | cons q qs ih =>
    intro acc
    unfold boundsLoop
    obtain ⟨b1, b2, b3⟩ := ih (⟨stdMin acc.1.x q.x, stdMin acc.1.y q.y, stdMin acc.1.z q.z⟩,
        ⟨stdMax acc.2.x q.x, stdMax acc.2.y q.y, stdMax acc.2.z q.z⟩)
    refine ⟨vec3_le_trans b1 ⟨stdMin_le_left _ _, stdMin_le_left _ _, stdMin_le_left _ _⟩,
      vec3_le_trans ⟨le_stdMax_left _ _, le_stdMax_left _ _, le_stdMax_left _ _⟩ b2, ?_⟩
    intro p hm
    rcases List.mem_cons.1 hm with heq | hin
    · subst heq
      exact ⟨vec3_le_trans b1 ⟨stdMin_le_right _ _, stdMin_le_right _ _, stdMin_le_right _ _⟩,
        vec3_le_trans ⟨le_stdMax_right _ _, le_stdMax_right _ _, le_stdMax_right _ _⟩ b2⟩
    · exact b3 p hin

theorem computeBounds_box {F : Type} [LinearOrder F] (obj : GameObject F)
    (positions : List (Vec3 F)) (p : Vec3 F) (hp : p ∈ positions) :
    Vec3.le (computeBounds obj positions).minBounds p ∧
      Vec3.le p (computeBounds obj positions).maxBounds := by
  cases positions with
  | nil => cases hp
  | cons p0 rest =>
    exact (boundsLoop_box (p0 :: rest) (p0, p0)).2.2 p hp

/-- The bounds `loadOBJModel` leaves contain the position of every `v` line. -/
theorem loadOBJModel_box {F : Type} [Zero F] [LinearOrder F] (env : ObjEnv F)
    (obj : GameObject F) (lines : List (Line F)) (r : Bool × GameObject F)
    (h : loadOBJModel env obj (some lines) = .ok r) :
    ∀ x y z, Line.v x y z ∈ lines →
      Vec3.le r.2.minBounds ⟨x, y, z⟩ ∧ Vec3.le ⟨x, y, z⟩ r.2.maxBounds := by
  simp only [loadOBJModel] at h
  cases hp : parseLines (⟨[], [], [], ⟨[], [], []⟩⟩ : ParseState F) lines with
  | error e => rw [hp] at h; cases h
  | ok ps =>
    rw [hp] at h
    dsimp only at h
    cases hb : buildVertices env ps.positions ps.texCoords ps.normals ps.ix.texIndices
        ps.ix.normIndices 0 ps.ix.posIndices ([], []) with
    | error e => rw [hb] at h; cases h
    | ok r1 =>
      rw [hb] at h
      simp only [Except.ok.injEq] at h
      subst h
      intro x y z hm
      exact computeBounds_box obj ps.positions ⟨x, y, z⟩
        ((parseLines_positions lines _ ps hp).2 x y z hm)

/-- C10: after `Model::loadOBJ` has parsed a file with at least one `v` line,
`boundingBoxMin ≤ boundingBoxMax` on each of the three axes and every parsed
position lies inside the box; the same holds for `minBounds`/`maxBounds`
after `loadOBJModel` (coordinates in a linear order, as floats other than NaN
are). -/
theorem boundingBox_valid :
    (∀ (F : Type) [Zero F] [One F] [LinearOrder F] (env : LoaderEnv F) (m m1 : Model F)
        (lines : List (Line F)),
      loadOBJ env m (some lines) = .ok m1 → (∃ x y z, Line.v x y z ∈ lines) →
      (m1.boundingBoxMin.x ≤ m1.boundingBoxMax.x ∧ m1.boundingBoxMin.y ≤ m1.boundingBoxMax.y ∧
        m1.boundingBoxMin.z ≤ m1.boundingBoxMax.z) ∧
      ∀ x y z, Line.v x y z ∈ lines →
        (m1.boundingBoxMin.x ≤ x ∧ x ≤ m1.boundingBoxMax.x) ∧
        (m1.boundingBoxMin.y ≤ y ∧ y ≤ m1.boundingBoxMax.y) ∧
        (m1.boundingBoxMin.z ≤ z ∧ z ≤ m1.boundingBoxMax.z)) ∧
    (∀ (F : Type) [Zero F] [LinearOrder F] (env : ObjEnv F) (obj : GameObject F)
        (lines : List (Line F)) (r : Bool × GameObject F),
      loadOBJModel env obj (some lines) = .ok r → (∃ x y z, Line.v x y z ∈ lines) →
      (r.2.minBounds.x ≤ r.2.maxBounds.x ∧ r.2.minBounds.y ≤ r.2.maxBounds.y ∧
        r.2.minBounds.z ≤ r.2.maxBounds.z) ∧
      ∀ x y z, Line.v x y z ∈ lines →
        (r.2.minBounds.x ≤ x ∧ x ≤ r.2.maxBounds.x) ∧
        (r.2.minBounds.y ≤ y ∧ y ≤ r.2.maxBounds.y) ∧
        (r.2.minBounds.z ≤ z ∧ z ≤ r.2.maxBounds.z)) := by
  constructor
  · intro F _ _ _ env m m1 lines h hex
    have hbox := loadOBJ_box env m m1 lines h
    refine ⟨?_, ?_⟩
    · obtain ⟨x, y, z, hm⟩ := hex
      obtain ⟨h1, h2⟩ := hbox x y z hm
      exact ⟨le_trans h1.1 h2.1, le_trans h1.2.1 h2.2.1, le_trans h1.2.2 h2.2.2⟩
    · intro x y z hm
      obtain ⟨h1, h2⟩ := hbox x y z hm
      exact ⟨⟨h1.1, h2.1⟩, ⟨h1.2.1, h2.2.1⟩, ⟨h1.2.2, h2.2.2⟩⟩
  · intro F _ _ env obj lines r h hex
    have hbox := loadOBJModel_box env obj lines r h
    refine ⟨?_, ?_⟩
    · obtain ⟨x, y, z, hm⟩ := hex
      obtain ⟨h1, h2⟩ := hbox x y z hm
      exact ⟨le_trans h1.1 h2.1, le_trans h1.2.1 h2.2.1, le_trans h1.2.2 h2.2.2⟩
    · intro x y z hm
      obtain ⟨h1, h2⟩ := hbox x y z hm
      exact ⟨⟨h1.1, h2.1⟩, ⟨h1.2.1, h2.2.1⟩, ⟨h1.2.2, h2.2.2⟩⟩

/-- Both loaders on the pentagon file: each returns, with a box that is not
inverted. -/
theorem boundingBox_valid_witness :
    (∃ m1 : Model ℤ, loadOBJ sampleEnv (Model.init 1000 ".") (some pentagonFile) = .ok m1 ∧
      m1.boundingBoxMin.x ≤ m1.boundingBoxMax.x ∧ m1.boundingBoxMin.y ≤ m1.boundingBoxMax.y ∧
        m1.boundingBoxMin.z ≤ m1.boundingBoxMax.z) ∧
    (∃ r : Bool × GameObject ℤ,
      loadOBJModel sampleObjEnv (cubeObject 1) (some pentagonFile) = .ok r ∧
      r.2.minBounds.x ≤ r.2.maxBounds.x ∧ r.2.minBounds.y ≤ r.2.maxBounds.y ∧
        r.2.minBounds.z ≤ r.2.maxBounds.z) :=
  ⟨⟨_, rfl, (boundingBox_valid.1 ℤ sampleEnv (Model.init 1000 ".") _ pentagonFile rfl
      ⟨0, 0, 0, by decide⟩).1⟩,
    ⟨_, rfl, (boundingBox_valid.2 ℤ sampleObjEnv (cubeObject 1) pentagonFile _ rfl
      ⟨0, 0, 0, by decide⟩).1⟩⟩

/-! ### The inline loader on faces with more than four references -/

theorem pushIndex_length (field : List Char) (l l1 : List Nat)
    (h : pushIndex field l = .ok l1) : l1.length ≤ l.length + 1 := by
  unfold pushIndex at h
  split_ifs at h with he
  · simp only [Except.ok.injEq] at h
    subst h
    omega
  · cases hs : stoiMinusOne field with
    | error e => rw [hs] at h; cases h
    | ok n =>
      rw [hs] at h
      simp only [Except.ok.injEq] at h
      subst h
      simp

theorem processFaceVertex_length (vertex : String) (ix ix1 : FaceIndices)
    (h : processFaceVertex vertex ix = .ok ix1) :
    ix1.posIndices.length ≤ ix.posIndices.length + 1 := by
  unfold processFaceVertex at h
  dsimp only at h
  split at h
  · cases h
  · rename_i ps hps
    split at h
    · cases h
    · split at h
      · cases h
      · simp only [Except.ok.injEq] at h
        subst h
        exact pushIndex_length _ _ _ hps

/-- A face with more or fewer than four references contributes at most
three position indices (one triangle) in `loadOBJModel`. -/
theorem processFace_length (vertices : List String) (ix ix1 : FaceIndices)
    (hn : vertices.length ≠ 4) (h : processFace vertices ix = .ok ix1) :
    ix1.posIndices.length ≤ ix.posIndices.length + 3 := by
  unfold processFace at h
  split_ifs at h with h3
  · simp only [bind, Except.bind, pure, Except.pure] at h
    split at h
    · cases h
    · rename_i a ha
      split at h
      · cases h
      · rename_i b hb
        split at h
        · cases h
        · rename_i c hc
          simp only [Except.ok.injEq] at h
          subst h
          have := processFaceVertex_length _ _ _ ha
          have := processFaceVertex_length _ _ _ hb
          have := processFaceVertex_length _ _ _ hc
          omega
  · simp only [pure, Except.pure, Except.ok.injEq] at h
    subst h
    omega

/-- C8 fails on the pentagon file: `loadOBJModel` returns `true` with the
single triangle (0, 1, 2), that is 3 indices and 24 floats, where the fan of
a face with 5 references has 3 triangles; `Model::loadOBJ` on the same file
builds the 9 indices of the full fan. -/
theorem loadOBJModel_pentagon :
    (loadOBJModel sampleObjEnv (cubeObject 1) (some pentagonFile)).toOption.map
        (fun r => (r.1, r.2.indices, r.2.vertices.length)) = some (true, [0, 1, 2], 24) ∧
    (loadOBJ sampleEnv (Model.init 1000 ".") (some pentagonFile)).toOption.map
        (fun m => m.meshes.map (fun mesh => mesh.indices)) =
      some [[0, 1, 2, 3, 4, 5, 6, 7, 8]] := by
  decide

/-! ### Lines that leave the model untouched -/

theorem processLines_append {F : Type} [Zero F] [One F] [LT F]
    [DecidableRel (fun a b : F => a < b)] (env : LoaderEnv F) :
    ∀ (pre post : List (Line F)) (st : LoadState F),
      processLines env st (pre ++ post) =
        match processLines env st pre with
        | .error e => .error e
        | .ok st1 => processLines env st1 post := by
  intro pre
  induction pre with
  | nil =>
    intro post st
    simp only [List.nil_append, processLines]
  | cons l ls ih =>
    intro post st
    simp only [List.cons_append, processLines]
    cases processLine env st l with
    | error e => rfl
    | ok st2 => exact ih post st2

theorem parseLines_append {F : Type} :
    ∀ (pre post : List (Line F)) (ps : ParseState F),
      parseLines ps (pre ++ post) =
        match parseLines ps pre with
        | .error e => .error e
        | .ok ps1 => parseLines ps1 post := by
  intro pre
  induction pre with
  | nil =>
    intro post ps
    simp only [List.nil_append, parseLines]
  | cons l ls ih =>
    intro post ps
    simp only [List.cons_append, parseLines]
    cases parseLine ps l with
    | error e => rfl
    | ok ps2 => exact ih post ps2

theorem processLine_short_face {F : Type} [Zero F] [One F] [LT F]
    [DecidableRel (fun a b : F => a < b)] (env : LoaderEnv F) (st : LoadState F)
    (tokens : List String) (h : tokens.length < 3) :
    processLine env st (.f tokens) = .ok st := by
  simp only [processLine, if_pos h]

theorem processFace_short (tokens : List String) (ix : FaceIndices) (h : tokens.length < 3) :
    processFace tokens ix = .ok ix := by
  unfold processFace
  rw [dif_neg (by omega)]
  rfl

theorem parseLine_short_face {F : Type} (ps : ParseState F) (tokens : List String)
    (h : tokens.length < 3) : parseLine ps (.f tokens) = .ok ps := by
  simp only [parseLine, processFace_short tokens ps.ix h]

/-- The line loop of `Model::loadOBJ` gives the same result with a short
face line removed. -/
theorem processLines_skip_short {F : Type} [Zero F] [One F] [LT F]
    [DecidableRel (fun a b : F => a < b)] (env : LoaderEnv F) (st : LoadState F)
    (pre post : List (Line F)) (tokens : List String) (h : tokens.length < 3) :
    processLines env st (pre ++ .f tokens :: post) = processLines env st (pre ++ post) := by
  rw [processLines_append, processLines_append]
  cases processLines env st pre with
  | error e => rfl
  | ok st1 =>
    simp only [processLines, processLine_short_face env st1 tokens h]

theorem parseLines_skip_short {F : Type} (ps : ParseState F)
    (pre post : List (Line F)) (tokens : List String) (h : tokens.length < 3) :
    parseLines ps (pre ++ .f tokens :: post) = parseLines ps (pre ++ post) := by
  rw [parseLines_append, parseLines_append]
  cases parseLines ps pre with
  | error e => rfl
  | ok ps1 =>
    simp only [parseLines, parseLine_short_face ps1 tokens h]

/-- C15: a face line with fewer than 3 references changes nothing (no
vertex, no index) in the line loop of `Model::loadOBJ` and of `loadOBJModel`,
and each loader returns on a file containing such a line exactly what it
returns on the file without it, so the lines after it are parsed as usual. -/
theorem short_face_skipped {F : Type} [Zero F] [One F] [LT F]
    [DecidableRel (fun a b : F => a < b)] (tokens : List String) (h : tokens.length < 3) :
    (∀ (env : LoaderEnv F) (st : LoadState F), processLine env st (.f tokens) = .ok st) ∧
    (∀ (env : LoaderEnv F) (m : Model F) (pre post : List (Line F)),
      loadOBJ env m (some (pre ++ .f tokens :: post)) = loadOBJ env m (some (pre ++ post))) ∧
    (∀ ps : ParseState F, parseLine ps (.f tokens) = .ok ps) ∧
    (∀ (env : ObjEnv F) (obj : GameObject F) (pre post : List (Line F)),
      loadOBJModel env obj (some (pre ++ .f tokens :: post)) =
        loadOBJModel env obj (some (pre ++ post))) := by
  refine ⟨fun env st => processLine_short_face env st tokens h, ?_,
    fun ps => parseLine_short_face ps tokens h, ?_⟩
  · intro env m pre post
    simp only [loadOBJ, processLines_skip_short env _ pre post tokens h]
  · intro env obj pre post
    simp only [loadOBJModel, parseLines_skip_short _ pre post tokens h]

/-- A two-reference face between two position lines: both lines around it
are parsed as without it. -/
theorem short_face_skipped_witness :
    loadOBJ sampleEnv (Model.init 1000 ".")
        (some ([.v 0 0 0] ++ .f ["1", "2"] :: [.v 1 1 1])) =
      loadOBJ sampleEnv (Model.init 1000 ".") (some ([.v 0 0 0] ++ [.v 1 1 1])) :=
  (short_face_skipped ["1", "2"] (by decide)).2.1 sampleEnv (Model.init 1000 ".")
    [.v 0 0 0] [.v 1 1 1]

theorem processLines_filter_other {F : Type} [Zero F] [One F] [LT F]
    [DecidableRel (fun a b : F => a < b)] (env : LoaderEnv F) :
    ∀ (lines : List (Line F)) (st : LoadState F),
      processLines env st (lines.filter (fun l => !l.isOther)) = processLines env st lines := by
  intro lines
  induction lines with
  | nil => intro st; rfl
  | cons l ls ih =>
    intro st
    cases l with
    | other =>
      simp only [List.filter, Line.isOther, Bool.not_true, processLines, processLine]
      exact ih st
    | v x y z =>
      simp only [List.filter, Line.isOther, Bool.not_false, processLines]
      cases processLine env st (.v x y z) with
      | error e => rfl
      | ok st1 => exact ih st1
    | vt x y =>
      simp only [List.filter, Line.isOther, Bool.not_false, processLines]
      cases processLine env st (.vt x y) with
      | error e => rfl
      | ok st1 => exact ih st1
    | vn x y z =>
      simp only [List.filter, Line.isOther, Bool.not_false, processLines]
      cases processLine env st (.vn x y z) with
      | error e => rfl
      | ok st1 => exact ih st1
    | f tokens =>
      simp only [List.filter, Line.isOther, Bool.not_false, processLines]
      cases processLine env st (.f tokens) with
      | error e => rfl
      | ok st1 => exact ih st1
    | mtllib file =>
      simp only [List.filter, Line.isOther, Bool.not_false, processLines]
      cases processLine env st (.mtllib file) with
      | error e => rfl
      | ok st1 => exact ih st1

/-- C16: lines whose first token is none of `v`, `vt`, `vn`, `f`, `mtllib`
have no effect on `Model::loadOBJ`: the load of the file with every such line
removed equals the load of the file (same meshes, that is vertices and
indices, same materials and bounding box, or the same exception). -/
theorem loadOBJ_ignores_other {F : Type} [Zero F] [One F] [LT F]
    [DecidableRel (fun a b : F => a < b)] (env : LoaderEnv F) (m : Model F)
    (lines : List (Line F)) :
    loadOBJ env m (some (lines.filter (fun l => !l.isOther))) = loadOBJ env m (some lines) := by
  simp only [loadOBJ, processLines_filter_other env lines]

/-! ### The sentinel bounding box -/

theorem processLine_box_unchanged {F : Type} [Zero F] [One F] [LT F]
    [DecidableRel (fun a b : F => a < b)] (env : LoaderEnv F) (st st1 : LoadState F)
    (l : Line F) (hl : ∀ x y z, l ≠ .v x y z) (h : processLine env st l = .ok st1) :
    st1.model.boundingBoxMin = st.model.boundingBoxMin ∧
      st1.model.boundingBoxMax = st.model.boundingBoxMax := by
  cases l with
  | v x y z => exact absurd rfl (hl x y z)
  | vt u v =>
    simp only [processLine, Except.ok.injEq] at h
    subst h
    exact ⟨rfl, rfl⟩
  | vn x y z =>
    simp only [processLine, Except.ok.injEq] at h
    subst h
    exact ⟨rfl, rfl⟩
  | mtllib file =>
    simp only [processLine, Except.ok.injEq] at h
    subst h
    exact ⟨rfl, rfl⟩
  | other =>
    simp only [processLine, Except.ok.injEq] at h
    subst h
    exact ⟨rfl, rfl⟩
  | f tokens =>
    simp only [processLine] at h
    by_cases hlt : tokens.length < 3
    · rw [if_pos hlt] at h
      simp only [Except.ok.injEq] at h
      subst h
      exact ⟨rfl, rfl⟩
    · rw [if_neg hlt] at h
      cases hp : parseFaceTokens env st.positions st.normals st.texCoords tokens with
      | error e => rw [hp] at h; cases h
      | ok fv =>
        rw [hp] at h
        simp only [Except.ok.injEq] at h
        subst h
        exact ⟨rfl, rfl⟩

theorem processLines_box_unchanged {F : Type} [Zero F] [One F] [LT F]
    [DecidableRel (fun a b : F => a < b)] (env : LoaderEnv F) :
    ∀ (lines : List (Line F)) (st st1 : LoadState F),
      (∀ x y z, Line.v x y z ∉ lines) → processLines env st lines = .ok st1 →
      st1.model.boundingBoxMin = st.model.boundingBoxMin ∧
        st1.model.boundingBoxMax = st.model.boundingBoxMax := by
  intro lines
  induction lines with
  | nil =>
    intro st st1 _ h
    simp only [processLines, Except.ok.injEq] at h
    subst h
    exact ⟨rfl, rfl⟩
  | cons l ls ih =>
    intro st st1 hv h
    unfold processLines at h
    cases hl : processLine env st l with
    | error e => rw [hl] at h; cases h
    | ok st2 =>
      rw [hl] at h
      have h1 := processLine_box_unchanged env st st2 l
        (fun x y z heq => hv x y z (by rw [heq]; exact List.mem_cons_self _ _)) hl
      have h2 := ih st2 st1 (fun x y z hm => hv x y z (List.mem_cons_of_mem _ hm)) h
      exact ⟨h2.1.trans h1.1, h2.2.trans h1.2⟩

/-- A load that parses no `v` line leaves the bounding box of the model as
it was. -/
theorem loadOBJ_box_unchanged {F : Type} [Zero F] [One F] [LT F]
    [DecidableRel (fun a b : F => a < b)] (env : LoaderEnv F) (m m1 : Model F)
    (file : Option (List (Line F)))
    (hv : ∀ lines, file = some lines → ∀ x y z, Line.v x y z ∉ lines)
    (h : loadOBJ env m file = .ok m1) :
    m1.boundingBoxMin = m.boundingBoxMin ∧ m1.boundingBoxMax = m.boundingBoxMax := by
  cases file with
  | none =>
    simp only [loadOBJ, Except.ok.injEq] at h
    subst h
    exact ⟨rfl, rfl⟩
  | some lines =>
    simp only [loadOBJ] at h
    cases hp : processLines env ⟨m, [], [], [], [], []⟩ lines with
    | error e => rw [hp] at h; cases h
    | ok st =>
      rw [hp] at h
      dsimp only at h
      have hb := processLines_box_unchanged env lines _ st (hv lines rfl) hp
      by_cases hvs : st.vertices.isEmpty = true
      · rw [if_neg (by simp [hvs])] at h
        simp only [Except.ok.injEq] at h
        subst h
        exact hb
      · rw [if_pos (by simp [hvs])] at h
        simp only [Except.ok.injEq] at h
        subst h
        exact hb

/-- C11: if `Model::loadOBJ` parses no `v` line (the file cannot be opened,
is empty, or has no position), the model the constructor builds keeps the
sentinel box `boundingBoxMin = (FLT_MAX, FLT_MAX, FLT_MAX)`, `boundingBoxMax
= (-FLT_MAX, -FLT_MAX, -FLT_MAX)`, so with `-FLT_MAX < FLT_MAX` the minimum
is above the maximum on every axis; and the constructor returns when the
file cannot be opened or is empty. -/
theorem sentinel_box_kept {F : Type} [Zero F] [One F] [Neg F] [LT F]
    [DecidableRel (fun a b : F => a < b)] (env : LoaderEnv F) (fltMax : F) (path : String) :
    (∀ (file : Option (List (Line F))) (m1 : Model F),
      (∀ lines, file = some lines → ∀ x y z, Line.v x y z ∉ lines) →
      Model.construct env fltMax path file = .ok m1 →
      m1.boundingBoxMin = ⟨fltMax, fltMax, fltMax⟩ ∧
        m1.boundingBoxMax = ⟨-fltMax, -fltMax, -fltMax⟩ ∧
        (-fltMax < fltMax →
          m1.boundingBoxMax.x < m1.boundingBoxMin.x ∧ m1.boundingBoxMax.y < m1.boundingBoxMin.y ∧
            m1.boundingBoxMax.z < m1.boundingBoxMin.z)) ∧
    Model.construct env fltMax path none = .ok (Model.init fltMax (modelDirectory path)) ∧
    Model.construct env fltMax path (some []) = .ok (Model.init fltMax (modelDirectory path)) := by
  refine ⟨?_, rfl, rfl⟩
  intro file m1 hv h
  obtain ⟨h1, h2⟩ := loadOBJ_box_unchanged env _ m1 file hv h
  refine ⟨h1, h2, ?_⟩
  intro hlt
  rw [h1, h2]
  exact ⟨hlt, hlt, hlt⟩

/-- A file with a comment line, a texture coordinate and a short face, no
position: the box stays the sentinel for `FLT_MAX = 1000`. -/
theorem sentinel_box_kept_witness :
    ∃ m1 : Model ℤ,
      Model.construct sampleEnv 1000 "models/car.obj"
        (some [.other, .vt 1 2, .f ["1", "2"]]) = .ok m1 ∧
      m1.boundingBoxMin = ⟨1000, 1000, 1000⟩ ∧ m1.boundingBoxMax = ⟨-1000, -1000, -1000⟩ ∧
      m1.boundingBoxMax.x < m1.boundingBoxMin.x :=
  ⟨_, rfl,
    ((sentinel_box_kept sampleEnv 1000 "models/car.obj").1
      (some [.other, .vt 1 2, .f ["1", "2"]]) _
      (fun lines hl => by cases hl; simp) rfl).1,
    ((sentinel_box_kept sampleEnv 1000 "models/car.obj").1
      (some [.other, .vt 1 2, .f ["1", "2"]]) _
      (fun lines hl => by cases hl; simp) rfl).2.1,
    (((sentinel_box_kept sampleEnv 1000 "models/car.obj").1
      (some [.other, .vt 1 2, .f ["1", "2"]]) _
      (fun lines hl => by cases hl; simp) rfl).2.2 (by decide)).1⟩

/-! ### What `loadOBJModel` returns -/

theorem buildVertices_ok {F : Type} [Zero F] (env : ObjEnv F) (positions : List (Vec3 F))
    (texCoords : List (Vec2 F)) (normals : List (Vec3 F)) (texIndices normIndices : List Nat) :
    ∀ (rest : List Nat) (i : Nat) (acc : List F × List Nat),
      (∀ p ∈ rest, p < positions.length) →
      ∃ r, buildVertices env positions texCoords normals texIndices normIndices i rest acc =
        .ok r := by
  intro rest
  induction rest with
  | nil =>
    intro i acc _
    exact ⟨acc, rfl⟩
  | cons p ps ih =>
    intro i acc h
    have hp : p < positions.length := h p (List.mem_cons_self _ _)
    unfold buildVertices
    rw [List.getElem?_eq_getElem hp]
    exact ih (i + 1) _ (fun q hq => h q (List.mem_cons_of_mem _ hq))

/-- The function `loadOBJModel` never returns `false` for a file that was
opened. -/
theorem loadOBJModel_flag {F : Type} [Zero F] [LT F] [DecidableRel (fun a b : F => a < b)]
    (env : ObjEnv F) (obj : GameObject F) (lines : List (Line F)) (r : Bool × GameObject F)
    (h : loadOBJModel env obj (some lines) = .ok r) : r.1 = true := by
  simp only [loadOBJModel] at h
  cases hp : parseLines (⟨[], [], [], ⟨[], [], []⟩⟩ : ParseState F) lines with
  | error e => rw [hp] at h; cases h
  | ok ps =>
    rw [hp] at h
    dsimp only at h
    cases hb : buildVertices env ps.positions ps.texCoords ps.normals ps.ix.texIndices
        ps.ix.normIndices 0 ps.ix.posIndices ([], []) with
    | error e => rw [hb] at h; cases h
    | ok r1 =>
      rw [hb] at h
      simp only [Except.ok.injEq] at h
      subst h
      rfl

/-- C17 (amended): when the file cannot be opened `loadOBJModel` returns
`false` and leaves the object as it was, and `Model::loadOBJ` returns the
model as it was (no mesh added); for a file that can be opened,
`loadOBJModel` returns `true` whenever it returns, and it does return when
the line loop ends without a `std::stoi` exception and every position index
it collected is below the number of positions. -/
theorem load_unopened_file {F : Type} [Zero F] [One F] [LT F]
    [DecidableRel (fun a b : F => a < b)] (env : ObjEnv F) (lenv : LoaderEnv F)
    (obj : GameObject F) (m : Model F) :
    loadOBJModel env obj none = .ok (false, obj) ∧
    loadOBJ lenv m none = .ok m ∧
    (∀ (lines : List (Line F)) (r : Bool × GameObject F),
      loadOBJModel env obj (some lines) = .ok r → r.1 = true) ∧
    (∀ (lines : List (Line F)) (ps : ParseState F),
      parseLines ⟨[], [], [], ⟨[], [], []⟩⟩ lines = .ok ps →
      (∀ p ∈ ps.ix.posIndices, p < ps.positions.length) →
      ∃ obj1, loadOBJModel env obj (some lines) = .ok (true, obj1)) := by
  refine ⟨rfl, rfl, fun lines r h => loadOBJModel_flag env obj lines r h, ?_⟩
  intro lines ps hp hin
  obtain ⟨r, hr⟩ := buildVertices_ok env ps.positions ps.texCoords ps.normals ps.ix.texIndices
    ps.ix.normIndices ps.ix.posIndices 0 ([], []) hin
  simp only [loadOBJModel, hp, hr]
  exact ⟨_, rfl⟩

/-- The pentagon file is opened and parsed: `loadOBJModel` returns `true`. -/
theorem load_unopened_file_witness :
    ∃ obj1, loadOBJModel sampleObjEnv (cubeObject 1) (some pentagonFile) = .ok (true, obj1) :=
  (load_unopened_file sampleObjEnv sampleEnv (cubeObject 1) (Model.init 1000 ".")).2.2.2
    pentagonFile
    ⟨[⟨0, 0, 0⟩, ⟨2, 0, 0⟩, ⟨3, 2, 0⟩, ⟨1, 3, 0⟩, ⟨-1, 2, 0⟩], [], [], ⟨[0, 1, 2], [], []⟩⟩
    rfl (by decide)

/-- C17 as stated fails on the file `f a b c`: it can be opened, and
`loadOBJModel` does not return `true` but ends in the `invalid_argument`
exception of `std::stoi`. -/
theorem loadOBJModel_letters_throws :
    loadOBJModel sampleObjEnv (cubeObject 1) (some lettersFile) = .error .invalidArgument := by
  rfl

/-- C13 fails on `mixedTexFile`: the three vertices of the face `f 1 2 3`,
whose references omit the texture index, get the texture coordinate (5, 7)
of the later references `1/1 2/1 3/1`, and the vertices of that later face
get (0, 0) (the floats at offsets 3 and 4 of each 8-float vertex are
listed); `Model::loadOBJ` on the same file gives (0, 0) to the first face and
(5, 7) to the second. -/
theorem loadOBJModel_texcoord_shift :
    (loadOBJModel sampleObjEnv (cubeObject 1) (some mixedTexFile)).toOption.map
        (fun r => (List.range 6).map
          (fun i => (r.2.vertices.getD (8 * i + 3) 0, r.2.vertices.getD (8 * i + 4) 0))) =
      some [(5, 7), (5, 7), (5, 7), (0, 0), (0, 0), (0, 0)] ∧
    (loadOBJ sampleEnv (Model.init 1000 ".") (some mixedTexFile)).toOption.map
        (fun m => m.meshes.map (fun mesh => mesh.vertices.map (fun vx => vx.TexCoords))) =
      some [[⟨0, 0⟩, ⟨0, 0⟩, ⟨0, 0⟩, ⟨5, 7⟩, ⟨5, 7⟩, ⟨5, 7⟩]] := by
  decide

/-! ### Face references in `Model::loadOBJ` -/

theorem isDigit_toNat (c : Char) (h : c.isDigit = true) : 48 ≤ c.toNat ∧ c.toNat ≤ 57 := by
  simp only [Char.isDigit, Bool.and_eq_true, decide_eq_true_eq] at h
  obtain ⟨h1, h2⟩ := h
  constructor
  · exact h1
  · exact h2

theorem isDigit_not_space (c : Char) (h : c.isDigit = true) : isSpaceChar c = false := by
  have := isDigit_toNat c h
  simp only [isSpaceChar, Bool.or_eq_false_iff, decide_eq_false_iff_not, Bool.and_eq_false_iff]
  omega

theorem isDigit_ne_slash (c : Char) (h : c.isDigit = true) : (c != '/') = true := by
  rw [bne_iff_ne]
  intro hc
  subst hc
  exact absurd h (by decide)

theorem isDigit_ne_minus (c : Char) (h : c.isDigit = true) : c ≠ '-' := by
  intro hc
  subst hc
  exact absurd h (by decide)

theorem isDigit_ne_plus (c : Char) (h : c.isDigit = true) : c ≠ '+' := by
  intro hc
  subst hc
  exact absurd h (by decide)

theorem takeWhile_of_all {α : Type} (p : α → Bool) (l : List α) (h : ∀ a ∈ l, p a = true) :
    l.takeWhile p = l := by
  induction l with
  | nil => rfl
  | cons a l ih =>
    rw [List.takeWhile_cons_of_pos (h a (List.mem_cons_self _ _)),
      ih (fun b hb => h b (List.mem_cons_of_mem _ hb))]

theorem takeWhile_append_stop {α : Type} (p : α → Bool) (l rest : List α) (b : α)
    (h : ∀ a ∈ l, p a = true) (hb : p b = false) :
    (l ++ b :: rest).takeWhile p = l ∧ (l ++ b :: rest).dropWhile p = b :: rest := by
  induction l with
  | nil =>
    simp [List.takeWhile_cons, List.dropWhile_cons, hb]
  | cons a l ih =>
    have ha := h a (List.mem_cons_self _ _)
    obtain ⟨h1, h2⟩ := ih (fun c hc => h c (List.mem_cons_of_mem _ hc))
    simp only [List.cons_append, List.takeWhile_cons, List.dropWhile_cons, ha, if_true, h1, h2,
      and_self]

theorem dropWhile_of_all {α : Type} (p : α → Bool) (l : List α) (h : ∀ a ∈ l, p a = true) :
    l.dropWhile p = [] := by
  induction l with
  | nil => rfl
  | cons a l ih =>
    rw [List.dropWhile_cons_of_pos (h a (List.mem_cons_self _ _)),
      ih (fun b hb => h b (List.mem_cons_of_mem _ hb))]

/-- On a nonempty digit string `std::stoi` returns its value, or throws
`out_of_range` when the value is above `INT_MAX`. -/
theorem stoi_digits (ds : List Char) (h : DigitString ds) :
    stoi ds = if digitsValue ds ≤ 2147483647 then .ok (digitsValue ds : Int)
      else .error .outOfRange := by
  obtain ⟨hne, hd⟩ := h
  cases ds with
  | nil => exact absurd rfl hne
  | cons c cs =>
    have hc := hd c (List.mem_cons_self _ _)
    have hdrop : (c :: cs).dropWhile isSpaceChar = c :: cs := by
      rw [List.dropWhile_cons_of_neg (by rw [isDigit_not_space c hc]; simp)]
    have htake : (c :: cs).takeWhile Char.isDigit = c :: cs := takeWhile_of_all _ _ hd
    have hm : stoi.match_1 (fun _ => Bool × List Char) (c :: cs) (fun r => (true, r))
        (fun r => (false, r)) (fun _ => (false, c :: cs)) = (false, c :: cs) := by
      split
      · rename_i r heq
        simp only [List.cons.injEq] at heq
        exact absurd heq.1 (isDigit_ne_minus c hc)
      · rename_i r heq
        simp only [List.cons.injEq] at heq
        exact absurd heq.1 (isDigit_ne_plus c hc)
      · rfl
    unfold stoi
    simp only [hdrop, hm, htake, List.isEmpty_cons, Bool.false_eq_true, if_false]
    by_cases hv : digitsValue (c :: cs) ≤ 2147483647
    · rw [if_pos hv, if_neg]
      omega
    · rw [if_neg hv, if_pos]
      omega

theorem stoiMinusOne_digits (ds : List Char) (h : DigitString ds)
    (hv : digitsValue ds ≤ 2147483647) :
    stoiMinusOne ds = .ok ((digitsValue ds : Int) - 1) := by
  unfold stoiMinusOne
  rw [stoi_digits ds h, if_pos hv]
  simp only
  rw [if_neg (by omega)]

theorem stoiMinusOne_digits_large (ds : List Char) (h : DigitString ds)
    (hv : 2147483647 < digitsValue ds) :
    stoiMinusOne ds = .error .outOfRange := by
  unfold stoiMinusOne
  rw [stoi_digits ds h, if_neg (by omega)]

theorem IndexField.no_slash {cs : List Char} (h : IndexField cs) :
    ∀ c ∈ cs, (c != '/') = true := by
  intro c hc
  rcases h with h | h
  · subst h
    cases hc
  · exact isDigit_ne_slash c (h.2 c hc)

theorem getlineSlash_field (cs rest : List Char) (h : ∀ c ∈ cs, (c != '/') = true) :
    getlineSlash (cs ++ '/' :: rest) = some (cs, rest) := by
  obtain ⟨h1, h2⟩ := takeWhile_append_stop (fun d => d != '/') cs rest '/' h (by decide)
  cases cs with
  | nil => rfl
  | cons c cs =>
    simp only [List.cons_append, getlineSlash]
    rw [← List.cons_append, h1, h2]
    rfl

theorem getlineSlash_last (cs : List Char) (hne : cs ≠ [])
    (h : ∀ c ∈ cs, (c != '/') = true) : getlineSlash cs = some (cs, []) := by
  cases cs with
  | nil => exact absurd rfl hne
  | cons c cs =>
    simp only [getlineSlash, takeWhile_of_all _ _ h, dropWhile_of_all _ _ h, List.drop_nil]

theorem readIndex_of_token (token rest : List Char) (h : IndexField token)
    (hv : digitsValue token ≤ 2147483647) :
    (match getlineSlash (token ++ '/' :: rest) with
      | none => (.ok (-1, token ++ '/' :: rest) : Except LoadError (Int × List Char))
      | some (tk, r) =>
        if tk.isEmpty then .ok (-1, r)
        else
          match stoiMinusOne tk with
          | .error e => .error e
          | .ok n => .ok (n, r)) = .ok (fieldIndex token, rest) := by
  rw [getlineSlash_field token rest h.no_slash]
  rcases h with h | h
  · subst h
    rfl
  · have hne : token.isEmpty = false := by
      cases token with
      | nil => exact absurd rfl h.1
      | cons c cs => rfl
    simp only [hne, Bool.false_eq_true, if_false, stoiMinusOne_digits token h hv, fieldIndex]

/-- A field followed by a slash: the index read and the stream after the
slash. -/
theorem readIndex_field (token rest : List Char) (h : IndexField token)
    (hv : digitsValue token ≤ 2147483647) :
    readIndex (token ++ '/' :: rest) = .ok (fieldIndex token, rest) := by
  unfold readIndex
  exact readIndex_of_token token rest h hv

/-- The last field of a reference: the index read, nothing left. -/
theorem readIndex_last (token : List Char) (h : IndexField token)
    (hv : digitsValue token ≤ 2147483647) :
    readIndex token = .ok (fieldIndex token, []) := by
  rcases h with h | h
  · subst h
    rfl
  · unfold readIndex
    rw [getlineSlash_last token h.1 (fun c hc => isDigit_ne_slash c (h.2 c hc))]
    have hne : token.isEmpty = false := by
      cases token with
      | nil => exact absurd rfl h.1
      | cons c cs => rfl
    simp only [hne, Bool.false_eq_true, if_false, stoiMinusOne_digits token h hv, fieldIndex]

theorem parseFaceToken_of_reads {F : Type} [Zero F] [One F] (env : LoaderEnv F)
    (positions normals : List (Vec3 F)) (texCoords : List (Vec2 F)) (face : String)
    (posIdx texIdx normIdx : Int) (s1 s2 s3 : List Char)
    (h1 : readIndex face.toList = .ok (posIdx, s1)) (h2 : readIndex s1 = .ok (texIdx, s2))
    (h3 : readIndex s2 = .ok (normIdx, s3)) :
    parseFaceToken env positions normals texCoords face =
      .ok (vertexAt env positions normals texCoords posIdx texIdx normIdx) := by
  unfold parseFaceToken
  simp only [h1, h2, h3, bind, Except.bind, pure, Except.pure, vertexAt]

theorem parseFaceToken_error1 {F : Type} [Zero F] [One F] (env : LoaderEnv F)
    (positions normals : List (Vec3 F)) (texCoords : List (Vec2 F)) (face : String)
    (e : LoadError) (h1 : readIndex face.toList = .error e) :
    parseFaceToken env positions normals texCoords face = .error e := by
  unfold parseFaceToken
  simp only [h1, bind, Except.bind]

theorem castInt_small (n : Nat) (h : n < 2 ^ 31) : castInt n = (n : Int) := by
  unfold castInt
  have h1 : n % 2 ^ 32 = n := Nat.mod_eq_of_lt (by omega)
  rw [h1, if_pos h]

theorem vertexAt_position {F : Type} [Zero F] [One F] (env : LoaderEnv F)
    (positions normals : List (Vec3 F)) (texCoords : List (Vec2 F)) (p : Nat)
    (texIdx normIdx : Int) (hl : positions.length < 2 ^ 31) (h1 : 1 ≤ p)
    (h2 : p ≤ positions.length) :
    positions[p - 1]? =
      some (vertexAt env positions normals texCoords ((p : Int) - 1) texIdx normIdx).Position := by
  have hlt : p - 1 < positions.length := by omega
  simp only [vertexAt, castInt_small _ hl]
  rw [if_pos (by omega), show ((p : Int) - 1).toNat = p - 1 by omega,
    List.getD_eq_getElem _ _ hlt, List.getElem?_eq_getElem hlt]

theorem vertexAt_texCoords {F : Type} [Zero F] [One F] (env : LoaderEnv F)
    (positions normals : List (Vec3 F)) (texCoords : List (Vec2 F)) (t : Nat)
    (posIdx normIdx : Int) (hl : texCoords.length < 2 ^ 31) (h1 : 1 ≤ t)
    (h2 : t ≤ texCoords.length) :
    texCoords[t - 1]? =
      some (vertexAt env positions normals texCoords posIdx ((t : Int) - 1) normIdx).TexCoords := by
  have hlt : t - 1 < texCoords.length := by omega
  simp only [vertexAt, castInt_small _ hl]
  rw [if_pos (by omega), show ((t : Int) - 1).toNat = t - 1 by omega,
    List.getD_eq_getElem _ _ hlt, List.getElem?_eq_getElem hlt]

theorem vertexAt_normal {F : Type} [Zero F] [One F] (env : LoaderEnv F)
    (positions normals : List (Vec3 F)) (texCoords : List (Vec2 F)) (n : Nat)
    (posIdx texIdx : Int) (hl : normals.length < 2 ^ 31) (h1 : 1 ≤ n)
    (h2 : n ≤ normals.length) :
    normals[n - 1]? =
      some (vertexAt env positions normals texCoords posIdx texIdx ((n : Int) - 1)).Normal := by
  have hlt : n - 1 < normals.length := by omega
  simp only [vertexAt, castInt_small _ hl]
  rw [if_pos (by omega), show ((n : Int) - 1).toNat = n - 1 by omega,
    List.getD_eq_getElem _ _ hlt, List.getElem?_eq_getElem hlt]

theorem vertexAt_texCoords_absent {F : Type} [Zero F] [One F] (env : LoaderEnv F)
    (positions normals : List (Vec3 F)) (texCoords : List (Vec2 F)) (posIdx normIdx : Int) :
    (vertexAt env positions normals texCoords posIdx (-1) normIdx).TexCoords = ⟨0, 0⟩ := by
  simp [vertexAt]

theorem vertexAt_normal_absent {F : Type} [Zero F] [One F] (env : LoaderEnv F)
    (positions normals : List (Vec3 F)) (texCoords : List (Vec2 F)) (posIdx texIdx : Int) :
    (vertexAt env positions normals texCoords posIdx texIdx (-1)).Normal = ⟨0, 1, 0⟩ := by
  simp [vertexAt]

theorem fieldIndex_digits (ds : List Char) (h : DigitString ds) :
    fieldIndex ds = (digitsValue ds : Int) - 1 := by
  cases ds with
  | nil => exact absurd rfl h.1
  | cons c cs => rfl

/-- The three shapes of a face reference and what `parseFaceToken` makes of
them: `p/t/n` (with `t` or `n` possibly empty), `p/t` and `p`. -/
theorem parseFaceToken_shapes {F : Type} [Zero F] [One F] (env : LoaderEnv F)
    (positions normals : List (Vec3 F)) (texCoords : List (Vec2 F)) (pd td nd : List Char)
    (hp : DigitString pd) (ht : IndexField td) (hn : IndexField nd)
    (hpv : digitsValue pd ≤ 2147483647) (htv : digitsValue td ≤ 2147483647)
    (hnv : digitsValue nd ≤ 2147483647) :
    parseFaceToken env positions normals texCoords (String.mk (pd ++ '/' :: (td ++ '/' :: nd))) =
        .ok (vertexAt env positions normals texCoords (fieldIndex pd) (fieldIndex td)
          (fieldIndex nd)) ∧
      parseFaceToken env positions normals texCoords (String.mk (pd ++ '/' :: td)) =
        .ok (vertexAt env positions normals texCoords (fieldIndex pd) (fieldIndex td) (-1)) ∧
      parseFaceToken env positions normals texCoords (String.mk pd) =
        .ok (vertexAt env positions normals texCoords (fieldIndex pd) (-1) (-1)) := by
  have hpf : IndexField pd := Or.inr hp
  refine ⟨?_, ?_, ?_⟩
  · exact parseFaceToken_of_reads env positions normals texCoords _ _ _ _ _ _ _
      (readIndex_field pd _ hpf hpv) (readIndex_field td _ ht htv) (readIndex_last nd hn hnv)
  · refine parseFaceToken_of_reads env positions normals texCoords _ _ _ _ _ [] []
      (readIndex_field pd _ hpf hpv) (readIndex_last td ht htv) rfl
  · exact parseFaceToken_of_reads env positions normals texCoords _ _ _ _ [] [] []
      (readIndex_last pd hpf hpv) rfl rfl

/-- C12 (amended): when fewer than `2^31` positions, texture coordinates and
normals have been parsed, a face reference `p/t/n`, `p//n`, `p/t` or `p`
made of digit strings, with `1 ≤ p ≤` the number of positions and `t`, `n` at
most `INT_MAX`, yields a vertex whose `Position` is the `p`-th position
(index `p-1`), whose `TexCoords` is the `t`-th texture coordinate when `t` is
present and in range, and whose `Normal` is the `n`-th normal when `n` is
present and in range. -/
theorem parseFaceToken_reference {F : Type} [Zero F] [One F] (env : LoaderEnv F)
    (positions normals : List (Vec3 F)) (texCoords : List (Vec2 F)) (pd td nd : List Char)
    (hp : DigitString pd) (ht : DigitString td) (hn : DigitString nd)
    (hpl : positions.length < 2 ^ 31) (htl : texCoords.length < 2 ^ 31)
    (hnl : normals.length < 2 ^ 31)
    (hp1 : 1 ≤ digitsValue pd) (hp2 : digitsValue pd ≤ positions.length)
    (htv : digitsValue td ≤ 2147483647) (hnv : digitsValue nd ≤ 2147483647) :
    (∃ v, parseFaceToken env positions normals texCoords
          (String.mk (pd ++ '/' :: (td ++ '/' :: nd))) = .ok v ∧
        positions[digitsValue pd - 1]? = some v.Position ∧
        (1 ≤ digitsValue td → digitsValue td ≤ texCoords.length →
          texCoords[digitsValue td - 1]? = some v.TexCoords) ∧
        (1 ≤ digitsValue nd → digitsValue nd ≤ normals.length →
          normals[digitsValue nd - 1]? = some v.Normal)) ∧
    (∃ v, parseFaceToken env positions normals texCoords
          (String.mk (pd ++ '/' :: '/' :: nd)) = .ok v ∧
        positions[digitsValue pd - 1]? = some v.Position ∧
        (1 ≤ digitsValue nd → digitsValue nd ≤ normals.length →
          normals[digitsValue nd - 1]? = some v.Normal)) ∧
    (∃ v, parseFaceToken env positions normals texCoords (String.mk (pd ++ '/' :: td)) = .ok v ∧
        positions[digitsValue pd - 1]? = some v.Position ∧
        (1 ≤ digitsValue td → digitsValue td ≤ texCoords.length →
          texCoords[digitsValue td - 1]? = some v.TexCoords)) ∧
    (∃ v, parseFaceToken env positions normals texCoords (String.mk pd) = .ok v ∧
        positions[digitsValue pd - 1]? = some v.Position) := by
  have hpv : digitsValue pd ≤ 2147483647 := by omega
  have e0 : digitsValue ([] : List Char) ≤ 2147483647 := by decide
  obtain ⟨a1, a2, a3⟩ := parseFaceToken_shapes env positions normals texCoords pd td nd hp
    (Or.inr ht) (Or.inr hn) hpv htv hnv
  obtain ⟨b1, _, _⟩ := parseFaceToken_shapes env positions normals texCoords pd [] nd hp
    (Or.inl rfl) (Or.inr hn) hpv e0 hnv
  rw [fieldIndex_digits pd hp] at a1 a2 a3 b1
  rw [fieldIndex_digits td ht] at a1 a2
  rw [fieldIndex_digits nd hn] at a1 b1
  refine ⟨⟨_, a1, ?_, ?_, ?_⟩, ⟨_, b1, ?_, ?_⟩, ⟨_, a2, ?_, ?_⟩, ⟨_, a3, ?_⟩⟩
  · exact vertexAt_position env positions normals texCoords _ _ _ hpl hp1 hp2
  · intro h1 h2
    exact vertexAt_texCoords env positions normals texCoords _ _ _ htl h1 h2
  · intro h1 h2
    exact vertexAt_normal env positions normals texCoords _ _ _ hnl h1 h2
  · exact vertexAt_position env positions normals texCoords _ _ _ hpl hp1 hp2
  · intro h1 h2
    exact vertexAt_normal env positions normals texCoords _ _ _ hnl h1 h2
  · exact vertexAt_position env positions normals texCoords _ _ _ hpl hp1 hp2
  · intro h1 h2
    exact vertexAt_texCoords env positions normals texCoords _ _ _ htl h1 h2
  · exact vertexAt_position env positions normals texCoords _ _ _ hpl hp1 hp2

/-- The reference `2/3/1` in the state of the quad file: position 2, texture
coordinate 3 and normal 1 of that state. -/
theorem parseFaceToken_reference_witness :
    ∃ v, parseFaceToken sampleEnv quadState.positions quadState.normals quadState.texCoords
        "2/3/1" = .ok v ∧
      v.Position = ⟨1, 0, 0⟩ ∧ v.TexCoords = ⟨1, 1⟩ ∧ v.Normal = ⟨0, 0, 1⟩ := by
  obtain ⟨⟨v, hv, h1, h2, h3⟩, _⟩ := parseFaceToken_reference sampleEnv quadState.positions
    quadState.normals quadState.texCoords ['2'] ['3'] ['1']
    (by simp [DigitString]) (by simp [DigitString]) (by simp [DigitString])
    (by decide) (by decide) (by decide) (by decide) (by decide) (by decide) (by decide)
  have h2a := h2 (by decide) (by decide)
  have h3a := h3 (by decide) (by decide)
  refine ⟨v, hv, ?_, ?_, ?_⟩
  · have : quadState.positions[digitsValue ['2'] - 1]? = some ⟨1, 0, 0⟩ := by decide
    rw [this] at h1
    exact (Option.some.inj h1).symm
  · have : quadState.texCoords[digitsValue ['3'] - 1]? = some ⟨1, 1⟩ := by decide
    rw [this] at h2a
    exact (Option.some.inj h2a).symm
  · have : quadState.normals[digitsValue ['1'] - 1]? = some ⟨0, 0, 1⟩ := by decide
    rw [this] at h3a
    exact (Option.some.inj h3a).symm

theorem parseFaceToken_many_positions {F : Type} [Zero F] [One F] (env : LoaderEnv F)
    (positions : List (Vec3 F)) (h : positions.length = 2147483648) :
    parseFaceToken env positions [] [] "1" =
      .ok { Position := env.uninit, Normal := ⟨0, 1, 0⟩, TexCoords := ⟨0, 0⟩ } := by
  have hs := (parseFaceToken_shapes env positions [] [] ['1'] [] []
    ⟨by simp, by simp⟩ (Or.inl rfl) (Or.inl rfl) (by decide) (by decide) (by decide)).2.2
  have hc : castInt 2147483648 = -2147483648 := by decide
  rw [show (String.mk ['1']) = "1" from rfl] at hs
  rw [hs]
  have hf : fieldIndex ['1'] = 0 := by decide
  simp only [vertexAt, h, hc, hf]
  simp

/-- C12 as stated fails in two ways.  The reference `1/99999999999/1` after
one position has `p = 1` in range, yet no vertex results: `std::stoi` throws
`out_of_range` on the texture index.  And after 2147483648 positions the
reference `1` does not get the first position (0, 0, 0) but the indeterminate
value (here (7, 7, 7)), because the count is compared as an `int`. -/
theorem parseFaceToken_reference_fails :
    parseFaceToken sampleEnv [⟨0, 0, 0⟩] [] [] "1/99999999999/1" = .error .outOfRange ∧
    (parseFaceToken markedEnv (List.replicate 2147483648 ⟨0, 0, 0⟩) [] [] "1").toOption.map
        (fun v => v.Position) = some ⟨7, 7, 7⟩ := by
  constructor
  · rfl
  · rw [parseFaceToken_many_positions markedEnv _ (List.length_replicate _ _)]
    rfl

/-! ### Files whose references are well formed -/

theorem findSlash_at (cs rest : List Char) (h : ∀ c ∈ cs, (c != '/') = true) (start : Nat)
    (pre : List Char) (hpre : pre.length = start) :
    findSlash (pre ++ (cs ++ '/' :: rest)) start = some (start + cs.length) := by
  unfold findSlash
  have hdrop : (pre ++ (cs ++ '/' :: rest)).drop start = cs ++ '/' :: rest := by
    rw [← hpre, List.drop_left]
  simp only [hdrop, (takeWhile_append_stop (fun d => d != '/') cs rest '/' h (by decide)).1]
  rw [if_pos]
  simp only [List.length_append, List.length_cons, hpre]
  omega

theorem findSlash_none (cs : List Char) (h : ∀ c ∈ cs, (c != '/') = true) (start : Nat)
    (pre : List Char) (hpre : pre.length = start) :
    findSlash (pre ++ cs) start = none := by
  unfold findSlash
  have hdrop : (pre ++ cs).drop start = cs := by
    rw [← hpre, List.drop_left]
  simp only [hdrop, takeWhile_of_all _ _ h]
  rw [if_neg]
  simp only [List.length_append, hpre]
  omega

theorem pushIndex_field (field : List Char) (indices : List Nat) (h : IndexField field)
    (hv : digitsValue field ≤ 2147483647) :
    ∃ l, pushIndex field indices = .ok l := by
  unfold pushIndex
  rcases h with h | h
  · subst h
    exact ⟨_, rfl⟩
  · have hne : field.isEmpty = false := by
      cases field with
      | nil => exact absurd rfl h.1
      | cons c cs => rfl
    simp only [hne, Bool.false_eq_true, if_false, stoiMinusOne_digits field h hv]
    exact ⟨_, rfl⟩

theorem processFaceVertex_finish (ix : FaceIndices) (f1 f2 f3 : List Char)
    (h1 : IndexField f1) (h2 : IndexField f2) (h3 : IndexField f3)
    (v1 : digitsValue f1 ≤ 2147483647) (v2 : digitsValue f2 ≤ 2147483647)
    (v3 : digitsValue f3 ≤ 2147483647) :
    ∃ ix1,
      (match pushIndex f1 ix.posIndices with
        | .error e => (.error e : Except LoadError FaceIndices)
        | .ok ps =>
          match pushIndex f2 ix.texIndices with
          | .error e => .error e
          | .ok ts =>
            match pushIndex f3 ix.normIndices with
            | .error e => .error e
            | .ok ns => .ok { posIndices := ps, texIndices := ts, normIndices := ns }) =
        .ok ix1 := by
  obtain ⟨l1, e1⟩ := pushIndex_field f1 ix.posIndices h1 v1
  obtain ⟨l2, e2⟩ := pushIndex_field f2 ix.texIndices h2 v2
  obtain ⟨l3, e3⟩ := pushIndex_field f3 ix.normIndices h3 v3
  simp only [e1, e2, e3]
  exact ⟨_, rfl⟩

/-- The helper `processFaceVertex` completes on a well-formed reference. -/
theorem processFaceVertex_wellFormed (t : String) (ix : FaceIndices) (h : WellFormedRef t) :
    ∃ ix1, processFaceVertex t ix = .ok ix1 := by
  obtain ⟨pd, td, nd, hp, ht, hn, vp, vt, vn, hshape⟩ := h
  have hps : ∀ c ∈ pd, (c != '/') = true := IndexField.no_slash (Or.inr hp)
  have e0 : digitsValue ([] : List Char) ≤ 2147483647 := by decide
  rcases hshape with h | h | h
  · subst h
    have s1 : findSlash (pd ++ '/' :: (td ++ '/' :: nd)) 0 = some pd.length := by
      have := findSlash_at pd (td ++ '/' :: nd) hps 0 [] rfl
      simpa using this
    have s2 : findSlash (pd ++ '/' :: (td ++ '/' :: nd)) (pd.length + 1) =
        some (pd.length + 1 + td.length) := by
      have := findSlash_at td nd ht.no_slash (pd.length + 1) (pd ++ ['/']) (by simp)
      simpa using this
    have d1 : (pd ++ '/' :: (td ++ '/' :: nd)).drop (pd.length + 1) = td ++ '/' :: nd := by
      rw [show pd ++ '/' :: (td ++ '/' :: nd) = (pd ++ ['/']) ++ (td ++ '/' :: nd) by simp,
        ← show (pd ++ ['/']).length = pd.length + 1 by simp, List.drop_left]
    have d2 : (pd ++ '/' :: (td ++ '/' :: nd)).drop (pd.length + 1 + td.length + 1) = nd := by
      rw [show pd ++ '/' :: (td ++ '/' :: nd) = (pd ++ '/' :: td ++ ['/']) ++ nd by simp,
        ← show (pd ++ '/' :: td ++ ['/']).length = pd.length + 1 + td.length + 1 by
          simp; omega,
        List.drop_left]
    unfold processFaceVertex
    simp only [String.toList]
    rw [s1]
    dsimp only
    rw [s2]
    dsimp only
    rw [d1, d2, List.take_left,
      show pd.length + 1 + td.length - pd.length - 1 = td.length by omega, List.take_left]
    exact processFaceVertex_finish ix pd td nd (Or.inr hp) ht hn vp vt vn
  · subst h
    have s1 : findSlash (pd ++ '/' :: td) 0 = some pd.length := by
      have := findSlash_at pd td hps 0 [] rfl
      simpa using this
    have s2 : findSlash (pd ++ '/' :: td) (pd.length + 1) = none := by
      have := findSlash_none td ht.no_slash (pd.length + 1) (pd ++ ['/']) (by simp)
      simpa using this
    have d1 : (pd ++ '/' :: td).drop (pd.length + 1) = td := by
      rw [show pd ++ '/' :: td = (pd ++ ['/']) ++ td by simp,
        ← show (pd ++ ['/']).length = pd.length + 1 by simp, List.drop_left]
    unfold processFaceVertex
    simp only [String.toList]
    rw [s1]
    dsimp only
    rw [s2]
    dsimp only
    rw [d1, List.take_left]
    exact processFaceVertex_finish ix pd td [] (Or.inr hp) ht (Or.inl rfl) vp vt e0
  · subst h
    have s1 : findSlash pd 0 = none := by
      have := findSlash_none pd hps 0 [] rfl
      simpa using this
    unfold processFaceVertex
    simp only [String.toList]
    rw [s1]
    exact processFaceVertex_finish ix pd [] [] (Or.inr hp) (Or.inl rfl) (Or.inl rfl) vp e0 e0

theorem parseFaceToken_wellFormed {F : Type} [Zero F] [One F] (env : LoaderEnv F)
    (positions normals : List (Vec3 F)) (texCoords : List (Vec2 F)) (t : String)
    (h : WellFormedRef t) :
    ∃ v, parseFaceToken env positions normals texCoords t = .ok v := by
  obtain ⟨pd, td, nd, hp, ht, hn, vp, vt, vn, hshape⟩ := h
  obtain ⟨a1, a2, a3⟩ := parseFaceToken_shapes env positions normals texCoords pd td nd hp ht hn
    vp vt vn
  rcases hshape with h | h | h
  · exact ⟨_, h ▸ a1⟩
  · exact ⟨_, h ▸ a2⟩
  · exact ⟨_, h ▸ a3⟩

theorem parseFaceTokens_wellFormed {F : Type} [Zero F] [One F] (env : LoaderEnv F)
    (positions normals : List (Vec3 F)) (texCoords : List (Vec2 F)) :
    ∀ tokens : List String, (∀ t ∈ tokens, WellFormedRef t) →
      ∃ fv, parseFaceTokens env positions normals texCoords tokens = .ok fv := by
  intro tokens
  induction tokens with
  | nil => intro _; exact ⟨[], rfl⟩
  | cons t ts ih =>
    intro h
    obtain ⟨v, hv⟩ := parseFaceToken_wellFormed env positions normals texCoords t
      (h t (List.mem_cons_self _ _))
    obtain ⟨vs, hvs⟩ := ih (fun u hu => h u (List.mem_cons_of_mem _ hu))
    exact ⟨v :: vs, by simp only [parseFaceTokens, hv, hvs]⟩

theorem processLine_wellFormed {F : Type} [Zero F] [One F] [LT F]
    [DecidableRel (fun a b : F => a < b)] (env : LoaderEnv F) (st : LoadState F) (l : Line F)
    (h : ∀ tokens, l = .f tokens → 3 ≤ tokens.length → ∀ t ∈ tokens, WellFormedRef t) :
    ∃ st1, processLine env st l = .ok st1 := by
  cases l with
  | v x y z => exact ⟨_, rfl⟩
  | vt u v => exact ⟨_, rfl⟩
  | vn x y z => exact ⟨_, rfl⟩
  | mtllib file => exact ⟨_, rfl⟩
  | other => exact ⟨_, rfl⟩
  | f tokens =>
    by_cases hlt : tokens.length < 3
    · exact ⟨st, by simp only [processLine, if_pos hlt]⟩
    · obtain ⟨fv, hfv⟩ := parseFaceTokens_wellFormed env st.positions st.normals st.texCoords
        tokens (h tokens rfl (by omega))
      simp only [processLine, if_neg hlt, hfv]
      exact ⟨_, rfl⟩

theorem processLines_wellFormed {F : Type} [Zero F] [One F] [LT F]
    [DecidableRel (fun a b : F => a < b)] (env : LoaderEnv F) :
    ∀ (lines : List (Line F)) (st : LoadState F),
      (∀ tokens, Line.f tokens ∈ lines → 3 ≤ tokens.length → ∀ t ∈ tokens, WellFormedRef t) →
      ∃ st1, processLines env st lines = .ok st1 := by
  intro lines
  induction lines with
  | nil => intro st _; exact ⟨st, rfl⟩
  | cons l ls ih =>
    intro st h
    obtain ⟨st2, h2⟩ := processLine_wellFormed env st l
      (fun tokens heq => h tokens (by rw [heq]; exact List.mem_cons_self _ _))
    obtain ⟨st1, h1⟩ := ih st2 (fun tokens hm => h tokens (List.mem_cons_of_mem _ hm))
    exact ⟨st1, by simp only [processLines, h2, h1]⟩

theorem processFace_wellFormed (vertices : List String) (ix : FaceIndices)
    (h : 3 ≤ vertices.length → ∀ t ∈ vertices, WellFormedRef t) :
    ∃ ix1, processFace vertices ix = .ok ix1 := by
  unfold processFace
  by_cases h3 : 3 ≤ vertices.length
  · have hw := h h3
    rw [dif_pos h3]
    obtain ⟨a, ha⟩ := processFaceVertex_wellFormed vertices[0] ix
      (hw _ (List.getElem_mem _))
    obtain ⟨b, hb⟩ := processFaceVertex_wellFormed vertices[1] a
      (hw _ (List.getElem_mem _))
    obtain ⟨c, hc⟩ := processFaceVertex_wellFormed vertices[2] b
      (hw _ (List.getElem_mem _))
    simp only [bind, Except.bind, ha, hb, hc]
    by_cases h4 : vertices.length = 4
    · rw [dif_pos h4]
      obtain ⟨d, hd⟩ := processFaceVertex_wellFormed vertices[0] c
        (hw _ (List.getElem_mem _))
      obtain ⟨e, he⟩ := processFaceVertex_wellFormed vertices[2] d
        (hw _ (List.getElem_mem _))
      obtain ⟨f, hf⟩ := processFaceVertex_wellFormed vertices[3] e
        (hw _ (List.getElem_mem _))
      simp only [hd, he, hf]
      exact ⟨_, rfl⟩
    · rw [dif_neg h4]
      exact ⟨_, rfl⟩
  · rw [dif_neg h3]
    exact ⟨_, rfl⟩

theorem parseLines_wellFormed {F : Type} :
    ∀ (lines : List (Line F)) (ps : ParseState F),
      (∀ tokens, Line.f tokens ∈ lines → 3 ≤ tokens.length → ∀ t ∈ tokens, WellFormedRef t) →
      ∃ ps1, parseLines ps lines = .ok ps1 := by
  intro lines
  induction lines with
  | nil => intro ps _; exact ⟨ps, rfl⟩
  | cons l ls ih =>
    intro ps h
    have hl : ∃ ps2, parseLine ps l = .ok ps2 := by
      cases l with
      | v x y z => exact ⟨_, rfl⟩
      | vt u v => exact ⟨_, rfl⟩
      | vn x y z => exact ⟨_, rfl⟩
      | mtllib file => exact ⟨_, rfl⟩
      | other => exact ⟨_, rfl⟩
      | f tokens =>
        obtain ⟨ix1, hix⟩ := processFace_wellFormed tokens ps.ix
          (h tokens (List.mem_cons_self _ _))
        exact ⟨{ ps with ix := ix1 }, by simp only [parseLine, hix]⟩
    obtain ⟨ps2, h2⟩ := hl
    obtain ⟨ps1, h1⟩ := ih ps2 (fun tokens hm => h tokens (List.mem_cons_of_mem _ hm))
    exact ⟨ps1, by simp only [parseLines, h2, h1]⟩

/-- C18 (amended): on a file in which every face line with at least 3
tokens consists of well-formed references (`p`, `p/t`, `p/t/n`, `p//n` with
digit-string fields of value at most `INT_MAX`), parsing completes:
`Model::loadOBJ` returns a model and the line loop of `loadOBJModel`, with
its calls of `processFaceVertex`, ends normally. -/
theorem parsing_completes {F : Type} [Zero F] [One F] [LT F]
    [DecidableRel (fun a b : F => a < b)] (env : LoaderEnv F) (m : Model F)
    (lines : List (Line F))
    (h : ∀ tokens, Line.f tokens ∈ lines → 3 ≤ tokens.length →
      ∀ t ∈ tokens, WellFormedRef t) :
    (∃ m1, loadOBJ env m (some lines) = .ok m1) ∧
      (∃ ps : ParseState F, parseLines ⟨[], [], [], ⟨[], [], []⟩⟩ lines = .ok ps) := by
  constructor
  · obtain ⟨st, hst⟩ := processLines_wellFormed env lines ⟨m, [], [], [], [], []⟩ h
    exact loadOBJ_ok_of_processLines env m lines st hst
  · exact parseLines_wellFormed lines _ h

theorem wellFormedRef_digit (c : Char) (h : c.isDigit = true) :
    WellFormedRef (String.mk [c]) := by
  have h9 : digitsValue [c] ≤ 2147483647 := by
    have := isDigit_toNat c h
    simp only [digitsValue, List.foldl]
    omega
  exact ⟨[c], [], [], ⟨by simp, by simpa using h⟩, Or.inl rfl, Or.inl rfl, h9, by decide,
    by decide, Or.inr (Or.inr rfl)⟩

/-- The pentagon file has well-formed references: both parsers complete. -/
theorem parsing_completes_witness :
    (∃ m1, loadOBJ sampleEnv (Model.init 1000 ".") (some pentagonFile) = .ok m1) ∧
      (∃ ps : ParseState ℤ, parseLines ⟨[], [], [], ⟨[], [], []⟩⟩ pentagonFile = .ok ps) :=
  parsing_completes sampleEnv (Model.init 1000 ".") pentagonFile (by
    intro tokens hm _ t ht
    simp only [pentagonFile, List.mem_cons, List.mem_singleton, Line.f.injEq, reduceCtorEq,
      false_or, List.not_mem_nil, or_false] at hm
    subst hm
    simp only [List.mem_cons, List.mem_singleton, List.not_mem_nil, or_false] at ht
    rcases ht with h | h | h | h | h <;> subst h
    · exact wellFormedRef_digit '1' (by decide)
    · exact wellFormedRef_digit '2' (by decide)
    · exact wellFormedRef_digit '3' (by decide)
    · exact wellFormedRef_digit '4' (by decide)
    · exact wellFormedRef_digit '5' (by decide))

/-- C18 as stated fails: on the face line `f a b c` `Model::loadOBJ` ends in
the `invalid_argument` exception of `std::stoi`, on `f 1 2 99999999999` in
its `out_of_range` exception, and `processFaceVertex` throws on the token
`a` as well. -/
theorem parsing_throws :
    loadOBJ sampleEnv (Model.init 1000 ".") (some lettersFile) = .error .invalidArgument ∧
    loadOBJ sampleEnv (Model.init 1000 ".") (some [.f ["1", "2", "99999999999"]]) =
      .error .outOfRange ∧
    processFaceVertex "a" ⟨[], [], []⟩ = .error .invalidArgument :=
  ⟨rfl, rfl, rfl⟩

/-! ### Fallback normals -/

/-- With no normal index collected, the vertex loop of `loadOBJModel` emits 8
floats per position index: the position, two texture floats and
`normalize` of the position. -/
theorem buildVertices_no_normals {F : Type} [Zero F] (env : ObjEnv F)
    (positions : List (Vec3 F)) (texCoords : List (Vec2 F)) (normals : List (Vec3 F))
    (texIndices : List Nat) :
    ∀ (rest : List Nat) (i : Nat) (acc r : List F × List Nat),
      buildVertices env positions texCoords normals texIndices [] i rest acc = .ok r →
      ∃ t : List F, r.1 = acc.1 ++ t ∧ t.length = 8 * rest.length ∧
        ∀ (j p : Nat), rest[j]? = some p →
          ∃ pos, positions[p]? = some pos ∧
            t[8 * j]? = some pos.x ∧ t[8 * j + 1]? = some pos.y ∧ t[8 * j + 2]? = some pos.z ∧
            t[8 * j + 5]? = some (env.normalize pos).x ∧
            t[8 * j + 6]? = some (env.normalize pos).y ∧
            t[8 * j + 7]? = some (env.normalize pos).z := by
  intro rest
  induction rest with
  | nil =>
    intro i acc r h
    simp only [buildVertices, Except.ok.injEq] at h
    subst h
    exact ⟨[], by simp, rfl, fun j p hj => by simp at hj⟩
  | cons q qs ih =>
    intro i acc r h
    unfold buildVertices at h
    cases hq : positions[q]? with
    | none => rw [hq] at h; cases h
    | some pos =>
      rw [hq] at h
      simp only [List.length_nil, Nat.not_lt_zero, dite_false] at h
      obtain ⟨t, ht, hlen, hel⟩ := ih (i + 1) _ r h
      rw [List.append_assoc] at ht
      refine ⟨_, ht, ?_, ?_⟩
      · simp only [List.cons_append, List.nil_append, List.length_cons, hlen]
        omega
      · intro j p hj
        simp only [List.cons_append, List.nil_append]
        cases j with
        | zero =>
          simp only [List.getElem?_cons_zero, Option.some.injEq] at hj
          subst hj
          refine ⟨pos, hq, ?_, ?_, ?_, ?_, ?_, ?_⟩ <;> simp
        | succ j =>
          simp only [List.getElem?_cons_succ] at hj
          obtain ⟨pos1, h0, h1, h2, h3, h4, h5, h6⟩ := hel j p hj
          refine ⟨pos1, h0, ?_, ?_, ?_, ?_, ?_, ?_⟩
          · rw [show 8 * (j + 1) = 8 * j + 1 + 1 + 1 + 1 + 1 + 1 + 1 + 1 by omega]
            simpa only [List.getElem?_cons_succ] using h1
          · rw [show 8 * (j + 1) + 1 = 8 * j + 1 + 1 + 1 + 1 + 1 + 1 + 1 + 1 + 1 by omega]
            simpa only [List.getElem?_cons_succ] using h2
          · rw [show 8 * (j + 1) + 2 = 8 * j + 2 + 1 + 1 + 1 + 1 + 1 + 1 + 1 + 1 by omega]
            simpa only [List.getElem?_cons_succ] using h3
          · rw [show 8 * (j + 1) + 5 = 8 * j + 5 + 1 + 1 + 1 + 1 + 1 + 1 + 1 + 1 by omega]
            simpa only [List.getElem?_cons_succ] using h4
          · rw [show 8 * (j + 1) + 6 = 8 * j + 6 + 1 + 1 + 1 + 1 + 1 + 1 + 1 + 1 by omega]
            simpa only [List.getElem?_cons_succ] using h5
          · rw [show 8 * (j + 1) + 7 = 8 * j + 7 + 1 + 1 + 1 + 1 + 1 + 1 + 1 + 1 by omega]
            simpa only [List.getElem?_cons_succ] using h6

/-! ### Textures of the mesh of `Model::loadOBJ` -/

theorem defaultTextureLoop_find {F : Type} (env : LoaderEnv F) (paths : List String) :
    defaultTextureLoop env paths =
      ((paths.find? (fun p => decide (env.textureFromFile p ≠ 0))).map
        (fun p => ({ id := env.textureFromFile p, type := "diffuse", path := p } : Texture))).toList := by
  induction paths with
  | nil => rfl
  | cons p ps ih =>
    unfold defaultTextureLoop
    by_cases hp : env.textureFromFile p ≠ 0
    · rw [if_pos hp, List.find?_cons_of_pos _ (by simpa using hp)]
      rfl
    · rw [if_neg hp, List.find?_cons_of_neg _ (by simpa using hp), ih]

theorem loadOBJ_mesh_textures {F : Type} [Zero F] [One F] [LT F]
    [DecidableRel (fun a b : F => a < b)] (env : LoaderEnv F) (m m1 : Model F)
    (lines : List (Line F)) (h : loadOBJ env m (some lines) = .ok m1)
    (ht : 0 < triangleCount lines) :
    ∃ mesh : Mesh F, m1.meshes = m.meshes ++ [mesh] ∧ mesh.textures = selectTextures env m1 := by
  simp only [loadOBJ] at h
  cases hp : processLines env
      { model := m, positions := [], normals := [], texCoords := [], vertices := [],
        indices := [] } lines with
  | error e => rw [hp] at h; cases h
  | ok st =>
    rw [hp] at h
    dsimp only at h
    obtain ⟨hlen, -, hmesh⟩ := processLines_buffers env lines _ st hp
    simp only [List.length_nil, Nat.zero_add] at hlen hmesh
    by_cases hv : st.vertices.isEmpty = true
    · rw [List.isEmpty_iff] at hv
      rw [hv] at hlen
      simp only [List.length_nil] at hlen
      omega
    · rw [if_pos (by simp [hv])] at h
      simp only [Except.ok.injEq] at h
      subst h
      exact ⟨_, by rw [hmesh], rfl⟩

/-- With an empty material map after the line loop, a load of
`Model::loadOBJ` that returns with at least one triangle appends one mesh
whose texture is the single diffuse texture of the first of the paths
`directory/../textures/Textures_color.png`, `280z_CarPaint_AO.png`,
`SSR_Color_alternative.png` (in that order) that `TextureFromFile` loads, and
none when none loads. -/
theorem default_textures_empty_map {F : Type} [Zero F] [One F] [LT F]
    [DecidableRel (fun a b : F => a < b)] (env : LoaderEnv F) (m m1 : Model F)
    (lines : List (Line F)) (h : loadOBJ env m (some lines) = .ok m1)
    (ht : 0 < triangleCount lines) (hnil : m1.materials = []) :
    ∃ mesh : Mesh F, m1.meshes = m.meshes ++ [mesh] ∧
      mesh.textures =
        (([m1.directory ++ "/../textures/Textures_color.png",
            m1.directory ++ "/../textures/280z_CarPaint_AO.png",
            m1.directory ++ "/../textures/SSR_Color_alternative.png"].find?
          (fun p => decide (env.textureFromFile p ≠ 0))).map
          (fun p => ({ id := env.textureFromFile p, type := "diffuse", path := p } :
            Texture))).toList := by
  obtain ⟨mesh, hm, htex⟩ := loadOBJ_mesh_textures env m m1 lines h ht
  refine ⟨mesh, hm, ?_⟩
  rw [htex, selectTextures, if_neg (by simp [hnil]), defaultTextureLoop_find]

/-- Without a material file and with only the second default texture on the
file system, the mesh of `quadFile` gets that texture, of type diffuse. -/
theorem default_textures_empty_map_second :
    ∃ (m1 : Model ℤ) (mesh : Mesh ℤ),
      loadOBJ (fileSysEnv secondDefaultFs ⟨0, 0, 0⟩) (Model.init 1000 ".") (some quadFile) =
        .ok m1 ∧
      0 < triangleCount quadFile ∧ m1.meshes = [mesh] ∧
      mesh.textures =
        [{ id := 9, type := "diffuse", path := "./../textures/280z_CarPaint_AO.png" }] := by
  obtain ⟨mesh, hm, h1⟩ :=
    default_textures_empty_map (fileSysEnv secondDefaultFs ⟨0, 0, 0⟩) (Model.init 1000 ".") _
      quadFile rfl (by decide) rfl
  refine ⟨_, mesh, rfl, by decide, hm, ?_⟩
  rw [h1]
  decide

/-- C19 on `emptyMaterialFile`: the material file leaves the one material
`body` with an empty texture list, so no material yielded a texture, and the
first default texture loads with the name 7; yet `Model::loadOBJ` does not try
the default paths and creates the mesh without any texture. -/
theorem default_textures_not_tried :
    TextureFromFile emptyMaterialFs "./../textures/Textures_color.png" = 7 ∧
      (loadOBJ (fileSysEnv emptyMaterialFs ⟨0, 0, 0⟩) (Model.init 1000 ".")
          (some emptyMaterialFile)).toOption.map
        (fun m1 => (m1.materials, m1.meshes.map (fun mesh => mesh.textures))) =
        some ([("body", [])], [[]]) := by
  decide

/-! ### Texture lines of `Model::loadMTL` -/

theorem findLastOfAux_none (set : List Char) :
    ∀ (cs : List Char) (i : Nat) (acc : Option Nat), (∀ c ∈ cs, set.contains c = false) →
      findLastOfAux set cs i acc = acc := by
  intro cs
  induction cs with
  | nil => intro i acc _; rfl
  | cons c cs ih =>
    intro i acc h
    rw [findLastOfAux, h c (List.mem_cons_self _ _)]
    exact ih _ _ (fun d hd => h d (List.mem_cons_of_mem _ hd))

theorem findLastOfAux_last (set : List Char) (sep : Char) (name : List Char)
    (hsep : set.contains sep = true) (hname : ∀ c ∈ name, set.contains c = false) :
    ∀ (pre : List Char) (i : Nat) (acc : Option Nat),
      findLastOfAux set (pre ++ sep :: name) i acc = some (i + pre.length) := by
  intro pre
  induction pre with
  | nil =>
    intro i acc
    rw [List.nil_append, findLastOfAux, hsep, if_pos rfl, findLastOfAux_none set name _ _ hname]
    rfl
  | cons c cs ih =>
    intro i acc
    rw [List.cons_append, findLastOfAux, ih, List.length_cons]
    congr 1
    omega

theorem stripDirectory_path (pre name : List Char) (sep : Char)
    (hsep : separators.contains sep = true) (hne : name ≠ [])
    (hname : ∀ c ∈ name, separators.contains c = false) :
    stripDirectory (String.mk (pre ++ sep :: name)) = String.mk name := by
  have hpos : 0 < name.length := List.length_pos.2 hne
  simp only [stripDirectory, findLastOf, String.toList,
    findLastOfAux_last separators sep name hsep hname pre 0 none, Nat.zero_add]
  rw [if_pos (by simp only [List.length_append, List.length_cons]; omega)]
  congr 1
  rw [List.drop_append_eq_append_drop]
  simp

theorem stripDirectory_name (name : List Char)
    (hname : ∀ c ∈ name, separators.contains c = false) :
    stripDirectory (String.mk name) = String.mk name := by
  simp only [stripDirectory, findLastOf, String.toList, findLastOfAux_none separators name _ _ hname]

theorem loadTextureLoop_find (fs : FileSys) (type : String) (paths : List String) :
    loadTextureLoop fs type paths =
      (paths.find? (fun c => decide (TextureFromFile fs c ≠ 0))).map
        (fun c => ({ id := TextureFromFile fs c, type := type, path := c } : Texture)) := by
  induction paths with
  | nil => rfl
  | cons p ps ih =>
    unfold loadTextureLoop
    by_cases hp : TextureFromFile fs p ≠ 0
    · rw [if_pos hp, List.find?_cons_of_pos _ (by simpa using hp)]
      rfl
    · rw [if_neg hp, List.find?_cons_of_neg _ (by simpa using hp), ih]

theorem TextureFromFile_loaded (fs : FileSys) (path : String)
    (h : TextureFromFile fs path ≠ 0) :
    fs.isGood (normalizePath path) = true ∧
      ∃ width height nrComponents : Int,
        fs.stbiLoad (normalizePath path) = some (width, height, nrComponents) ∧
        0 < width ∧ 0 < height ∧ (nrComponents = 1 ∨ nrComponents = 3 ∨ nrComponents = 4) := by
  unfold TextureFromFile at h
  dsimp only at h
  by_cases hg : fs.isGood (normalizePath path) = true
  · rw [if_pos hg] at h
    refine ⟨hg, ?_⟩
    cases hl : fs.stbiLoad (normalizePath path) with
    | none => rw [hl] at h; exact absurd rfl h
    | some r =>
      obtain ⟨width, height, nrComponents⟩ := r
      rw [hl] at h
      dsimp only at h
      by_cases hs : 0 < width ∧ 0 < height ∧ 0 < nrComponents
      · rw [if_pos hs] at h
        refine ⟨width, height, nrComponents, rfl, hs.1, hs.2.1, ?_⟩
        by_contra hn
        simp only [not_or] at hn
        simp [formatOfChannels, hn.1, hn.2.1, hn.2.2] at h
      · rw [if_neg hs] at h
        exact absurd rfl h
  · rw [if_neg hg] at h
    exact absurd rfl h

theorem mapPush_mem (key : String) (t : Texture) :
    ∀ mats : List (String × List Texture), ∃ ts, (key, ts ++ [t]) ∈ mapPush key t mats := by
  intro mats
  induction mats with
  | nil => exact ⟨[], by simp [mapPush]⟩
  | cons kv rest ih =>
    obtain ⟨k, v⟩ := kv
    unfold mapPush
    by_cases h1 : keyLess key.toList k.toList = true
    · rw [if_pos h1]
      exact ⟨[], by simp⟩
    · rw [if_neg h1]
      by_cases h2 : key = k
      · rw [if_pos h2]
        exact ⟨v, by simp [h2]⟩
      · rw [if_neg h2]
        obtain ⟨ts, hts⟩ := ih
        exact ⟨ts, List.mem_cons_of_mem _ hts⟩

/-- C20 (amended): in `Model::loadMTL`, for a `map_Kd`/`map_Ks`/`map_Ka` line
with a non-empty path, a path that has a non-empty part after its last `/` or
`\` gives the same candidate list as that part alone; the texture appended
to the list of the current material has the path of the first candidate for
which `TextureFromFile` returns a non-zero name, and such a candidate is a
file that is there and decodes to a positive size with 1, 3 or 4 channels;
when no candidate loads, nothing is recorded. -/
theorem loadMTL_map_line (fs : FileSys) (directory : String) (st : MtlState) (kind : MapKind)
    (texPath : String) (hne : texPath ≠ "") :
    (∀ (pre name : List Char) (sep : Char), separators.contains sep = true → name ≠ [] →
      (∀ c ∈ name, separators.contains c = false) → texPath = String.mk (pre ++ sep :: name) →
      textureCandidates directory texPath = textureCandidates directory (String.mk name)) ∧
    (∀ texFile,
      (textureCandidates directory texPath).find? (fun c => decide (TextureFromFile fs c ≠ 0)) =
        some texFile →
      processMtlLine fs directory st (.map kind texPath) =
          ⟨mapPush st.currentMaterial ⟨TextureFromFile fs texFile, textureType kind, texFile⟩
            st.materials, st.currentMaterial⟩ ∧
        (∃ ts, (st.currentMaterial,
            ts ++ [(⟨TextureFromFile fs texFile, textureType kind, texFile⟩ : Texture)]) ∈
          (processMtlLine fs directory st (.map kind texPath)).materials) ∧
        fs.isGood (normalizePath texFile) = true ∧
        ∃ width height nrComponents : Int,
          fs.stbiLoad (normalizePath texFile) = some (width, height, nrComponents) ∧
          0 < width ∧ 0 < height ∧ (nrComponents = 1 ∨ nrComponents = 3 ∨ nrComponents = 4)) ∧
    ((textureCandidates directory texPath).find? (fun c => decide (TextureFromFile fs c ≠ 0)) =
        none →
      processMtlLine fs directory st (.map kind texPath) = st) := by
  refine ⟨?_, ?_, ?_⟩
  · intro pre name sep hsep hn hname htp
    subst htp
    simp only [textureCandidates, stripDirectory_path pre name sep hsep hn hname,
      stripDirectory_name name hname]
  · intro texFile hf
    have hp : processMtlLine fs directory st (.map kind texPath) =
        ⟨mapPush st.currentMaterial ⟨TextureFromFile fs texFile, textureType kind, texFile⟩
          st.materials, st.currentMaterial⟩ := by
      simp only [processMtlLine, if_neg hne, loadTextureLoop_find, hf, Option.map_some']
    refine ⟨hp, ?_, ?_⟩
    · rw [hp]
      exact mapPush_mem _ _ _
    · have := List.find?_some hf
      exact TextureFromFile_loaded fs texFile (by simpa using this)
  · intro hf
    simp only [processMtlLine, if_neg hne, loadTextureLoop_find, hf, Option.map_none']

/-- C20 (amended) at the path `/home/me/car/body_color.dds` with only
`models/car/Textures/body_color.png` there: that path is recorded. -/
theorem loadMTL_map_line_witness :
    "/home/me/car/body_color.dds" ≠ "" ∧
      textureCandidates "models/car" "/home/me/car/body_color.dds" =
        textureCandidates "models/car" "body_color.dds" ∧
      processMtlLine bodyFs "models/car" ⟨[("body", [])], "body"⟩
          (.map .Kd "/home/me/car/body_color.dds") =
        ⟨[("body", [⟨5, "diffuse", "models/car/Textures/body_color.png"⟩])], "body"⟩ :=
  ⟨by decide, by decide,
    ((loadMTL_map_line bodyFs "models/car" ⟨[("body", [])], "body"⟩ .Kd
      "/home/me/car/body_color.dds" (by decide)).2.1
        "models/car/Textures/body_color.png" (by decide)).1.trans (by decide)⟩

/-- C20 as stated fails: with `undecodableFs` the first candidate that exists
is `models/car/Textures/body_color.png`, but the path recorded is
`models/car/body_color.png`; and a path ending in a separator keeps its
directory part in the candidates. -/
theorem loadMTL_first_existing_skipped :
    (textureCandidates "models/car" "/home/me/car/body_color.dds").find?
        (fun c => undecodableFs.isGood (normalizePath c)) =
        some "models/car/Textures/body_color.png" ∧
      processMtlLine undecodableFs "models/car" ⟨[("body", [])], "body"⟩
          (.map .Kd "/home/me/car/body_color.dds") =
        ⟨[("body", [⟨5, "diffuse", "models/car/body_color.png"⟩])], "body"⟩ ∧
      (textureCandidates "models/car" "shared/").head? =
        some "models/car/Textures/shared/.png" := by
  decide

/-! ### Skipped texture lines of `Model::loadMTL` -/

theorem collapseSlashes_of_no_slash :
    ∀ s : List Char, (∀ c ∈ s, c ≠ '/') → collapseSlashes s = s := by
  intro s
  induction s with
  | nil => intro _; rfl
  | cons c cs ih =>
    intro h
    rw [collapseSlashes, if_neg (fun hc => h c (List.mem_cons_self _ _) hc.1),
      ih (fun d hd => h d (List.mem_cons_of_mem _ hd))]

theorem collapseSlashes_suffix (s : List Char) (hs : ∀ c ∈ s, c ≠ '/') :
    ∀ l : List Char, s <:+ collapseSlashes (l ++ s) := by
  intro l
  induction l with
  | nil =>
    rw [List.nil_append, collapseSlashes_of_no_slash s hs]
  | cons c cs ih =>
    rw [List.cons_append, collapseSlashes]
    split
    · exact ih
    · exact ih.trans (List.suffix_cons _ _)

/-- The file name opened for a path ending in an extension without slash or
backslash ends in that extension. -/
theorem normalizePath_suffix (body : String) (ext : List Char)
    (hs : ∀ c ∈ ext, c ≠ '/' ∧ c ≠ Char.ofNat 92) :
    ext <:+ (normalizePath (body ++ String.mk ext)).toList := by
  have hmap : ext.map (fun c => if c = Char.ofNat 92 then '/' else c) = ext := by
    conv_rhs => rw [← List.map_id ext]
    apply List.map_congr_left
    intro c hc
    rw [if_neg (hs c hc).2]
    rfl
  simp only [normalizePath, String.toList, String.data_append, List.map_append, hmap]
  exact collapseSlashes_suffix ext (fun c hc => (hs c hc).1) _

/-- Two suffixes of one list, the first at least as long as the second one
which has the length of `e`: the first ends in `e` when the second is `e`. -/
theorem suffix_ext_eq (name e x c : List Char) (hname : e <:+ name) (hc : x <:+ c)
    (hlen : x.length = e.length) (h : name <:+ c) : e = x := by
  have h1 : e <:+ c := hname.trans h
  have h2 : e <:+ x := List.suffix_of_suffix_length_le h1 hc (by omega)
  exact h2.eq_of_length hlen.symm

theorem candidates_of_dds (directory token : String) (d : Nat)
    (hdot : findLastOf ['.'] (stripDirectory token).toList = some d)
    (hext : ((stripDirectory token).toList.drop d).map Char.toLower = ['.', 'd', 'd', 's']) :
    ∀ c ∈ textureCandidates directory token,
      ∃ body : String, c = body ++ ".png" ∨ c = body ++ ".bmp" ∨ c = body ++ ".tga" := by
  intro c hc
  have hk : (String.mk (List.map Char.toLower (List.drop d (stripDirectory token).toList)) !=
      ".dds") = false := by
    rw [hext]
    decide
  simp only [textureCandidates, hdot, hk, Bool.false_eq_true, if_false, List.append_nil,
    List.cons_append, List.nil_append, List.mem_cons, List.mem_singleton] at hc
  rcases hc with h | h | h | h | h | h | h | h | h | h | h | h | h
  all_goals first
    | exact ⟨_, Or.inl h⟩
    | exact ⟨_, Or.inr (Or.inl h)⟩
    | exact ⟨_, Or.inr (Or.inr h)⟩
    | exact absurd h (List.not_mem_nil _)


/-- C21: in `Model::loadMTL`, when the part of the path after its last dot is
`.dds` in any letter case, every candidate path ends in `.png`, `.bmp` or
`.tga`, so neither a candidate nor the file name `TextureFromFile` opens for
it ends with the `.dds` file name; and for any `map_*` line none of whose
candidates loads, the line leaves the material map and the current material
as they were and the lines after it are processed as if it were not there. -/
theorem dds_skipped :
    (∀ (directory token : String) (d : Nat),
      findLastOf ['.'] (stripDirectory token).toList = some d →
      ((stripDirectory token).toList.drop d).map Char.toLower = ['.', 'd', 'd', 's'] →
      ∀ c ∈ textureCandidates directory token,
        ¬ (stripDirectory token).toList <:+ c.toList ∧
          ¬ (stripDirectory token).toList <:+ (normalizePath c).toList) ∧
    (∀ (fs : FileSys) (directory token : String) (kind : MapKind),
      (∀ c ∈ textureCandidates directory token, TextureFromFile fs c = 0) →
      (∀ st : MtlState, processMtlLine fs directory st (.map kind token) = st) ∧
      (∀ (pre post : List MtlLine) (st : MtlState),
        (pre ++ MtlLine.map kind token :: post).foldl (processMtlLine fs directory) st =
          (pre ++ post).foldl (processMtlLine fs directory) st) ∧
      (∀ (path : String) (pre post : List MtlLine) (materials : List (String × List Texture)),
        fs.readMTL path = some (pre ++ MtlLine.map kind token :: post) →
        loadMTL fs directory path materials =
          ((pre ++ post).foldl (processMtlLine fs directory) ⟨materials, ""⟩).materials)) := by
  constructor
  · intro directory token d hdot hext c hc
    obtain ⟨body, hbody⟩ := candidates_of_dds directory token d hdot hext c hc
    have hlen : ((stripDirectory token).toList.drop d).length = 4 := by
      have := congrArg List.length hext
      simpa using this
    have hsuf : (stripDirectory token).toList.drop d <:+ (stripDirectory token).toList :=
      List.drop_suffix _ _
    have key : ∀ x : List Char, x.length = 4 → x.map Char.toLower ≠ ['.', 'd', 'd', 's'] →
        ∀ l : List Char, x <:+ l → ¬ (stripDirectory token).toList <:+ l := by
      intro x hx hne l hl h
      have := suffix_ext_eq _ _ x l hsuf hl (by omega) h
      rw [this] at hext
      exact hne hext
    rcases hbody with h | h | h
    · subst h
      exact ⟨key ['.', 'p', 'n', 'g'] rfl (by decide) _ ⟨body.toList, rfl⟩,
        key ['.', 'p', 'n', 'g'] rfl (by decide) _
          (normalizePath_suffix body ['.', 'p', 'n', 'g'] (by decide))⟩
    · subst h
      exact ⟨key ['.', 'b', 'm', 'p'] rfl (by decide) _ ⟨body.toList, rfl⟩,
        key ['.', 'b', 'm', 'p'] rfl (by decide) _
          (normalizePath_suffix body ['.', 'b', 'm', 'p'] (by decide))⟩
    · subst h
      exact ⟨key ['.', 't', 'g', 'a'] rfl (by decide) _ ⟨body.toList, rfl⟩,
        key ['.', 't', 'g', 'a'] rfl (by decide) _
          (normalizePath_suffix body ['.', 't', 'g', 'a'] (by decide))⟩
  · intro fs directory token kind hno
    have hfind : (textureCandidates directory token).find?
        (fun c => decide (TextureFromFile fs c ≠ 0)) = none := by
      rw [List.find?_eq_none]
      intro c hc
      simpa using hno c hc
    have hline : ∀ st : MtlState, processMtlLine fs directory st (.map kind token) = st := by
      intro st
      by_cases he : token = ""
      · simp only [processMtlLine, if_pos he]
      · simp only [processMtlLine, if_neg he, loadTextureLoop_find, hfind, Option.map_none']
    have hfold : ∀ (pre post : List MtlLine) (st : MtlState),
        (pre ++ MtlLine.map kind token :: post).foldl (processMtlLine fs directory) st =
          (pre ++ post).foldl (processMtlLine fs directory) st := by
      intro pre post st
      rw [List.foldl_append, List.foldl_cons, hline, List.foldl_append]
    refine ⟨hline, hfold, ?_⟩
    intro path pre post materials hread
    simp only [loadMTL, hread, hfold]

/-- C21 at the material file of `ddsFs`: no candidate for `Body.DDS` ends
with that name, the material `body` stays without texture and the material
`glass` after it gets its texture. -/
theorem dds_skipped_witness :
    (∀ c ∈ textureCandidates "." "C:/cars/Body.DDS",
      ¬ "Body.DDS".toList <:+ c.toList ∧ ¬ "Body.DDS".toList <:+ (normalizePath c).toList) ∧
    loadMTL ddsFs "." "./car.mtl" [] =
      [("body", []), ("glass", [⟨3, "diffuse", "./Textures/glass.png"⟩])] :=
  ⟨dds_skipped.1 "." "C:/cars/Body.DDS" 4 (by decide) (by decide),
    ((dds_skipped.2 ddsFs "." "C:/cars/Body.DDS" .Kd (by decide)).2.2 "./car.mtl"
      [.newmtl (some "body")] [.newmtl (some "glass"), .map .Kd "glass.png"] []
      (by decide)).trans (by decide)⟩

/-! ### Channel counts in the two texture loaders -/

/-- The format `Model::TextureFromFile` uploads with, and that it fails on
every other channel count. -/
theorem TextureFromFile_format (fs : FileSys) (path : String) (width height nrComponents : Int)
    (hload : fs.stbiLoad (normalizePath path) = some (width, height, nrComponents)) :
    (formatOfChannels 1 = some .red ∧ formatOfChannels 3 = some .rgb ∧
      formatOfChannels 4 = some .rgba) ∧
    (nrComponents ≠ 1 → nrComponents ≠ 3 → nrComponents ≠ 4 → TextureFromFile fs path = 0) := by
  refine ⟨⟨rfl, rfl, rfl⟩, ?_⟩
  intro h1 h3 h4
  unfold TextureFromFile
  dsimp only
  split
  · rw [hload]
    dsimp only
    split
    · simp [formatOfChannels, h1, h3, h4]
    · rfl
  · rfl

/-- C22 on a 2-channel image: `Model::TextureFromFile` returns 0, while
`loadTexture` returns the generated name 9 with `format` never assigned. -/
theorem loadTexture_two_channels :
    greyAlphaFs.stbiLoad "grey.png" = some (64, 64, 2) ∧
      TextureFromFile greyAlphaFs "grey.png" = 0 ∧
      loadTexture greyAlphaFs "grey.png" = 9 ∧
      loadTextureFormat 2 = none := by
  decide

/-! ### The collision test and common points -/

/-- Two closed intervals with `lo ≤ hi` each share a point iff each starts
before the other ends. -/
theorem interval_common {F : Type} [LinearOrder F] (a1 a2 b1 b2 : F) (ha : a1 ≤ a2)
    (hb : b1 ≤ b2) :
    (a1 ≤ b2 ∧ a2 ≥ b1) ↔ ∃ t, (a1 ≤ t ∧ t ≤ a2) ∧ (b1 ≤ t ∧ t ≤ b2) := by
  constructor
  · rintro ⟨h1, h2⟩
    exact ⟨max a1 b1, ⟨le_max_left _ _, max_le ha h2⟩, ⟨le_max_right _ _, max_le h1 hb⟩⟩
  · rintro ⟨t, ⟨h1, h2⟩, ⟨h3, h4⟩⟩
    exact ⟨le_trans h1 h4, le_trans h3 h2⟩

/-- The world box of an object with non-negative scale and ordered local
bounds is ordered. -/
theorem worldMin_le_worldMax {F : Type} [LinearOrderedRing F] (obj : GameObject F)
    (hs : Vec3.le ⟨0, 0, 0⟩ obj.scale) (hb : Vec3.le obj.minBounds obj.maxBounds) :
    Vec3.le (worldMin obj) (worldMax obj) := by
  obtain ⟨s1, s2, s3⟩ := hs
  obtain ⟨b1, b2, b3⟩ := hb
  exact ⟨add_le_add_left (mul_le_mul_of_nonneg_right b1 s1) _,
    add_le_add_left (mul_le_mul_of_nonneg_right b2 s2) _,
    add_le_add_left (mul_le_mul_of_nonneg_right b3 s3) _⟩

theorem checkIntersection_world {F : Type} [Add F] [Mul F] [LE F]
    [DecidableRel (fun a b : F => a ≤ b)] (a b : GameObject F) :
    checkIntersection a b = true ↔
      ((worldMin a).x ≤ (worldMax b).x ∧ (worldMax a).x ≥ (worldMin b).x) ∧
      ((worldMin a).y ≤ (worldMax b).y ∧ (worldMax a).y ≥ (worldMin b).y) ∧
      ((worldMin a).z ≤ (worldMax b).z ∧ (worldMax a).z ≥ (worldMin b).z) :=
  checkIntersection_iff a b

/-- In the exact arithmetic of an ordered ring, which binary32 is not: for
objects with componentwise non-negative scale and `minBounds ≤ maxBounds`,
`checkIntersection a b` is true iff some point lies in both closed world-space
boxes; hence boxes that touch in a single corner (or share any boundary
point) intersect, and every such object intersects itself. -/
theorem checkIntersection_common_point {F : Type} [LinearOrderedRing F] (a b : GameObject F)
    (hsa : Vec3.le ⟨0, 0, 0⟩ a.scale) (hba : Vec3.le a.minBounds a.maxBounds)
    (hsb : Vec3.le ⟨0, 0, 0⟩ b.scale) (hbb : Vec3.le b.minBounds b.maxBounds) :
    (checkIntersection a b = true ↔ ∃ p : Vec3 F, inWorldBox p a ∧ inWorldBox p b) ∧
      (worldMax a = worldMin b → checkIntersection a b = true) ∧
      checkIntersection a a = true := by
  have ha := worldMin_le_worldMax a hsa hba
  have hb := worldMin_le_worldMax b hsb hbb
  have hiff : checkIntersection a b = true ↔ ∃ p : Vec3 F, inWorldBox p a ∧ inWorldBox p b := by
    rw [checkIntersection_world, interval_common _ _ _ _ ha.1 hb.1,
      interval_common _ _ _ _ ha.2.1 hb.2.1, interval_common _ _ _ _ ha.2.2 hb.2.2]
    constructor
    · rintro ⟨⟨x, hx1, hx2⟩, ⟨y, hy1, hy2⟩, ⟨z, hz1, hz2⟩⟩
      exact ⟨⟨x, y, z⟩, ⟨⟨hx1.1, hy1.1, hz1.1⟩, ⟨hx1.2, hy1.2, hz1.2⟩⟩,
        ⟨⟨hx2.1, hy2.1, hz2.1⟩, ⟨hx2.2, hy2.2, hz2.2⟩⟩⟩
    · rintro ⟨p, ⟨⟨a1, a2, a3⟩, ⟨a4, a5, a6⟩⟩, ⟨⟨b1, b2, b3⟩, ⟨b4, b5, b6⟩⟩⟩
      exact ⟨⟨p.x, ⟨a1, a4⟩, ⟨b1, b4⟩⟩, ⟨p.y, ⟨a2, a5⟩, ⟨b2, b5⟩⟩, ⟨p.z, ⟨a3, a6⟩, ⟨b3, b6⟩⟩⟩
  refine ⟨hiff, ?_, ?_⟩
  · intro h
    rw [hiff]
    exact ⟨worldMax a, ⟨ha, vec3_le_refl _⟩, ⟨by rw [h]; exact vec3_le_refl _, by rw [h]; exact hb⟩⟩
  · rw [checkIntersection_world]
    exact ⟨⟨ha.1, ha.1⟩, ⟨ha.2.1, ha.2.1⟩, ⟨ha.2.2, ha.2.2⟩⟩

/-- Over `ℤ`: two cubes of half size 1 around (0,0,0) and (2,2,2), which
share the corner (1,1,1) only, intersect. -/
theorem checkIntersection_common_point_witness :
    worldMax (cubeObject 1) = ⟨1, 1, 1⟩ ∧
      worldMin ({ cubeObject 1 with position := ⟨2, 2, 2⟩ } : GameObject ℤ) = ⟨1, 1, 1⟩ ∧
      checkIntersection (cubeObject 1) { cubeObject 1 with position := ⟨2, 2, 2⟩ } = true ∧
      checkIntersection (cubeObject 1) (cubeObject 1) = true :=
  ⟨by decide, by decide,
    (checkIntersection_common_point (cubeObject 1) { cubeObject 1 with position := ⟨2, 2, 2⟩ }
      (by decide) (by decide) (by decide) (by decide)).2.1 (by decide),
    (checkIntersection_common_point (cubeObject 1) (cubeObject 1)
      (by decide) (by decide) (by decide) (by decide)).2.2⟩

/-! ### The pitch after `mouse_callback` -/

theorem clampPitch_range {F : Type} [LinearOrderedRing F] (pitch : F) :
    -89 ≤ clampPitch pitch ∧ clampPitch pitch ≤ 89 := by
  unfold clampPitch
  simp only [Nat.cast_ofNat]
  have h0 : (-89 : F) ≤ 89 := by norm_num
  split_ifs with h1 h2 h2
  · exact ⟨le_refl _, h0⟩
  · exact ⟨h0, le_refl _⟩
  · exact ⟨le_refl _, h0⟩
  · exact ⟨not_lt.1 h2, not_lt.1 h1⟩

/-- C30: after every call of `mouse_callback` the pitch lies in [-89, 89],
whatever the previous pitch and the cursor position; and on a call with
`firstMouse` set, the yaw is the previous yaw and the pitch is the previous
pitch with the clamp applied, whatever the cursor position.  The arithmetic is
that of an ordered field. -/
theorem mouse_callback_pitch {F : Type} [LinearOrderedField F] (trig : Trig F)
    (normalize : Vec3 F → Vec3 F) (s : MouseState F) (xpos ypos : F) :
    (-89 ≤ (mouse_callback trig normalize s xpos ypos).pitch ∧
      (mouse_callback trig normalize s xpos ypos).pitch ≤ 89) ∧
    (s.firstMouse = true →
      (mouse_callback trig normalize s xpos ypos).yaw = s.yaw ∧
      (mouse_callback trig normalize s xpos ypos).pitch = clampPitch s.pitch ∧
      (-89 ≤ s.pitch → s.pitch ≤ 89 →
        (mouse_callback trig normalize s xpos ypos).pitch = s.pitch)) := by
  refine ⟨clampPitch_range _, ?_⟩
  intro hf
  have hp : (mouse_callback trig normalize s xpos ypos).pitch = clampPitch s.pitch := by
    simp only [mouse_callback, hf, if_true, sub_self, zero_mul, add_zero]
  refine ⟨?_, hp, ?_⟩
  · simp only [mouse_callback, hf, if_true, sub_self, zero_mul, add_zero]
  · intro h1 h2
    rw [hp]
    unfold clampPitch
    simp only [Nat.cast_ofNat]
    rw [if_neg (not_lt.2 h2), if_neg (not_lt.2 h1)]

/-- C30 on a first call with the cursor at (17, 23): the yaw 30 is kept and
the pitch 95 becomes 89. -/
theorem mouse_callback_pitch_witness :
    (mouse_callback sampleTrig (fun v => v) ⟨true, 600, 400, 30, 95, ⟨0, 0, -1⟩⟩ 17 23).yaw = 30 ∧
      (mouse_callback sampleTrig (fun v => v) ⟨true, 600, 400, 30, 95, ⟨0, 0, -1⟩⟩ 17 23).pitch =
        89 :=
  ⟨((mouse_callback_pitch sampleTrig (fun v => v) ⟨true, 600, 400, 30, 95, ⟨0, 0, -1⟩⟩ 17 23).2
      rfl).1,
    ((mouse_callback_pitch sampleTrig (fun v => v) ⟨true, 600, 400, 30, 95, ⟨0, 0, -1⟩⟩ 17 23).2
      rfl).2.1.trans (by norm_num [clampPitch])⟩

/-! ### The normalisation loops of `processInput` -/

theorem stdAbs_eq_abs {F : Type} [LinearOrderedCommRing F] (x : F) : stdAbs x = |x| := by
  unfold stdAbs
  rw [Nat.cast_zero]
  split_ifs with h
  · exact (abs_of_neg h).symm
  · exact (abs_of_nonneg (not_lt.1 h)).symm

/-- What the first loop returns: at most 180, the argument less a multiple of
360, and above -180 when it subtracted at all. -/
theorem wrapAbove_some {F : Type} [LinearOrderedCommRing F] :
    ∀ (fuel : Nat) (x r : F), wrapAbove fuel x = some r →
      r ≤ 180 ∧ ∃ k : ℕ, r = x - k * 360 ∧ (k = 0 ∨ -180 < r) := by
  intro fuel
  induction fuel with
  | zero => intro x r h; cases h
  | succ n ih =>
    intro x r h
    unfold wrapAbove at h
    simp only [Nat.cast_ofNat] at h
    by_cases hx : (180 : F) < x
    · rw [if_pos hx] at h
      obtain ⟨h1, k, h2, h3⟩ := ih _ r h
      refine ⟨h1, k + 1, ?_, Or.inr ?_⟩
      · rw [h2]
        push_cast
        ring
      · rcases h3 with h0 | h0
        · subst h0
          rw [h2]
          simp only [Nat.cast_zero, zero_mul, sub_zero]
          linarith
        · exact h0
    · rw [if_neg hx] at h
      simp only [Option.some.injEq] at h
      subst h
      exact ⟨not_lt.1 hx, 0, by simp, Or.inl rfl⟩

/-- What the second loop returns: at least -180, the argument plus a multiple
of 360, and below 180 when it added at all. -/
theorem wrapBelow_some {F : Type} [LinearOrderedCommRing F] :
    ∀ (fuel : Nat) (x r : F), wrapBelow fuel x = some r →
      -180 ≤ r ∧ ∃ k : ℕ, r = x + k * 360 ∧ (k = 0 ∨ r < 180) := by
  intro fuel
  induction fuel with
  | zero => intro x r h; cases h
  | succ n ih =>
    intro x r h
    unfold wrapBelow at h
    simp only [Nat.cast_ofNat] at h
    by_cases hx : x < (-180 : F)
    · rw [if_pos hx] at h
      obtain ⟨h1, k, h2, h3⟩ := ih _ r h
      refine ⟨h1, k + 1, ?_, Or.inr ?_⟩
      · rw [h2]
        push_cast
        ring
      · rcases h3 with h0 | h0
        · subst h0
          rw [h2]
          simp only [Nat.cast_zero, zero_mul, add_zero]
          linarith
        · exact h0
    · rw [if_neg hx] at h
      simp only [Option.some.injEq] at h
      subst h
      exact ⟨not_lt.1 hx, 0, by simp, Or.inl rfl⟩

/-- The first loop ends within `n + 1` tests on an argument of at most
`180 + n * 360`. -/
theorem wrapAbove_fuel {F : Type} [LinearOrderedCommRing F] :
    ∀ (n : Nat) (x : F), x ≤ 180 + n * 360 → ∀ fuel, n < fuel →
      ∃ r, wrapAbove fuel x = some r := by
  intro n
  induction n with
  | zero =>
    intro x hx fuel hf
    obtain ⟨m, rfl⟩ : ∃ m, fuel = m + 1 := ⟨fuel - 1, by omega⟩
    unfold wrapAbove
    simp only [Nat.cast_ofNat]
    simp only [Nat.cast_zero, zero_mul, add_zero] at hx
    rw [if_neg (not_lt.2 hx)]
    exact ⟨x, rfl⟩
  | succ n ih =>
    intro x hx fuel hf
    obtain ⟨m, rfl⟩ : ∃ m, fuel = m + 1 := ⟨fuel - 1, by omega⟩
    unfold wrapAbove
    simp only [Nat.cast_ofNat]
    by_cases h : (180 : F) < x
    · rw [if_pos h]
      apply ih _ _ m (by omega)
      push_cast at hx
      linarith
    · rw [if_neg h]
      exact ⟨x, rfl⟩

/-- The second loop ends within `n + 1` tests on an argument of at least
`-180 - n * 360`. -/
theorem wrapBelow_fuel {F : Type} [LinearOrderedCommRing F] :
    ∀ (n : Nat) (x : F), -180 - n * 360 ≤ x → ∀ fuel, n < fuel →
      ∃ r, wrapBelow fuel x = some r := by
  intro n
  induction n with
  | zero =>
    intro x hx fuel hf
    obtain ⟨m, rfl⟩ : ∃ m, fuel = m + 1 := ⟨fuel - 1, by omega⟩
    unfold wrapBelow
    simp only [Nat.cast_ofNat]
    simp only [Nat.cast_zero, zero_mul, sub_zero] at hx
    rw [if_neg (not_lt.2 hx)]
    exact ⟨x, rfl⟩
  | succ n ih =>
    intro x hx fuel hf
    obtain ⟨m, rfl⟩ : ∃ m, fuel = m + 1 := ⟨fuel - 1, by omega⟩
    unfold wrapBelow
    simp only [Nat.cast_ofNat]
    by_cases h : x < (-180 : F)
    · rw [if_pos h]
      apply ih _ _ m (by omega)
      push_cast at hx
      linarith
    · rw [if_neg h]
      exact ⟨x, rfl⟩

/-- What the two loops return: an angle of [-180, 180] that differs from the
argument by a multiple of 360. -/
theorem normalizeAngle_some {F : Type} [LinearOrderedCommRing F] (fuel : Nat) (x r : F)
    (h : normalizeAngle fuel x = some r) :
    -180 ≤ r ∧ r ≤ 180 ∧ ∃ j : ℤ, r = x + j * 360 := by
  unfold normalizeAngle at h
  cases h1 : wrapAbove fuel x with
  | none => rw [h1] at h; cases h
  | some x1 =>
    rw [h1] at h
    dsimp only at h
    obtain ⟨a1, k1, a2, _⟩ := wrapAbove_some fuel x x1 h1
    obtain ⟨b1, k2, b2, b3⟩ := wrapBelow_some fuel x1 r h
    refine ⟨b1, ?_, (k2 : ℤ) - (k1 : ℤ), ?_⟩
    · rcases b3 with h0 | h0
      · subst h0
        rw [b2]
        simpa using a1
      · exact le_of_lt h0
    · rw [b2, a2]
      push_cast
      ring

/-- An angle already in [-180, 180] is returned as it is. -/
theorem normalizeAngle_of_range {F : Type} [LinearOrderedCommRing F] (fuel : Nat) (x : F)
    (h1 : -180 ≤ x) (h2 : x ≤ 180) : normalizeAngle (fuel + 1) x = some x := by
  unfold normalizeAngle wrapAbove
  simp only [Nat.cast_ofNat]
  rw [if_neg (not_lt.2 h2)]
  dsimp only
  unfold wrapBelow
  simp only [Nat.cast_ofNat]
  rw [if_neg (not_lt.2 h1)]

/-- With enough fuel the two loops end, on every angle of an Archimedean
ordered ring. -/
theorem normalizeAngle_fuel {F : Type} [LinearOrderedCommRing F] [Archimedean F] (x : F) :
    ∃ n0 : Nat, ∀ fuel, n0 ≤ fuel → ∃ r, normalizeAngle fuel x = some r := by
  obtain ⟨n, hn⟩ := exists_nat_ge x
  obtain ⟨m, hm⟩ := exists_nat_ge (-x)
  refine ⟨n + m + 1, ?_⟩
  intro fuel hf
  have hn0 : (0 : F) ≤ (n : F) := Nat.cast_nonneg n
  have hm0 : (0 : F) ≤ (m : F) := Nat.cast_nonneg m
  obtain ⟨x1, h1⟩ := wrapAbove_fuel n x (by nlinarith) fuel (by omega)
  obtain ⟨_, k, a2, a3⟩ := wrapAbove_some fuel x x1 h1
  have hx1 : -180 - (m : F) * 360 ≤ x1 := by
    rcases a3 with h0 | h0
    · subst h0
      rw [a2]
      simp only [Nat.cast_zero, zero_mul, sub_zero]
      nlinarith
    · nlinarith
  obtain ⟨r, h2⟩ := wrapBelow_fuel m x1 hx1 fuel (by omega)
  exact ⟨r, by simp only [normalizeAngle, h1, h2]⟩

/-- A multiple of 360 of absolute value below 360 is zero. -/
theorem int_mul_360_small {F : Type} [LinearOrderedCommRing F] (j : ℤ)
    (h1 : -360 < (j : F) * 360) (h2 : (j : F) * 360 < 360) : j = 0 := by
  have h3 : ((-1 : ℤ) : F) < (j : F) := by
    push_cast
    nlinarith
  have h4 : (j : F) < ((1 : ℤ) : F) := by
    push_cast
    nlinarith
  have h5 := Int.cast_lt.1 h3
  have h6 := Int.cast_lt.1 h4
  omega

/-! ### The rotation offset of each heading -/

theorem rotationOffset_W {F : Type} [LinearOrderedCommRing F] (fuel : Nat) (moveAngle : F) :
    rotationOffset fuel 0 moveAngle = some (-90) := by
  simp only [rotationOffset, stdAbs_eq_abs, Nat.cast_ofNat, Nat.cast_zero, Nat.cast_one]
  rw [if_pos (Or.inl (by norm_num))]

theorem rotationOffset_S {F : Type} [LinearOrderedCommRing F] (fuel : Nat) (moveAngle : F) :
    rotationOffset fuel 180 moveAngle = some (-90) := by
  simp only [rotationOffset, stdAbs_eq_abs, Nat.cast_ofNat, Nat.cast_zero, Nat.cast_one]
  rw [if_pos (Or.inr (by norm_num))]

theorem rotationOffset_A {F : Type} [LinearOrderedCommRing F] (fuel : Nat) (moveAngle : F) :
    rotationOffset fuel (-90) moveAngle = some 90 := by
  simp only [rotationOffset, stdAbs_eq_abs, Nat.cast_ofNat, Nat.cast_zero, Nat.cast_one]
  rw [if_neg (by norm_num), if_pos (by norm_num)]

theorem rotationOffset_D {F : Type} [LinearOrderedCommRing F] (fuel : Nat) (moveAngle : F) :
    rotationOffset fuel 90 moveAngle =
      (normalizeAngle fuel (moveAngle + 90)).map
        (fun testWith90 => if |testWith90 - 90| < 1 then -270 else 90) := by
  simp only [rotationOffset, stdAbs_eq_abs, Nat.cast_ofNat, Nat.cast_zero, Nat.cast_one]
  rw [if_neg (by norm_num), if_neg (by norm_num), if_pos (by norm_num)]
  cases normalizeAngle fuel (moveAngle + 90) with
  | none => rfl
  | some t =>
    simp only [Option.map_some']
    split_ifs <;> rfl

/-- The offset is one of -90, 90, -270 and 0. -/
theorem rotationOffset_values {F : Type} [LinearOrderedCommRing F] (fuel : Nat)
    (movementAngle moveAngle offset : F)
    (h : rotationOffset fuel movementAngle moveAngle = some offset) :
    offset = -90 ∨ offset = 90 ∨ offset = -270 ∨ offset = 0 := by
  simp only [rotationOffset, Nat.cast_ofNat, Nat.cast_zero, Nat.cast_one] at h
  split_ifs at h with h1 h2 h3
  · simp only [Option.some.injEq] at h
    exact Or.inl h.symm
  · simp only [Option.some.injEq] at h
    exact Or.inr (Or.inl h.symm)
  · cases ht : normalizeAngle fuel (moveAngle + 90) with
    | none => rw [ht] at h; cases h
    | some t =>
      rw [ht] at h
      dsimp only at h
      split_ifs at h
      · simp only [Option.some.injEq] at h
        exact Or.inr (Or.inr (Or.inl h.symm))
      · simp only [Option.some.injEq] at h
        exact Or.inr (Or.inl h.symm)
  · simp only [Option.some.injEq] at h
    exact Or.inr (Or.inr (Or.inr h.symm))

/-- The facing angle for a given offset: normalised, unless the offset is
-270 and the angle is within 1 of -270. -/
theorem newPlayerRotation_of_offset {F : Type} [LinearOrderedCommRing F] (fuel : Nat)
    (yaw movementAngle offset : F)
    (h : rotationOffset fuel movementAngle (yaw + movementAngle) = some offset) :
    newPlayerRotation fuel yaw movementAngle =
      if ¬ (|offset - -270| < 1 ∧ |yaw + movementAngle + offset - -270| < 1) then
        normalizeAngle fuel (yaw + movementAngle + offset)
      else some (yaw + movementAngle + offset) := by
  simp only [newPlayerRotation, h, stdAbs_eq_abs, Nat.cast_ofNat, Nat.cast_one]

/-- A facing angle that comes from an offset differs from `moveAngle +
offset` by a multiple of 360 and lies in [-180, 180] unless it was kept. -/
theorem newPlayerRotation_some {F : Type} [LinearOrderedCommRing F] (fuel : Nat)
    (yaw movementAngle offset r : F)
    (h : rotationOffset fuel movementAngle (yaw + movementAngle) = some offset)
    (hr : newPlayerRotation fuel yaw movementAngle = some r) :
    (∃ j : ℤ, r = yaw + movementAngle + offset + j * 360) ∧
      ((-180 ≤ r ∧ r ≤ 180) ∨
        (offset = -270 ∧ |r - -270| < 1 ∧ r = yaw + movementAngle + offset)) := by
  rw [newPlayerRotation_of_offset fuel yaw movementAngle offset h] at hr
  by_cases hc : |offset - -270| < 1 ∧ |yaw + movementAngle + offset - -270| < 1
  · rw [if_neg (not_not.2 hc)] at hr
    simp only [Option.some.injEq] at hr
    subst hr
    refine ⟨⟨0, by simp⟩, Or.inr ⟨?_, hc.2, rfl⟩⟩
    have hc1 := hc.1
    rcases rotationOffset_values fuel _ _ offset h with h0 | h0 | h0 | h0
    · rw [h0] at hc1
      norm_num at hc1
    · rw [h0] at hc1
      norm_num at hc1
    · exact h0
    · rw [h0] at hc1
      norm_num at hc1
  · rw [if_pos hc] at hr
    obtain ⟨h1, h2, h3⟩ := normalizeAngle_some fuel _ r hr
    exact ⟨h3, Or.inl ⟨h1, h2⟩⟩

/-- With enough fuel every loop of the rotation block ends: an offset and a
facing angle result. -/
theorem newPlayerRotation_fuel {F : Type} [LinearOrderedCommRing F] [Archimedean F]
    (yaw movementAngle : F) :
    ∃ n0 : Nat, ∀ fuel, n0 ≤ fuel → ∃ offset r,
      rotationOffset fuel movementAngle (yaw + movementAngle) = some offset ∧
        newPlayerRotation fuel yaw movementAngle = some r := by
  obtain ⟨n1, hn1⟩ := normalizeAngle_fuel (yaw + movementAngle + 90)
  obtain ⟨n2, hn2⟩ := normalizeAngle_fuel (yaw + movementAngle + -90)
  obtain ⟨n3, hn3⟩ := normalizeAngle_fuel (yaw + movementAngle + -270)
  obtain ⟨n4, hn4⟩ := normalizeAngle_fuel (yaw + movementAngle + 0)
  refine ⟨n1 + n2 + n3 + n4, ?_⟩
  intro fuel hf
  have hoff : ∃ offset, rotationOffset fuel movementAngle (yaw + movementAngle) = some offset := by
    simp only [rotationOffset, Nat.cast_ofNat, Nat.cast_zero, Nat.cast_one]
    split_ifs with h1 h2 h3
    · exact ⟨_, rfl⟩
    · exact ⟨_, rfl⟩
    · obtain ⟨t, ht⟩ := hn1 fuel (by omega)
      rw [ht]
      dsimp only
      split_ifs
      · exact ⟨_, rfl⟩
      · exact ⟨_, rfl⟩
    · exact ⟨_, rfl⟩
  obtain ⟨offset, ho⟩ := hoff
  refine ⟨offset, ?_⟩
  rw [newPlayerRotation_of_offset fuel yaw movementAngle offset ho]
  by_cases hc : |offset - -270| < 1 ∧ |yaw + movementAngle + offset - -270| < 1
  · rw [if_neg (not_not.2 hc)]
    exact ⟨_, ho, rfl⟩
  · rw [if_pos hc]
    rcases rotationOffset_values fuel _ _ offset ho with h0 | h0 | h0 | h0
    · obtain ⟨r, hr⟩ := hn2 fuel (by omega)
      exact ⟨r, ho, by rw [h0]; exact hr⟩
    · obtain ⟨r, hr⟩ := hn1 fuel (by omega)
      exact ⟨r, ho, by rw [h0]; exact hr⟩
    · obtain ⟨r, hr⟩ := hn3 fuel (by omega)
      exact ⟨r, ho, by rw [h0]; exact hr⟩
    · obtain ⟨r, hr⟩ := hn4 fuel (by omega)
      exact ⟨r, ho, by rw [h0]; exact hr⟩

/-- The collision part of `processInput` does not touch `playerRotation`. -/
theorem movementStep_playerRotation {F : Type} [Add F] [Mul F] [LE F]
    [DecidableRel (fun a b : F => a ≤ b)] (w : World F) (newPos : Vec3 F) :
    (movementStep w newPos).playerRotation = w.playerRotation := by
  unfold movementStep
  split_ifs <;> rfl

/-- The facing angle `processInput` leaves when a heading is selected. -/
theorem processInput_playerRotation {F : Type} [NatCast F] [Neg F] [Add F] [Sub F] [Mul F]
    [LE F] [LT F] [DecidableRel (fun a b : F => a ≤ b)] [DecidableRel (fun a b : F => a < b)]
    (fuel : Nat) (trig : Trig F) (k : Keys) (w : World F)
    (hm : (selectHeading k : Heading F).moving = true) :
    (∀ r, newPlayerRotation fuel w.yaw (selectHeading k : Heading F).movementAngle = some r →
      ∃ w1, processInput fuel trig k w = some w1 ∧ w1.playerRotation = r) ∧
    (∀ w1, processInput fuel trig k w = some w1 →
      newPlayerRotation fuel w.yaw (selectHeading k : Heading F).movementAngle =
        some w1.playerRotation) := by
  constructor
  · intro r hr
    simp only [processInput, hm, if_true, hr]
    exact ⟨_, rfl, movementStep_playerRotation _ _⟩
  · intro w1 h
    simp only [processInput, hm, if_true] at h
    cases hr : newPlayerRotation fuel w.yaw (selectHeading k : Heading F).movementAngle with
    | none => rw [hr] at h; cases h
    | some r =>
      rw [hr] at h
      simp only [Option.some.injEq] at h
      subst h
      rw [movementStep_playerRotation]

/-- The heading of a D request. -/
theorem selectHeading_D {F : Type} [NatCast F] [Neg F] (k : Keys) (hw : k.wPressed = false)
    (hs : k.sPressed = false) (ha : k.aPressed = false) (hd : k.dPressed = true) :
    (selectHeading k : Heading F) = ⟨true, ((90 : ℕ) : F), true⟩ := by
  simp [selectHeading, hw, hs, ha, hd]

/-- The heading of an A request. -/
theorem selectHeading_A {F : Type} [NatCast F] [Neg F] (k : Keys) (hw : k.wPressed = false)
    (hs : k.sPressed = false) (ha : k.aPressed = true) :
    (selectHeading k : Heading F) = ⟨true, -((90 : ℕ) : F), true⟩ := by
  simp [selectHeading, hw, hs, ha]

/-- The facing angle of a D request, whichever offset is selected. -/
theorem newPlayerRotation_D {F : Type} [LinearOrderedCommRing F] (fuel : Nat) (yaw r : F)
    (h : newPlayerRotation fuel yaw 90 = some r) :
    (∃ j : ℤ, r = yaw + 180 + j * 360) ∧
      ∃ t, normalizeAngle fuel (yaw + 90 + 90) = some t ∧ (r = t ∨ (r = t - 360 ∧ r < -180)) := by
  have ho := rotationOffset_D fuel (yaw + 90)
  cases ht : normalizeAngle fuel (yaw + 90 + 90) with
  | none =>
    rw [ht, Option.map_none'] at ho
    simp only [newPlayerRotation, ho] at h
    cases h
  | some t =>
    rw [ht, Option.map_some'] at ho
    obtain ⟨t1, t2, j0, t3⟩ := normalizeAngle_some fuel _ t ht
    rw [newPlayerRotation_of_offset fuel yaw _ _ ho] at h
    by_cases hsp : |t - 90| < 1
    · simp only [hsp, if_true] at h
      rw [abs_lt] at hsp
      obtain ⟨s1, s2⟩ := hsp
      by_cases hk : |yaw + 90 + -270 - -270| < 1
      · rw [if_neg (not_not.2 ⟨by norm_num, hk⟩)] at h
        simp only [Option.some.injEq] at h
        rw [abs_lt] at hk
        obtain ⟨k1, k2⟩ := hk
        have hj0 : j0 = 0 := int_mul_360_small (F := F) j0 (by linarith) (by linarith)
        subst hj0
        subst h
        refine ⟨⟨-1, by push_cast; ring⟩, t, rfl, Or.inr ⟨?_, by linarith⟩⟩
        rw [t3]
        push_cast
        ring
      · rw [if_pos (fun hc => hk hc.2)] at h
        obtain ⟨r1, r2, j1, r3⟩ := normalizeAngle_some fuel _ r h
        have hj : j1 - 1 - j0 = 0 :=
          int_mul_360_small (F := F) (j1 - 1 - j0) (by push_cast; linarith) (by push_cast; linarith)
        refine ⟨⟨j1 - 1, by rw [r3]; push_cast; ring⟩, t, rfl, Or.inl ?_⟩
        have hj1 : (j1 : F) = 1 + j0 := by
          have : j1 = 1 + j0 := by omega
          rw [this]
          push_cast
          ring
        rw [r3, t3, hj1]
        ring
    · simp only [hsp, if_false] at h
      rw [if_pos (by norm_num)] at h
      rw [ht] at h
      simp only [Option.some.injEq] at h
      subst h
      exact ⟨⟨j0, by rw [t3]; ring⟩, t, rfl, Or.inl rfl⟩

/-- The facing angle of an A request. -/
theorem newPlayerRotation_A {F : Type} [LinearOrderedCommRing F] (fuel : Nat) (yaw r : F)
    (h : newPlayerRotation fuel yaw (-90) = some r) :
    ∃ j : ℤ, r = yaw + j * 360 := by
  obtain ⟨⟨j, hj⟩, _⟩ := newPlayerRotation_some fuel yaw _ 90 r (rotationOffset_A fuel _) h
  exact ⟨j, by rw [hj]; ring⟩

/-! ### The facing angle after `processInput` -/

theorem selectHeading_moving {F : Type} [NatCast F] [Neg F] (k : Keys)
    (hk : k.wPressed = true ∨ k.sPressed = true ∨ k.aPressed = true ∨ k.dPressed = true) :
    (selectHeading k : Heading F).moving = true := by
  unfold selectHeading
  split_ifs with h1 h2 h3 h4
  · rfl
  · rfl
  · rfl
  · rfl
  · rcases hk with h | h | h | h
    · exact absurd h h1
    · exact absurd h h2
    · exact absurd h h3
    · exact absurd h h4

/-- With enough fuel `processInput` returns, whatever the keys. -/
theorem processInput_fuel {F : Type} [LinearOrderedCommRing F] [Archimedean F] (trig : Trig F)
    (k : Keys) (w : World F) :
    ∃ n0 : Nat, ∀ fuel, n0 ≤ fuel → ∃ w1, processInput fuel trig k w = some w1 := by
  by_cases hm : (selectHeading k : Heading F).moving = true
  · obtain ⟨n0, hn0⟩ := newPlayerRotation_fuel w.yaw (selectHeading k : Heading F).movementAngle
    refine ⟨n0, fun fuel hf => ?_⟩
    obtain ⟨_, r, _, hr⟩ := hn0 fuel hf
    obtain ⟨w1, h1, _⟩ := (processInput_playerRotation fuel trig k w hm).1 r hr
    exact ⟨w1, h1⟩
  · refine ⟨0, fun fuel _ => ?_⟩
    simp only [processInput, hm]
    exact ⟨_, rfl⟩

/-- In the exact arithmetic of an Archimedean ordered commutative ring,
which binary32 is not: for a right-heading (D) request at any camera yaw,
`processInput` returns once the loops have enough fuel, and the
`playerRotation` it leaves differs from `moveAngle + 90 = yaw + 180` by a
multiple of 360, whichever offset the special case selects; it is the
normalised `yaw + 180` itself or that angle less 360, the latter below
-180. -/
theorem right_heading_rotation {F : Type} [LinearOrderedCommRing F] [Archimedean F]
    (trig : Trig F) (k : Keys) (w : World F) (hw : k.wPressed = false)
    (hs : k.sPressed = false) (ha : k.aPressed = false) (hd : k.dPressed = true) :
    (∃ n0 : Nat, ∀ fuel, n0 ≤ fuel → ∃ w1, processInput fuel trig k w = some w1) ∧
    (∀ fuel w1, processInput fuel trig k w = some w1 →
      (∃ j : ℤ, w1.playerRotation = w.yaw + 180 + j * 360) ∧
      ∃ t, normalizeAngle fuel (w.yaw + 90 + 90) = some t ∧
        (w1.playerRotation = t ∨ (w1.playerRotation = t - 360 ∧ w1.playerRotation < -180))) := by
  refine ⟨processInput_fuel trig k w, ?_⟩
  intro fuel w1 h
  have hsel := selectHeading_D (F := F) k hw hs ha hd
  have hr := (processInput_playerRotation fuel trig k w (by rw [hsel])).2 w1 h
  rw [hsel] at hr
  simp only [Nat.cast_ofNat] at hr
  exact newPlayerRotation_D fuel w.yaw w1.playerRotation hr

/-- Over `ℤ` at yaw -90 and at yaw 0: the D request leaves -270 (offset
-270, kept) and 180 (offset 90), both congruent to yaw + 180. -/
theorem right_heading_rotation_witness :
    (processInput 2 gridTrig ⟨false, false, false, true⟩ (gridWorld (-90))).map
        (fun w1 => w1.playerRotation) = some (-270) ∧
      (processInput 2 gridTrig ⟨false, false, false, true⟩ (gridWorld 0)).map
        (fun w1 => w1.playerRotation) = some 180 ∧
      ∀ w1, processInput 2 gridTrig ⟨false, false, false, true⟩ (gridWorld (-90)) = some w1 →
        ∃ j : ℤ, w1.playerRotation = -90 + 180 + j * 360 :=
  ⟨by decide, by decide, fun w1 h =>
    ((right_heading_rotation gridTrig ⟨false, false, false, true⟩ (gridWorld (-90))
      rfl rfl rfl rfl).2 2 w1 h).1⟩

/-- In the exact arithmetic of an Archimedean ordered commutative ring,
which binary32 is not: at any camera yaw, the `playerRotation` a
right-heading (D) request leaves differs from the one a left-heading (A)
request leaves: they are 180 apart modulo 360.  With enough fuel both
requests return. -/
theorem left_right_differ {F : Type} [LinearOrderedCommRing F] [Archimedean F]
    (trig : Trig F) (kD kA : Keys) (w : World F)
    (hDw : kD.wPressed = false) (hDs : kD.sPressed = false) (hDa : kD.aPressed = false)
    (hDd : kD.dPressed = true)
    (hAw : kA.wPressed = false) (hAs : kA.sPressed = false) (hAa : kA.aPressed = true) :
    (∃ n0 : Nat, ∀ fuel, n0 ≤ fuel → ∃ wD wA,
      processInput fuel trig kD w = some wD ∧ processInput fuel trig kA w = some wA) ∧
    (∀ fuelD fuelA wD wA, processInput fuelD trig kD w = some wD →
      processInput fuelA trig kA w = some wA → wD.playerRotation ≠ wA.playerRotation) := by
  constructor
  · obtain ⟨n1, h1⟩ := processInput_fuel trig kD w
    obtain ⟨n2, h2⟩ := processInput_fuel trig kA w
    refine ⟨n1 + n2, fun fuel hf => ?_⟩
    obtain ⟨wD, hD⟩ := h1 fuel (by omega)
    obtain ⟨wA, hA⟩ := h2 fuel (by omega)
    exact ⟨wD, wA, hD, hA⟩
  · intro fuelD fuelA wD wA hD hA heq
    have hselD := selectHeading_D (F := F) kD hDw hDs hDa hDd
    have hselA := selectHeading_A (F := F) kA hAw hAs hAa
    have hrD := (processInput_playerRotation fuelD trig kD w (by rw [hselD])).2 wD hD
    have hrA := (processInput_playerRotation fuelA trig kA w (by rw [hselA])).2 wA hA
    rw [hselD] at hrD
    rw [hselA] at hrA
    simp only [Nat.cast_ofNat] at hrD hrA
    obtain ⟨⟨j1, e1⟩, _⟩ := newPlayerRotation_D fuelD w.yaw wD.playerRotation hrD
    obtain ⟨j2, e2⟩ := newPlayerRotation_A fuelA w.yaw wA.playerRotation hrA
    rw [e1, e2] at heq
    have h3 : ((2 * (j2 - j1) : ℤ) : F) = ((1 : ℤ) : F) := by
      push_cast
      have h4 : (180 : F) * (2 * ((j2 : F) - j1)) = 180 * 1 := by linarith
      exact mul_left_cancel₀ (by norm_num) h4
    have h5 := Int.cast_injective h3
    omega

/-- Over `ℤ` at yaw -90: D leaves -270 and A leaves -90. -/
theorem left_right_differ_witness :
    (processInput 2 gridTrig ⟨false, false, false, true⟩ (gridWorld (-90))).map
        (fun w1 => w1.playerRotation) = some (-270) ∧
      (processInput 2 gridTrig ⟨false, false, true, false⟩ (gridWorld (-90))).map
        (fun w1 => w1.playerRotation) = some (-90) ∧
      ∀ wD wA, processInput 2 gridTrig ⟨false, false, false, true⟩ (gridWorld (-90)) = some wD →
        processInput 2 gridTrig ⟨false, false, true, false⟩ (gridWorld (-90)) = some wA →
        wD.playerRotation ≠ wA.playerRotation :=
  ⟨by decide, by decide,
    (left_right_differ gridTrig ⟨false, false, false, true⟩ ⟨false, false, true, false⟩
      (gridWorld (-90)) rfl rfl rfl rfl rfl rfl rfl).2 2 2⟩

/-- The headings of a W request and of an S request. -/
theorem selectHeading_WS {F : Type} [NatCast F] [Neg F] (k : Keys) :
    (k.wPressed = true → (selectHeading k : Heading F) = ⟨true, ((0 : ℕ) : F), false⟩) ∧
    (k.wPressed = false → k.sPressed = true →
      (selectHeading k : Heading F) = ⟨true, ((180 : ℕ) : F), false⟩) := by
  constructor
  · intro hw
    simp [selectHeading, hw]
  · intro hw hs
    simp [selectHeading, hw, hs]

/-- In the exact arithmetic of an Archimedean ordered commutative ring,
which binary32 is not: after a movement step of `processInput` (some key
pressed, any yaw) the loops have ended, given enough fuel, and
`playerRotation` lies in [-180, 180], except when the offset is -270 and
`playerRotation` is within 1 of -270, where it is `moveAngle - 270` as
computed; in every case it differs from `moveAngle + rotationOffset` by a
multiple of 360, and the offset is -90 for W and for S and 90 for A. -/
theorem rotation_normalized {F : Type} [LinearOrderedCommRing F] [Archimedean F]
    (trig : Trig F) (k : Keys) (w : World F)
    (hk : k.wPressed = true ∨ k.sPressed = true ∨ k.aPressed = true ∨ k.dPressed = true) :
    (∃ n0 : Nat, ∀ fuel, n0 ≤ fuel → ∃ w1, processInput fuel trig k w = some w1) ∧
    (∀ fuel w1, processInput fuel trig k w = some w1 →
      ∃ offset,
        rotationOffset fuel (selectHeading k : Heading F).movementAngle
          (w.yaw + (selectHeading k : Heading F).movementAngle) = some offset ∧
        (∃ j : ℤ, w1.playerRotation =
          w.yaw + (selectHeading k : Heading F).movementAngle + offset + j * 360) ∧
        ((-180 ≤ w1.playerRotation ∧ w1.playerRotation ≤ 180) ∨
          (offset = -270 ∧ |w1.playerRotation - -270| < 1 ∧
            w1.playerRotation =
              w.yaw + (selectHeading k : Heading F).movementAngle + offset)) ∧
        (k.wPressed = true → offset = -90) ∧
        (k.wPressed = false → k.sPressed = true → offset = -90) ∧
        (k.wPressed = false → k.sPressed = false → k.aPressed = true → offset = 90)) := by
  refine ⟨processInput_fuel trig k w, ?_⟩
  intro fuel w1 h
  have hm := selectHeading_moving (F := F) k hk
  have hr := (processInput_playerRotation fuel trig k w hm).2 w1 h
  cases ho : rotationOffset fuel (selectHeading k : Heading F).movementAngle
      (w.yaw + (selectHeading k : Heading F).movementAngle) with
  | none =>
    simp only [newPlayerRotation, ho] at hr
    cases hr
  | some offset =>
    obtain ⟨h1, h2⟩ := newPlayerRotation_some fuel w.yaw _ offset w1.playerRotation ho hr
    refine ⟨offset, rfl, h1, h2, ?_, ?_, ?_⟩
    · intro hw
      rw [(selectHeading_WS (F := F) k).1 hw] at ho
      simp only [Nat.cast_zero] at ho
      rw [rotationOffset_W] at ho
      exact (Option.some.inj ho).symm
    · intro hw hs
      rw [(selectHeading_WS (F := F) k).2 hw hs] at ho
      simp only [Nat.cast_ofNat] at ho
      rw [rotationOffset_S] at ho
      exact (Option.some.inj ho).symm
    · intro hw hs ha
      rw [selectHeading_A (F := F) k hw hs ha] at ho
      simp only [Nat.cast_ofNat] at ho
      rw [rotationOffset_A] at ho
      exact (Option.some.inj ho).symm

/-- Over `ℤ`: W at yaw 300 leaves -150, S at yaw 200 leaves -70, A at yaw
-400 leaves -40, D at yaw -90 leaves the -270 that is kept. -/
theorem rotation_normalized_witness :
    (processInput 3 gridTrig ⟨true, false, false, false⟩ (gridWorld 300)).map
        (fun w1 => w1.playerRotation) = some (-150) ∧
      (processInput 3 gridTrig ⟨false, true, false, false⟩ (gridWorld 200)).map
        (fun w1 => w1.playerRotation) = some (-70) ∧
      (processInput 3 gridTrig ⟨false, false, true, false⟩ (gridWorld (-400))).map
        (fun w1 => w1.playerRotation) = some (-40) ∧
      (processInput 3 gridTrig ⟨false, false, false, true⟩ (gridWorld (-90))).map
        (fun w1 => w1.playerRotation) = some (-270) ∧
      ∃ n0 : Nat, ∀ fuel, n0 ≤ fuel →
        ∃ w1, processInput fuel gridTrig ⟨true, false, false, false⟩ (gridWorld 300) = some w1 :=
  ⟨by decide, by decide, by decide, by decide,
    (rotation_normalized gridTrig ⟨true, false, false, false⟩ (gridWorld 300)
      (Or.inl rfl)).1⟩

/-! ### Key priority in `processInput` -/

/-- C29: `processInput` with several of W, S, A, D pressed does what it does
with only the first pressed key of the order W, S, A, D, so one heading is
used, opposite keys do not cancel and no two headings combine; with none of
them pressed it returns at once and leaves the player and `playerRotation` (and
everything but the flag `isADMovement`, reset to false) as they were. -/
theorem key_priority {F : Type} [NatCast F] [Neg F] [Add F] [Sub F] [Mul F] [LE F] [LT F]
    [DecidableRel (fun a b : F => a ≤ b)] [DecidableRel (fun a b : F => a < b)]
    (fuel : Nat) (trig : Trig F) (k : Keys) (w : World F) :
    (k.wPressed = true →
      processInput fuel trig k w = processInput fuel trig ⟨true, false, false, false⟩ w) ∧
    (k.wPressed = false → k.sPressed = true →
      processInput fuel trig k w = processInput fuel trig ⟨false, true, false, false⟩ w) ∧
    (k.wPressed = false → k.sPressed = false → k.aPressed = true →
      processInput fuel trig k w = processInput fuel trig ⟨false, false, true, false⟩ w) ∧
    (k.wPressed = false → k.sPressed = false → k.aPressed = false → k.dPressed = true →
      processInput fuel trig k w = processInput fuel trig ⟨false, false, false, true⟩ w) ∧
    (k.wPressed = false → k.sPressed = false → k.aPressed = false → k.dPressed = false →
      processInput fuel trig k w = some { w with isADMovement := false } ∧
      ∀ w1, processInput fuel trig k w = some w1 →
        w1.player = w.player ∧ w1.playerRotation = w.playerRotation) := by
  refine ⟨?_, ?_, ?_, ?_, ?_⟩
  · intro hw
    simp [processInput, proposedPosition, selectHeading, hw]
  · intro hw hs
    simp [processInput, proposedPosition, selectHeading, hw, hs]
  · intro hw hs ha
    simp [processInput, proposedPosition, selectHeading, hw, hs, ha]
  · intro hw hs ha hd
    simp [processInput, proposedPosition, selectHeading, hw, hs, ha, hd]
  · intro hw hs ha hd
    have h0 : processInput fuel trig k w = some { w with isADMovement := false } := by
      simp [processInput, selectHeading, hw, hs, ha, hd]
    refine ⟨h0, ?_⟩
    intro w1 h1
    rw [h0] at h1
    simp only [Option.some.injEq] at h1
    subst h1
    exact ⟨rfl, rfl⟩

/-- C29 over `ℤ`: with W and S pressed, and with all four keys pressed, the
player moves as with W alone, from (0,0,0) to (5,0,0); with S and D pressed
as with S alone; with no key pressed nothing moves. -/
theorem key_priority_witness :
    (processInput 3 gridTrig ⟨true, true, false, false⟩ (gridWorld 0)).map
        (fun w1 => (w1.player.position, w1.playerRotation)) = some (⟨5, 0, 0⟩, -90) ∧
      processInput 3 gridTrig ⟨true, true, true, true⟩ (gridWorld 0) =
        processInput 3 gridTrig ⟨true, false, false, false⟩ (gridWorld 0) ∧
      processInput 3 gridTrig ⟨false, true, false, true⟩ (gridWorld 0) =
        processInput 3 gridTrig ⟨false, true, false, false⟩ (gridWorld 0) ∧
      (processInput 3 gridTrig ⟨false, false, false, false⟩ (gridWorld 0)).map
        (fun w1 => (w1.player.position, w1.playerRotation)) = some (⟨0, 0, 0⟩, 7) :=
  ⟨by decide,
    (key_priority 3 gridTrig ⟨true, true, true, true⟩ (gridWorld 0)).1 rfl,
    (key_priority 3 gridTrig ⟨false, true, false, true⟩ (gridWorld 0)).2.1 rfl rfl,
    by decide⟩

/-! ### The two bounding-box computations -/

theorem stdMin_eq_min {F : Type} [LinearOrder F] (a b : F) : stdMin a b = min a b := by
  unfold stdMin
  split_ifs with h
  · exact (min_eq_right (le_of_lt h)).symm
  · exact (min_eq_left (not_lt.1 h)).symm

theorem stdMax_eq_max {F : Type} [LinearOrder F] (a b : F) : stdMax a b = max a b := by
  unfold stdMax
  split_ifs with h
  · exact (max_eq_right (le_of_lt h)).symm
  · exact (max_eq_left (not_lt.1 h)).symm

/-- The box of `Model::loadOBJ` after the line loop is the fold of the `v`
positions of the file into the box it started with. -/
theorem processLines_box_fold {F : Type} [Zero F] [One F] [LT F]
    [DecidableRel (fun a b : F => a < b)] (env : LoaderEnv F) :
    ∀ (lines : List (Line F)) (st st1 : LoadState F), processLines env st lines = .ok st1 →
      (st1.model.boundingBoxMin, st1.model.boundingBoxMax) =
        boundsLoop (vPositions lines) (st.model.boundingBoxMin, st.model.boundingBoxMax) := by
  intro lines
  induction lines with
  | nil =>
    intro st st1 h
    simp only [processLines, Except.ok.injEq] at h
    subst h
    rfl
  | cons l ls ih =>
    intro st st1 h
    unfold processLines at h
    cases hl : processLine env st l with
    | error e => rw [hl] at h; cases h
    | ok st2 =>
      rw [hl] at h
      dsimp only at h
      rw [ih st2 st1 h]
      by_cases hv : ∃ x y z, l = Line.v x y z
      · obtain ⟨x, y, z, rfl⟩ := hv
        simp only [processLine, Except.ok.injEq] at hl
        subst hl
        rfl
      · have hne : ∀ x y z, l ≠ Line.v x y z := fun x y z he => hv ⟨x, y, z, he⟩
        obtain ⟨e1, e2⟩ := processLine_box_unchanged env st st2 l hne hl
        rw [e1, e2]
        cases l with
        | v x y z => exact absurd rfl (hne x y z)
        | vt u v => rfl
        | vn x y z => rfl
        | f tokens => rfl
        | mtllib file => rfl
        | other => rfl

/-- The positions `loadOBJModel` has after the line loop are those it had
followed by the `v` positions of the file. -/
theorem parseLines_vPositions {F : Type} :
    ∀ (lines : List (Line F)) (ps ps1 : ParseState F), parseLines ps lines = .ok ps1 →
      ps1.positions = ps.positions ++ vPositions lines := by
  intro lines
  induction lines with
  | nil =>
    intro ps ps1 h
    simp only [parseLines, Except.ok.injEq] at h
    subst h
    simp [vPositions]
  | cons l ls ih =>
    intro ps ps1 h
    unfold parseLines at h
    cases hl : parseLine ps l with
    | error e => rw [hl] at h; cases h
    | ok ps2 =>
      rw [hl] at h
      dsimp only at h
      rw [ih ps2 ps1 h]
      cases l with
      | v x y z =>
        simp only [parseLine, Except.ok.injEq] at hl
        subst hl
        simp [vPositions]
      | vt u v =>
        simp only [parseLine, Except.ok.injEq] at hl
        subst hl
        rfl
      | vn x y z =>
        simp only [parseLine, Except.ok.injEq] at hl
        subst hl
        rfl
      | f tokens =>
        simp only [parseLine] at hl
        cases hf : processFace tokens ps.ix with
        | error e => rw [hf] at hl; cases hl
        | ok ix =>
          rw [hf] at hl
          simp only [Except.ok.injEq] at hl
          subst hl
          rfl
      | mtllib file =>
        simp only [parseLine, Except.ok.injEq] at hl
        subst hl
        rfl
      | other =>
        simp only [parseLine, Except.ok.injEq] at hl
        subst hl
        rfl

/-- The loop of `std::min`/`std::max` updates computes the componentwise
minimum and maximum. -/
theorem boundsLoop_eq {F : Type} [LinearOrder F] :
    ∀ (positions : List (Vec3 F)) (acc : Vec3 F × Vec3 F),
      boundsLoop positions acc = (positionsMin acc.1 positions, positionsMax acc.2 positions) := by
  intro positions
  induction positions with
  | nil => intro acc; rfl
  | cons p ps ih =>
    intro acc
    unfold boundsLoop
    rw [ih]
    simp only [positionsMin, positionsMax, List.foldl_cons, stdMin_eq_min, stdMax_eq_max]

/-- C27: for a file with at least one `v` line whose coordinates all lie
between `-FLT_MAX` and `FLT_MAX`, when both loads return, the box of
`loadOBJModel` (started at the first position) equals the box of a `Model`
constructed from the file (started at the sentinels), and both are the
componentwise minimum and maximum of all `v` positions of the file, whether a
face refers to them or not.  Coordinates are taken in a linear order (no
NaN). -/
theorem boxes_agree {F : Type} [Zero F] [One F] [Neg F] [LinearOrder F] (lenv : LoaderEnv F)
    (env : ObjEnv F) (fltMax : F) (path : String) (obj : GameObject F) (lines : List (Line F))
    (m1 : Model F) (r : Bool × GameObject F) (p0 : Vec3 F) (rest : List (Vec3 F))
    (hm : Model.construct lenv fltMax path (some lines) = .ok m1)
    (ho : loadOBJModel env obj (some lines) = .ok r)
    (hv : vPositions lines = p0 :: rest)
    (hfin : ∀ p ∈ vPositions lines,
      (-fltMax ≤ p.x ∧ p.x ≤ fltMax) ∧ (-fltMax ≤ p.y ∧ p.y ≤ fltMax) ∧
        (-fltMax ≤ p.z ∧ p.z ≤ fltMax)) :
    r.2.minBounds = m1.boundingBoxMin ∧ r.2.maxBounds = m1.boundingBoxMax ∧
      m1.boundingBoxMin = positionsMin p0 rest ∧ m1.boundingBoxMax = positionsMax p0 rest := by
  have hp0 := hfin p0 (by rw [hv]; exact List.mem_cons_self _ _)
  -- the model
  have hmodel : (m1.boundingBoxMin, m1.boundingBoxMax) =
      (positionsMin p0 rest, positionsMax p0 rest) := by
    simp only [Model.construct, loadOBJ] at hm
    cases hp : processLines lenv ⟨Model.init fltMax (modelDirectory path), [], [], [], [], []⟩
        lines with
    | error e => rw [hp] at hm; cases hm
    | ok st =>
      rw [hp] at hm
      dsimp only at hm
      have hfold := processLines_box_fold lenv lines _ st hp
      have hbox : (m1.boundingBoxMin, m1.boundingBoxMax) =
          (st.model.boundingBoxMin, st.model.boundingBoxMax) := by
        by_cases hvs : st.vertices.isEmpty = true
        · rw [if_neg (by simp [hvs])] at hm
          simp only [Except.ok.injEq] at hm
          subst hm
          rfl
        · rw [if_pos (by simp [hvs])] at hm
          simp only [Except.ok.injEq] at hm
          subst hm
          rfl
      rw [hbox, hfold, hv, boundsLoop_eq]
      simp only [Model.init, Vec3.splat, positionsMin, positionsMax, List.foldl_cons,
        min_eq_right hp0.1.2, min_eq_right hp0.2.1.2, min_eq_right hp0.2.2.2,
        max_eq_right hp0.1.1, max_eq_right hp0.2.1.1, max_eq_right hp0.2.2.1]
  -- the object
  have hobj : (r.2.minBounds, r.2.maxBounds) = (positionsMin p0 rest, positionsMax p0 rest) := by
    simp only [loadOBJModel] at ho
    cases hp : parseLines (⟨[], [], [], ⟨[], [], []⟩⟩ : ParseState F) lines with
    | error e => rw [hp] at ho; cases ho
    | ok ps =>
      rw [hp] at ho
      dsimp only at ho
      have hpos : ps.positions = p0 :: rest := by
        rw [parseLines_vPositions lines _ ps hp, hv]
        rfl
      cases hb : buildVertices env ps.positions ps.texCoords ps.normals ps.ix.texIndices
          ps.ix.normIndices 0 ps.ix.posIndices ([], []) with
      | error e => rw [hb] at ho; cases ho
      | ok r1 =>
        rw [hb] at ho
        simp only [Except.ok.injEq] at ho
        subst ho
        simp only [hpos, computeBounds, boundsLoop_eq]
        simp only [positionsMin, positionsMax, List.foldl_cons, min_self, max_self]
  simp only [Prod.mk.injEq] at hmodel hobj
  exact ⟨hobj.1.trans hmodel.1.symm, hobj.2.trans hmodel.2.symm, hmodel.1, hmodel.2⟩

/-- C27 on `pentagonFile` with `FLT_MAX` taken as 1000: both boxes are
(-1,0,0) to (3,3,0). -/
theorem boxes_agree_witness :
    ∃ (m1 : Model ℤ) (r : Bool × GameObject ℤ),
      Model.construct sampleEnv 1000 "models/car.obj" (some pentagonFile) = .ok m1 ∧
      loadOBJModel sampleObjEnv (cubeObject 1) (some pentagonFile) = .ok r ∧
      r.2.minBounds = m1.boundingBoxMin ∧ r.2.maxBounds = m1.boundingBoxMax ∧
      m1.boundingBoxMin = ⟨-1, 0, 0⟩ ∧ m1.boundingBoxMax = ⟨3, 3, 0⟩ := by
  have h := boxes_agree sampleEnv sampleObjEnv 1000 "models/car.obj" (cubeObject 1) pentagonFile
    _ _ ⟨0, 0, 0⟩ [⟨2, 0, 0⟩, ⟨3, 2, 0⟩, ⟨1, 3, 0⟩, ⟨-1, 2, 0⟩] rfl rfl rfl (by decide)
  exact ⟨_, _, rfl, rfl, h.1, h.2.1, h.2.2.1.trans (by decide), h.2.2.2.trans (by decide)⟩

/-! ### Lookups of `loadOBJModel` -/

theorem take_length_takeWhile (p : Char → Bool) :
    ∀ cs : List Char, cs.take (cs.takeWhile p).length = cs.takeWhile p := by
  intro cs
  induction cs with
  | nil => rfl
  | cons c cs ih =>
    by_cases h : p c = true
    · rw [List.takeWhile_cons_of_pos h, List.length_cons, List.take_succ_cons, ih]
    · rw [List.takeWhile_cons_of_neg h]
      rfl

/-- The first field `processFaceVertex` cuts out is the position field. -/
theorem findSlash_positionField (vertex : String) :
    (∀ s, findSlash vertex.toList 0 = some s → vertex.toList.take s = positionField vertex) ∧
    (findSlash vertex.toList 0 = none → vertex.toList = positionField vertex) := by
  unfold findSlash positionField
  simp only [List.drop_zero, Nat.zero_add]
  constructor
  · intro s hs
    split_ifs at hs with h
    simp only [Option.some.injEq] at hs
    subst hs
    exact take_length_takeWhile _ _
  · intro hs
    split_ifs at hs with h
    have hle := (List.takeWhile_sublist (l := vertex.toList) (fun d => d != '/')).length_le
    exact ((List.takeWhile_prefix (fun d => d != '/')).eq_of_length (by omega)).symm

/-- When the three pushes of `processFaceVertex` succeed, each gives the
vector of the result. -/
theorem pushes_ok (ix ix1 : FaceIndices) (f1 f2 f3 : List Char)
    (h : (match pushIndex f1 ix.posIndices with
        | .error e => (.error e : Except LoadError FaceIndices)
        | .ok ps =>
          match pushIndex f2 ix.texIndices with
          | .error e => .error e
          | .ok ts =>
            match pushIndex f3 ix.normIndices with
            | .error e => .error e
            | .ok ns => .ok { posIndices := ps, texIndices := ts, normIndices := ns }) =
        .ok ix1) :
    pushIndex f1 ix.posIndices = .ok ix1.posIndices := by
  cases h1 : pushIndex f1 ix.posIndices with
  | error e => rw [h1] at h; cases h
  | ok ps =>
    rw [h1] at h
    dsimp only at h
    cases h2 : pushIndex f2 ix.texIndices with
    | error e => rw [h2] at h; cases h
    | ok ts =>
      rw [h2] at h
      dsimp only at h
      cases h3 : pushIndex f3 ix.normIndices with
      | error e => rw [h3] at h; cases h
      | ok ns =>
        rw [h3] at h
        simp only [Except.ok.injEq] at h
        subst h
        rfl

/-- The position indices after `processFaceVertex` are those of the push of
the position field. -/
theorem processFaceVertex_pos (vertex : String) (ix ix1 : FaceIndices)
    (h : processFaceVertex vertex ix = .ok ix1) :
    pushIndex (positionField vertex) ix.posIndices = .ok ix1.posIndices := by
  obtain ⟨hsome, hnone⟩ := findSlash_positionField vertex
  unfold processFaceVertex at h
  dsimp only at h
  cases s1 : findSlash vertex.toList 0 with
  | none =>
    rw [s1] at h
    dsimp only at h
    rw [← hnone s1]
    exact pushes_ok ix ix1 vertex.toList [] [] h
  | some slash1 =>
    rw [s1] at h
    dsimp only at h
    rw [← hsome slash1 s1]
    cases s2 : findSlash vertex.toList (slash1 + 1) with
    | none =>
      rw [s2] at h
      dsimp only at h
      exact pushes_ok ix ix1 _ (vertex.toList.drop (slash1 + 1)) [] h
    | some slash2 =>
      rw [s2] at h
      dsimp only at h
      exact pushes_ok ix ix1 _ ((vertex.toList.drop (slash1 + 1)).take (slash2 - slash1 - 1))
        (vertex.toList.drop (slash2 + 1)) h

/-- A reference with an empty position field or a position index in
`1 .. n` keeps the position indices below `n`. -/
theorem processFaceVertex_bound (n : Nat) (vertex : String) (ix ix1 : FaceIndices)
    (hv : positionField vertex = [] ∨ PositionInRange n vertex)
    (hix : ∀ q ∈ ix.posIndices, q < n) (h : processFaceVertex vertex ix = .ok ix1) :
    ∀ q ∈ ix1.posIndices, q < n := by
  have hp := processFaceVertex_pos vertex ix ix1 h
  unfold pushIndex at hp
  rcases hv with hv | ⟨p, hstoi, h1, h2⟩
  · rw [hv] at hp
    simp only [List.isEmpty_nil, if_true, Except.ok.injEq] at hp
    rw [← hp]
    exact hix
  · split_ifs at hp with he
    · simp only [Except.ok.injEq] at hp
      rw [← hp]
      exact hix
    · have hp1 : p ≠ -2147483648 := by omega
      simp only [stoiMinusOne, hstoi, if_neg hp1, Except.ok.injEq] at hp
      rw [← hp]
      intro q hq
      rcases List.mem_append.1 hq with hq | hq
      · exact hix q hq
      · simp only [List.mem_singleton] at hq
        subst hq
        unfold intToUInt32
        norm_num
        omega

/-- The face branch of `loadOBJModel` keeps the position indices below `n`
when its references are in range. -/
theorem processFace_bound (n : Nat) (vertices : List String) (ix ix1 : FaceIndices)
    (hv : ∀ t ∈ vertices, positionField t = [] ∨ PositionInRange n t)
    (hix : ∀ q ∈ ix.posIndices, q < n) (h : processFace vertices ix = .ok ix1) :
    ∀ q ∈ ix1.posIndices, q < n := by
  unfold processFace at h
  split_ifs at h with h3 h4
  · simp only [bind, Except.bind, pure, Except.pure] at h
    split at h
    · cases h
    · rename_i a ha
      have ba := processFaceVertex_bound n _ ix a (hv _ (List.getElem_mem _)) hix ha
      split at h
      · cases h
      · rename_i b hb
        have bb := processFaceVertex_bound n _ a b (hv _ (List.getElem_mem _)) ba hb
        split at h
        · cases h
        · rename_i c hc
          have bc := processFaceVertex_bound n _ b c (hv _ (List.getElem_mem _)) bb hc
          split at h
          · cases h
          · rename_i d hd
            have bd := processFaceVertex_bound n _ c d (hv _ (List.getElem_mem _)) bc hd
            split at h
            · cases h
            · rename_i e he
              have be := processFaceVertex_bound n _ d e (hv _ (List.getElem_mem _)) bd he
              exact processFaceVertex_bound n _ e ix1 (hv _ (List.getElem_mem _)) be h
  · simp only [bind, Except.bind, pure, Except.pure] at h
    split at h
    · cases h
    · rename_i a ha
      have ba := processFaceVertex_bound n _ ix a (hv _ (List.getElem_mem _)) hix ha
      split at h
      · cases h
      · rename_i b hb
        have bb := processFaceVertex_bound n _ a b (hv _ (List.getElem_mem _)) ba hb
        split at h
        · cases h
        · rename_i c hc
          have bc := processFaceVertex_bound n _ b c (hv _ (List.getElem_mem _)) bb hc
          simp only [Except.ok.injEq] at h
          subst h
          exact bc
  · simp only [pure, Except.pure, Except.ok.injEq] at h
    subst h
    exact hix

/-- The line loop of `loadOBJModel` keeps the position indices below `n`
when the references of every face line are in range. -/
theorem parseLines_bound {F : Type} (n : Nat) :
    ∀ (lines : List (Line F)) (ps ps1 : ParseState F),
      (∀ tokens, Line.f tokens ∈ lines →
        ∀ t ∈ tokens, positionField t = [] ∨ PositionInRange n t) →
      (∀ q ∈ ps.ix.posIndices, q < n) → parseLines ps lines = .ok ps1 →
      ∀ q ∈ ps1.ix.posIndices, q < n := by
  intro lines
  induction lines with
  | nil =>
    intro ps ps1 _ hix h
    simp only [parseLines, Except.ok.injEq] at h
    subst h
    exact hix
  | cons l ls ih =>
    intro ps ps1 hv hix h
    unfold parseLines at h
    cases hl : parseLine ps l with
    | error e => rw [hl] at h; cases h
    | ok ps2 =>
      rw [hl] at h
      dsimp only at h
      refine ih ps2 ps1 (fun tokens hm => hv tokens (List.mem_cons_of_mem _ hm)) ?_ h
      cases l with
      | v x y z =>
        simp only [parseLine, Except.ok.injEq] at hl
        subst hl
        exact hix
      | vt u v =>
        simp only [parseLine, Except.ok.injEq] at hl
        subst hl
        exact hix
      | vn x y z =>
        simp only [parseLine, Except.ok.injEq] at hl
        subst hl
        exact hix
      | f tokens =>
        simp only [parseLine] at hl
        cases hf : processFace tokens ps.ix with
        | error e => rw [hf] at hl; cases hl
        | ok ix =>
          rw [hf] at hl
          simp only [Except.ok.injEq] at hl
          subst hl
          exact processFace_bound n tokens ps.ix ix (hv tokens (List.mem_cons_self _ _)) hix hf
      | mtllib file =>
        simp only [parseLine, Except.ok.injEq] at hl
        subst hl
        exact hix
      | other =>
        simp only [parseLine, Except.ok.injEq] at hl
        subst hl
        exact hix

/-- What the vertex loop of `loadOBJModel` returns: 8 floats and one index per
position index, the indices being the loop counter as `unsigned int`. -/
theorem buildVertices_shape {F : Type} [Zero F] (env : ObjEnv F) (positions : List (Vec3 F))
    (texCoords : List (Vec2 F)) (normals : List (Vec3 F)) (texIndices normIndices : List Nat) :
    ∀ (rest : List Nat) (i : Nat) (acc r : List F × List Nat),
      buildVertices env positions texCoords normals texIndices normIndices i rest acc = .ok r →
      r.1.length = acc.1.length + 8 * rest.length ∧
        r.2 = acc.2 ++ (List.range' i rest.length).map toUInt32 := by
  intro rest
  induction rest with
  | nil =>
    intro i acc r h
    simp only [buildVertices, Except.ok.injEq] at h
    subst h
    simp
  | cons p ps ih =>
    intro i acc r h
    unfold buildVertices at h
    cases hp : positions[p]? with
    | none => rw [hp] at h; cases h
    | some pos =>
      rw [hp] at h
      dsimp only at h
      obtain ⟨h1, h2⟩ := ih _ _ _ h
      constructor
      · rw [h1]
        simp only [List.length_append, List.length_cons, List.length_nil]
        omega
      · rw [h2]
        simp [List.range'_succ]

/-- The vertex loop of `loadOBJModel` can only fail at the position lookup:
the texture-coordinate and normal lookups are guarded. -/
theorem buildVertices_error {F : Type} [Zero F] (env : ObjEnv F) (positions : List (Vec3 F))
    (texCoords : List (Vec2 F)) (normals : List (Vec3 F)) (texIndices normIndices : List Nat) :
    ∀ (rest : List Nat) (i : Nat) (acc : List F × List Nat) (e : LoadError),
      buildVertices env positions texCoords normals texIndices normIndices i rest acc =
        .error e →
      e = .outOfBounds ∧ ∃ p ∈ rest, positions.length ≤ p := by
  intro rest
  induction rest with
  | nil =>
    intro i acc e h
    simp only [buildVertices] at h
    cases h
  | cons p ps ih =>
    intro i acc e h
    unfold buildVertices at h
    cases hp : positions[p]? with
    | none =>
      rw [hp] at h
      simp only [Except.error.injEq] at h
      exact ⟨h.symm, p, List.mem_cons_self _ _, by
        rw [List.getElem?_eq_none_iff] at hp
        exact hp⟩
    | some pos =>
      rw [hp] at h
      dsimp only at h
      obtain ⟨h1, q, hq, h2⟩ := ih _ _ _ h
      exact ⟨h1, q, List.mem_cons_of_mem _ hq, h2⟩

/-- The vertex loop from counter 0 on position indices that are in range. -/
theorem buildVertices_in_range {F : Type} [Zero F] (env : ObjEnv F) (positions : List (Vec3 F))
    (texCoords : List (Vec2 F)) (normals : List (Vec3 F))
    (texIndices normIndices posIndices : List Nat)
    (h : ∀ q ∈ posIndices, q < positions.length) :
    ∃ r, buildVertices env positions texCoords normals texIndices normIndices 0 posIndices
        ([], []) = .ok r ∧
      r.1.length = 8 * r.2.length ∧ r.2 = (List.range posIndices.length).map toUInt32 := by
  obtain ⟨r, hr⟩ := buildVertices_ok env positions texCoords normals texIndices normIndices
    posIndices 0 ([], []) h
  obtain ⟨h1, h2⟩ := buildVertices_shape env positions texCoords normals texIndices normIndices
    posIndices 0 ([], []) r hr
  refine ⟨r, hr, ?_, ?_⟩
  · rw [h1, h2]
    simp
  · rw [h2, List.range_eq_range']
    rfl

/-- C28 (amended): in `loadOBJModel`, when the line loop ends without an
exception and every face reference has a position index `p` with
`1 ≤ p ≤` the number of `v` lines of the whole file (or no position field),
every lookup `positions[posIndices[i]]` is within bounds, the function returns
`true`, and the output has 8 floats per emitted index, the indices being
`i mod 2^32` for `i = 0..k-1`, which is `0..k-1` whenever `k ≤ 2^32`; and for
every input the only lookup that can be out of bounds is the one into
`positions`, those into `texCoords` and `normals` being guarded. -/
theorem loadOBJModel_lookups {F : Type} [Zero F] [LT F] [DecidableRel (fun a b : F => a < b)]
    (env : ObjEnv F) (obj : GameObject F) (lines : List (Line F)) (ps : ParseState F)
    (hp : parseLines ⟨[], [], [], ⟨[], [], []⟩⟩ lines = .ok ps) :
    ((∀ tokens, Line.f tokens ∈ lines →
        ∀ t ∈ tokens, positionField t = [] ∨ PositionInRange (vPositions lines).length t) →
      (∀ q ∈ ps.ix.posIndices, q < ps.positions.length) ∧
      ∃ obj1, loadOBJModel env obj (some lines) = .ok (true, obj1) ∧
        obj1.vertices.length = 8 * obj1.indices.length ∧
        obj1.indices = (List.range ps.ix.posIndices.length).map (fun i => i % 2 ^ 32) ∧
        (ps.ix.posIndices.length ≤ 2 ^ 32 →
          obj1.indices = List.range ps.ix.posIndices.length)) ∧
    (∀ e, loadOBJModel env obj (some lines) = .error e →
      e = .outOfBounds ∧ ∃ q ∈ ps.ix.posIndices, ps.positions.length ≤ q) := by
  have hlen : ps.positions = vPositions lines := by
    rw [parseLines_vPositions lines _ ps hp]
    rfl
  constructor
  · intro href
    have hb : ∀ q ∈ ps.ix.posIndices, q < ps.positions.length := by
      rw [hlen]
      exact parseLines_bound _ lines _ ps href (fun q hq => by cases hq) hp
    refine ⟨hb, ?_⟩
    obtain ⟨r, hr, h1, h2⟩ := buildVertices_in_range env ps.positions ps.texCoords ps.normals
      ps.ix.texIndices ps.ix.normIndices ps.ix.posIndices hb
    simp only [loadOBJModel, hp, hr]
    refine ⟨_, rfl, h1, h2, ?_⟩
    intro hk
    show r.2 = _
    rw [h2]
    exact range_map_toUInt32 _ hk
  · intro e he
    simp only [loadOBJModel, hp] at he
    cases hb : buildVertices env ps.positions ps.texCoords ps.normals ps.ix.texIndices
        ps.ix.normIndices 0 ps.ix.posIndices ([], []) with
    | ok r => rw [hb] at he; cases he
    | error e1 =>
      rw [hb] at he
      simp only [Except.error.injEq] at he
      subst he
      exact buildVertices_error env ps.positions ps.texCoords ps.normals ps.ix.texIndices
        ps.ix.normIndices ps.ix.posIndices 0 ([], []) e1 hb

/-- C28 (amended) on `pentagonFile`: its references 1 to 5 are in range, and
the load returns 24 floats with the indices 0, 1, 2. -/
theorem loadOBJModel_lookups_witness :
    ∃ obj1, loadOBJModel sampleObjEnv (cubeObject 1) (some pentagonFile) = .ok (true, obj1) ∧
      obj1.vertices.length = 8 * obj1.indices.length ∧ obj1.indices = [0, 1, 2] := by
  obtain ⟨_, obj1, h1, h2, _, h4⟩ :=
    (loadOBJModel_lookups sampleObjEnv (cubeObject 1) pentagonFile
      ⟨[⟨0, 0, 0⟩, ⟨2, 0, 0⟩, ⟨3, 2, 0⟩, ⟨1, 3, 0⟩, ⟨-1, 2, 0⟩], [], [], ⟨[0, 1, 2], [], []⟩⟩
      rfl).1
      (by
        intro tokens hm t ht
        simp only [pentagonFile, List.mem_cons, List.mem_singleton, Line.f.injEq,
          List.not_mem_nil, or_false, reduceCtorEq, false_or] at hm
        subst hm
        right
        simp only [List.mem_cons, List.mem_singleton, List.not_mem_nil, or_false] at ht
        rcases ht with rfl | rfl | rfl | rfl | rfl
        · exact ⟨1, rfl, by decide, by decide⟩
        · exact ⟨2, rfl, by decide, by decide⟩
        · exact ⟨3, rfl, by decide, by decide⟩
        · exact ⟨4, rfl, by decide, by decide⟩
        · exact ⟨5, rfl, by decide, by decide⟩)
  exact ⟨obj1, h1, h2, h4 (by decide)⟩

/-- One triangle on position 1 appends three times the index 0. -/
theorem processFace_triangle (ix : FaceIndices) :
    processFace ["1", "1", "1"] ix =
      .ok { ix with posIndices := ix.posIndices ++ [0, 0, 0] } := by
  have h1 : ∀ jx : FaceIndices,
      processFaceVertex "1" jx = .ok { jx with posIndices := jx.posIndices ++ [0] } := by
    intro jx
    rfl
  simp only [processFace, List.length_cons, List.length_nil, List.getElem_cons_zero,
    List.getElem_cons_succ, bind, Except.bind, pure, Except.pure, h1]
  simp

/-- The line loop of `loadOBJModel` on `n` such triangles. -/
theorem parseLines_triangles {F : Type} (n : Nat) :
    ∀ ps : ParseState F,
      parseLines ps (List.replicate n (.f ["1", "1", "1"])) =
        .ok { ps with ix := { ps.ix with
          posIndices := ps.ix.posIndices ++ List.replicate (3 * n) 0 } } := by
  induction n with
  | zero =>
    intro ps
    simp [parseLines]
  | succ n ih =>
    intro ps
    rw [List.replicate_succ, parseLines]
    simp only [parseLine, processFace_triangle]
    rw [ih]
    simp only [List.append_assoc]
    congr 4

/-- A position and more than `2^32 / 3` triangles on it load, and the indices
are not `0, 1, ..., k-1`. -/
theorem loadOBJModel_triangles_wrap {F : Type} [Zero F] [LT F]
    [DecidableRel (fun a b : F => a < b)] (env : ObjEnv F) (obj : GameObject F) (x y z : F)
    (n : Nat) (hn : 2 ^ 32 < 3 * n) :
    (loadOBJModel env obj
        (some (.v x y z :: List.replicate n (.f ["1", "1", "1"])))).toOption.map
      (fun r => (r.1, r.2.indices.length,
        decide (r.2.indices = List.range r.2.indices.length))) =
      some (true, 3 * n, false) := by
  have hp : parseLines (⟨[], [], [], ⟨[], [], []⟩⟩ : ParseState F)
      (.v x y z :: List.replicate n (.f ["1", "1", "1"])) =
      .ok ⟨[⟨x, y, z⟩], [], [], ⟨List.replicate (3 * n) 0, [], []⟩⟩ := by
    rw [parseLines]
    simp only [parseLine]
    rw [parseLines_triangles]
    rfl
  obtain ⟨r, hr, _, h2⟩ := buildVertices_in_range env [(⟨x, y, z⟩ : Vec3 F)] [] []
    [] [] (List.replicate (3 * n) 0) (by
      intro q hq
      rw [List.eq_of_mem_replicate hq]
      exact Nat.zero_lt_one)
  simp only [loadOBJModel, hp, hr, Except.toOption, Option.map_some', Option.some.injEq,
    Prod.mk.injEq, true_and, h2, List.length_map, List.length_range, List.length_replicate,
    decide_eq_false_iff_not]
  exact range_map_toUInt32_ne _ hn

/-- C28 as stated fails on `hugeTriangleFile`: every position index is 1, the
load returns `true` with 4294967298 indices, and they are not
`0, 1, ..., 4294967297` (the entry at position `2^32` is 0). -/
theorem loadOBJModel_indices_wrap :
    (loadOBJModel sampleObjEnv (cubeObject 1) (some hugeTriangleFile)).toOption.map
      (fun r => (r.1, r.2.indices.length,
        decide (r.2.indices = List.range r.2.indices.length))) =
      some (true, 4294967298, false) :=
  loadOBJModel_triangles_wrap sampleObjEnv (cubeObject 1) 0 0 0 1431655766 (by norm_num)

/-! ### Rounding in binary32 -/

theorem bitLengthAux_le_iff : ∀ (fuel a n : Nat), a ≤ fuel →
    (bitLengthAux fuel a ≤ n ↔ a < 2 ^ n) := by
  intro fuel
  induction fuel with
  | zero =>
    intro a n h
    have ha : a = 0 := by omega
    subst ha
    simp [bitLengthAux]
  | succ fuel ih =>
    intro a n h
    unfold bitLengthAux
    by_cases ha : a = 0
    · subst ha
      simp
    · rw [if_neg ha]
      cases n with
      | zero =>
        simp only [pow_zero, Nat.lt_one_iff]
        constructor
        · intro h1; omega
        · intro h1; exact absurd h1 ha
      | succ n =>
        rw [Nat.add_le_add_iff_right, ih (a / 2) n (by omega), pow_succ]
        omega

/-- The numbers of at most `n` binary digits are those below `2 ^ n`. -/
theorem bitLength_le_iff (a n : Nat) : bitLength a ≤ n ↔ a < 2 ^ n :=
  bitLengthAux_le_iff a a n (le_refl a)

theorem lt_two_pow_bitLength (a : Nat) : a < 2 ^ bitLength a :=
  (bitLength_le_iff a _).1 (le_refl _)

theorem two_pow_le_of_lt_bitLength (a n : Nat) (h : n < bitLength a) : 2 ^ n ≤ a := by
  by_contra hc
  have := (bitLength_le_iff a n).2 (by omega)
  omega

theorem bitLength_mono (a b : Nat) (h : a ≤ b) : bitLength a ≤ bitLength b :=
  (bitLength_le_iff a _).2 (lt_of_le_of_lt h (lt_two_pow_bitLength b))

/-- The two candidates of a rounding. -/
theorem roundToMultiple_cases (a k : Nat) (s : Bool) :
    roundToMultiple a k s = a / 2 ^ k * 2 ^ k ∨ roundToMultiple a k s = (a / 2 ^ k + 1) * 2 ^ k := by
  unfold roundToMultiple
  dsimp only
  split_ifs
  · exact Or.inr rfl
  · exact Or.inl rfl

theorem roundToMultiple_dvd (a k : Nat) (s : Bool) : 2 ^ k ∣ roundToMultiple a k s := by
  rcases roundToMultiple_cases a k s with h | h <;> rw [h] <;> exact Dvd.intro_left _ rfl

/-- A multiple of `2 ^ k` is not changed. -/
theorem roundToMultiple_exact (a k : Nat) (s : Bool) (h : a % 2 ^ k = 0) :
    roundToMultiple a k s = a := by
  have hp : 0 < 2 ^ k := Nat.two_pow_pos k
  unfold roundToMultiple
  dsimp only
  rw [h, if_neg (by omega)]
  have := Nat.div_add_mod a (2 ^ k)
  rw [h, Nat.add_zero, Nat.mul_comm] at this
  exact this

/-- Rounding does not pass a multiple of `2 ^ k` above the number. -/
theorem roundToMultiple_le_of_dvd (a k c : Nat) (s : Bool) (hc : 2 ^ k ∣ c) (h : a ≤ c) :
    roundToMultiple a k s ≤ c := by
  have hp : 0 < 2 ^ k := Nat.two_pow_pos k
  by_cases hr : a % 2 ^ k = 0
  · rw [roundToMultiple_exact a k s hr]
    exact h
  · obtain ⟨m, rfl⟩ := hc
    have h1 : a / 2 ^ k < m := by
      rw [Nat.div_lt_iff_lt_mul hp, Nat.mul_comm]
      rcases Nat.lt_or_ge a (2 ^ k * m) with h2 | h2
      · exact h2
      · have : a = 2 ^ k * m := le_antisymm h h2
        rw [this, Nat.mul_mod_right] at hr
        exact absurd rfl hr
    have h3 : (a / 2 ^ k + 1) * 2 ^ k ≤ 2 ^ k * m := by
      rw [Nat.mul_comm (2 ^ k) m]
      exact Nat.mul_le_mul_right _ h1
    rcases roundToMultiple_cases a k s with h4 | h4
    · rw [h4]
      exact le_trans (Nat.mul_le_mul_right _ (Nat.le_succ _)) h3
    · rw [h4]
      exact h3

/-- Rounding does not pass a multiple of `2 ^ k` below the number. -/
theorem le_roundToMultiple_of_dvd (a k c : Nat) (s : Bool) (hc : 2 ^ k ∣ c) (h : c ≤ a) :
    c ≤ roundToMultiple a k s := by
  have hp : 0 < 2 ^ k := Nat.two_pow_pos k
  obtain ⟨m, rfl⟩ := hc
  have h1 : m ≤ a / 2 ^ k := by
    rw [Nat.le_div_iff_mul_le hp, Nat.mul_comm]
    exact h
  have h3 : 2 ^ k * m ≤ a / 2 ^ k * 2 ^ k := by
    rw [Nat.mul_comm (2 ^ k) m]
    exact Nat.mul_le_mul_right _ h1
  rcases roundToMultiple_cases a k s with h4 | h4
  · rw [h4]
    exact h3
  · rw [h4]
    exact le_trans h3 (Nat.mul_le_mul_right _ (Nat.le_succ _))

/-- Rounding to multiples of one `2 ^ k` is monotone. -/
theorem roundToMultiple_mono (a b k : Nat) (s : Bool) (h : a ≤ b) :
    roundToMultiple a k s ≤ roundToMultiple b k s := by
  have hp : 0 < 2 ^ k := Nat.two_pow_pos k
  rcases Nat.lt_or_ge (roundToMultiple b k s) a with h1 | h1
  · -- both lie in one cell, and `b` is rounded down
    have eb := Nat.div_add_mod b (2 ^ k)
    have rb := Nat.mod_lt b hp
    have ea := Nat.div_add_mod a (2 ^ k)
    have ra := Nat.mod_lt a hp
    have hb1 : roundToMultiple b k s = b / 2 ^ k * 2 ^ k := by
      rcases roundToMultiple_cases b k s with h2 | h2
      · exact h2
      · rw [h2, Nat.add_mul, Nat.one_mul, Nat.mul_comm] at h1
        omega
    have hq : a / 2 ^ k = b / 2 ^ k := by
      apply Nat.div_eq_of_lt_le
      · rw [← hb1]; exact le_of_lt h1
      · rw [Nat.succ_mul, Nat.mul_comm]; omega
    rw [hb1]
    have hb2 := hb1
    unfold roundToMultiple at hb2 ⊢
    dsimp only at hb2 ⊢
    rw [hq]
    rw [hq] at ea
    by_cases cb : 2 ^ k < 2 * (b % 2 ^ k) ∨
        (2 * (b % 2 ^ k) = 2 ^ k ∧ (s = true ∨ b / 2 ^ k % 2 = 1))
    · rw [if_pos cb, Nat.add_mul, Nat.one_mul] at hb2
      omega
    · rw [if_neg]
      intro ca
      apply cb
      rcases ca with ca | ⟨ca, cx⟩
      · left; omega
      · rcases Nat.lt_or_ge (2 ^ k) (2 * (b % 2 ^ k)) with c1 | c1
        · left; exact c1
        · right; exact ⟨by omega, cx⟩
  · exact roundToMultiple_le_of_dvd a k _ s (roundToMultiple_dvd b k s) h1

/-- The rounding error is at most half of `2 ^ k`. -/
theorem roundToMultiple_error (a k : Nat) (s : Bool) :
    2 * roundToMultiple a k s ≤ 2 * a + 2 ^ k ∧ 2 * a ≤ 2 * roundToMultiple a k s + 2 ^ k := by
  have hp : 0 < 2 ^ k := Nat.two_pow_pos k
  have ea := Nat.div_add_mod a (2 ^ k)
  have ra := Nat.mod_lt a hp
  unfold roundToMultiple
  dsimp only
  rw [Nat.mul_comm] at ea
  split_ifs with c
  · rw [Nat.add_mul, Nat.one_mul]
    rcases c with c | ⟨c, -⟩ <;> omega
  · have c1 : ¬ 2 ^ k < 2 * (a % 2 ^ k) := fun hc => c (Or.inl hc)
    omega

/-- The rounding position of a magnitude. -/
theorem roundMagnitude_eq (extra a : Nat) (s : Bool) :
    roundMagnitude extra a s * 2 ^ extra =
      roundToMultiple a (max extra (bitLength a - 24)) s := by
  unfold roundMagnitude
  apply Nat.div_mul_cancel
  exact dvd_trans (pow_dvd_pow 2 (le_max_left _ _)) (roundToMultiple_dvd _ _ _)

/-- Rounding of magnitudes is monotone. -/
theorem roundMagnitude_mono (extra a b : Nat) (h : a ≤ b) :
    roundMagnitude extra a false ≤ roundMagnitude extra b false := by
  have hl := bitLength_mono a b h
  have key : roundToMultiple a (max extra (bitLength a - 24)) false ≤
      roundToMultiple b (max extra (bitLength b - 24)) false := by
    by_cases hk : max extra (bitLength a - 24) = max extra (bitLength b - 24)
    · rw [hk]
      exact roundToMultiple_mono a b _ false h
    · have hlt : bitLength a < bitLength b := by
        rcases Nat.lt_or_ge (bitLength a) (bitLength b) with h1 | h1
        · exact h1
        · exact absurd (by rw [le_antisymm hl h1]) hk
      have hkb : extra < bitLength b - 24 := by
        by_contra hc
        apply hk
        rw [max_eq_left (by omega), max_eq_left (by omega)]
      have c1 : a ≤ 2 ^ (bitLength b - 1) :=
        le_trans (le_of_lt (lt_two_pow_bitLength a)) (Nat.pow_le_pow_right (by norm_num) (by omega))
      have c2 : 2 ^ (bitLength b - 1) ≤ b := two_pow_le_of_lt_bitLength b _ (by omega)
      exact le_trans
        (roundToMultiple_le_of_dvd a _ _ false (pow_dvd_pow 2 (by
          rw [max_le_iff]; omega)) c1)
        (le_roundToMultiple_of_dvd b _ _ false (pow_dvd_pow 2 (by
          rw [max_le_iff]; omega)) c2)
  rw [← roundMagnitude_eq, ← roundMagnitude_eq] at key
  exact Nat.le_of_mul_le_mul_right key (Nat.two_pow_pos extra)



/-! ### Operations of binary32 on finite values -/

theorem ofInt_of_nonneg (extra : Nat) (p : Int) (hp : 0 ≤ p) :
    Binary32.ofInt extra p =
      if 2 ^ 128 * 2 ^ 149 ≤ roundMagnitude extra p.natAbs false then .inf false
      else .fin (roundMagnitude extra p.natAbs false : Nat) := by
  unfold Binary32.ofInt Binary32.round
  simp only [decide_eq_true_eq, not_lt.2 hp, decide_False, Bool.false_eq_true, if_false]

theorem ofInt_of_neg (extra : Nat) (p : Int) (hp : p < 0) :
    Binary32.ofInt extra p =
      if 2 ^ 128 * 2 ^ 149 ≤ roundMagnitude extra p.natAbs false then .inf true
      else .fin (-(roundMagnitude extra p.natAbs false : Nat)) := by
  unfold Binary32.ofInt Binary32.round
  simp only [hp, decide_True, if_true]

theorem binary32_le_def (a b : Binary32) : a ≤ b ↔ Binary32.ble a b = true := Iff.rfl

theorem binary32_lt_def (a b : Binary32) : a < b ↔ Binary32.blt a b = true := Iff.rfl

theorem fin_le_fin (a b : Int) : (Binary32.fin a ≤ Binary32.fin b) ↔ a ≤ b := by
  rw [binary32_le_def]
  simp [Binary32.ble]

theorem fin_lt_fin (a b : Int) : (Binary32.fin a < Binary32.fin b) ↔ a < b := by
  rw [binary32_lt_def]
  simp [Binary32.blt]

/-- Rounding is monotone. -/
theorem ofInt_mono (extra : Nat) (p q : Int) (h : p ≤ q) :
    Binary32.ofInt extra p ≤ Binary32.ofInt extra q := by
  rw [binary32_le_def]
  rcases lt_or_le p 0 with hp | hp
  · rcases lt_or_le q 0 with hq | hq
    · have hm := roundMagnitude_mono extra q.natAbs p.natAbs (by omega)
      rw [ofInt_of_neg extra p hp, ofInt_of_neg extra q hq]
      split_ifs with c1 c2 c2
      · rfl
      · rfl
      · omega
      · simp only [Binary32.ble, decide_eq_true_eq]
        omega
    · rw [ofInt_of_neg extra p hp, ofInt_of_nonneg extra q hq]
      split_ifs with c1 c2 c2
      · rfl
      · rfl
      · rfl
      · simp only [Binary32.ble, decide_eq_true_eq]
        omega
  · have hq : 0 ≤ q := le_trans hp h
    have hm := roundMagnitude_mono extra p.natAbs q.natAbs (by omega)
    rw [ofInt_of_nonneg extra p hp, ofInt_of_nonneg extra q hq]
    split_ifs with c1 c2 c2
    · rfl
    · omega
    · rfl
    · simp only [Binary32.ble, decide_eq_true_eq]
      omega

/-- A number of at most 24 significant bits below `2^128` is not changed. -/
theorem ofInt_exact (p : Int) (h : p.natAbs % 2 ^ (bitLength p.natAbs - 24) = 0)
    (hb : p.natAbs < 2 ^ 128 * 2 ^ 149) : Binary32.ofInt 0 p = .fin p := by
  have hr : roundMagnitude 0 p.natAbs false = p.natAbs := by
    unfold roundMagnitude
    rw [Nat.zero_max, roundToMultiple_exact _ _ _ h, pow_zero, Nat.div_one]
  rcases lt_or_le p 0 with hp | hp
  · rw [ofInt_of_neg 0 p hp, hr, if_neg (by omega)]
    congr 1
    omega
  · rw [ofInt_of_nonneg 0 p hp, hr, if_neg (by omega)]
    congr 1
    omega

/-- A multiple of `2 ^ k` below `2 ^ (k + 24)` is not changed. -/
theorem ofInt_exact_of_dvd (p : Int) (k : Nat) (hd : (2 : Int) ^ k ∣ p)
    (hlt : p.natAbs < 2 ^ (k + 24)) (hb : p.natAbs < 2 ^ 128 * 2 ^ 149) :
    Binary32.ofInt 0 p = .fin p := by
  apply ofInt_exact p _ hb
  apply Nat.mod_eq_zero_of_dvd
  have h1 : bitLength p.natAbs - 24 ≤ k := by
    have := (bitLength_le_iff p.natAbs (k + 24)).2 hlt
    omega
  have h2 : 2 ^ k ∣ p.natAbs := by
    have := Int.natAbs_dvd_natAbs.2 hd
    simpa [Int.natAbs_pow] using this
  exact dvd_trans (pow_dvd_pow 2 h1) h2

/-- The conversion of a small integer is exact. -/
theorem natCast_small (n : Nat) (h : n < 2 ^ 24) :
    ((n : ℕ) : Binary32) = .fin ((n : Int) * 2 ^ 149) := by
  show Binary32.ofInt 0 ((n * 2 ^ 149 : Nat) : Int) = _
  have e : ((n * 2 ^ 149 : Nat) : Int) = (n : Int) * 2 ^ 149 := by push_cast; rfl
  rw [e]
  apply ofInt_exact_of_dvd _ 149 (Dvd.intro_left _ rfl)
  · rw [Int.natAbs_mul, Int.natAbs_pow, Int.natAbs_ofNat]
    simp only [Int.reduceAbs]
    calc n * 2 ^ 149 < 2 ^ 24 * 2 ^ 149 := Nat.mul_lt_mul_of_pos_right h (Nat.two_pow_pos _)
      _ = 2 ^ (149 + 24) := by rw [pow_add, Nat.mul_comm]
  · rw [Int.natAbs_mul, Int.natAbs_pow, Int.natAbs_ofNat]
    simp only [Int.reduceAbs]
    calc n * 2 ^ 149 < 2 ^ 24 * 2 ^ 149 := Nat.mul_lt_mul_of_pos_right h (Nat.two_pow_pos _)
      _ ≤ 2 ^ 128 * 2 ^ 149 := Nat.mul_le_mul_right _ (Nat.pow_le_pow_right (by norm_num) (by norm_num))

theorem fin_add_fin (a b : Int) : Binary32.fin a + Binary32.fin b = Binary32.ofInt 0 (a + b) := rfl

theorem fin_sub_fin (a b : Int) : Binary32.fin a - Binary32.fin b = Binary32.ofInt 0 (a - b) := by
  show Binary32.add (Binary32.fin a) (Binary32.neg (Binary32.fin b)) = _
  rw [Binary32.neg, Binary32.add, sub_eq_add_neg]

theorem neg_fin (a : Int) : -Binary32.fin a = Binary32.fin (-a) := rfl

theorem fin_mul_fin (a b : Int) : Binary32.fin a * Binary32.fin b = Binary32.ofInt 149 (a * b) := rfl



/-- The rounding error of a sum is at most half a unit in the last place:
for a number below `2 ^ L` it is at most `2 ^ (L - 25)`. -/
theorem ofInt_near (p : Int) (L : Nat) (h24 : 24 ≤ L) (hL : L ≤ 256) (h : p.natAbs < 2 ^ L) :
    ∃ n : Int, Binary32.ofInt 0 p = .fin n ∧ 2 * n ≤ 2 * p + 2 ^ (L - 24) ∧
      2 * p ≤ 2 * n + 2 ^ (L - 24) := by
  have hk : bitLength p.natAbs - 24 ≤ L - 24 := by
    have := (bitLength_le_iff p.natAbs L).2 h
    omega
  have hpow : (2 : Nat) ^ (bitLength p.natAbs - 24) ≤ 2 ^ (L - 24) :=
    Nat.pow_le_pow_right (by norm_num) hk
  have hpow2 : (2 : Nat) ^ (L - 24) * 2 ^ 24 = 2 ^ L := by
    rw [← pow_add]
    congr 1
    omega
  have hpow3 : (2 : Nat) ^ L ≤ 2 ^ 256 := Nat.pow_le_pow_right (by norm_num) hL
  obtain ⟨e1, e2⟩ := roundToMultiple_error p.natAbs (max 0 (bitLength p.natAbs - 24)) false
  have hr := roundMagnitude_eq 0 p.natAbs false
  rw [pow_zero, Nat.mul_one] at hr
  rw [← hr, Nat.zero_max] at e1 e2
  have hc : ((2 : Nat) ^ (L - 24) : Int) = (2 : Int) ^ (L - 24) := by push_cast; rfl
  rcases lt_or_le p 0 with hp | hp
  · refine ⟨-(roundMagnitude 0 p.natAbs false : Nat), ?_, ?_, ?_⟩
    · rw [ofInt_of_neg 0 p hp, if_neg (by omega)]
    · rw [← hc]; omega
    · rw [← hc]; omega
  · refine ⟨(roundMagnitude 0 p.natAbs false : Nat), ?_, ?_, ?_⟩
    · rw [ofInt_of_nonneg 0 p hp, if_neg (by omega)]
    · rw [← hc]; omega
    · rw [← hc]; omega

/-- A sum below a value of the format is rounded to at most that value. -/
theorem ofInt_le_of_le (p b : Int) (h : p ≤ b) (hb : Binary32.ofInt 0 b = .fin b) :
    Binary32.ofInt 0 p ≤ .fin b := by
  rw [← hb]
  exact ofInt_mono 0 p b h

/-- A sum above a value of the format is rounded to at least that value. -/
theorem le_ofInt_of_le (p b : Int) (h : b ≤ p) (hb : Binary32.ofInt 0 b = .fin b) :
    Binary32.fin b ≤ Binary32.ofInt 0 p := by
  rw [← hb]
  exact ofInt_mono 0 b p h

theorem ofInt_small (n : Int) (h : n.natAbs < 2 ^ 24) :
    Binary32.ofInt 0 (n * 2 ^ 149) = .fin (n * 2 ^ 149) := by
  apply ofInt_exact_of_dvd _ 149 (Dvd.intro_left _ rfl)
  · rw [Int.natAbs_mul, Int.natAbs_pow]
    simp only [Int.reduceAbs]
    calc n.natAbs * 2 ^ 149 < 2 ^ 24 * 2 ^ 149 := Nat.mul_lt_mul_of_pos_right h (Nat.two_pow_pos _)
      _ = 2 ^ (149 + 24) := by rw [pow_add, Nat.mul_comm]
  · rw [Int.natAbs_mul, Int.natAbs_pow]
    simp only [Int.reduceAbs]
    calc n.natAbs * 2 ^ 149 < 2 ^ 24 * 2 ^ 149 := Nat.mul_lt_mul_of_pos_right h (Nat.two_pow_pos _)
      _ ≤ 2 ^ 128 * 2 ^ 149 := Nat.mul_le_mul_right _ (Nat.pow_le_pow_right (by norm_num) (by norm_num))

theorem stdAbs_fin (a : Int) : stdAbs (Binary32.fin a) = Binary32.fin |a| := by
  unfold stdAbs
  rw [natCast_small 0 (by norm_num)]
  simp only [Nat.cast_zero, zero_mul]
  split_ifs with h
  · rw [neg_fin, abs_of_neg ((fin_lt_fin _ _).1 h)]
  · rw [abs_of_nonneg (not_lt.1 (fun hc => h ((fin_lt_fin _ _).2 hc)))]



/-! ### The normalisation loops on binary32 -/

theorem natCast_180 : ((180 : ℕ) : Binary32) = .fin (180 * 2 ^ 149) := by
  rw [natCast_small 180 (by norm_num)]; rfl

theorem natCast_360 : ((360 : ℕ) : Binary32) = .fin (360 * 2 ^ 149) := by
  rw [natCast_small 360 (by norm_num)]; rfl

theorem natCast_90 : ((90 : ℕ) : Binary32) = .fin (90 * 2 ^ 149) := by
  rw [natCast_small 90 (by norm_num)]; rfl

theorem natCast_270 : ((270 : ℕ) : Binary32) = .fin (270 * 2 ^ 149) := by
  rw [natCast_small 270 (by norm_num)]; rfl

theorem natCast_1 : ((1 : ℕ) : Binary32) = .fin (2 ^ 149) := by
  rw [natCast_small 1 (by norm_num)]; simp

theorem natCast_0 : ((0 : ℕ) : Binary32) = .fin 0 := by
  rw [natCast_small 0 (by norm_num)]; simp

theorem wrapAbove_fin (fuel : Nat) (x : Int) :
    wrapAbove (fuel + 1) (Binary32.fin x) =
      if 180 * 2 ^ 149 < x then wrapAbove fuel (Binary32.ofInt 0 (x - 360 * 2 ^ 149))
      else some (.fin x) := by
  rw [wrapAbove, natCast_180, natCast_360, fin_sub_fin]
  by_cases h : 180 * 2 ^ 149 < x
  · rw [if_pos h, if_pos ((fin_lt_fin _ _).2 h)]
  · rw [if_neg h, if_neg (fun hc => h ((fin_lt_fin _ _).1 hc))]

theorem wrapBelow_fin (fuel : Nat) (x : Int) :
    wrapBelow (fuel + 1) (Binary32.fin x) =
      if x < -(180 * 2 ^ 149) then wrapBelow fuel (Binary32.ofInt 0 (x + 360 * 2 ^ 149))
      else some (.fin x) := by
  rw [wrapBelow, natCast_180, natCast_360, fin_add_fin, neg_fin]
  by_cases h : x < -(180 * 2 ^ 149)
  · rw [if_pos h, if_pos ((fin_lt_fin _ _).2 h)]
  · rw [if_neg h, if_neg (fun hc => h ((fin_lt_fin _ _).1 hc))]

theorem ofInt_180 : Binary32.ofInt 0 (180 * 2 ^ 149) = .fin (180 * 2 ^ 149) :=
  ofInt_small 180 (by norm_num)

theorem ofInt_neg_180 : Binary32.ofInt 0 (-(180 * 2 ^ 149)) = .fin (-(180 * 2 ^ 149)) := by
  have := ofInt_small (-180) (by norm_num)
  rw [neg_mul] at this
  exact this

/-- One step of the first loop from a value in (180, 2^33]: the value gets
smaller by at least 104 and does not fall below -180. -/
theorem wrapAbove_step (x : Int) (h1 : 180 * 2 ^ 149 < x) (h2 : x ≤ 2 ^ 182) :
    ∃ y : Int, Binary32.ofInt 0 (x - 360 * 2 ^ 149) = .fin y ∧ y ≤ x - 104 * 2 ^ 149 ∧
      -(180 * 2 ^ 149) ≤ y ∧ 2 * (x - 360 * 2 ^ 149) ≤ 2 * y + 2 ^ 158 := by
  obtain ⟨y, e, b1, b2⟩ := ofInt_near (x - 360 * 2 ^ 149) 182 (by norm_num) (by norm_num)
    (by omega)
  refine ⟨y, e, by omega, ?_, by omega⟩
  have := le_ofInt_of_le (x - 360 * 2 ^ 149) (-(180 * 2 ^ 149)) (by omega) ofInt_neg_180
  rw [e, fin_le_fin] at this
  exact this

/-- One step of the second loop from a value in [-2^33, -180): the value
gets larger by at least 104 and does not rise above 180. -/
theorem wrapBelow_step (x : Int) (h1 : x < -(180 * 2 ^ 149)) (h2 : -(2 ^ 182) ≤ x) :
    ∃ y : Int, Binary32.ofInt 0 (x + 360 * 2 ^ 149) = .fin y ∧ x + 104 * 2 ^ 149 ≤ y ∧
      y ≤ 180 * 2 ^ 149 ∧ 2 * y ≤ 2 * (x + 360 * 2 ^ 149) + 2 ^ 158 := by
  obtain ⟨y, e, b1, b2⟩ := ofInt_near (x + 360 * 2 ^ 149) 182 (by norm_num) (by norm_num)
    (by omega)
  refine ⟨y, e, by omega, ?_, by omega⟩
  have := ofInt_le_of_le (x + 360 * 2 ^ 149) (180 * 2 ^ 149) (by omega) ofInt_180
  rw [e, fin_le_fin] at this
  exact this

/-- The first loop on a value of at most 2^33 ends, within `n + 1` tests when
the value is at most `180 + 104 * n`; it leaves a value of at most 180 that
either is the initial one or is at least -180, and it keeps every property
`I` that each of its steps keeps. -/
theorem wrapAbove_binary32 (I : Int → Prop)
    (hstep : ∀ x y : Int, I x → 180 * 2 ^ 149 < x → x ≤ 2 ^ 182 →
      Binary32.ofInt 0 (x - 360 * 2 ^ 149) = .fin y → I y) :
    ∀ (n : Nat) (x : Int), I x → x ≤ 180 * 2 ^ 149 + n * (104 * 2 ^ 149) → x ≤ 2 ^ 182 →
      ∃ t : Int, wrapAbove (n + 1) (Binary32.fin x) = some (.fin t) ∧ t ≤ 180 * 2 ^ 149 ∧
        (t = x ∨ -(180 * 2 ^ 149) ≤ t) ∧ t ≤ x ∧ I t := by
  intro n
  induction n with
  | zero =>
    intro x hi hx _
    rw [wrapAbove_fin, if_neg (by omega)]
    exact ⟨x, rfl, by omega, Or.inl rfl, le_refl x, hi⟩
  | succ n ih =>
    intro x hi hx hb
    rw [wrapAbove_fin]
    by_cases h : 180 * 2 ^ 149 < x
    · rw [if_pos h]
      obtain ⟨y, e, y1, y2, _⟩ := wrapAbove_step x h hb
      rw [e]
      obtain ⟨t, t1, t2, t3, t4, t5⟩ := ih y (hstep x y hi h hb e) (by omega)
        (by omega)
      exact ⟨t, t1, t2, Or.inr (by omega), by omega, t5⟩
    · rw [if_neg h]
      exact ⟨x, rfl, by omega, Or.inl rfl, le_refl x, hi⟩

/-- The second loop on a value of at least -2^33 ends, within `n + 1` tests
when the value is at least `-180 - 104 * n`; it leaves a value of at least
-180 that either is the initial one or is at most 180, and it keeps every
property `I` that each of its steps keeps. -/
theorem wrapBelow_binary32 (I : Int → Prop)
    (hstep : ∀ x y : Int, I x → x < -(180 * 2 ^ 149) → -(2 ^ 182) ≤ x →
      Binary32.ofInt 0 (x + 360 * 2 ^ 149) = .fin y → I y) :
    ∀ (n : Nat) (x : Int), I x → -(180 * 2 ^ 149) - n * (104 * 2 ^ 149) ≤ x → -(2 ^ 182) ≤ x →
      ∃ t : Int, wrapBelow (n + 1) (Binary32.fin x) = some (.fin t) ∧ -(180 * 2 ^ 149) ≤ t ∧
        (t = x ∨ t ≤ 180 * 2 ^ 149) ∧ x ≤ t ∧ I t := by
  intro n
  induction n with
  | zero =>
    intro x hi hx _
    rw [wrapBelow_fin, if_neg (by omega)]
    exact ⟨x, rfl, by omega, Or.inl rfl, le_refl x, hi⟩
  | succ n ih =>
    intro x hi hx hb
    rw [wrapBelow_fin]
    by_cases h : x < -(180 * 2 ^ 149)
    · rw [if_pos h]
      obtain ⟨y, e, y1, y2, _⟩ := wrapBelow_step x h hb
      rw [e]
      obtain ⟨t, t1, t2, t3, t4, t5⟩ := ih y (hstep x y hi h hb e) (by omega)
        (by omega)
      exact ⟨t, t1, t2, Or.inr (by omega), by omega, t5⟩
    · rw [if_neg h]
      exact ⟨x, rfl, by omega, Or.inl rfl, le_refl x, hi⟩

/-- More fuel does not change what the first loop returns. -/
theorem wrapAbove_fuel_mono {F : Type} [NatCast F] [Sub F] [LT F]
    [DecidableRel (fun a b : F => a < b)] :
    ∀ (fuel fuel1 : Nat) (x r : F), fuel ≤ fuel1 → wrapAbove fuel x = some r →
      wrapAbove fuel1 x = some r := by
  intro fuel
  induction fuel with
  | zero => intro fuel1 x r _ h; cases h
  | succ n ih =>
    intro fuel1 x r hf h
    obtain ⟨m, rfl⟩ : ∃ m, fuel1 = m + 1 := ⟨fuel1 - 1, by omega⟩
    unfold wrapAbove at h ⊢
    split_ifs at h ⊢ with c
    · exact ih m _ r (by omega) h
    · exact h

/-- More fuel does not change what the second loop returns. -/
theorem wrapBelow_fuel_mono {F : Type} [NatCast F] [Neg F] [Add F] [LT F]
    [DecidableRel (fun a b : F => a < b)] :
    ∀ (fuel fuel1 : Nat) (x r : F), fuel ≤ fuel1 → wrapBelow fuel x = some r →
      wrapBelow fuel1 x = some r := by
  intro fuel
  induction fuel with
  | zero => intro fuel1 x r _ h; cases h
  | succ n ih =>
    intro fuel1 x r hf h
    obtain ⟨m, rfl⟩ : ∃ m, fuel1 = m + 1 := ⟨fuel1 - 1, by omega⟩
    unfold wrapBelow at h ⊢
    split_ifs at h ⊢ with c
    · exact ih m _ r (by omega) h
    · exact h

/-- More fuel does not change what the two loops return. -/
theorem normalizeAngle_fuel_mono {F : Type} [NatCast F] [Neg F] [Add F] [Sub F] [LT F]
    [DecidableRel (fun a b : F => a < b)] (fuel fuel1 : Nat) (x r : F) (hf : fuel ≤ fuel1)
    (h : normalizeAngle fuel x = some r) : normalizeAngle fuel1 x = some r := by
  unfold normalizeAngle at h ⊢
  cases h1 : wrapAbove fuel x with
  | none => rw [h1] at h; cases h
  | some x1 =>
    rw [h1] at h
    rw [wrapAbove_fuel_mono fuel fuel1 x x1 hf h1]
    exact wrapBelow_fuel_mono fuel fuel1 x1 r hf h

/-- The two loops on a value of magnitude at most 2^33 end and leave a value
of [-180, 180]; they keep every property that each step keeps. -/
theorem normalizeAngle_binary32 (I : Int → Prop)
    (hup : ∀ x y : Int, I x → 180 * 2 ^ 149 < x → x ≤ 2 ^ 182 →
      Binary32.ofInt 0 (x - 360 * 2 ^ 149) = .fin y → I y)
    (hdown : ∀ x y : Int, I x → x < -(180 * 2 ^ 149) → -(2 ^ 182) ≤ x →
      Binary32.ofInt 0 (x + 360 * 2 ^ 149) = .fin y → I y)
    (x : Int) (hi : I x) (h1 : -(2 ^ 182) ≤ x) (h2 : x ≤ 2 ^ 182) :
    ∃ (n0 : Nat) (t : Int), (∀ fuel, n0 ≤ fuel → normalizeAngle fuel (Binary32.fin x) = some (.fin t)) ∧
      -(180 * 2 ^ 149) ≤ t ∧ t ≤ 180 * 2 ^ 149 ∧ I t := by
  have hn : x ≤ 180 * 2 ^ 149 + (x.natAbs : Nat) * (104 * 2 ^ 149) := by
    omega
  have hm : -(180 * 2 ^ 149) - (x.natAbs : Nat) * (104 * 2 ^ 149) ≤ x := by
    omega
  obtain ⟨t, a1, a2, a3, a4, a5⟩ := wrapAbove_binary32 I hup x.natAbs x hi hn h2
  obtain ⟨r, b1, b2, b3, b4, b5⟩ := wrapBelow_binary32 I hdown x.natAbs t a5
    (by rcases a3 with a3 | a3
        · rw [a3]; exact hm
        · omega)
    (by rcases a3 with a3 | a3 <;> omega)
  refine ⟨x.natAbs + 1, r, ?_, b2, by rcases b3 with b3 | b3 <;> omega, b5⟩
  intro fuel hf
  apply normalizeAngle_fuel_mono (x.natAbs + 1) fuel _ _ hf
  unfold normalizeAngle
  rw [a1]
  exact b1



/-! ### Values of the format and exact steps -/

/-- A multiple of `2 ^ k` of at most `2 ^ (k + 24)` has at most 24 significant
bits. -/
theorem rep_of_dvd (n k : Nat) (hd : 2 ^ k ∣ n) (hle : n ≤ 2 ^ (k + 24)) :
    n % 2 ^ (bitLength n - 24) = 0 := by
  apply Nat.mod_eq_zero_of_dvd
  rcases Nat.lt_or_ge n (2 ^ (k + 24)) with h | h
  · have := (bitLength_le_iff n (k + 24)).2 h
    exact dvd_trans (pow_dvd_pow 2 (by omega)) hd
  · have e : n = 2 ^ (k + 24) := le_antisymm hle h
    have h1 : bitLength n ≤ k + 25 := by
      rw [bitLength_le_iff, e]
      exact Nat.pow_lt_pow_right (by norm_num) (by omega)
    exact dvd_trans (pow_dvd_pow 2 (by omega : bitLength n - 24 ≤ k + 24)) (Dvd.intro 1 (by rw [e, Nat.mul_one]))

/-- What a rounding returns has at most 24 significant bits. -/
theorem roundMagnitude_rep (a : Nat) :
    roundMagnitude 0 a false % 2 ^ (bitLength (roundMagnitude 0 a false) - 24) = 0 := by
  have hr := roundMagnitude_eq 0 a false
  rw [pow_zero, Nat.mul_one, Nat.zero_max] at hr
  rw [hr]
  rcases Nat.lt_or_ge (bitLength a) 24 with h | h
  · have hk : bitLength a - 24 = 0 := by omega
    rw [hk, roundToMultiple_exact a 0 false (by rw [pow_zero, Nat.mod_one]), hk, pow_zero,
      Nat.mod_one]
  · apply rep_of_dvd _ (bitLength a - 24) (roundToMultiple_dvd _ _ _)
    have hlt := lt_two_pow_bitLength a
    have hp : 0 < 2 ^ (bitLength a - 24) := Nat.two_pow_pos _
    have hq : a / 2 ^ (bitLength a - 24) < 2 ^ 24 := by
      rw [Nat.div_lt_iff_lt_mul hp, ← pow_add]
      have : 24 + (bitLength a - 24) = bitLength a := by omega
      rw [this]
      exact hlt
    have e : (2 : Nat) ^ (bitLength a - 24 + 24) = 2 ^ 24 * 2 ^ (bitLength a - 24) := by
      rw [pow_add, Nat.mul_comm]
    rw [e]
    rcases roundToMultiple_cases a (bitLength a - 24) false with h1 | h1
    · rw [h1]
      exact Nat.mul_le_mul_right _ (le_of_lt hq)
    · rw [h1]
      exact Nat.mul_le_mul_right _ hq

/-- The finite value a rounding returns has at most 24 significant bits. -/
theorem ofInt_rep (p y : Int) (h : Binary32.ofInt 0 p = .fin y) :
    y.natAbs % 2 ^ (bitLength y.natAbs - 24) = 0 := by
  have hr := roundMagnitude_rep p.natAbs
  rcases lt_or_le p 0 with hp | hp
  · rw [ofInt_of_neg 0 p hp] at h
    split_ifs at h
    simp only [Binary32.fin.injEq] at h
    rw [← h, Int.natAbs_neg, Int.natAbs_ofNat]
    exact hr
  · rw [ofInt_of_nonneg 0 p hp] at h
    split_ifs at h
    simp only [Binary32.fin.injEq] at h
    rw [← h, Int.natAbs_ofNat]
    exact hr

/-- The rounding of a multiple of `2 ^ k` is a multiple of `2 ^ k`. -/
theorem ofInt_dvd (p y : Int) (k : Nat) (hd : (2 : Int) ^ k ∣ p)
    (h : Binary32.ofInt 0 p = .fin y) : (2 : Int) ^ k ∣ y := by
  have hn : 2 ^ k ∣ p.natAbs := by
    have := Int.natAbs_dvd_natAbs.2 hd
    simpa [Int.natAbs_pow] using this
  have hr := roundMagnitude_eq 0 p.natAbs false
  rw [pow_zero, Nat.mul_one, Nat.zero_max] at hr
  have hm : 2 ^ k ∣ roundMagnitude 0 p.natAbs false := by
    rw [hr]
    rcases Nat.lt_or_ge k (bitLength p.natAbs - 24) with h1 | h1
    · exact dvd_trans (pow_dvd_pow 2 (le_of_lt h1)) (roundToMultiple_dvd _ _ _)
    · rw [roundToMultiple_exact _ _ _
        (Nat.mod_eq_zero_of_dvd (dvd_trans (pow_dvd_pow 2 h1) hn))]
      exact hn
  have hz : (2 : Int) ^ k ∣ ((roundMagnitude 0 p.natAbs false : Nat) : Int) := by
    have := Int.natCast_dvd_natCast.2 hm
    simpa using this
  rcases lt_or_le p 0 with hp | hp
  · rw [ofInt_of_neg 0 p hp] at h
    split_ifs at h
    simp only [Binary32.fin.injEq] at h
    rw [← h]
    exact (Int.dvd_neg).2 hz
  · rw [ofInt_of_nonneg 0 p hp] at h
    split_ifs at h
    simp only [Binary32.fin.injEq] at h
    rw [← h]
    exact hz

/-- From a value of the format in (180, 2^27 + 352] the step `x - 360` is
exact. -/
theorem sub_360_exact (x : Int) (hr : x.natAbs % 2 ^ (bitLength x.natAbs - 24) = 0)
    (h1 : 180 * 2 ^ 149 < x) (h2 : x ≤ 2 ^ 176 + 352 * 2 ^ 149) :
    Binary32.ofInt 0 (x - 360 * 2 ^ 149) = .fin (x - 360 * 2 ^ 149) := by
  have hx : (x.natAbs : Int) = x := by omega
  have h360 : (360 : Int) * 2 ^ 149 = 45 * 2 ^ 152 := by norm_num
  have hd : (2 : Int) ^ (bitLength x.natAbs - 24) ∣ x := by
    have := Int.natCast_dvd_natCast.2 (Nat.dvd_of_mod_eq_zero hr)
    rw [hx] at this
    simpa using this
  have hbl : 24 < bitLength x.natAbs := by
    by_contra hc
    have := (bitLength_le_iff x.natAbs 24).1 (by omega)
    omega
  rcases Nat.lt_or_ge (bitLength x.natAbs) 177 with hb | hb
  · -- below 2^27 the value and 360 are multiples of the unit in the last place
    have hlt := lt_two_pow_bitLength x.natAbs
    apply ofInt_exact_of_dvd _ (bitLength x.natAbs - 24)
    · apply dvd_sub hd
      rw [h360]
      exact dvd_trans (pow_dvd_pow 2 (by omega)) (Dvd.intro_left _ rfl)
    · have : bitLength x.natAbs - 24 + 24 = bitLength x.natAbs := by omega
      rw [this]
      omega
    · omega
  · -- from 2^27 on the value is a multiple of 16
    have hd2 : (2 : Int) ^ 152 ∣ x := dvd_trans (pow_dvd_pow 2 (by omega)) hd
    have hd3 : (2 : Int) ^ 153 ∣ x := dvd_trans (pow_dvd_pow 2 (by omega)) hd
    apply ofInt_exact_of_dvd _ 152
    · apply dvd_sub hd2
      rw [h360]
      exact Dvd.intro_left _ rfl
    · obtain ⟨c, hc⟩ := hd3
      omega
    · omega



theorem ofInt_neg_arg (extra : Nat) (p : Int) :
    Binary32.ofInt extra (-p) = -Binary32.ofInt extra p := by
  show _ = Binary32.neg _
  rcases lt_trichotomy p 0 with hp | hp | hp
  · rw [ofInt_of_neg extra p hp, ofInt_of_nonneg extra (-p) (by omega), Int.natAbs_neg]
    split_ifs
    · rfl
    · simp [Binary32.neg]
  · subst hp
    have h0 : roundMagnitude extra 0 false = 0 := by
      unfold roundMagnitude
      rw [roundToMultiple_exact 0 _ false (Nat.zero_mod _), Nat.zero_div]
    rw [neg_zero, ofInt_of_nonneg extra 0 (le_refl 0), Int.natAbs_zero, h0,
      if_neg (by norm_num)]
    rfl
  · rw [ofInt_of_neg extra (-p) (by omega), ofInt_of_nonneg extra p (by omega), Int.natAbs_neg]
    split_ifs
    · rfl
    · rfl

/-- From a value of the format in [-2^27 - 352, -180) the step `x + 360` is
exact. -/
theorem add_360_exact (x : Int) (hr : x.natAbs % 2 ^ (bitLength x.natAbs - 24) = 0)
    (h1 : x < -(180 * 2 ^ 149)) (h2 : -(2 ^ 176 + 352 * 2 ^ 149) ≤ x) :
    Binary32.ofInt 0 (x + 360 * 2 ^ 149) = .fin (x + 360 * 2 ^ 149) := by
  have h := sub_360_exact (-x) (by rw [Int.natAbs_neg]; exact hr) (by omega) (by omega)
  have e : x + 360 * 2 ^ 149 = -(-x - 360 * 2 ^ 149) := by ring
  rw [e, ofInt_neg_arg, h, neg_fin]

/-- The two loops on binary32: from a value of magnitude at most 2^33 they
end and leave a value `t` of [-180, 180]; `t` differs from the initial value
by a multiple of 360 when that is a value of the format of magnitude at most
2^27 + 352; and `t` is a multiple of 8 when the initial value is. -/
theorem normalizeAngle_spec (p : Int) (h1 : -(2 ^ 182) ≤ p) (h2 : p ≤ 2 ^ 182) :
    ∃ (n0 : Nat) (t : Int),
      (∀ fuel, n0 ≤ fuel → normalizeAngle fuel (Binary32.fin p) = some (.fin t)) ∧
      -(180 * 2 ^ 149) ≤ t ∧ t ≤ 180 * 2 ^ 149 ∧
      (p.natAbs % 2 ^ (bitLength p.natAbs - 24) = 0 → -(2 ^ 176 + 352 * 2 ^ 149) ≤ p →
        p ≤ 2 ^ 176 + 352 * 2 ^ 149 → ∃ j : Int, t = p + j * (360 * 2 ^ 149)) ∧
      ((2 : Int) ^ 152 ∣ p → (2 : Int) ^ 152 ∣ t) := by
  have h360 : (360 : Int) * 2 ^ 149 = 45 * 2 ^ 152 := by norm_num
  obtain ⟨n0, t, a1, a2, a3, a4, a5⟩ := normalizeAngle_binary32
    (fun x => (p.natAbs % 2 ^ (bitLength p.natAbs - 24) = 0 → -(2 ^ 176 + 352 * 2 ^ 149) ≤ p →
        p ≤ 2 ^ 176 + 352 * 2 ^ 149 →
          (x.natAbs % 2 ^ (bitLength x.natAbs - 24) = 0 ∧ -(2 ^ 176 + 352 * 2 ^ 149) ≤ x ∧
            x ≤ 2 ^ 176 + 352 * 2 ^ 149 ∧ ∃ j : Int, x = p + j * (360 * 2 ^ 149))) ∧
      ((2 : Int) ^ 152 ∣ p → (2 : Int) ^ 152 ∣ x))
    (by
      intro x y hi hx1 hx2 e
      refine ⟨fun c1 c2 c3 => ?_, fun c => ?_⟩
      · obtain ⟨i1, i2, i3, j, i4⟩ := hi.1 c1 c2 c3
        have e0 := e
        rw [sub_360_exact x i1 hx1 i3] at e
        simp only [Binary32.fin.injEq] at e
        refine ⟨ofInt_rep _ _ e0, by omega, by omega, j - 1, ?_⟩
        rw [← e, i4]
        ring
      · refine ofInt_dvd _ y 152 (dvd_sub (hi.2 c) ?_) e
        rw [h360]
        exact Dvd.intro_left _ rfl)
    (by
      intro x y hi hx1 hx2 e
      refine ⟨fun c1 c2 c3 => ?_, fun c => ?_⟩
      · obtain ⟨i1, i2, i3, j, i4⟩ := hi.1 c1 c2 c3
        have e0 := e
        rw [add_360_exact x i1 hx1 i2] at e
        simp only [Binary32.fin.injEq] at e
        refine ⟨ofInt_rep _ _ e0, by omega, by omega, j + 1, ?_⟩
        rw [← e, i4]
        ring
      · refine ofInt_dvd _ y 152 (dvd_add (hi.2 c) ?_) e
        rw [h360]
        exact Dvd.intro_left _ rfl)
    p ⟨fun c1 c2 c3 => ⟨c1, c2, c3, 0, by ring⟩, fun c => c⟩ h1 h2
  exact ⟨n0, t, a1, a2, a3, fun c1 c2 c3 => (a4 c1 c2 c3).2.2.2, a5⟩



/-! ### The tests `std::abs(a - b) < 1.0f` on binary32 -/

theorem ofInt_unit : Binary32.ofInt 0 (2 ^ 149) = .fin (2 ^ 149) := by
  have := ofInt_small 1 (by norm_num)
  rw [one_mul] at this
  exact this

theorem ofInt_neg_unit : Binary32.ofInt 0 (-(2 ^ 149)) = .fin (-(2 ^ 149)) := by
  have := ofInt_small (-1) (by norm_num)
  rw [neg_mul, one_mul] at this
  exact this

/-- When the test `std::abs(a - b) < 1.0f` holds, `a` and `b` are less than 1
apart. -/
theorem near_of (a b : Int)
    (h : stdAbs (Binary32.fin a - Binary32.fin b) < ((1 : ℕ) : Binary32)) :
    a - b < 2 ^ 149 ∧ b - a < 2 ^ 149 := by
  rw [fin_sub_fin, natCast_1] at h
  constructor
  · by_contra hc
    have hx := le_ofInt_of_le (a - b) (2 ^ 149) (by omega) ofInt_unit
    cases hv : Binary32.ofInt 0 (a - b) with
    | fin n =>
      rw [hv] at h hx
      rw [stdAbs_fin, fin_lt_fin] at h
      rw [fin_le_fin] at hx
      have := abs_lt.1 h
      omega
    | inf s =>
      rw [hv] at h hx
      cases s
      · exact absurd h (by decide)
      · exact absurd hx (by decide)
    | nan =>
      rw [hv] at hx
      exact absurd hx (by decide)
  · by_contra hc
    have hx := ofInt_le_of_le (a - b) (-(2 ^ 149)) (by omega) ofInt_neg_unit
    cases hv : Binary32.ofInt 0 (a - b) with
    | fin n =>
      rw [hv] at h hx
      rw [stdAbs_fin, fin_lt_fin] at h
      rw [fin_le_fin] at hx
      have := abs_lt.1 h
      omega
    | inf s =>
      rw [hv] at h hx
      cases s
      · exact absurd hx (by decide)
      · exact absurd h (by decide)
    | nan =>
      rw [hv] at hx
      exact absurd hx (by decide)

theorem not_near_of_far (a b : Int) (h : 2 ^ 149 ≤ a - b ∨ 2 ^ 149 ≤ b - a) :
    ¬ stdAbs (Binary32.fin a - Binary32.fin b) < ((1 : ℕ) : Binary32) := by
  intro hc
  have := near_of a b hc
  omega

theorem near_self (a : Int) :
    stdAbs (Binary32.fin a - Binary32.fin a) < ((1 : ℕ) : Binary32) := by
  rw [fin_sub_fin, sub_self, natCast_1]
  have h0 : Binary32.ofInt 0 0 = .fin 0 := by
    have := ofInt_small 0 (by norm_num)
    rw [zero_mul] at this
    exact this
  rw [h0, stdAbs_fin, fin_lt_fin, abs_zero]
  positivity



/-! ### The rotation offset and the facing angle on binary32 -/

theorem neg_natCast_90 : -((90 : ℕ) : Binary32) = .fin (-(90 * 2 ^ 149)) := by
  rw [natCast_90, neg_fin]

theorem neg_natCast_270 : -((270 : ℕ) : Binary32) = .fin (-(270 * 2 ^ 149)) := by
  rw [natCast_270, neg_fin]

/-- The offset of a W request. -/
theorem rotationOffset_W32 (fuel : Nat) (m : Binary32) :
    rotationOffset fuel (Binary32.fin 0) m = some (.fin (-(90 * 2 ^ 149))) := by
  unfold rotationOffset
  rw [if_pos (Or.inl (by rw [stdAbs_fin, natCast_1, fin_lt_fin, abs_zero]; positivity)),
    neg_natCast_90]

/-- The offset of an S request. -/
theorem rotationOffset_S32 (fuel : Nat) (m : Binary32) :
    rotationOffset fuel (Binary32.fin (180 * 2 ^ 149)) m = some (.fin (-(90 * 2 ^ 149))) := by
  unfold rotationOffset
  rw [if_pos (Or.inr (by
    rw [stdAbs_fin, natCast_180, abs_of_nonneg (by omega)]
    exact near_self _)), neg_natCast_90]

theorem not_near_90 :
    ¬ (stdAbs (Binary32.fin (90 * 2 ^ 149)) < ((1 : ℕ) : Binary32) ∨
      stdAbs (stdAbs (Binary32.fin (90 * 2 ^ 149)) - ((180 : ℕ) : Binary32)) <
        ((1 : ℕ) : Binary32)) := by
  rw [stdAbs_fin, natCast_180, abs_of_nonneg (by omega)]
  intro h
  rcases h with h | h
  · rw [natCast_1, fin_lt_fin] at h
    omega
  · exact not_near_of_far (90 * 2 ^ 149) (180 * 2 ^ 149) (Or.inr (by omega)) h

/-- The offset of an A request. -/
theorem rotationOffset_A32 (fuel : Nat) (m : Binary32) :
    rotationOffset fuel (Binary32.fin (-(90 * 2 ^ 149))) m = some (.fin (90 * 2 ^ 149)) := by
  have c1 : ¬ (stdAbs (Binary32.fin (-(90 * 2 ^ 149))) < ((1 : ℕ) : Binary32) ∨
      stdAbs (stdAbs (Binary32.fin (-(90 * 2 ^ 149))) - ((180 : ℕ) : Binary32)) <
        ((1 : ℕ) : Binary32)) := by
    have e : stdAbs (Binary32.fin (-(90 * 2 ^ 149))) = stdAbs (Binary32.fin (90 * 2 ^ 149)) := by
      rw [stdAbs_fin, stdAbs_fin, abs_neg]
    rw [e]
    exact not_near_90
  have c2 : stdAbs (Binary32.fin (-(90 * 2 ^ 149)) - -((90 : ℕ) : Binary32)) <
      ((1 : ℕ) : Binary32) := by
    rw [neg_natCast_90]
    exact near_self _
  unfold rotationOffset
  rw [if_neg c1, if_pos c2, natCast_90]

/-- The offset of a D request: -270 when `moveAngle + 90` normalises to
within 1 of 90, and 90 otherwise. -/
theorem rotationOffset_D32 (fuel : Nat) (m : Binary32) :
    rotationOffset fuel (Binary32.fin (90 * 2 ^ 149)) m =
      match normalizeAngle fuel (m + .fin (90 * 2 ^ 149)) with
      | none => none
      | some testWith90 =>
        if stdAbs (testWith90 - .fin (90 * 2 ^ 149)) < ((1 : ℕ) : Binary32) then
          some (.fin (-(270 * 2 ^ 149)))
        else some (.fin (90 * 2 ^ 149)) := by
  have c2 : ¬ stdAbs (Binary32.fin (90 * 2 ^ 149) - -((90 : ℕ) : Binary32)) <
      ((1 : ℕ) : Binary32) := by
    rw [neg_natCast_90]
    exact not_near_of_far _ _ (Or.inl (by omega))
  have c3 : stdAbs (Binary32.fin (90 * 2 ^ 149) - ((90 : ℕ) : Binary32)) <
      ((1 : ℕ) : Binary32) := by
    rw [natCast_90]
    exact near_self _
  unfold rotationOffset
  rw [if_neg not_near_90, if_neg c2, if_pos c3]
  simp only [natCast_90, neg_natCast_270]
  cases normalizeAngle fuel (m + Binary32.fin (90 * 2 ^ 149)) <;> rfl

/-- The facing angle for an offset other than -270: the normalised sum. -/
theorem newPlayerRotation_of_offset32 (fuel : Nat) (yaw ma : Binary32) (o : Int)
    (h : rotationOffset fuel ma (yaw + ma) = some (.fin o))
    (ho : 2 ^ 149 ≤ o + 270 * 2 ^ 149 ∨ 2 ^ 149 ≤ -(270 * 2 ^ 149) - o) :
    newPlayerRotation fuel yaw ma = normalizeAngle fuel (yaw + ma + .fin o) := by
  unfold newPlayerRotation
  simp only [h]
  rw [if_pos]
  intro hc
  rw [neg_natCast_270] at hc
  exact not_near_of_far _ _ (by omega) hc.1

set_option maxRecDepth 100000 in
theorem ofInt_top : Binary32.ofInt 0 (2 ^ 182 + 270 * 2 ^ 149) = .fin (2 ^ 182) := by decide

set_option maxRecDepth 100000 in
theorem ofInt_bottom : Binary32.ofInt 0 (-(2 ^ 182) - 270 * 2 ^ 149) = .fin (-(2 ^ 182)) := by
  decide

/-- A float sum of a value of magnitude at most 2^33 and one of at most 270
is finite, of magnitude at most 2^33, and at most 512 off the exact sum. -/
theorem sum_bounded (a c : Int) (h1 : -(2 ^ 182) ≤ a) (h2 : a ≤ 2 ^ 182)
    (c1 : -(270 * 2 ^ 149) ≤ c) (c2 : c ≤ 270 * 2 ^ 149) :
    ∃ n : Int, Binary32.fin a + Binary32.fin c = .fin n ∧ -(2 ^ 182) ≤ n ∧ n ≤ 2 ^ 182 ∧
      2 * n ≤ 2 * (a + c) + 2 ^ 159 ∧ 2 * (a + c) ≤ 2 * n + 2 ^ 159 := by
  rw [fin_add_fin]
  obtain ⟨n, e, b1, b2⟩ := ofInt_near (a + c) 183 (by norm_num) (by norm_num) (by omega)
  refine ⟨n, e, ?_, ?_, by omega, by omega⟩
  · have h3 := ofInt_bottom
    have := ofInt_mono 0 (-(2 ^ 182) - 270 * 2 ^ 149) (a + c) (by omega)
    rw [h3, e, fin_le_fin] at this
    exact this
  · have h3 := ofInt_top
    have := ofInt_mono 0 (a + c) (2 ^ 182 + 270 * 2 ^ 149) (by omega)
    rw [h3, e, fin_le_fin] at this
    exact this



/-- The facing angle for the offset -270: kept as it is when it is within 1
of -270, normalised otherwise. -/
theorem newPlayerRotation_of_270 (fuel : Nat) (yaw ma : Binary32) (p : Int)
    (h : rotationOffset fuel ma (yaw + ma) = some (Binary32.fin (-(270 * 2 ^ 149))))
    (hp : yaw + ma + .fin (-(270 * 2 ^ 149)) = .fin p) :
    newPlayerRotation fuel yaw ma =
      if stdAbs (Binary32.fin p - .fin (-(270 * 2 ^ 149))) < ((1 : ℕ) : Binary32) then
        some (Binary32.fin p)
      else normalizeAngle fuel (Binary32.fin p) := by
  unfold newPlayerRotation
  simp only [h, hp, neg_natCast_270]
  by_cases c : stdAbs (Binary32.fin p - .fin (-(270 * 2 ^ 149))) < ((1 : ℕ) : Binary32)
  · rw [if_pos c, if_neg (not_not.2 ⟨near_self _, c⟩)]
  · rw [if_neg c, if_pos (fun hc => c hc.2)]

/-- The facing angle `processInput` computes on binary32 for a camera yaw of
magnitude at most 2^33 and the movement angle `a` of a heading: the float sums
`m = yaw + a` and `p = m + o` with the offset `o`, and the angle `r` left,
which is returned for every fuel from some `n0` on. -/
theorem facing_binary32 (y a : Int) (h1 : -(2 ^ 182) ≤ y) (h2 : y ≤ 2 ^ 182)
    (ha : a = 0 ∨ a = 180 * 2 ^ 149 ∨ a = -(90 * 2 ^ 149) ∨ a = 90 * 2 ^ 149) :
    ∃ (n0 : Nat) (m o p r : Int),
      Binary32.fin y + Binary32.fin a = .fin m ∧ Binary32.fin m + Binary32.fin o = .fin p ∧
      (∀ fuel, n0 ≤ fuel →
        rotationOffset fuel (Binary32.fin a) (Binary32.fin m) = some (Binary32.fin o) ∧
        newPlayerRotation fuel (Binary32.fin y) (Binary32.fin a) = some (Binary32.fin r)) ∧
      (a = 0 ∨ a = 180 * 2 ^ 149 → o = -(90 * 2 ^ 149)) ∧
      (a = -(90 * 2 ^ 149) → o = 90 * 2 ^ 149) ∧
      (a = 90 * 2 ^ 149 → o = 90 * 2 ^ 149 ∨ o = -(270 * 2 ^ 149)) ∧
      ((-(180 * 2 ^ 149) ≤ r ∧ r ≤ 180 * 2 ^ 149) ∨
        (o = -(270 * 2 ^ 149) ∧ r + 270 * 2 ^ 149 < 2 ^ 149 ∧ -(2 ^ 149) < r + 270 * 2 ^ 149 ∧
          r = p)) ∧
      (-(2 ^ 176 + 352 * 2 ^ 149) ≤ p → p ≤ 2 ^ 176 + 352 * 2 ^ 149 →
        ∃ j : Int, r = p + j * (360 * 2 ^ 149)) ∧
      (2 * m ≤ 2 * (y + a) + 2 ^ 159 ∧ 2 * (y + a) ≤ 2 * m + 2 ^ 159) ∧
      (2 * p ≤ 2 * (m + o) + 2 ^ 159 ∧ 2 * (m + o) ≤ 2 * p + 2 ^ 159) := by
  obtain ⟨m, em, m1, m2, m3, m4⟩ := sum_bounded y a h1 h2 (by omega) (by omega)
  have simple : ∀ o : Int, (∀ fuel, rotationOffset fuel (Binary32.fin a) (Binary32.fin m) = some (Binary32.fin o)) →
      (o = -(90 * 2 ^ 149) ∨ o = 90 * 2 ^ 149) →
      ∃ (n0 : Nat) (p r : Int), Binary32.fin m + Binary32.fin o = .fin p ∧
        (∀ fuel, n0 ≤ fuel →
          rotationOffset fuel (Binary32.fin a) (Binary32.fin m) = some (Binary32.fin o) ∧
          newPlayerRotation fuel (Binary32.fin y) (Binary32.fin a) = some (Binary32.fin r)) ∧
        ((-(180 * 2 ^ 149) ≤ r ∧ r ≤ 180 * 2 ^ 149) ∨
          (o = -(270 * 2 ^ 149) ∧ r + 270 * 2 ^ 149 < 2 ^ 149 ∧
            -(2 ^ 149) < r + 270 * 2 ^ 149 ∧ r = p)) ∧
        (-(2 ^ 176 + 352 * 2 ^ 149) ≤ p → p ≤ 2 ^ 176 + 352 * 2 ^ 149 →
          ∃ j : Int, r = p + j * (360 * 2 ^ 149)) ∧
        (2 * p ≤ 2 * (m + o) + 2 ^ 159 ∧ 2 * (m + o) ≤ 2 * p + 2 ^ 159) := by
    intro o hoff ho
    obtain ⟨p, ep, p1, p2, p3, p4⟩ := sum_bounded m o m1 m2 (by omega) (by omega)
    obtain ⟨n0, r, r1, r2, r3, r4, -⟩ := normalizeAngle_spec p p1 p2
    refine ⟨n0, p, r, ep, ?_, Or.inl ⟨r2, r3⟩, ?_, ⟨p3, p4⟩⟩
    · intro fuel hf
      refine ⟨hoff fuel, ?_⟩
      rw [newPlayerRotation_of_offset32 fuel _ _ o (by rw [em]; exact hoff fuel) (by omega), em,
        ep]
      exact r1 fuel hf
    · intro c1 c2
      exact r4 (ofInt_rep _ _ (by rw [← fin_add_fin]; exact ep)) c1 c2
  rcases ha with ha | ha | ha | ha
  · obtain ⟨n0, p, r, a1, a2, a3, a4, a5⟩ := simple (-(90 * 2 ^ 149))
      (fun fuel => by rw [ha]; exact rotationOffset_W32 fuel _) (Or.inl rfl)
    exact ⟨n0, m, _, p, r, em, a1, a2, fun _ => rfl, fun c => by omega, fun c => by omega, a3,
      a4, ⟨m3, m4⟩, a5⟩
  · obtain ⟨n0, p, r, a1, a2, a3, a4, a5⟩ := simple (-(90 * 2 ^ 149))
      (fun fuel => by rw [ha]; exact rotationOffset_S32 fuel _) (Or.inl rfl)
    exact ⟨n0, m, _, p, r, em, a1, a2, fun _ => rfl, fun c => by omega, fun c => by omega, a3,
      a4, ⟨m3, m4⟩, a5⟩
  · obtain ⟨n0, p, r, a1, a2, a3, a4, a5⟩ := simple (90 * 2 ^ 149)
      (fun fuel => by rw [ha]; exact rotationOffset_A32 fuel _) (Or.inr rfl)
    exact ⟨n0, m, _, p, r, em, a1, a2, fun c => by omega, fun _ => rfl, fun c => by omega, a3,
      a4, ⟨m3, m4⟩, a5⟩
  · obtain ⟨q, eq, q1, q2, q3, q4⟩ := sum_bounded m (90 * 2 ^ 149) m1 m2 (by omega) (by omega)
    obtain ⟨n1, t, t1, t2, t3, t4, -⟩ := normalizeAngle_spec q q1 q2
    have hoff : ∀ fuel, n1 ≤ fuel →
        rotationOffset fuel (Binary32.fin a) (Binary32.fin m) =
          if stdAbs (Binary32.fin t - .fin (90 * 2 ^ 149)) < ((1 : ℕ) : Binary32) then
            some (Binary32.fin (-(270 * 2 ^ 149)))
          else some (Binary32.fin (90 * 2 ^ 149)) := by
      intro fuel hf
      rw [ha, rotationOffset_D32, eq, t1 fuel hf]
    by_cases hn : stdAbs (Binary32.fin t - .fin (90 * 2 ^ 149)) < ((1 : ℕ) : Binary32)
    · -- the offset is -270
      obtain ⟨p, ep, p1, p2, p3, p4⟩ := sum_bounded m (-(270 * 2 ^ 149)) m1 m2 (by omega)
        (by omega)
      have hrep := ofInt_rep _ _ (by rw [← fin_add_fin]; exact ep)
      by_cases hk : stdAbs (Binary32.fin p - .fin (-(270 * 2 ^ 149))) < ((1 : ℕ) : Binary32)
      · have hk2 := near_of _ _ hk
        refine ⟨n1, m, _, p, p, em, ep, ?_, fun c => by omega, fun c => by omega,
          fun _ => Or.inr rfl, Or.inr ⟨rfl, by omega, by omega, rfl⟩,
          fun _ _ => ⟨0, by ring⟩, ⟨m3, m4⟩, ⟨p3, p4⟩⟩
        intro fuel hf
        have ho := hoff fuel hf
        rw [if_pos hn] at ho
        refine ⟨ho, ?_⟩
        rw [newPlayerRotation_of_270 fuel _ _ p (by rw [em]; exact ho) (by rw [em]; exact ep),
          if_pos hk]
      · obtain ⟨n2, r, r1, r2, r3, r4, -⟩ := normalizeAngle_spec p p1 p2
        refine ⟨max n1 n2, m, _, p, r, em, ep, ?_, fun c => by omega, fun c => by omega,
          fun _ => Or.inr rfl, Or.inl ⟨r2, r3⟩, fun c1 c2 => r4 hrep c1 c2, ⟨m3, m4⟩, ⟨p3, p4⟩⟩
        intro fuel hf
        have ho := hoff fuel (le_trans (le_max_left _ _) hf)
        rw [if_pos hn] at ho
        refine ⟨ho, ?_⟩
        rw [newPlayerRotation_of_270 fuel _ _ p (by rw [em]; exact ho) (by rw [em]; exact ep),
          if_neg hk]
        exact r1 fuel (le_trans (le_max_right _ _) hf)
    · -- the offset is 90
      have hrep := ofInt_rep _ _ (by rw [← fin_add_fin]; exact eq)
      refine ⟨n1, m, _, q, t, em, eq, ?_, fun c => by omega, fun c => by omega,
        fun _ => Or.inl rfl, Or.inl ⟨t2, t3⟩, fun c1 c2 => t4 hrep c1 c2, ⟨m3, m4⟩, ⟨q3, q4⟩⟩
      intro fuel hf
      have ho := hoff fuel hf
      rw [if_neg hn] at ho
      refine ⟨ho, ?_⟩
      rw [newPlayerRotation_of_offset32 fuel _ _ _ (by rw [em]; exact ho) (by omega), em, eq]
      exact t1 fuel hf

/-! ### The facing angle after `processInput` on binary32 -/

/-- More fuel does not change the rotation offset. -/
theorem rotationOffset_fuel_mono {F : Type} [NatCast F] [Neg F] [Add F] [Sub F] [LT F]
    [DecidableRel (fun a b : F => a < b)] (fuel fuel1 : Nat) (ma m o : F) (hf : fuel ≤ fuel1)
    (h : rotationOffset fuel ma m = some o) : rotationOffset fuel1 ma m = some o := by
  unfold rotationOffset at h ⊢
  split_ifs at h ⊢ with c1 c2 c3
  · exact h
  · exact h
  · cases hn : normalizeAngle fuel (m + ((90 : ℕ) : F)) with
    | none => rw [hn] at h; cases h
    | some t =>
      rw [hn] at h
      rw [normalizeAngle_fuel_mono fuel fuel1 _ t hf hn]
      exact h
  · exact h

/-- A facing angle is computed only with an offset. -/
theorem newPlayerRotation_offset {F : Type} [NatCast F] [Neg F] [Add F] [Sub F] [LT F]
    [DecidableRel (fun a b : F => a < b)] (fuel : Nat) (yaw ma r : F)
    (h : newPlayerRotation fuel yaw ma = some r) :
    ∃ o, rotationOffset fuel ma (yaw + ma) = some o := by
  unfold newPlayerRotation at h
  cases ho : rotationOffset fuel ma (yaw + ma) with
  | none => simp only [ho] at h; cases h
  | some o => exact ⟨o, rfl⟩

/-- More fuel does not change the facing angle. -/
theorem newPlayerRotation_fuel_mono {F : Type} [NatCast F] [Neg F] [Add F] [Sub F] [LT F]
    [DecidableRel (fun a b : F => a < b)] (fuel fuel1 : Nat) (yaw ma r : F) (hf : fuel ≤ fuel1)
    (h : newPlayerRotation fuel yaw ma = some r) : newPlayerRotation fuel1 yaw ma = some r := by
  obtain ⟨o, ho⟩ := newPlayerRotation_offset fuel yaw ma r h
  have ho1 := rotationOffset_fuel_mono fuel fuel1 ma _ o hf ho
  unfold newPlayerRotation at h ⊢
  simp only [ho] at h
  simp only [ho1]
  split_ifs at h ⊢ with c
  · exact h
  · exact normalizeAngle_fuel_mono fuel fuel1 _ r hf h

/-- The movement angle of the heading selected on binary32. -/
theorem selectHeading_angle32 (k : Keys)
    (hk : k.wPressed = true ∨ k.sPressed = true ∨ k.aPressed = true ∨ k.dPressed = true) :
    ∃ a : Int, (selectHeading k : Heading Binary32).movementAngle = Binary32.fin a ∧
      (a = 0 ∨ a = 180 * 2 ^ 149 ∨ a = -(90 * 2 ^ 149) ∨ a = 90 * 2 ^ 149) ∧
      (k.wPressed = true → a = 0) ∧
      (k.wPressed = false → k.sPressed = true → a = 180 * 2 ^ 149) ∧
      (k.wPressed = false → k.sPressed = false → k.aPressed = true → a = -(90 * 2 ^ 149)) ∧
      (k.wPressed = false → k.sPressed = false → k.aPressed = false → a = 90 * 2 ^ 149) := by
  unfold selectHeading
  by_cases hw : k.wPressed = true
  · rw [if_pos hw]
    exact ⟨0, natCast_0, Or.inl rfl, fun _ => rfl, fun c => by simp [hw] at c,
      fun c => by simp [hw] at c, fun c => by simp [hw] at c⟩
  · rw [if_neg hw]
    by_cases hs : k.sPressed = true
    · rw [if_pos hs]
      exact ⟨_, natCast_180, Or.inr (Or.inl rfl), fun c => absurd c hw, fun _ _ => rfl,
        fun _ c => by simp [hs] at c, fun _ c => by simp [hs] at c⟩
    · rw [if_neg hs]
      by_cases ha : k.aPressed = true
      · rw [if_pos ha]
        exact ⟨_, neg_natCast_90, Or.inr (Or.inr (Or.inl rfl)), fun c => absurd c hw,
          fun _ c => absurd c hs, fun _ _ _ => rfl, fun _ _ c => by simp [ha] at c⟩
      · rw [if_neg ha]
        have hd : k.dPressed = true := by
          rcases hk with h | h | h | h
          · exact absurd h hw
          · exact absurd h hs
          · exact absurd h ha
          · exact h
        rw [if_pos hd]
        exact ⟨_, natCast_90, Or.inr (Or.inr (Or.inr rfl)), fun c => absurd c hw,
          fun _ c => absurd c hs, fun _ _ c => absurd c ha, fun _ _ _ => rfl⟩

/-- What `processInput` leaves in `playerRotation` on binary32, for a camera
yaw of magnitude at most 2^33 and any request: the facts of `facing_binary32`
for the heading selected, for every fuel with which the call returns. -/
theorem processInput_binary32 (trig : Trig Binary32) (k : Keys) (w : World Binary32) (y : Int)
    (hk : k.wPressed = true ∨ k.sPressed = true ∨ k.aPressed = true ∨ k.dPressed = true)
    (hy : w.yaw = Binary32.fin y) (h1 : -(2 ^ 182) ≤ y) (h2 : y ≤ 2 ^ 182) :
    ∃ (n0 : Nat) (a m o p r : Int),
      (selectHeading k : Heading Binary32).movementAngle = Binary32.fin a ∧
      Binary32.fin y + Binary32.fin a = Binary32.fin m ∧
      Binary32.fin m + Binary32.fin o = Binary32.fin p ∧
      (∀ fuel, n0 ≤ fuel → ∃ w1, processInput fuel trig k w = some w1) ∧
      (∀ fuel w1, processInput fuel trig k w = some w1 →
        rotationOffset fuel (Binary32.fin a) (Binary32.fin m) = some (Binary32.fin o) ∧
        w1.playerRotation = Binary32.fin r) ∧
      (k.wPressed = true → a = 0 ∧ o = -(90 * 2 ^ 149)) ∧
      (k.wPressed = false → k.sPressed = true → a = 180 * 2 ^ 149 ∧ o = -(90 * 2 ^ 149)) ∧
      (k.wPressed = false → k.sPressed = false → k.aPressed = true →
        a = -(90 * 2 ^ 149) ∧ o = 90 * 2 ^ 149) ∧
      (k.wPressed = false → k.sPressed = false → k.aPressed = false →
        a = 90 * 2 ^ 149 ∧ (o = 90 * 2 ^ 149 ∨ o = -(270 * 2 ^ 149))) ∧
      ((-(180 * 2 ^ 149) ≤ r ∧ r ≤ 180 * 2 ^ 149) ∨
        (o = -(270 * 2 ^ 149) ∧ r + 270 * 2 ^ 149 < 2 ^ 149 ∧ -(2 ^ 149) < r + 270 * 2 ^ 149 ∧
          r = p)) ∧
      (-(2 ^ 176 + 352 * 2 ^ 149) ≤ p → p ≤ 2 ^ 176 + 352 * 2 ^ 149 →
        ∃ j : Int, r = p + j * (360 * 2 ^ 149)) ∧
      (2 * m ≤ 2 * (y + a) + 2 ^ 159 ∧ 2 * (y + a) ≤ 2 * m + 2 ^ 159) ∧
      (2 * p ≤ 2 * (m + o) + 2 ^ 159 ∧ 2 * (m + o) ≤ 2 * p + 2 ^ 159) := by
  obtain ⟨a, ea, ha, k1, k2, k3, k4⟩ := selectHeading_angle32 k hk
  obtain ⟨n0, m, o, p, r, em, ep, hf, o1, o2, o3, hr, hc, hm, hp⟩ := facing_binary32 y a h1 h2 ha
  have hmv := selectHeading_moving (F := Binary32) k hk
  refine ⟨n0, a, m, o, p, r, ea, em, ep, ?_, ?_, fun c => ⟨k1 c, o1 (Or.inl (k1 c))⟩,
    fun c1 c2 => ⟨k2 c1 c2, o1 (Or.inr (k2 c1 c2))⟩,
    fun c1 c2 c3 => ⟨k3 c1 c2 c3, o2 (k3 c1 c2 c3)⟩,
    fun c1 c2 c3 => ⟨k4 c1 c2 c3, o3 (k4 c1 c2 c3)⟩, hr, hc, hm, hp⟩
  · intro fuel hfuel
    obtain ⟨w1, e1, _⟩ := (processInput_playerRotation fuel trig k w hmv).1 (Binary32.fin r)
      (by rw [hy, ea]; exact (hf fuel hfuel).2)
    exact ⟨w1, e1⟩
  · intro fuel w1 h
    have hr1 := (processInput_playerRotation fuel trig k w hmv).2 w1 h
    rw [hy, ea] at hr1
    obtain ⟨o1, ho1⟩ := newPlayerRotation_offset fuel _ _ _ hr1
    rw [em] at ho1
    obtain ⟨b1, b2⟩ := hf (max fuel n0) (le_max_right _ _)
    have c1 := rotationOffset_fuel_mono fuel (max fuel n0) _ _ _ (le_max_left _ _) ho1
    have c2 := newPlayerRotation_fuel_mono fuel (max fuel n0) _ _ _ (le_max_left _ _) hr1
    rw [b1] at c1
    rw [b2] at c2
    simp only [Option.some.injEq] at c1 c2
    exact ⟨by rw [ho1, c1], c2.symm⟩

/-- A float sum of two finite values that is below `2 ^ L` in magnitude is
within `2 ^ (L - 25)` of the exact sum. -/
theorem sum_near (a c n : Int) (L : Nat) (h : Binary32.fin a + Binary32.fin c = Binary32.fin n)
    (h24 : 24 ≤ L) (hL : L ≤ 256) (hlt : (a + c).natAbs < 2 ^ L) :
    2 * n ≤ 2 * (a + c) + 2 ^ (L - 24) ∧ 2 * (a + c) ≤ 2 * n + 2 ^ (L - 24) := by
  obtain ⟨n1, e, b1, b2⟩ := ofInt_near (a + c) L h24 hL hlt
  rw [fin_add_fin, e] at h
  simp only [Binary32.fin.injEq] at h
  subst h
  exact ⟨b1, b2⟩

/-- C25 (amended): on binary32, after a movement step of `processInput` (some
key pressed) with a finite camera yaw of magnitude at most 2^33, the loops
have ended, given enough fuel, and `playerRotation` lies in [-180, 180],
except when the offset is -270 and `playerRotation` is within 1 of -270, where
it is the float sum `moveAngle + rotationOffset` as computed; it differs from
that float sum by a multiple of 360 whenever the sum has magnitude at most
2^27 + 352, which it has for every yaw of magnitude at most 2^27; and the
offset is -90 for W and for S and 90 for A.  Finite values are counted in
units of 2^-149, so `180 * 2 ^ 149` stands for 180. -/
theorem rotation_normalized_binary32 (trig : Trig Binary32) (k : Keys) (w : World Binary32)
    (y : Int)
    (hk : k.wPressed = true ∨ k.sPressed = true ∨ k.aPressed = true ∨ k.dPressed = true)
    (hy : w.yaw = Binary32.fin y) (h1 : -(2 ^ 33 * 2 ^ 149) ≤ y) (h2 : y ≤ 2 ^ 33 * 2 ^ 149) :
    (∃ n0 : Nat, ∀ fuel, n0 ≤ fuel → ∃ w1, processInput fuel trig k w = some w1) ∧
    (∀ fuel w1, processInput fuel trig k w = some w1 →
      ∃ offset p r : Int,
        rotationOffset fuel (selectHeading k : Heading Binary32).movementAngle
          (w.yaw + (selectHeading k : Heading Binary32).movementAngle) =
            some (Binary32.fin offset) ∧
        w.yaw + (selectHeading k : Heading Binary32).movementAngle + Binary32.fin offset =
          Binary32.fin p ∧
        w1.playerRotation = Binary32.fin r ∧
        ((-(180 * 2 ^ 149) ≤ r ∧ r ≤ 180 * 2 ^ 149) ∨
          (offset = -(270 * 2 ^ 149) ∧ r + 270 * 2 ^ 149 < 2 ^ 149 ∧
            -(2 ^ 149) < r + 270 * 2 ^ 149 ∧ r = p)) ∧
        (-((2 ^ 27 + 352) * 2 ^ 149) ≤ p → p ≤ (2 ^ 27 + 352) * 2 ^ 149 →
          ∃ j : Int, r = p + j * (360 * 2 ^ 149)) ∧
        (-(2 ^ 27 * 2 ^ 149) ≤ y → y ≤ 2 ^ 27 * 2 ^ 149 →
          -((2 ^ 27 + 352) * 2 ^ 149) ≤ p ∧ p ≤ (2 ^ 27 + 352) * 2 ^ 149) ∧
        (k.wPressed = true → offset = -(90 * 2 ^ 149)) ∧
        (k.wPressed = false → k.sPressed = true → offset = -(90 * 2 ^ 149)) ∧
        (k.wPressed = false → k.sPressed = false → k.aPressed = true →
          offset = 90 * 2 ^ 149)) := by
  obtain ⟨n0, a, m, o, p, r, ea, em, ep, hf, hs, kw, ks, ka, kd, hr, hc, hm, hp⟩ :=
    processInput_binary32 trig k w y hk hy (by omega) (by omega)
  refine ⟨⟨n0, hf⟩, ?_⟩
  intro fuel w1 h
  obtain ⟨s1, s2⟩ := hs fuel w1 h
  refine ⟨o, p, r, by rw [hy, ea, em]; exact s1, by rw [hy, ea, em]; exact ep, s2, hr, ?_, ?_,
    fun c => (kw c).2, fun c1 c2 => (ks c1 c2).2, fun c1 c2 c3 => (ka c1 c2 c3).2⟩
  · intro c1 c2
    exact hc (by omega) (by omega)
  · intro c1 c2
    have ha : (a = 0 ∧ o = -(90 * 2 ^ 149)) ∨ (a = 180 * 2 ^ 149 ∧ o = -(90 * 2 ^ 149)) ∨
        (a = -(90 * 2 ^ 149) ∧ o = 90 * 2 ^ 149) ∨
        (a = 90 * 2 ^ 149 ∧ (o = 90 * 2 ^ 149 ∨ o = -(270 * 2 ^ 149))) := by
      by_cases hw : k.wPressed = true
      · exact Or.inl (kw hw)
      · by_cases hs1 : k.sPressed = true
        · exact Or.inr (Or.inl (ks (by simpa using hw) hs1))
        · by_cases ha1 : k.aPressed = true
          · exact Or.inr (Or.inr (Or.inl (ka (by simpa using hw) (by simpa using hs1) ha1)))
          · exact Or.inr (Or.inr (Or.inr (kd (by simpa using hw) (by simpa using hs1)
              (by simpa using ha1))))
    have m1 := sum_near y a m 177 em (by norm_num) (by norm_num) (by omega)
    have p1 := sum_near m o p 177 ep (by norm_num) (by norm_num) (by omega)
    omega

set_option maxRecDepth 100000 in
theorem natCast_1e10 :
    ((10000000000 : ℕ) : Binary32) = Binary32.fin (10000000000 * 2 ^ 149) := by decide

set_option maxRecDepth 100000 in
theorem sub_360_at_1e10 :
    Binary32.ofInt 0 (10000000000 * 2 ^ 149 - 360 * 2 ^ 149) =
      Binary32.fin (10000000000 * 2 ^ 149) := by decide

set_option maxRecDepth 100000 in
theorem sub_90_at_1e10 :
    Binary32.fin (10000000000 * 2 ^ 149) + Binary32.fin 0 + Binary32.fin (-(90 * 2 ^ 149)) =
      Binary32.fin (10000000000 * 2 ^ 149) := by decide

/-- At 1e10 the step `x -= 360.0f` leaves `x` as it is, so the first loop
does not end. -/
theorem wrapAbove_endless :
    ∀ fuel : Nat, wrapAbove fuel (Binary32.fin (10000000000 * 2 ^ 149)) = none := by
  intro fuel
  induction fuel with
  | zero => rfl
  | succ n ih => rw [wrapAbove_fin, if_pos (by norm_num), sub_360_at_1e10, ih]

set_option maxRecDepth 100000 in
/-- C25 as stated fails: 1e10 is a finite `float`, and with the camera yaw
1e10 a W request never leaves the loop `while (playerRotation > 180.0f)
playerRotation -= 360.0f;`, whose step rounds back to 1e10; `processInput`
returns for no fuel, whatever the rest of the world. -/
theorem rotation_loop_endless :
    Binary32.isValue ((10000000000 : ℕ) : Binary32) = true ∧
    Binary32.isFinite ((10000000000 : ℕ) : Binary32) = true ∧
    ((10000000000 : ℕ) : Binary32) - ((360 : ℕ) : Binary32) = ((10000000000 : ℕ) : Binary32) ∧
    ¬ ∃ (fuel : Nat) (trig : Trig Binary32) (w : World Binary32) (w1 : World Binary32),
      w.yaw = ((10000000000 : ℕ) : Binary32) ∧
        processInput fuel trig ⟨true, false, false, false⟩ w = some w1 := by
  refine ⟨by rw [natCast_1e10]; decide, by rw [natCast_1e10]; rfl, ?_, ?_⟩
  · rw [natCast_1e10, natCast_360, fin_sub_fin, sub_360_at_1e10]
  · rintro ⟨fuel, trig, w, w1, hy, h⟩
    have hr := (processInput_playerRotation fuel trig ⟨true, false, false, false⟩ w rfl).2 w1 h
    have hm : (selectHeading ⟨true, false, false, false⟩ : Heading Binary32).movementAngle =
        Binary32.fin 0 := natCast_0
    rw [hm, hy, natCast_1e10,
      newPlayerRotation_of_offset32 fuel _ _ _ (rotationOffset_W32 fuel _) (by omega),
      sub_90_at_1e10] at hr
    unfold normalizeAngle at hr
    rw [wrapAbove_endless] at hr
    cases hr

set_option maxRecDepth 100000 in
/-- C25 (amended) on binary32: W at yaw 300 leaves -150, S at yaw 200 leaves
-70, A at yaw -400 leaves -40, D at yaw -90 leaves the -270 that is kept; and
the W request returns for every fuel from some number on. -/
theorem rotation_normalized_binary32_witness :
    (processInput 3 floatTrig ⟨true, false, false, false⟩
        (floatWorld (Binary32.fin (300 * 2 ^ 149)))).map (fun w1 => w1.playerRotation) =
      some (Binary32.fin (-(150 * 2 ^ 149))) ∧
    (processInput 3 floatTrig ⟨false, true, false, false⟩
        (floatWorld (Binary32.fin (200 * 2 ^ 149)))).map (fun w1 => w1.playerRotation) =
      some (Binary32.fin (-(70 * 2 ^ 149))) ∧
    (processInput 3 floatTrig ⟨false, false, true, false⟩
        (floatWorld (Binary32.fin (-(400 * 2 ^ 149))))).map (fun w1 => w1.playerRotation) =
      some (Binary32.fin (-(40 * 2 ^ 149))) ∧
    (processInput 3 floatTrig ⟨false, false, false, true⟩
        (floatWorld (Binary32.fin (-(90 * 2 ^ 149))))).map (fun w1 => w1.playerRotation) =
      some (Binary32.fin (-(270 * 2 ^ 149))) ∧
    ∃ n0 : Nat, ∀ fuel, n0 ≤ fuel →
      ∃ w1, processInput fuel floatTrig ⟨true, false, false, false⟩
        (floatWorld (Binary32.fin (300 * 2 ^ 149))) = some w1 :=
  ⟨by decide, by decide, by decide, by decide,
    (rotation_normalized_binary32 floatTrig ⟨true, false, false, false⟩
      (floatWorld (Binary32.fin (300 * 2 ^ 149))) (300 * 2 ^ 149) (Or.inl rfl) rfl
      (by norm_num) (by norm_num)).1⟩

/-- C23 (amended): on binary32, for a D request and a finite camera yaw of
magnitude at most 2^33 the loops end, given enough fuel; the offset selected
is 90 or -270; `playerRotation` lies in [-180, 180] or, with the offset -270,
is the float sum `moveAngle - 270` within 1 of -270; for a yaw of magnitude at
most 2^27 it differs by a multiple of 360 from the float sum `moveAngle +
rotationOffset`, and from `yaw + 180` when the float additions `yaw + 90` and
`moveAngle + rotationOffset` are exact, as they are for every yaw that is a
whole number of degrees of magnitude at most 2^23.  Finite values are counted
in units of 2^-149. -/
theorem right_heading_binary32 (trig : Trig Binary32) (k : Keys) (w : World Binary32) (y : Int)
    (hw : k.wPressed = false) (hs : k.sPressed = false) (ha : k.aPressed = false)
    (hd : k.dPressed = true) (hy : w.yaw = Binary32.fin y)
    (h1 : -(2 ^ 33 * 2 ^ 149) ≤ y) (h2 : y ≤ 2 ^ 33 * 2 ^ 149) :
    (∃ n0 : Nat, ∀ fuel, n0 ≤ fuel → ∃ w1, processInput fuel trig k w = some w1) ∧
    (∀ fuel w1, processInput fuel trig k w = some w1 →
      ∃ offset p r : Int,
        rotationOffset fuel ((90 : ℕ) : Binary32) (w.yaw + ((90 : ℕ) : Binary32)) =
          some (Binary32.fin offset) ∧
        (offset = 90 * 2 ^ 149 ∨ offset = -(270 * 2 ^ 149)) ∧
        w.yaw + ((90 : ℕ) : Binary32) + Binary32.fin offset = Binary32.fin p ∧
        w1.playerRotation = Binary32.fin r ∧
        ((-(180 * 2 ^ 149) ≤ r ∧ r ≤ 180 * 2 ^ 149) ∨
          (offset = -(270 * 2 ^ 149) ∧ r + 270 * 2 ^ 149 < 2 ^ 149 ∧
            -(2 ^ 149) < r + 270 * 2 ^ 149 ∧ r = p)) ∧
        (-(2 ^ 27 * 2 ^ 149) ≤ y → y ≤ 2 ^ 27 * 2 ^ 149 →
          (∃ j : Int, r = p + j * (360 * 2 ^ 149)) ∧
          (Binary32.fin y + Binary32.fin (90 * 2 ^ 149) = Binary32.fin (y + 90 * 2 ^ 149) →
            p = y + 90 * 2 ^ 149 + offset →
            ∃ j : Int, r = y + 180 * 2 ^ 149 + j * (360 * 2 ^ 149))) ∧
        (∀ i : Int, y = i * 2 ^ 149 → -(2 ^ 23) ≤ i → i ≤ 2 ^ 23 →
          ∃ j : Int, r = y + 180 * 2 ^ 149 + j * (360 * 2 ^ 149))) := by
  obtain ⟨n0, a, m, o, p, r, ea, em, ep, hf, hsome, -, -, -, kd, hr, hc, hm, hp⟩ :=
    processInput_binary32 trig k w y (Or.inr (Or.inr (Or.inr hd))) hy (by omega) (by omega)
  obtain ⟨ha90, ho⟩ := kd hw hs ha
  rw [ha90] at em hm
  refine ⟨⟨n0, hf⟩, ?_⟩
  intro fuel w1 h
  obtain ⟨s1, s2⟩ := hsome fuel w1 h
  rw [ha90] at s1
  have hcong : -(2 ^ 27 * 2 ^ 149) ≤ y → y ≤ 2 ^ 27 * 2 ^ 149 →
      ∃ j : Int, r = p + j * (360 * 2 ^ 149) := by
    intro c1 c2
    have m1 := sum_near y _ m 177 em (by norm_num) (by norm_num) (by omega)
    have p1 := sum_near m o p 177 ep (by norm_num) (by norm_num) (by omega)
    exact hc (by omega) (by omega)
  have hexact : -(2 ^ 27 * 2 ^ 149) ≤ y → y ≤ 2 ^ 27 * 2 ^ 149 →
      Binary32.fin y + Binary32.fin (90 * 2 ^ 149) = Binary32.fin (y + 90 * 2 ^ 149) →
      p = y + 90 * 2 ^ 149 + o → ∃ j : Int, r = y + 180 * 2 ^ 149 + j * (360 * 2 ^ 149) := by
    intro c1 c2 e1 e2
    obtain ⟨j, hj⟩ := hcong c1 c2
    rcases ho with ho | ho
    · exact ⟨j, by rw [hj, e2, ho]; ring⟩
    · exact ⟨j - 1, by rw [hj, e2, ho]; ring⟩
  refine ⟨o, p, r, by rw [natCast_90, hy, em]; exact s1, ho, by rw [natCast_90, hy, em]; exact ep,
    s2, hr, fun c1 c2 => ⟨hcong c1 c2, hexact c1 c2⟩, ?_⟩
  intro i hi i1 i2
  have e1 : Binary32.fin y + Binary32.fin (90 * 2 ^ 149) = Binary32.fin (y + 90 * 2 ^ 149) := by
    rw [fin_add_fin, hi, show i * 2 ^ 149 + 90 * 2 ^ 149 = (i + 90) * 2 ^ 149 by ring]
    exact ofInt_small _ (by omega)
  have em1 : m = y + 90 * 2 ^ 149 := by
    rw [e1] at em
    simp only [Binary32.fin.injEq] at em
    exact em.symm
  have e2 : p = y + 90 * 2 ^ 149 + o := by
    rw [em1, fin_add_fin, hi] at ep
    rcases ho with ho | ho
    · rw [ho, show i * 2 ^ 149 + 90 * 2 ^ 149 + 90 * 2 ^ 149 = (i + 180) * 2 ^ 149 by ring,
        ofInt_small _ (by omega)] at ep
      simp only [Binary32.fin.injEq] at ep
      rw [← ep, hi, ho]
      ring
    · rw [ho, show i * 2 ^ 149 + 90 * 2 ^ 149 + -(270 * 2 ^ 149) = (i - 180) * 2 ^ 149 by ring,
        ofInt_small _ (by omega)] at ep
      simp only [Binary32.fin.injEq] at ep
      rw [← ep, hi, ho]
      ring
  exact hexact (by omega) (by omega) e1 e2

set_option maxRecDepth 100000 in
/-- C23 (amended) on binary32: D at yaw -90 leaves the -270 that is kept,
which is `yaw + 180 - 360`, and D at yaw 30 leaves -150, which is `yaw + 180 -
360`; the request at yaw 30 returns for every fuel from some number on. -/
theorem right_heading_binary32_witness :
    (processInput 3 floatTrig ⟨false, false, false, true⟩
        (floatWorld (Binary32.fin (-(90 * 2 ^ 149))))).map (fun w1 => w1.playerRotation) =
      some (Binary32.fin (-(270 * 2 ^ 149))) ∧
    (processInput 3 floatTrig ⟨false, false, false, true⟩
        (floatWorld (Binary32.fin (30 * 2 ^ 149)))).map (fun w1 => w1.playerRotation) =
      some (Binary32.fin (-(150 * 2 ^ 149))) ∧
    ∃ n0 : Nat, ∀ fuel, n0 ≤ fuel →
      ∃ w1, processInput fuel floatTrig ⟨false, false, false, true⟩
        (floatWorld (Binary32.fin (30 * 2 ^ 149))) = some w1 :=
  ⟨by decide, by decide,
    (right_heading_binary32 floatTrig ⟨false, false, false, true⟩
      (floatWorld (Binary32.fin (30 * 2 ^ 149))) (30 * 2 ^ 149) rfl rfl rfl rfl rfl
      (by norm_num) (by norm_num)).1⟩

set_option maxRecDepth 100000 in
theorem natCast_2p31 :
    ((2147484672 : ℕ) : Binary32) = Binary32.fin (2147484672 * 2 ^ 149) := by decide

set_option maxRecDepth 100000 in
theorem add_90_at_2p31 :
    Binary32.fin (2147484672 * 2 ^ 149) + Binary32.fin (90 * 2 ^ 149) =
      Binary32.fin (2147484672 * 2 ^ 149) := by decide

set_option maxRecDepth 100000 in
theorem sub_90_at_2p31 :
    Binary32.fin (2147484672 * 2 ^ 149) + Binary32.fin (-(90 * 2 ^ 149)) =
      Binary32.fin (2147484672 * 2 ^ 149) := by decide

/-- At the yaw 2^31 + 1024 the sums `yaw + 90` and `yaw - 90` are both rounded
to `yaw`, so a D request and an A request normalise the same number; what the
loops leave is a multiple of 8. -/
theorem facing_at_2p31 :
    ∃ (n0 : Nat) (t : Int), (2 : Int) ^ 152 ∣ t ∧ ∀ fuel, n0 ≤ fuel →
      newPlayerRotation fuel (Binary32.fin (2147484672 * 2 ^ 149)) (Binary32.fin (90 * 2 ^ 149)) =
        some (Binary32.fin t) ∧
      newPlayerRotation fuel (Binary32.fin (2147484672 * 2 ^ 149))
        (Binary32.fin (-(90 * 2 ^ 149))) = some (Binary32.fin t) := by
  obtain ⟨n0, t, t1, -, -, -, t5⟩ := normalizeAngle_spec (2147484672 * 2 ^ 149) (by norm_num)
    (by norm_num)
  have hd : (2 : Int) ^ 152 ∣ t := t5 ⟨2147484672 / 8, by norm_num⟩
  refine ⟨n0, t, hd, fun fuel hf => ⟨?_, ?_⟩⟩
  · have ho : rotationOffset fuel (Binary32.fin (90 * 2 ^ 149))
        (Binary32.fin (2147484672 * 2 ^ 149) + Binary32.fin (90 * 2 ^ 149)) =
          some (Binary32.fin (90 * 2 ^ 149)) := by
      rw [rotationOffset_D32, add_90_at_2p31, add_90_at_2p31, t1 fuel hf]
      dsimp only
      rw [if_neg]
      apply not_near_of_far
      obtain ⟨c, hc⟩ := hd
      omega
    rw [newPlayerRotation_of_offset32 fuel _ _ _ ho (by omega), add_90_at_2p31, add_90_at_2p31]
    exact t1 fuel hf
  · rw [newPlayerRotation_of_offset32 fuel _ _ _ (rotationOffset_A32 fuel _) (by omega),
      sub_90_at_2p31, add_90_at_2p31]
    exact t1 fuel hf

set_option maxRecDepth 100000 in
/-- C23 as stated fails on binary32.  At the yaw -90 + 2^-16 (a value of the
format) the sums `yaw + 90` and `moveAngle + 90` are exact, `moveAngle + 90`
is within 1 of 90, the offset is -270, and `moveAngle - 270` is rounded to
-270, which is kept: that is `yaw + 180 - 360 - 2^-16`, not congruent to
`yaw + 180`.  At the yaw 2^31 + 1024 what is left is a multiple of 8, and
`yaw + 180` is not, nor is any number congruent to it. -/
theorem right_heading_not_congruent :
    Binary32.isValue (Binary32.fin (-5898239 * 2 ^ 133)) = true ∧
    Binary32.fin (-5898239 * 2 ^ 133) + ((90 : ℕ) : Binary32) + ((90 : ℕ) : Binary32) =
      Binary32.fin (-5898239 * 2 ^ 133 + 180 * 2 ^ 149) ∧
    (processInput 2 floatTrig ⟨false, false, false, true⟩
        (floatWorld (Binary32.fin (-5898239 * 2 ^ 133)))).map (fun w1 => w1.playerRotation) =
      some (Binary32.fin (-(270 * 2 ^ 149))) ∧
    (¬ ∃ j : Int, -(270 * 2 ^ 149) = -5898239 * 2 ^ 133 + 180 * 2 ^ 149 + j * (360 * 2 ^ 149)) ∧
    ∃ (fuel : Nat) (r : Int), ∀ (trig : Trig Binary32) (w : World Binary32),
      w.yaw = ((2147484672 : ℕ) : Binary32) →
        (∃ w1, processInput fuel trig ⟨false, false, false, true⟩ w = some w1 ∧
          w1.playerRotation = Binary32.fin r) ∧
        ¬ ∃ j : Int, r = 2147484672 * 2 ^ 149 + 180 * 2 ^ 149 + j * (360 * 2 ^ 149) := by
  refine ⟨by decide, by decide, by decide, ?_, ?_⟩
  · rintro ⟨j, hj⟩
    omega
  · obtain ⟨n0, t, hd, ht⟩ := facing_at_2p31
    refine ⟨n0, t, fun trig w hy => ⟨?_, ?_⟩⟩
    · apply (processInput_playerRotation n0 trig ⟨false, false, false, true⟩ w rfl).1
      have hm : (selectHeading ⟨false, false, false, true⟩ : Heading Binary32).movementAngle =
          Binary32.fin (90 * 2 ^ 149) := natCast_90
      rw [hm, hy, natCast_2p31]
      exact (ht n0 (le_refl _)).1
    · rintro ⟨j, hj⟩
      obtain ⟨c, hc⟩ := hd
      omega

/-- C24 as stated fails on binary32: at the camera yaw 2^31 + 1024 the facing
angle of a D request is the facing angle of an A request, whatever the rest of
the world. -/
theorem left_right_collide :
    ∃ (fuel : Nat) (r : Binary32), ∀ (trig : Trig Binary32) (w : World Binary32),
      w.yaw = ((2147484672 : ℕ) : Binary32) →
        (∃ w1, processInput fuel trig ⟨false, false, false, true⟩ w = some w1 ∧
          w1.playerRotation = r) ∧
        ∃ w2, processInput fuel trig ⟨false, false, true, false⟩ w = some w2 ∧
          w2.playerRotation = r := by
  obtain ⟨n0, t, -, ht⟩ := facing_at_2p31
  refine ⟨n0, Binary32.fin t, fun trig w hy => ⟨?_, ?_⟩⟩
  · apply (processInput_playerRotation n0 trig ⟨false, false, false, true⟩ w rfl).1
    have hm : (selectHeading ⟨false, false, false, true⟩ : Heading Binary32).movementAngle =
        Binary32.fin (90 * 2 ^ 149) := natCast_90
    rw [hm, hy, natCast_2p31]
    exact (ht n0 (le_refl _)).1
  · apply (processInput_playerRotation n0 trig ⟨false, false, true, false⟩ w rfl).1
    have hm : (selectHeading ⟨false, false, true, false⟩ : Heading Binary32).movementAngle =
        Binary32.fin (-(90 * 2 ^ 149)) := neg_natCast_90
    rw [hm, hy, natCast_2p31]
    exact (ht n0 (le_refl _)).2

/-- On binary32, for a finite camera yaw of magnitude at most 2^27, where the
float sums are exact or nearly so, a D request and an A request both return,
given enough fuel, and leave different facing angles: the two angles are
congruent modulo 360 to sums that are 180 apart up to the rounding. -/
theorem left_right_differ_small (trig : Trig Binary32) (kd ka : Keys) (w : World Binary32)
    (y : Int)
    (hdw : kd.wPressed = false) (hds : kd.sPressed = false) (hda : kd.aPressed = false)
    (hdd : kd.dPressed = true) (haw : ka.wPressed = false) (has : ka.sPressed = false)
    (haa : ka.aPressed = true) (hy : w.yaw = Binary32.fin y)
    (h1 : -(2 ^ 27 * 2 ^ 149) ≤ y) (h2 : y ≤ 2 ^ 27 * 2 ^ 149) :
    (∃ n0 : Nat, ∀ fuel, n0 ≤ fuel →
      ∃ w1 w2, processInput fuel trig kd w = some w1 ∧ processInput fuel trig ka w = some w2) ∧
    (∀ fuel1 fuel2 w1 w2, processInput fuel1 trig kd w = some w1 →
      processInput fuel2 trig ka w = some w2 → w1.playerRotation ≠ w2.playerRotation) := by
  obtain ⟨n1, a1, m1, o1, p1, r1, -, em1, ep1, hf1, hs1, -, -, -, kd1, -, hc1, -, -⟩ :=
    processInput_binary32 trig kd w y (Or.inr (Or.inr (Or.inr hdd))) hy (by omega) (by omega)
  obtain ⟨n2, a2, m2, o2, p2, r2, -, em2, ep2, hf2, hs2, -, -, ka2, -, -, hc2, -, -⟩ :=
    processInput_binary32 trig ka w y (Or.inr (Or.inr (Or.inl haa))) hy (by omega) (by omega)
  obtain ⟨ea1, eo1⟩ := kd1 hdw hds hda
  obtain ⟨ea2, eo2⟩ := ka2 haw has haa
  have b1 := sum_near y a1 m1 177 em1 (by norm_num) (by norm_num) (by omega)
  have b2 := sum_near m1 o1 p1 177 ep1 (by norm_num) (by norm_num) (by omega)
  have b3 := sum_near y a2 m2 177 em2 (by norm_num) (by norm_num) (by omega)
  have b4 := sum_near m2 o2 p2 177 ep2 (by norm_num) (by norm_num) (by omega)
  obtain ⟨j1, hj1⟩ := hc1 (by omega) (by omega)
  obtain ⟨j2, hj2⟩ := hc2 (by omega) (by omega)
  constructor
  · refine ⟨max n1 n2, fun fuel hf => ?_⟩
    obtain ⟨w1, e1⟩ := hf1 fuel (le_trans (le_max_left _ _) hf)
    obtain ⟨w2, e2⟩ := hf2 fuel (le_trans (le_max_right _ _) hf)
    exact ⟨w1, w2, e1, e2⟩
  · intro fuel1 fuel2 w1 w2 e1 e2 heq
    rw [(hs1 fuel1 w1 e1).2, (hs2 fuel2 w2 e2).2] at heq
    simp only [Binary32.fin.injEq] at heq
    omega

/-! ### The order of binary32 and the collision test -/

theorem binary32_add_def (a b : Binary32) : a + b = Binary32.add a b := rfl

theorem binary32_mul_def (a b : Binary32) : a * b = Binary32.mul a b := rfl

theorem binary32_zero_def : (0 : Binary32) = Binary32.fin 0 := rfl

/-- The comparison `<=` is transitive. -/
theorem binary32_le_trans (a b c : Binary32) (h1 : a ≤ b) (h2 : b ≤ c) : a ≤ c := by
  rw [binary32_le_def] at *
  cases a <;> cases b <;> cases c <;> simp [Binary32.ble] at h1 h2 ⊢
  · omega
  all_goals (first | omega | (cases h1 <;> cases h2 <;> simp_all) | simp_all)

/-- A value that is not NaN compares `<=` with itself. -/
theorem binary32_le_refl (a : Binary32) (h : a.isNaN = false) : a ≤ a := by
  rw [binary32_le_def]
  cases a <;> simp [Binary32.ble, Binary32.isNaN] at h ⊢

/-- What compares `<=` with something is not NaN. -/
theorem not_nan_of_le (a b : Binary32) (h : a ≤ b) : a.isNaN = false ∧ b.isNaN = false := by
  rw [binary32_le_def] at h
  cases a <;> cases b <;> simp [Binary32.ble, Binary32.isNaN] at h ⊢

/-- Two values that are not NaN are comparable. -/
theorem binary32_le_total (a b : Binary32) (ha : a.isNaN = false) (hb : b.isNaN = false) :
    a ≤ b ∨ b ≤ a := by
  rw [binary32_le_def, binary32_le_def]
  cases a <;> cases b <;> simp [Binary32.ble, Binary32.isNaN] at ha hb ⊢
  · omega
  all_goals (rename_i s t; cases s <;> cases t <;> simp)

theorem ofInt_not_nan (extra : Nat) (p : Int) : (Binary32.ofInt extra p).isNaN = false := by
  unfold Binary32.ofInt Binary32.round
  dsimp only
  split_ifs <;> rfl

theorem ofInt_le_inf (extra : Nat) (p : Int) : Binary32.ofInt extra p ≤ Binary32.inf false := by
  rw [binary32_le_def]
  unfold Binary32.ofInt Binary32.round
  dsimp only
  split_ifs <;> simp [Binary32.ble]

theorem inf_le_ofInt (extra : Nat) (p : Int) : Binary32.inf true ≤ Binary32.ofInt extra p := by
  rw [binary32_le_def]
  unfold Binary32.ofInt Binary32.round
  dsimp only
  split_ifs <;> simp [Binary32.ble]

/-- Multiplication by a non-negative factor is monotone, NaN products apart. -/
theorem binary32_mul_mono (a b s : Binary32) (h0 : (0 : Binary32) ≤ s) (hab : a ≤ b)
    (ha : (a * s).isNaN = false) (hb : (b * s).isNaN = false) : a * s ≤ b * s := by
  rw [binary32_zero_def] at h0
  cases s with
  | nan => exact absurd h0 (by decide)
  | fin t =>
    rw [fin_le_fin] at h0
    cases a with
    | nan => exact absurd hab (by simp [binary32_le_def, Binary32.ble])
    | fin x =>
      cases b with
      | nan => exact absurd hab (by simp [binary32_le_def, Binary32.ble])
      | fin y =>
        rw [fin_le_fin] at hab
        rw [fin_mul_fin, fin_mul_fin]
        exact ofInt_mono 149 _ _ (mul_le_mul_of_nonneg_right hab h0)
      | inf sb =>
        cases sb with
        | true => exact absurd hab (by simp [binary32_le_def, Binary32.ble])
        | false =>
          rw [fin_mul_fin]
          rw [binary32_mul_def] at hb ⊢
          simp only [Binary32.mul] at hb ⊢
          split_ifs at hb ⊢ with c
          · simp [Binary32.isNaN] at hb
          · have : ¬ t < 0 := by omega
            simp only [this, decide_False, Bool.xor_false]
            exact ofInt_le_inf _ _
    | inf sa =>
      cases sa with
      | false =>
        cases b with
        | nan => exact absurd hab (by simp [binary32_le_def, Binary32.ble])
        | fin y => exact absurd hab (by simp [binary32_le_def, Binary32.ble])
        | inf sb =>
          cases sb with
          | true => exact absurd hab (by simp [binary32_le_def, Binary32.ble])
          | false => exact binary32_le_refl _ ha
      | true =>
        rw [binary32_mul_def] at ha
        simp only [Binary32.mul] at ha
        split_ifs at ha with c
        · simp [Binary32.isNaN] at ha
        · have ht : ¬ t < 0 := by omega
          have e : Binary32.inf true * Binary32.fin t = Binary32.inf true := by
            rw [binary32_mul_def]
            simp only [Binary32.mul, if_neg c, ht, decide_False, Bool.xor_false]
          rw [e]
          cases b with
          | nan => exact absurd hab (by simp [binary32_le_def, Binary32.ble])
          | fin y =>
            rw [fin_mul_fin]
            exact inf_le_ofInt _ _
          | inf sb =>
            rw [binary32_mul_def]
            simp only [Binary32.mul, if_neg c, ht, decide_False, Bool.xor_false]
            simp [binary32_le_def, Binary32.ble]
  | inf ss =>
    cases ss with
    | true => exact absurd h0 (by simp [binary32_le_def, Binary32.ble])
    | false =>
      have hfin : ∀ x : Int, (Binary32.fin x * Binary32.inf false).isNaN = false →
          Binary32.fin x * Binary32.inf false = Binary32.inf (decide (x < 0)) := by
        intro x hx
        rw [binary32_mul_def] at hx ⊢
        simp only [Binary32.mul] at hx ⊢
        split_ifs at hx ⊢ with c
        · simp [Binary32.isNaN] at hx
        · simp
      have hinf : ∀ t : Bool, Binary32.inf t * Binary32.inf false = Binary32.inf t := by
        intro t
        rw [binary32_mul_def]
        simp [Binary32.mul]
      cases a with
      | nan => exact absurd hab (by simp [binary32_le_def, Binary32.ble])
      | fin x =>
        rw [hfin x ha]
        cases b with
        | nan => exact absurd hab (by simp [binary32_le_def, Binary32.ble])
        | fin y =>
          rw [hfin y hb, binary32_le_def]
          rw [fin_le_fin] at hab
          simp only [Binary32.ble, Bool.or_eq_true, decide_eq_true_eq, Bool.not_eq_true',
            decide_eq_false_iff_not]
          omega
        | inf sb =>
          cases sb with
          | true => exact absurd hab (by simp [binary32_le_def, Binary32.ble])
          | false =>
            rw [hinf, binary32_le_def]
            simp [Binary32.ble]
      | inf sa =>
        rw [hinf]
        cases sa with
        | true =>
          cases b with
          | nan => exact absurd hab (by simp [binary32_le_def, Binary32.ble])
          | fin y =>
            rw [hfin y hb, binary32_le_def]
            simp [Binary32.ble]
          | inf sb =>
            rw [hinf, binary32_le_def]
            simp [Binary32.ble]
        | false =>
          cases b with
          | nan => exact absurd hab (by simp [binary32_le_def, Binary32.ble])
          | fin y => exact absurd hab (by simp [binary32_le_def, Binary32.ble])
          | inf sb =>
            cases sb with
            | true => exact absurd hab (by simp [binary32_le_def, Binary32.ble])
            | false =>
              rw [hinf, binary32_le_def]
              simp [Binary32.ble]

/-- Addition to a fixed value is monotone, NaN sums apart. -/
theorem binary32_add_mono (pos a b : Binary32) (hab : a ≤ b)
    (ha : (pos + a).isNaN = false) (hb : (pos + b).isNaN = false) : pos + a ≤ pos + b := by
  cases pos with
  | nan => simp [binary32_add_def, Binary32.add, Binary32.isNaN] at ha
  | fin p =>
    cases a with
    | nan => exact absurd hab (by simp [binary32_le_def, Binary32.ble])
    | fin x =>
      cases b with
      | nan => exact absurd hab (by simp [binary32_le_def, Binary32.ble])
      | fin y =>
        rw [fin_le_fin] at hab
        rw [fin_add_fin, fin_add_fin]
        exact ofInt_mono 0 _ _ (by omega)
      | inf sb =>
        cases sb with
        | true => exact absurd hab (by simp [binary32_le_def, Binary32.ble])
        | false =>
          rw [fin_add_fin]
          exact ofInt_le_inf _ _
    | inf sa =>
      cases sa with
      | true =>
        have e : Binary32.fin p + Binary32.inf true = Binary32.inf true := rfl
        rw [e]
        cases b with
        | nan => exact absurd hab (by simp [binary32_le_def, Binary32.ble])
        | fin y =>
          rw [fin_add_fin]
          exact inf_le_ofInt _ _
        | inf sb =>
          have e2 : Binary32.fin p + Binary32.inf sb = Binary32.inf sb := rfl
          rw [e2, binary32_le_def]
          simp [Binary32.ble]
      | false =>
        cases b with
        | nan => exact absurd hab (by simp [binary32_le_def, Binary32.ble])
        | fin y => exact absurd hab (by simp [binary32_le_def, Binary32.ble])
        | inf sb =>
          cases sb with
          | true => exact absurd hab (by simp [binary32_le_def, Binary32.ble])
          | false => exact binary32_le_refl _ ha
  | inf sp =>
    have e : ∀ c : Binary32, (Binary32.inf sp + c).isNaN = false →
        Binary32.inf sp + c = Binary32.inf sp := by
      intro c hc
      rw [binary32_add_def] at hc ⊢
      cases c with
      | nan => simp [Binary32.add, Binary32.isNaN] at hc
      | fin x => rfl
      | inf t =>
        simp only [Binary32.add] at hc ⊢
        split_ifs at hc ⊢ with c1
        · rfl
        · simp [Binary32.isNaN] at hc
    rw [e a ha, e b hb, binary32_le_def]
    simp [Binary32.ble]

/-- Two intervals of binary32 values with `lo <= hi` each share a value iff
each starts before the other ends. -/
theorem interval_common32 (a1 a2 b1 b2 : Binary32) (ha : a1 ≤ a2) (hb : b1 ≤ b2) :
    (a1 ≤ b2 ∧ a2 ≥ b1) ↔ ∃ t, (a1 ≤ t ∧ t ≤ a2) ∧ (b1 ≤ t ∧ t ≤ b2) := by
  constructor
  · rintro ⟨h1, h2⟩
    have na := (not_nan_of_le _ _ ha).1
    have nb := (not_nan_of_le _ _ hb).1
    rcases binary32_le_total a1 b1 na nb with h | h
    · exact ⟨b1, ⟨h, h2⟩, ⟨binary32_le_refl _ nb, hb⟩⟩
    · exact ⟨a1, ⟨binary32_le_refl _ na, ha⟩, ⟨h, h1⟩⟩
  · rintro ⟨t, ⟨h1, h2⟩, ⟨h3, h4⟩⟩
    exact ⟨binary32_le_trans _ _ _ h1 h4, binary32_le_trans _ _ _ h3 h2⟩

/-- On binary32 the world box of an object with non-negative scale and
ordered local bounds is ordered, when its corners have no NaN component. -/
theorem worldMin_le_worldMax32 (obj : GameObject Binary32)
    (hs : Vec3.le ⟨0, 0, 0⟩ obj.scale) (hb : Vec3.le obj.minBounds obj.maxBounds)
    (n1 : (worldMin obj).hasNaN = false) (n2 : (worldMax obj).hasNaN = false) :
    Vec3.le (worldMin obj) (worldMax obj) := by
  obtain ⟨s1, s2, s3⟩ := hs
  obtain ⟨b1, b2, b3⟩ := hb
  simp only [Vec3.hasNaN, Bool.or_eq_false_iff] at n1 n2
  obtain ⟨⟨x1, y1⟩, z1⟩ := n1
  obtain ⟨⟨x2, y2⟩, z2⟩ := n2
  have key : ∀ pos s mn mx : Binary32, (0 : Binary32) ≤ s → mn ≤ mx →
      (pos + mn * s).isNaN = false → (pos + mx * s).isNaN = false →
      pos + mn * s ≤ pos + mx * s := by
    intro pos s mn mx h0 hm c1 c2
    have d1 : (mn * s).isNaN = false := by
      cases hv : mn * s with
      | nan => rw [hv] at c1; cases pos <;> simp [binary32_add_def, Binary32.add, Binary32.isNaN] at c1
      | fin x => rfl
      | inf t => rfl
    have d2 : (mx * s).isNaN = false := by
      cases hv : mx * s with
      | nan => rw [hv] at c2; cases pos <;> simp [binary32_add_def, Binary32.add, Binary32.isNaN] at c2
      | fin x => rfl
      | inf t => rfl
    exact binary32_add_mono pos _ _ (binary32_mul_mono mn mx s h0 hm d1 d2) c1 c2
  exact ⟨key _ _ _ _ s1 b1 x1 x2, key _ _ _ _ s2 b2 y1 y2, key _ _ _ _ s3 b3 z1 z2⟩

/-- C26 (amended): on binary32, for objects whose scale is componentwise
non-negative, whose `minBounds <= maxBounds` componentwise and whose corners
`position + minBounds * scale` and `position + maxBounds * scale`, as the code
computes them, have no NaN component, `checkIntersection a b` is true iff some
point lies between the computed corners of both objects; hence objects whose
computed boxes touch in a corner intersect, and every such object intersects
itself. -/
theorem checkIntersection_common_point_binary32 (a b : GameObject Binary32)
    (hsa : Vec3.le ⟨0, 0, 0⟩ a.scale) (hba : Vec3.le a.minBounds a.maxBounds)
    (hsb : Vec3.le ⟨0, 0, 0⟩ b.scale) (hbb : Vec3.le b.minBounds b.maxBounds)
    (na1 : (worldMin a).hasNaN = false) (na2 : (worldMax a).hasNaN = false)
    (nb1 : (worldMin b).hasNaN = false) (nb2 : (worldMax b).hasNaN = false) :
    (checkIntersection a b = true ↔ ∃ p : Vec3 Binary32, inWorldBox p a ∧ inWorldBox p b) ∧
      (worldMax a = worldMin b → checkIntersection a b = true) ∧
      checkIntersection a a = true := by
  have ha := worldMin_le_worldMax32 a hsa hba na1 na2
  have hb := worldMin_le_worldMax32 b hsb hbb nb1 nb2
  have hiff : checkIntersection a b = true ↔
      ∃ p : Vec3 Binary32, inWorldBox p a ∧ inWorldBox p b := by
    rw [checkIntersection_world, interval_common32 _ _ _ _ ha.1 hb.1,
      interval_common32 _ _ _ _ ha.2.1 hb.2.1, interval_common32 _ _ _ _ ha.2.2 hb.2.2]
    constructor
    · rintro ⟨⟨x, hx1, hx2⟩, ⟨y, hy1, hy2⟩, ⟨z, hz1, hz2⟩⟩
      exact ⟨⟨x, y, z⟩, ⟨⟨hx1.1, hy1.1, hz1.1⟩, ⟨hx1.2, hy1.2, hz1.2⟩⟩,
        ⟨⟨hx2.1, hy2.1, hz2.1⟩, ⟨hx2.2, hy2.2, hz2.2⟩⟩⟩
    · rintro ⟨p, ⟨⟨a1, a2, a3⟩, ⟨a4, a5, a6⟩⟩, ⟨⟨b1, b2, b3⟩, ⟨b4, b5, b6⟩⟩⟩
      exact ⟨⟨p.x, ⟨a1, a4⟩, ⟨b1, b4⟩⟩, ⟨p.y, ⟨a2, a5⟩, ⟨b2, b5⟩⟩, ⟨p.z, ⟨a3, a6⟩, ⟨b3, b6⟩⟩⟩
  have hrefl : ∀ v : Vec3 Binary32, v.hasNaN = false → Vec3.le v v := by
    intro v hv
    simp only [Vec3.hasNaN, Bool.or_eq_false_iff] at hv
    exact ⟨binary32_le_refl _ hv.1.1, binary32_le_refl _ hv.1.2, binary32_le_refl _ hv.2⟩
  refine ⟨hiff, ?_, ?_⟩
  · intro h
    rw [hiff]
    exact ⟨worldMax a, ⟨ha, hrefl _ na2⟩, ⟨by rw [h]; exact hrefl _ nb1, by rw [h]; exact hb⟩⟩
  · rw [checkIntersection_world]
    exact ⟨⟨ha.1, ha.1⟩, ⟨ha.2.1, ha.2.1⟩, ⟨ha.2.2, ha.2.2⟩⟩

set_option maxRecDepth 100000 in
/-- C26 (amended) on binary32 at two cubes of half size 1 around (0,0,0) and
(2,2,2), whose computed boxes share the corner (1,1,1) only. -/
theorem checkIntersection_common_point_binary32_witness :
    worldMax (floatCube ⟨0, 0, 0⟩) = worldMin (floatCube ⟨((2 : ℕ) : Binary32),
      ((2 : ℕ) : Binary32), ((2 : ℕ) : Binary32)⟩) ∧
      checkIntersection (floatCube ⟨0, 0, 0⟩) (floatCube ⟨((2 : ℕ) : Binary32),
        ((2 : ℕ) : Binary32), ((2 : ℕ) : Binary32)⟩) = true ∧
      checkIntersection (floatCube ⟨0, 0, 0⟩) (floatCube ⟨0, 0, 0⟩) = true :=
  ⟨by decide,
    (checkIntersection_common_point_binary32 (floatCube ⟨0, 0, 0⟩)
      (floatCube ⟨((2 : ℕ) : Binary32), ((2 : ℕ) : Binary32), ((2 : ℕ) : Binary32)⟩)
      (by decide) (by decide) (by decide) (by decide) (by decide) (by decide) (by decide)
      (by decide)).2.1 (by decide),
    (checkIntersection_common_point_binary32 (floatCube ⟨0, 0, 0⟩) (floatCube ⟨0, 0, 0⟩)
      (by decide) (by decide) (by decide) (by decide) (by decide) (by decide) (by decide)
      (by decide)).2.2⟩

set_option maxRecDepth 100000 in
/-- C26 as stated fails on binary32.  The boxes `roundedBoxA` and
`roundedBoxB` satisfy the conditions on scale and bounds; in exact arithmetic
the first ends at x = 16777219, before the second begins at x = 16777220, and
the two share no point; on binary32 the corner 16777216 + 3 * 1 is rounded to
16777220 and `checkIntersection` returns true.  And an object at a NaN
position that satisfies the conditions does not intersect itself. -/
theorem checkIntersection_rounded_corner :
    (Vec3.le ⟨0, 0, 0⟩ (roundedBoxA Binary32).scale ∧
      Vec3.le (roundedBoxA Binary32).minBounds (roundedBoxA Binary32).maxBounds ∧
      Vec3.le ⟨0, 0, 0⟩ (roundedBoxB Binary32).scale ∧
      Vec3.le (roundedBoxB Binary32).minBounds (roundedBoxB Binary32).maxBounds) ∧
    (worldMax (roundedBoxA Int)).x = 16777219 ∧ (worldMin (roundedBoxB Int)).x = 16777220 ∧
    checkIntersection (roundedBoxA Int) (roundedBoxB Int) = false ∧
    (worldMax (roundedBoxA Binary32)).x = ((16777220 : ℕ) : Binary32) ∧
    (worldMin (roundedBoxB Binary32)).x = ((16777220 : ℕ) : Binary32) ∧
    checkIntersection (roundedBoxA Binary32) (roundedBoxB Binary32) = true ∧
    (Vec3.le ⟨0, 0, 0⟩ (floatCube ⟨Binary32.nan, 0, 0⟩).scale ∧
      Vec3.le (floatCube ⟨Binary32.nan, 0, 0⟩).minBounds
        (floatCube ⟨Binary32.nan, 0, 0⟩).maxBounds) ∧
    checkIntersection (floatCube ⟨Binary32.nan, 0, 0⟩) (floatCube ⟨Binary32.nan, 0, 0⟩) =
      false := by
  refine ⟨by decide, by decide, by decide, by decide, by decide, by decide, by decide,
    by decide, by decide⟩

/-- The vertex loop of `loadOBJModel` emits 8 floats per position index: the
position, two texture floats and a normal, which is `normalize` of the
position when `normIndices` has no entry at the counter of the vertex or an
entry that is no index into `normals`. -/
theorem buildVertices_fallback {F : Type} [Zero F] (env : ObjEnv F)
    (positions : List (Vec3 F)) (texCoords : List (Vec2 F)) (normals : List (Vec3 F))
    (texIndices normIndices : List Nat) :
    ∀ (rest : List Nat) (i : Nat) (acc r : List F × List Nat),
      buildVertices env positions texCoords normals texIndices normIndices i rest acc = .ok r →
      ∃ t : List F, r.1 = acc.1 ++ t ∧ t.length = 8 * rest.length ∧
        ∀ (j p : Nat), rest[j]? = some p →
          ∃ pos, positions[p]? = some pos ∧
            t[8 * j]? = some pos.x ∧ t[8 * j + 1]? = some pos.y ∧ t[8 * j + 2]? = some pos.z ∧
            ((∀ n, normIndices[i + j]? = some n → normals.length ≤ n) →
              t[8 * j + 5]? = some (env.normalize pos).x ∧
              t[8 * j + 6]? = some (env.normalize pos).y ∧
              t[8 * j + 7]? = some (env.normalize pos).z) := by
  intro rest
  induction rest with
  | nil =>
    intro i acc r h
    simp only [buildVertices, Except.ok.injEq] at h
    subst h
    exact ⟨[], by simp, rfl, fun j p hj => by simp at hj⟩
  | cons q qs ih =>
    intro i acc r h
    unfold buildVertices at h
    cases hq : positions[q]? with
    | none => rw [hq] at h; cases h
    | some pos =>
      rw [hq] at h
      dsimp only at h
      obtain ⟨t, ht, hlen, hel⟩ := ih (i + 1) _ r h
      rw [List.append_assoc] at ht
      refine ⟨_, ht, ?_, ?_⟩
      · simp only [List.cons_append, List.nil_append, List.length_cons, hlen]
        omega
      · intro j p hj
        simp only [List.cons_append, List.nil_append]
        cases j with
        | zero =>
          simp only [List.getElem?_cons_zero, Option.some.injEq] at hj
          subst hj
          refine ⟨pos, hq, by simp, by simp, by simp, ?_⟩
          intro hn
          have hnorm : (if h1 : i < normIndices.length then
              if h2 : normIndices[i] < normals.length then normals[normIndices[i]]
              else env.normalize pos
            else env.normalize pos) = env.normalize pos := by
            by_cases h1 : i < normIndices.length
            · rw [dif_pos h1]
              have := hn normIndices[i] (by simp [List.getElem?_eq_getElem h1])
              rw [dif_neg (by omega)]
            · rw [dif_neg h1]
          simp only [Nat.mul_zero, Nat.zero_add, List.getElem?_cons_succ,
            List.getElem?_cons_zero, hnorm, and_self]
        | succ j =>
          simp only [List.getElem?_cons_succ] at hj
          obtain ⟨pos1, h0, h1, h2, h3, h4⟩ := hel j p hj
          refine ⟨pos1, h0, ?_, ?_, ?_, ?_⟩
          · rw [show 8 * (j + 1) = 8 * j + 1 + 1 + 1 + 1 + 1 + 1 + 1 + 1 by omega]
            simpa only [List.getElem?_cons_succ] using h1
          · rw [show 8 * (j + 1) + 1 = 8 * j + 1 + 1 + 1 + 1 + 1 + 1 + 1 + 1 + 1 by omega]
            simpa only [List.getElem?_cons_succ] using h2
          · rw [show 8 * (j + 1) + 2 = 8 * j + 2 + 1 + 1 + 1 + 1 + 1 + 1 + 1 + 1 by omega]
            simpa only [List.getElem?_cons_succ] using h3
          · intro hn
            obtain ⟨h5, h6, h7⟩ := h4 (by
              intro n hnn
              exact hn n (by rw [show i + (j + 1) = i + 1 + j by omega]; exact hnn))
            refine ⟨?_, ?_, ?_⟩
            · rw [show 8 * (j + 1) + 5 = 8 * j + 5 + 1 + 1 + 1 + 1 + 1 + 1 + 1 + 1 by omega]
              simpa only [List.getElem?_cons_succ] using h5
            · rw [show 8 * (j + 1) + 6 = 8 * j + 6 + 1 + 1 + 1 + 1 + 1 + 1 + 1 + 1 by omega]
              simpa only [List.getElem?_cons_succ] using h6
            · rw [show 8 * (j + 1) + 7 = 8 * j + 7 + 1 + 1 + 1 + 1 + 1 + 1 + 1 + 1 by omega]
              simpa only [List.getElem?_cons_succ] using h7

/-- In real arithmetic the glm normalisation `v * (1 / sqrt(dot(v, v)))` of a
vector other than the origin is a unit vector. -/
theorem glmNormalize_unit_real (v : Vec3 ℝ) (hv : v ≠ ⟨0, 0, 0⟩) :
    Vec3.dot (glmNormalize (fun d => 1 / Real.sqrt d) v)
      (glmNormalize (fun d => 1 / Real.sqrt d) v) = 1 := by
  obtain ⟨x, y, z⟩ := v
  have hd : 0 < x * x + y * y + z * z := by
    have h0 : ¬ (x = 0 ∧ y = 0 ∧ z = 0) := by
      rintro ⟨rfl, rfl, rfl⟩
      exact hv rfl
    by_contra hc
    apply h0
    have hx := mul_self_nonneg x
    have hy := mul_self_nonneg y
    have hz := mul_self_nonneg z
    refine ⟨?_, ?_, ?_⟩ <;> nlinarith
  have hs : 0 < Real.sqrt (x * x + y * y + z * z) := Real.sqrt_pos.2 hd
  have hs2 : Real.sqrt (x * x + y * y + z * z) * Real.sqrt (x * x + y * y + z * z) =
      x * x + y * y + z * z := Real.mul_self_sqrt (le_of_lt hd)
  simp only [glmNormalize, Vec3.scale, Vec3.dot]
  field_simp

set_option maxRecDepth 100000 in
/-- C14 as stated fails.  In `loadOBJModel` on binary32, with no normal index
in the file: the vertex at the origin gets the normal (NaN, NaN, NaN), since
`inversesqrt(0)` is infinite and `0 * inf` is NaN; the vertex at (1, 1, 0)
gets twice 0.707106769 (11863283 * 2^-24), whose squares add up to less than
1; the vertex at (2^64, 0, 0) gets (0, 0, 0), since the squared length is
infinite; the vertex at (2^-75, 0, 0) gets (inf, NaN, NaN), since the squared
length is rounded to 0.  And in `floatMixedNormFile` the first vertex, whose
reference `1` omits the normal index, gets the normal (0, 0, 1) of the file,
which the later reference `1//1` put first into `normIndices`. -/
theorem fallback_normal_fails :
    (loadOBJModel floatObjEnv (floatCube ⟨0, 0, 0⟩) (some floatOriginFile)).toOption.map
        (fun r => (r.2.vertices.getD 5 0, r.2.vertices.getD 6 0, r.2.vertices.getD 7 0)) =
      some (Binary32.nan, Binary32.nan, Binary32.nan) ∧
    (loadOBJModel floatObjEnv (floatCube ⟨0, 0, 0⟩) (some floatRangeFile)).toOption.map
        (fun r => ((r.2.vertices.getD 5 0, r.2.vertices.getD 6 0, r.2.vertices.getD 7 0),
          (r.2.vertices.getD 13 1, r.2.vertices.getD 14 1, r.2.vertices.getD 15 1),
          (r.2.vertices.getD 21 0, r.2.vertices.getD 22 0, r.2.vertices.getD 23 0))) =
      some ((Binary32.fin (11863283 * 2 ^ 125), Binary32.fin (11863283 * 2 ^ 125),
          Binary32.fin 0),
        (Binary32.fin 0, Binary32.fin 0, Binary32.fin 0),
        (Binary32.inf false, Binary32.nan, Binary32.nan)) ∧
    (11863283 * 2 ^ 125 : Int) * (11863283 * 2 ^ 125) +
        (11863283 * 2 ^ 125) * (11863283 * 2 ^ 125) + 0 * 0 < 2 ^ 149 * 2 ^ 149 ∧
    (loadOBJModel floatObjEnv (floatCube ⟨0, 0, 0⟩) (some floatMixedNormFile)).toOption.map
        (fun r => (r.2.vertices.getD 5 1, r.2.vertices.getD 6 1, r.2.vertices.getD 7 0)) =
      some (0, 0, 1) := by
  refine ⟨by decide, by decide, by norm_num, by decide⟩

/-! ### The facing angles of D and A for a yaw up to 2^31

Rounding to nearest returns a nearest value, and a tie goes to the even
multiple; with that the two chains of loop values are followed side by side. -/

/-- The rounding is at least as near as any multiple of `2 ^ k`. -/
theorem roundToMultiple_nearest (a k c : Nat) (s : Bool) (hc : 2 ^ k ∣ c) :
    (a ≤ c → roundToMultiple a k s ≤ c ∧ 2 * a ≤ roundToMultiple a k s + c) ∧
    (c ≤ a → c ≤ roundToMultiple a k s ∧ roundToMultiple a k s + c ≤ 2 * a) := by
  have hp : 0 < 2 ^ k := Nat.two_pow_pos k
  have ea := Nat.div_add_mod a (2 ^ k)
  have ra := Nat.mod_lt a hp
  rw [Nat.mul_comm] at ea
  constructor
  · intro h
    refine ⟨roundToMultiple_le_of_dvd a k c s hc h, ?_⟩
    by_cases hr : a % 2 ^ k = 0
    · rw [roundToMultiple_exact a k s hr]
      omega
    · obtain ⟨m, rfl⟩ := hc
      have h1 : a / 2 ^ k < m := by
        rw [Nat.div_lt_iff_lt_mul hp, Nat.mul_comm]
        rcases Nat.lt_or_ge a (2 ^ k * m) with h2 | h2
        · exact h2
        · have : a = 2 ^ k * m := le_antisymm h h2
          rw [this, Nat.mul_mod_right] at hr
          exact absurd rfl hr
      have h3 : (a / 2 ^ k + 1) * 2 ^ k ≤ 2 ^ k * m := by
        rw [Nat.mul_comm (2 ^ k) m]
        exact Nat.mul_le_mul_right _ h1
      rw [Nat.add_mul, Nat.one_mul] at h3
      unfold roundToMultiple
      dsimp only
      split_ifs with c1
      · rw [Nat.add_mul, Nat.one_mul]
        omega
      · have c2 : ¬ 2 ^ k < 2 * (a % 2 ^ k) := fun hc => c1 (Or.inl hc)
        omega
  · intro h
    refine ⟨le_roundToMultiple_of_dvd a k c s hc h, ?_⟩
    obtain ⟨m, rfl⟩ := hc
    have h1 : m ≤ a / 2 ^ k := by
      rw [Nat.le_div_iff_mul_le hp, Nat.mul_comm]
      exact h
    have h3 : 2 ^ k * m ≤ a / 2 ^ k * 2 ^ k := by
      rw [Nat.mul_comm (2 ^ k) m]
      exact Nat.mul_le_mul_right _ h1
    unfold roundToMultiple
    dsimp only
    split_ifs with c1
    · rw [Nat.add_mul, Nat.one_mul]
      rcases c1 with c1 | ⟨c1, -⟩ <;> omega
    · omega

/-- On binary32 the rounding of a number `p` is at least as near to `p` as
any multiple `c` of `2 ^ k`, when `p` is below `2 ^ (k + 24)` in magnitude. -/
theorem ofInt_nearest (p c n : Int) (k : Nat) (h : Binary32.ofInt 0 p = Binary32.fin n)
    (hk : p.natAbs < 2 ^ (k + 24)) (hc : (2 : Int) ^ k ∣ c) :
    (p ≤ c → n ≤ c ∧ 2 * p ≤ n + c) ∧ (c ≤ p → c ≤ n ∧ n + c ≤ 2 * p) := by
  have hkk : bitLength p.natAbs - 24 ≤ k := by
    have := (bitLength_le_iff p.natAbs (k + 24)).2 hk
    omega
  have hr := roundMagnitude_eq 0 p.natAbs false
  rw [pow_zero, Nat.mul_one, Nat.zero_max] at hr
  have hcn : 2 ^ (bitLength p.natAbs - 24) ∣ c.natAbs := by
    have h1 : (2 : Int) ^ (bitLength p.natAbs - 24) ∣ c := dvd_trans (pow_dvd_pow 2 hkk) hc
    have := Int.natAbs_dvd_natAbs.2 h1
    simpa [Int.natAbs_pow] using this
  obtain ⟨n1, n2⟩ := roundToMultiple_nearest p.natAbs (bitLength p.natAbs - 24) c.natAbs false hcn
  rw [← hr] at n1 n2
  have z1 := (roundToMultiple_nearest p.natAbs (bitLength p.natAbs - 24) 0 false
    (dvd_zero _)).2 (Nat.zero_le _)
  rw [← hr] at z1
  rcases lt_or_le p 0 with hp | hp
  · rw [ofInt_of_neg 0 p hp] at h
    split_ifs at h
    simp only [Binary32.fin.injEq] at h
    constructor
    · intro hpc
      rcases lt_or_le c 0 with hc0 | hc0
      · have := n2 (by omega)
        omega
      · omega
    · intro hcp
      have := n1 (by omega)
      omega
  · rw [ofInt_of_nonneg 0 p hp] at h
    split_ifs at h
    simp only [Binary32.fin.injEq] at h
    constructor
    · intro hpc
      have := n1 (by omega)
      omega
    · intro hcp
      rcases lt_or_le c 0 with hc0 | hc0
      · omega
      · have := n2 (by omega)
        omega

/-- A value of the format of magnitude at least `2 ^ (k + 23)` is a multiple
of `2 ^ k`. -/
theorem rep_dvd (x : Int) (k : Nat) (hr : x.natAbs % 2 ^ (bitLength x.natAbs - 24) = 0)
    (h : 2 ^ (k + 23) ≤ x.natAbs) : (2 : Int) ^ k ∣ x := by
  have hb : k + 23 < bitLength x.natAbs := by
    by_contra hc
    have := (bitLength_le_iff x.natAbs (k + 23)).1 (by omega)
    omega
  have h1 : 2 ^ k ∣ x.natAbs :=
    dvd_trans (pow_dvd_pow 2 (by omega)) (Nat.dvd_of_mod_eq_zero hr)
  have h2 : ((2 ^ k : Nat) : Int) ∣ x := Int.natCast_dvd.2 h1
  simpa using h2

/-- A tie is rounded to the even multiple. -/
theorem roundToMultiple_tie (a k : Nat) (ht : 2 * (a % 2 ^ k) = 2 ^ k) :
    2 ^ (k + 1) ∣ roundToMultiple a k false := by
  unfold roundToMultiple
  dsimp only
  rw [pow_succ]
  by_cases hq : (a / 2 ^ k) % 2 = 1
  · rw [if_pos (Or.inr ⟨ht, Or.inr hq⟩)]
    have : 2 ∣ a / 2 ^ k + 1 := by omega
    obtain ⟨j, hj⟩ := this
    rw [hj]
    exact ⟨j, by ring⟩
  · rw [if_neg]
    · have : 2 ∣ a / 2 ^ k := by omega
      obtain ⟨j, hj⟩ := this
      rw [hj]
      exact ⟨j, by ring⟩
    · rintro (c | ⟨-, c | c⟩)
      · omega
      · exact absurd c (by decide)
      · exact hq c

/-- On binary32 a number half-way between two neighbouring values of the
format is rounded to the one that is an even multiple of the spacing. -/
theorem ofInt_tie (p n : Int) (k : Nat) (h : Binary32.ofInt 0 p = Binary32.fin n)
    (hk : bitLength p.natAbs - 24 = k) (ht : 2 * (p.natAbs % 2 ^ k) = 2 ^ k) :
    (2 : Int) ^ (k + 1) ∣ n := by
  have hr := roundMagnitude_eq 0 p.natAbs false
  rw [pow_zero, Nat.mul_one, Nat.zero_max, hk] at hr
  have hd := roundToMultiple_tie p.natAbs k ht
  rw [← hr] at hd
  have hd2 : ((2 ^ (k + 1) : Nat) : Int) ∣ ((roundMagnitude 0 p.natAbs false : Nat) : Int) :=
    Int.natCast_dvd_natCast.2 hd
  rw [Nat.cast_pow] at hd2
  rcases lt_or_le p 0 with hp | hp
  · rw [ofInt_of_neg 0 p hp] at h
    split_ifs at h
    simp only [Binary32.fin.injEq] at h
    rw [← h]
    exact (dvd_neg).2 hd2
  · rw [ofInt_of_nonneg 0 p hp] at h
    split_ifs at h
    simp only [Binary32.fin.injEq] at h
    rw [← h]
    exact hd2

/-- One step of the first loop from a value of the format in
(2^27 + 352, 2^31]: `x - 360` is rounded to a multiple of 32, which is
`x - 352` or `x - 368` when `x - 360` is below 2^29 and `x - 384` otherwise. -/
theorem sub_360_round (x : Int) (hr : x.natAbs % 2 ^ (bitLength x.natAbs - 24) = 0)
    (h1 : 2 ^ 176 + 352 * 2 ^ 149 < x) (h2 : x ≤ 2 ^ 180) :
    ∃ n : Int, Binary32.ofInt 0 (x - 360 * 2 ^ 149) = .fin n ∧ (2 : Int) ^ 154 ∣ n ∧
      ((x - 360 * 2 ^ 149 < 2 ^ 178 ∧ x - 368 * 2 ^ 149 ≤ n ∧ n ≤ x - 352 * 2 ^ 149) ∨
        (2 ^ 178 ≤ x - 360 * 2 ^ 149 ∧ n = x - 384 * 2 ^ 149)) := by
  obtain ⟨n, e, -, -⟩ := ofInt_near (x - 360 * 2 ^ 149) 182 (by norm_num) (by norm_num)
    (by omega)
  have hrn := ofInt_rep _ _ e
  have d16 : (2 : Int) ^ 153 ∣ x := rep_dvd x 153 hr (by omega)
  obtain ⟨c, hc⟩ := d16
  refine ⟨n, e, ?_⟩
  rcases lt_or_le (x - 360 * 2 ^ 149) (2 ^ 177) with b1 | b1
  · -- spacing 16: a tie
    have hk : bitLength (x - 360 * 2 ^ 149).natAbs - 24 = 153 := by
      have i1 := (bitLength_le_iff (x - 360 * 2 ^ 149).natAbs 177).2 (by omega)
      have i2 : ¬ bitLength (x - 360 * 2 ^ 149).natAbs ≤ 176 := fun hc =>
        absurd ((bitLength_le_iff _ 176).1 hc) (by omega)
      omega
    have ht : 2 * ((x - 360 * 2 ^ 149).natAbs % 2 ^ 153) = 2 ^ 153 := by omega
    have d32 := ofInt_tie _ n 153 e hk ht
    have n1 := (ofInt_nearest (x - 360 * 2 ^ 149) (x - 352 * 2 ^ 149) n 153 e (by omega)
      ⟨c - 22, by omega⟩).1 (by omega)
    have n2 := (ofInt_nearest (x - 360 * 2 ^ 149) (x - 368 * 2 ^ 149) n 153 e (by omega)
      ⟨c - 23, by omega⟩).2 (by omega)
    exact ⟨d32, Or.inl ⟨by omega, by omega, by omega⟩⟩
  · rcases lt_or_le (x - 360 * 2 ^ 149) (2 ^ 178) with b2 | b2
    · -- spacing 32
      have d32 : (2 : Int) ^ 154 ∣ x := rep_dvd x 154 hr (by omega)
      obtain ⟨c2, hc2⟩ := d32
      have n0 := (ofInt_nearest (x - 360 * 2 ^ 149) (2 ^ 177) n 154 e (by omega)
        ⟨2 ^ 23, by norm_num⟩).2 (by omega)
      have n1 := (ofInt_nearest (x - 360 * 2 ^ 149) (x - 352 * 2 ^ 149) n 154 e (by omega)
        ⟨c2 - 11, by omega⟩).1 (by omega)
      have dn : (2 : Int) ^ 154 ∣ n := rep_dvd n 154 hrn (by omega)
      exact ⟨dn, Or.inl ⟨by omega, by omega, by omega⟩⟩
    · rcases lt_or_le (x - 360 * 2 ^ 149) (2 ^ 179) with b3 | b3
      · -- spacing 64
        have d64 : (2 : Int) ^ 155 ∣ x := rep_dvd x 155 hr (by omega)
        obtain ⟨c2, hc2⟩ := d64
        have n1 := (ofInt_nearest (x - 360 * 2 ^ 149) (x - 384 * 2 ^ 149) n 155 e (by omega)
          ⟨c2 - 6, by omega⟩).2 (by omega)
        have dn : (2 : Int) ^ 155 ∣ n := rep_dvd n 155 hrn (by omega)
        obtain ⟨c3, hc3⟩ := dn
        exact ⟨⟨2 * c3, by omega⟩, Or.inr ⟨by omega, by omega⟩⟩
      · -- spacing 128
        have d128 : (2 : Int) ^ 156 ∣ x := rep_dvd x 156 hr (by omega)
        obtain ⟨c2, hc2⟩ := d128
        have n1 := (ofInt_nearest (x - 360 * 2 ^ 149) (x - 384 * 2 ^ 149) n 156 e (by omega)
          ⟨c2 - 3, by omega⟩).2 (by omega)
        have dn : (2 : Int) ^ 156 ∣ n := rep_dvd n 156 hrn (by omega)
        obtain ⟨c3, hc3⟩ := dn
        exact ⟨⟨4 * c3, by omega⟩, Or.inr ⟨by omega, by omega⟩⟩

/-- Two values of the format `a < b` in (180, 2^31], not both above
2^27 + 352 and less than 32 apart: the loop step keeps their order strictly,
and the two values it gives are again not both above 2^27 + 352 and less than
32 apart. -/
theorem sub_360_strict (a b n : Int) (ra : a.natAbs % 2 ^ (bitLength a.natAbs - 24) = 0)
    (rb : b.natAbs % 2 ^ (bitLength b.natAbs - 24) = 0) (hab : a < b) (hb : b ≤ 2 ^ 180)
    (ha : 180 * 2 ^ 149 < a) (hg : a + 2 ^ 154 ≤ b ∨ a ≤ 2 ^ 176 + 352 * 2 ^ 149)
    (eb : Binary32.ofInt 0 (b - 360 * 2 ^ 149) = .fin n) :
    ∃ m : Int, Binary32.ofInt 0 (a - 360 * 2 ^ 149) = .fin m ∧ m < n ∧
      (m + 2 ^ 154 ≤ n ∨ m ≤ 2 ^ 176 + 352 * 2 ^ 149) := by
  rcases le_or_lt a (2 ^ 176 + 352 * 2 ^ 149) with ca | ca
  · refine ⟨a - 360 * 2 ^ 149, sub_360_exact a ra ha ca, ?_, Or.inr (by omega)⟩
    rcases le_or_lt b (2 ^ 176 + 352 * 2 ^ 149) with cb | cb
    · rw [sub_360_exact b rb (by omega) cb] at eb
      simp only [Binary32.fin.injEq] at eb
      omega
    · obtain ⟨c, hc⟩ := rep_dvd b 153 rb (by omega)
      have := (ofInt_nearest (b - 360 * 2 ^ 149) (2 ^ 176) n 157 eb (by omega)
        ⟨2 ^ 19, by norm_num⟩).2 (by omega)
      omega
  · have hg1 : a + 2 ^ 154 ≤ b := by omega
    obtain ⟨m, em, dm, hm⟩ := sub_360_round a ra ca (by omega)
    obtain ⟨n1, en, dn, hn⟩ := sub_360_round b rb (by omega) hb
    rw [eb] at en
    simp only [Binary32.fin.injEq] at en
    rw [← en] at dn hn
    obtain ⟨c1, hc1⟩ := rep_dvd a 153 ra (by omega)
    obtain ⟨c2, hc2⟩ := rep_dvd b 153 rb (by omega)
    obtain ⟨c3, hc3⟩ := dm
    obtain ⟨c4, hc4⟩ := dn
    have hlt : m < n := by
      rcases hn with ⟨n1, n2, n3⟩ | ⟨n1, n2⟩
      · rcases hm with ⟨m1, m2, m3⟩ | ⟨m1, m2⟩
        · omega
        · omega
      · rcases hm with ⟨m1, m2, m3⟩ | ⟨m1, m2⟩
        · rcases lt_or_le a (2 ^ 178) with c | c
          · omega
          · obtain ⟨c5, hc5⟩ := rep_dvd a 155 ra (by omega)
            obtain ⟨c6, hc6⟩ := rep_dvd b 155 rb (by omega)
            omega
        · omega
    exact ⟨m, em, hlt, Or.inl (by omega)⟩

/-- The first loop leaves different values from two values of the format
`a < b`, at most 2^31, that are not both above 2^27 + 352 and less than 32
apart, when one step from `b` leads below `a` in the same way. -/
theorem wrapAbove_distinct (n : Nat) : ∀ (a b : Int) (f1 f2 : Nat) (u v : Binary32),
    f1 + f2 ≤ n → a.natAbs % 2 ^ (bitLength a.natAbs - 24) = 0 →
    b.natAbs % 2 ^ (bitLength b.natAbs - 24) = 0 → a < b → b ≤ 2 ^ 180 →
    (a + 2 ^ 154 ≤ b ∨ a ≤ 2 ^ 176 + 352 * 2 ^ 149) →
    (180 * 2 ^ 149 < b → ∃ m : Int, Binary32.ofInt 0 (b - 360 * 2 ^ 149) = .fin m ∧ m < a ∧
      (m + 2 ^ 154 ≤ a ∨ m ≤ 2 ^ 176 + 352 * 2 ^ 149)) →
    wrapAbove f1 (Binary32.fin a) = some u → wrapAbove f2 (Binary32.fin b) = some v →
    u ≠ v := by
  induction n with
  | zero =>
    intro a b f1 f2 u v hf _ _ _ _ _ _ hu _
    have : f1 = 0 := by omega
    rw [this] at hu
    exact absurd hu (by simp [wrapAbove])
  | succ n ih =>
    intro a b f1 f2 u v hf ra rb hab hb hg hstep hu hv
    cases f1 with
    | zero => exact absurd hu (by simp [wrapAbove])
    | succ j =>
      cases f2 with
      | zero => exact absurd hv (by simp [wrapAbove])
      | succ k =>
        by_cases hb180 : 180 * 2 ^ 149 < b
        · obtain ⟨m, em, hma, hmg⟩ := hstep hb180
          rw [wrapAbove_fin, if_pos hb180, em] at hv
          have key := ih m a k (j + 1) v u (by omega) (ofInt_rep _ _ em) ra hma (by omega) hmg
            (fun ha180 => sub_360_strict a b m ra rb hab hb ha180 hg em) hv hu
          exact fun h => key h.symm
        · rw [wrapAbove_fin, if_neg hb180] at hv
          rw [wrapAbove_fin, if_neg (by omega)] at hu
          simp only [Option.some.injEq] at hu hv
          rw [← hu, ← hv]
          intro h
          simp only [Binary32.fin.injEq] at h
          omega

/-- The second loop on `x` is the first loop on `-x`, negated. -/
theorem wrapBelow_neg (fuel : Nat) : ∀ x : Int, -(2 ^ 182) ≤ x → x ≤ 2 ^ 182 →
    wrapBelow fuel (Binary32.fin x) =
      (wrapAbove fuel (Binary32.fin (-x))).map (fun t => -t) := by
  induction fuel with
  | zero => intro x _ _; rfl
  | succ k ih =>
    intro x h1 h2
    rw [wrapBelow_fin, wrapAbove_fin]
    by_cases c : x < -(180 * 2 ^ 149)
    · obtain ⟨y, e, b1, b2, -⟩ := wrapBelow_step x c h1
      have e2 : Binary32.ofInt 0 (-x - 360 * 2 ^ 149) = Binary32.fin (-y) := by
        have : -x - 360 * 2 ^ 149 = -(x + 360 * 2 ^ 149) := by ring
        rw [this, ofInt_neg_arg, e, neg_fin]
      rw [if_pos c, if_pos (by omega), e, e2]
      exact ih y (by omega) (by omega)
    · rw [if_neg c, if_neg (by omega)]
      simp only [Option.map_some', neg_fin, neg_neg]

/-- From a value of at least -180 the two loops leave what the first leaves. -/
theorem normalizeAngle_of_nonneg (fuel : Nat) (a : Int) (u : Binary32)
    (h0 : -(180 * 2 ^ 149) ≤ a) (h2 : a ≤ 2 ^ 182)
    (h : normalizeAngle fuel (Binary32.fin a) = some u) :
    wrapAbove fuel (Binary32.fin a) = some u := by
  unfold normalizeAngle at h
  cases hw : wrapAbove fuel (Binary32.fin a) with
  | none => rw [hw] at h; exact absurd h (by simp)
  | some x1 =>
    rw [hw] at h
    dsimp only at h
    obtain ⟨t, e, -, t2, -, -⟩ := wrapAbove_binary32 (fun _ => True) (fun _ _ _ _ _ _ => trivial)
      a.toNat a trivial (by
        have : a ≤ (a.toNat : Int) := Int.self_le_toNat a
        have : (0 : Int) ≤ (a.toNat : Int) := Int.ofNat_nonneg _
        nlinarith) h2
    have e1 := wrapAbove_fuel_mono fuel (max fuel (a.toNat + 1)) _ _ (le_max_left _ _) hw
    have e3 := wrapAbove_fuel_mono (a.toNat + 1) (max fuel (a.toNat + 1)) _ _ (le_max_right _ _) e
    rw [e1] at e3
    simp only [Option.some.injEq] at e3
    rw [e3] at h ⊢
    cases fuel with
    | zero => exact absurd h (by simp [wrapBelow])
    | succ k =>
      rw [wrapBelow_fin, if_neg (by omega)] at h
      exact h

/-- From a value of at most 180 the two loops leave what the second leaves. -/
theorem normalizeAngle_of_nonpos (fuel : Nat) (a : Int) (h0 : a ≤ 180 * 2 ^ 149) :
    normalizeAngle fuel (Binary32.fin a) = wrapBelow fuel (Binary32.fin a) := by
  unfold normalizeAngle
  cases fuel with
  | zero => rfl
  | succ k => rw [wrapAbove_fin, if_neg (by omega)]

/-- Rounding a number in [2^29, 2^32): the value is a multiple of 64, of 128
from 2^30 on and of 256 from 2^31 on, and it is a nearest multiple of 256, of
128 below 2^31 and of 64 below 2^30. -/
theorem round_facts (v n : Int) (e : Binary32.ofInt 0 v = .fin n) (h0 : 2 ^ 178 ≤ v)
    (h1 : v < 2 ^ 181) :
    2 ^ 178 ≤ n ∧ n ≤ 2 ^ 181 ∧ n % 2 ^ 155 = 0 ∧ (2 ^ 179 ≤ n → n % 2 ^ 156 = 0) ∧
    (2 ^ 180 ≤ n → n % 2 ^ 157 = 0) ∧
    (v < 2 ^ 179 → 2 ^ 155 * (v / 2 ^ 155) ≤ n ∧ n ≤ 2 ^ 155 * (v / 2 ^ 155) + 2 ^ 155 ∧
      n + 2 ^ 155 * (v / 2 ^ 155) ≤ 2 * v ∧ 2 * v ≤ n + 2 ^ 155 * (v / 2 ^ 155) + 2 ^ 155) ∧
    (v < 2 ^ 180 → 2 ^ 156 * (v / 2 ^ 156) ≤ n ∧ n ≤ 2 ^ 156 * (v / 2 ^ 156) + 2 ^ 156 ∧
      n + 2 ^ 156 * (v / 2 ^ 156) ≤ 2 * v ∧ 2 * v ≤ n + 2 ^ 156 * (v / 2 ^ 156) + 2 ^ 156) ∧
    (2 ^ 157 * (v / 2 ^ 157) ≤ n ∧ n ≤ 2 ^ 157 * (v / 2 ^ 157) + 2 ^ 157 ∧
      n + 2 ^ 157 * (v / 2 ^ 157) ≤ 2 * v ∧ 2 * v ≤ n + 2 ^ 157 * (v / 2 ^ 157) + 2 ^ 157) := by
  have hrn := ofInt_rep _ _ e
  have b0 := (ofInt_nearest v (2 ^ 178) n 157 e (by omega) ⟨2 ^ 21, by norm_num⟩).2 h0
  have b1 := (ofInt_nearest v (2 ^ 181) n 157 e (by omega) ⟨2 ^ 24, by norm_num⟩).1 (by omega)
  have near : ∀ k : Nat, v.natAbs < 2 ^ (k + 24) →
      (2 : Int) ^ k * (v / 2 ^ k) ≤ n ∧ n ≤ 2 ^ k * (v / 2 ^ k) + 2 ^ k ∧
      n + 2 ^ k * (v / 2 ^ k) ≤ 2 * v ∧ 2 * v ≤ n + 2 ^ k * (v / 2 ^ k) + 2 ^ k := by
    intro k hk
    have hp : (0 : Int) < 2 ^ k := by positivity
    have e1 := Int.emod_add_ediv v (2 ^ k)
    have e2 := Int.emod_nonneg v (ne_of_gt hp)
    have e3 := Int.emod_lt_of_pos v hp
    have l1 := (ofInt_nearest v (2 ^ k * (v / 2 ^ k)) n k e hk (Dvd.intro _ rfl)).2 (by omega)
    have l2 := (ofInt_nearest v (2 ^ k * (v / 2 ^ k) + 2 ^ k) n k e hk
      (Dvd.intro (v / 2 ^ k + 1) (by ring))).1 (by omega)
    exact ⟨l1.1, l2.1, l1.2, by omega⟩
  refine ⟨b0.1, b1.1, ?_, ?_, ?_, fun c => near 155 (by omega), fun c => near 156 (by omega),
    near 157 (by omega)⟩
  · exact Int.emod_eq_zero_of_dvd (rep_dvd n 155 hrn (by omega))
  · intro c
    exact Int.emod_eq_zero_of_dvd (rep_dvd n 156 hrn (by omega))
  · intro c
    exact Int.emod_eq_zero_of_dvd (rep_dvd n 157 hrn (by omega))

/-- The value of a rounding in [2^29, 2^32) is a multiple of 64, and of 128
from 2^30 on. -/
theorem round_dvd (v n : Int) (e : Binary32.ofInt 0 v = .fin n) (h0 : 2 ^ 178 ≤ v)
    (h1 : v < 2 ^ 181) :
    2 ^ 178 ≤ n ∧ n % 2 ^ 155 = 0 ∧ (2 ^ 179 ≤ n → n % 2 ^ 156 = 0) := by
  obtain ⟨a1, -, a3, a4, -⟩ := round_facts _ _ e h0 h1
  exact ⟨a1, a3, a4⟩

set_option maxRecDepth 100000 in
/-- The float sum `b + 90` for a value `b` of the format near 2^30 or above,
at most 2^31. -/
theorem round_step_90 (b n : Int)
    (hb0 : 2 ^ 178 + 512 * 2 ^ 149 ≤ b) (hb1 : b ≤ 2 ^ 180) (d64 : b % 2 ^ 155 = 0)
    (d128 : 2 ^ 179 ≤ b → b % 2 ^ 156 = 0)
    (e : Binary32.ofInt 0 (b + 90 * 2 ^ 149) = .fin n) :
    (n = b + 128 * 2 ^ 149 ∧ 2 ^ 179 ≤ b ∧ b < 2 ^ 180) ∨ (n = b + 64 * 2 ^ 149 ∧ b < 2 ^ 179) ∨
      (n = b ∧ b = 2 ^ 180) := by
  obtain ⟨a1, a2, a3, a4, a5, a6, a7, a8⟩ := round_facts _ _ e (by omega) (by omega)
  omega

set_option maxRecDepth 100000 in
/-- The float sum `b - 90` for such a value. -/
theorem round_step_neg_90 (b n : Int)
    (hb0 : 2 ^ 178 + 512 * 2 ^ 149 ≤ b) (hb1 : b ≤ 2 ^ 180) (d64 : b % 2 ^ 155 = 0)
    (d128 : 2 ^ 179 ≤ b → b % 2 ^ 156 = 0)
    (e : Binary32.ofInt 0 (b + -(90 * 2 ^ 149)) = .fin n) :
    (n = b - 128 * 2 ^ 149 ∧ 2 ^ 179 < b) ∨ (n = b - 64 * 2 ^ 149 ∧ b ≤ 2 ^ 179) := by
  obtain ⟨a1, a2, a3, a4, a5, a6, a7, a8⟩ := round_facts _ _ e (by omega) (by omega)
  omega

set_option maxRecDepth 100000 in
/-- The float sum `b + 270` for such a value. -/
theorem round_step_270 (b n : Int)
    (hb0 : 2 ^ 178 + 512 * 2 ^ 149 ≤ b) (hb1 : b ≤ 2 ^ 180) (d64 : b % 2 ^ 155 = 0)
    (d128 : 2 ^ 179 ≤ b → b % 2 ^ 156 = 0)
    (e : Binary32.ofInt 0 (b + 270 * 2 ^ 149) = .fin n) :
    n = b + 256 * 2 ^ 149 ∨ (n = b + 320 * 2 ^ 149 ∧ b < 2 ^ 179) ∨
      (n = b + 384 * 2 ^ 149 ∧ b = 2 ^ 180 - 128 * 2 ^ 149) := by
  obtain ⟨a1, a2, a3, a4, a5, a6, a7, a8⟩ := round_facts _ _ e (by omega) (by omega)
  omega

set_option maxRecDepth 100000 in
/-- The float sum `b - 270` for such a value. -/
theorem round_step_neg_270 (b n : Int)
    (hb0 : 2 ^ 178 + 512 * 2 ^ 149 ≤ b) (hb1 : b ≤ 2 ^ 180) (d64 : b % 2 ^ 155 = 0)
    (d128 : 2 ^ 179 ≤ b → b % 2 ^ 156 = 0)
    (e : Binary32.ofInt 0 (b + -(270 * 2 ^ 149)) = .fin n) :
    n = b - 256 * 2 ^ 149 := by
  obtain ⟨a1, a2, a3, a4, a5, a6, a7, a8⟩ := round_facts _ _ e (by omega) (by omega)
  omega

/-- A rounding of a number below 2^30 in magnitude is at most 32 off. -/
theorem ofInt_near_30 (p n : Int) (e : Binary32.ofInt 0 p = .fin n) (h : p.natAbs < 2 ^ 179) :
    n ≤ p + 2 ^ 154 ∧ p ≤ n + 2 ^ 154 := by
  obtain ⟨n1, e1, b1, b2⟩ := ofInt_near p 179 (by norm_num) (by norm_num) h
  rw [e] at e1
  simp only [Binary32.fin.injEq] at e1
  rw [← e1] at b1 b2
  constructor <;> omega

set_option maxRecDepth 100000 in
/-- The two float sums `(z + s1) + t1` and `(z + s2) + t2` that a D request and
an A request normalise, for a value `z` of the format in (2^27, 2^31) and the
four pairs of offsets that occur: the second is above the first, by at least
32 and by at most 320, or by at most 352 when it is 2^29 + 360 or more. -/
theorem facing_gap (z m1 p1 m2 p2 s1 t1 s2 t2 : Int)
    (rz : z.natAbs % 2 ^ (bitLength z.natAbs - 24) = 0)
    (h1 : 2 ^ 176 < z) (h2 : z < 2 ^ 180)
    (e1 : Binary32.ofInt 0 (z + s1) = .fin m1) (e2 : Binary32.ofInt 0 (m1 + t1) = .fin p1)
    (e3 : Binary32.ofInt 0 (z + s2) = .fin m2) (e4 : Binary32.ofInt 0 (m2 + t2) = .fin p2)
    (hc : (s1 = -(90 * 2 ^ 149) ∧ t1 = 90 * 2 ^ 149 ∧ s2 = 90 * 2 ^ 149 ∧ t2 = 90 * 2 ^ 149) ∨
      (s1 = 90 * 2 ^ 149 ∧ t1 = -(270 * 2 ^ 149) ∧ s2 = -(90 * 2 ^ 149) ∧ t2 = 90 * 2 ^ 149) ∨
      (s1 = -(90 * 2 ^ 149) ∧ t1 = -(90 * 2 ^ 149) ∧ s2 = 90 * 2 ^ 149 ∧
        t2 = -(90 * 2 ^ 149)) ∨
      (s1 = 90 * 2 ^ 149 ∧ t1 = -(90 * 2 ^ 149) ∧ s2 = -(90 * 2 ^ 149) ∧
        t2 = 270 * 2 ^ 149)) :
    2 ^ 175 ≤ p1 ∧ p1 + 2 ^ 154 ≤ p2 ∧ p2 ≤ 2 ^ 180 ∧
      (p2 ≤ p1 + 320 * 2 ^ 149 ∨ (2 ^ 178 + 360 * 2 ^ 149 ≤ p2 ∧ p2 ≤ p1 + 352 * 2 ^ 149)) := by
  rcases le_or_lt z (2 ^ 179 - 512 * 2 ^ 149) with hz | hz
  · have hs : -(270 * 2 ^ 149) ≤ s1 ∧ s1 ≤ 270 * 2 ^ 149 ∧ -(270 * 2 ^ 149) ≤ t1 ∧
        t1 ≤ 270 * 2 ^ 149 ∧ -(270 * 2 ^ 149) ≤ s2 ∧ s2 ≤ 270 * 2 ^ 149 ∧
        -(270 * 2 ^ 149) ≤ t2 ∧ t2 ≤ 270 * 2 ^ 149 ∧
        s2 + t2 = s1 + t1 + 180 * 2 ^ 149 := by omega
    obtain ⟨i1, i2, i3, i4, i5, i6, i7, i8, i9⟩ := hs
    obtain ⟨a1, a2⟩ := ofInt_near_30 _ _ e1 (by omega)
    obtain ⟨b1, b2⟩ := ofInt_near_30 _ _ e2 (by omega)
    obtain ⟨c1, c2⟩ := ofInt_near_30 _ _ e3 (by omega)
    obtain ⟨d1, d2⟩ := ofInt_near_30 _ _ e4 (by omega)
    refine ⟨by omega, by omega, by omega, Or.inl (by omega)⟩
  · have z1 := Int.emod_eq_zero_of_dvd (rep_dvd z 155 rz (by omega))
    have z2 : 2 ^ 179 ≤ z → z % 2 ^ 156 = 0 := fun c =>
      Int.emod_eq_zero_of_dvd (rep_dvd z 156 rz (by omega))
    rcases hc with ⟨c1, c2, c3, c4⟩ | ⟨c1, c2, c3, c4⟩ | ⟨c1, c2, c3, c4⟩ | ⟨c1, c2, c3, c4⟩
    · rw [c1] at e1
      rw [c2] at e2
      rw [c3] at e3
      rw [c4] at e4
      have s1 := round_step_neg_90 z m1 (by omega) (by omega) z1 z2 e1
      obtain ⟨u1, u2, u3⟩ := round_dvd _ _ e1 (by omega) (by omega)
      have s2 := round_step_90 m1 p1 (by omega) (by omega) u2 u3 e2
      have s3 := round_step_90 z m2 (by omega) (by omega) z1 z2 e3
      obtain ⟨v1, v2, v3⟩ := round_dvd _ _ e3 (by omega) (by omega)
      have s4 := round_step_90 m2 p2 (by omega) (by omega) v2 v3 e4
      omega
    · rw [c1] at e1
      rw [c2] at e2
      rw [c3] at e3
      rw [c4] at e4
      have s1 := round_step_90 z m1 (by omega) (by omega) z1 z2 e1
      obtain ⟨u1, u2, u3⟩ := round_dvd _ _ e1 (by omega) (by omega)
      have s2 := round_step_neg_270 m1 p1 (by omega) (by omega) u2 u3 e2
      have s3 := round_step_neg_90 z m2 (by omega) (by omega) z1 z2 e3
      obtain ⟨v1, v2, v3⟩ := round_dvd _ _ e3 (by omega) (by omega)
      have s4 := round_step_90 m2 p2 (by omega) (by omega) v2 v3 e4
      omega
    · rw [c1] at e1
      rw [c2] at e2
      rw [c3] at e3
      rw [c4] at e4
      have s1 := round_step_neg_90 z m1 (by omega) (by omega) z1 z2 e1
      obtain ⟨u1, u2, u3⟩ := round_dvd _ _ e1 (by omega) (by omega)
      have s2 := round_step_neg_90 m1 p1 (by omega) (by omega) u2 u3 e2
      have s3 := round_step_90 z m2 (by omega) (by omega) z1 z2 e3
      obtain ⟨v1, v2, v3⟩ := round_dvd _ _ e3 (by omega) (by omega)
      have s4 := round_step_neg_90 m2 p2 (by omega) (by omega) v2 v3 e4
      omega
    · rw [c1] at e1
      rw [c2] at e2
      rw [c3] at e3
      rw [c4] at e4
      have s1 := round_step_90 z m1 (by omega) (by omega) z1 z2 e1
      obtain ⟨u1, u2, u3⟩ := round_dvd _ _ e1 (by omega) (by omega)
      have s2 := round_step_neg_90 m1 p1 (by omega) (by omega) u2 u3 e2
      have s3 := round_step_neg_90 z m2 (by omega) (by omega) z1 z2 e3
      obtain ⟨v1, v2, v3⟩ := round_dvd _ _ e3 (by omega) (by omega)
      have s4 := round_step_270 m2 p2 (by omega) (by omega) v2 v3 e4
      omega

/-- Two values of the format whose distance is as in `facing_gap` are taken
to different values by the first loop. -/
theorem wrapAbove_of_gap (a b : Int) (ra : a.natAbs % 2 ^ (bitLength a.natAbs - 24) = 0)
    (rb : b.natAbs % 2 ^ (bitLength b.natAbs - 24) = 0)
    (hab : a + 2 ^ 154 ≤ b) (hb : b ≤ 2 ^ 180)
    (hg : b ≤ a + 320 * 2 ^ 149 ∨ (2 ^ 178 + 360 * 2 ^ 149 ≤ b ∧ b ≤ a + 352 * 2 ^ 149))
    (f1 f2 : Nat) (u v : Binary32) (hu : wrapAbove f1 (Binary32.fin a) = some u)
    (hv : wrapAbove f2 (Binary32.fin b) = some v) : u ≠ v := by
  refine wrapAbove_distinct (f1 + f2) a b f1 f2 u v (le_refl _) ra rb (by omega) hb
    (Or.inl hab) (fun _ => ?_) hu hv
  rcases le_or_lt b (2 ^ 176 + 352 * 2 ^ 149) with cb | cb
  · exact ⟨b - 360 * 2 ^ 149, sub_360_exact b rb (by omega) cb, by omega, Or.inr (by omega)⟩
  · obtain ⟨n, en, -, hn⟩ := sub_360_round b rb cb hb
    refine ⟨n, en, ?_, Or.inl ?_⟩ <;> omega

theorem binary32_neg_inj (a b : Binary32) (h : -a = -b) : a = b := by
  have h1 : Binary32.neg a = Binary32.neg b := h
  cases a <;> cases b <;> simp only [Binary32.neg, Binary32.fin.injEq, Binary32.inf.injEq,
    reduceCtorEq] at h1 ⊢
  · omega
  · rename_i s t
    cases s <;> cases t <;> simp_all

/-- The rounding of `-p` is the rounding of `p`, negated. -/
theorem ofInt_neg_eq (p q n : Int) (e : Binary32.ofInt 0 p = .fin n) (hq : q = -p) :
    Binary32.ofInt 0 q = .fin (-n) := by
  rw [hq, ofInt_neg_arg, e, neg_fin]

/-- The facing angle when the float sum `p` of yaw, movement angle and rotation
offset is not within 1 of -270: the normalised `p`. -/
theorem newPlayerRotation_far (fuel : Nat) (y a m o p : Int) (u : Binary32)
    (em : Binary32.fin y + Binary32.fin a = .fin m)
    (ep : Binary32.fin m + Binary32.fin o = .fin p)
    (ho : rotationOffset fuel (Binary32.fin a) (Binary32.fin m) = some (Binary32.fin o))
    (hfar : 2 ^ 149 ≤ p + 270 * 2 ^ 149 ∨ 2 ^ 149 ≤ -(270 * 2 ^ 149) - p)
    (h : newPlayerRotation fuel (Binary32.fin y) (Binary32.fin a) = some u) :
    normalizeAngle fuel (Binary32.fin p) = some u := by
  unfold newPlayerRotation at h
  simp only [em, ho, ep] at h
  rw [if_pos] at h
  · exact h
  · intro hc
    rw [neg_natCast_270] at hc
    exact not_near_of_far _ _ (by omega) hc.2

/-- What the two loops leave from two values `a < b` of the format that are
as far apart as in `facing_gap`, and from `-b < -a`. -/
theorem normalizeAngle_of_gap (a b : Int) (ra : a.natAbs % 2 ^ (bitLength a.natAbs - 24) = 0)
    (rb : b.natAbs % 2 ^ (bitLength b.natAbs - 24) = 0) (ha : 2 ^ 175 ≤ a)
    (hab : a + 2 ^ 154 ≤ b) (hb : b ≤ 2 ^ 180)
    (hg : b ≤ a + 320 * 2 ^ 149 ∨ (2 ^ 178 + 360 * 2 ^ 149 ≤ b ∧ b ≤ a + 352 * 2 ^ 149))
    (f1 f2 : Nat) (u v : Binary32) :
    (normalizeAngle f1 (Binary32.fin a) = some u → normalizeAngle f2 (Binary32.fin b) = some v →
      u ≠ v) ∧
    (normalizeAngle f1 (Binary32.fin (-a)) = some u →
      normalizeAngle f2 (Binary32.fin (-b)) = some v → u ≠ v) := by
  constructor
  · intro hu hv
    exact wrapAbove_of_gap a b ra rb hab hb hg f1 f2 u v
      (normalizeAngle_of_nonneg f1 a u (by omega) (by omega) hu)
      (normalizeAngle_of_nonneg f2 b v (by omega) (by omega) hv)
  · intro hu hv
    rw [normalizeAngle_of_nonpos f1 (-a) (by omega), wrapBelow_neg f1 (-a) (by omega) (by omega),
      neg_neg] at hu
    rw [normalizeAngle_of_nonpos f2 (-b) (by omega), wrapBelow_neg f2 (-b) (by omega) (by omega),
      neg_neg] at hv
    cases hu1 : wrapAbove f1 (Binary32.fin a) with
    | none => rw [hu1] at hu; exact absurd hu (by simp)
    | some u1 =>
      cases hv1 : wrapAbove f2 (Binary32.fin b) with
      | none => rw [hv1] at hv; exact absurd hv (by simp)
      | some v1 =>
        rw [hu1] at hu
        rw [hv1] at hv
        simp only [Option.map_some', Option.some.injEq] at hu hv
        have := wrapAbove_of_gap a b ra rb hab hb hg f1 f2 u1 v1 hu1 hv1
        intro huv
        rw [← hu, ← hv] at huv
        exact this (binary32_neg_inj _ _ huv)

/-- What a D request and an A request leave in `playerRotation` differs, for a
camera yaw of the format of magnitude in (2^27, 2^31). -/
theorem facing_differ_large (y : Int) (fuel1 fuel2 : Nat) (u v : Binary32)
    (ry : y.natAbs % 2 ^ (bitLength y.natAbs - 24) = 0)
    (h1 : -(2 ^ 180) < y) (h2 : y < 2 ^ 180) (h3 : 2 ^ 176 < y ∨ y < -(2 ^ 176))
    (hu : newPlayerRotation fuel1 (Binary32.fin y) (Binary32.fin (90 * 2 ^ 149)) = some u)
    (hv : newPlayerRotation fuel2 (Binary32.fin y) (Binary32.fin (-(90 * 2 ^ 149))) = some v) :
    u ≠ v := by
  obtain ⟨m1, em1, -, -, -, -⟩ := sum_bounded y (90 * 2 ^ 149) (by omega) (by omega) (by omega)
    (by omega)
  obtain ⟨m2, em2, -, -, -, -⟩ := sum_bounded y (-(90 * 2 ^ 149)) (by omega) (by omega)
    (by omega) (by omega)
  obtain ⟨o1, ho1⟩ := newPlayerRotation_offset fuel1 _ _ _ hu
  obtain ⟨o2, ho2⟩ := newPlayerRotation_offset fuel2 _ _ _ hv
  rw [em1] at ho1
  rw [em2] at ho2
  have eo2 : o2 = Binary32.fin (90 * 2 ^ 149) := by
    rw [rotationOffset_A32] at ho2
    simp only [Option.some.injEq] at ho2
    exact ho2.symm
  have eo1 : o1 = Binary32.fin (90 * 2 ^ 149) ∨ o1 = Binary32.fin (-(270 * 2 ^ 149)) := by
    rw [rotationOffset_D32] at ho1
    cases hn : normalizeAngle fuel1 (Binary32.fin m1 + Binary32.fin (90 * 2 ^ 149)) with
    | none => rw [hn] at ho1; exact absurd ho1 (by simp)
    | some t =>
      rw [hn] at ho1
      dsimp only at ho1
      split_ifs at ho1
      · right
        simp only [Option.some.injEq] at ho1
        exact ho1.symm
      · left
        simp only [Option.some.injEq] at ho1
        exact ho1.symm
  rw [eo2] at ho2
  have fm1 := em1
  have fm2 := em2
  rw [fin_add_fin] at fm1 fm2
  obtain ⟨p2, ep2, -, -, -, -⟩ := sum_bounded m2 (90 * 2 ^ 149)
    (by have := (ofInt_near (y + -(90 * 2 ^ 149)) 181 (by norm_num) (by norm_num) (by omega))
        obtain ⟨n, e, b1, b2⟩ := this
        rw [fm2] at e
        simp only [Binary32.fin.injEq] at e
        omega)
    (by have := (ofInt_near (y + -(90 * 2 ^ 149)) 181 (by norm_num) (by norm_num) (by omega))
        obtain ⟨n, e, b1, b2⟩ := this
        rw [fm2] at e
        simp only [Binary32.fin.injEq] at e
        omega) (by omega) (by omega)
  have fp2 := ep2
  rw [fin_add_fin] at fp2
  have bm1 : -(2 ^ 182) ≤ m1 ∧ m1 ≤ 2 ^ 182 := by
    obtain ⟨n, e, b1, b2⟩ := ofInt_near (y + 90 * 2 ^ 149) 181 (by norm_num) (by norm_num)
      (by omega)
    rw [fm1] at e
    simp only [Binary32.fin.injEq] at e
    omega
  rcases eo1 with eo1 | eo1
  · rw [eo1] at ho1
    obtain ⟨p1, ep1, -, -, -, -⟩ := sum_bounded m1 (90 * 2 ^ 149) bm1.1 bm1.2 (by omega)
      (by omega)
    have fp1 := ep1
    rw [fin_add_fin] at fp1
    rcases h3 with h3 | h3
    · obtain ⟨g1, g2, g3, g4⟩ := facing_gap y m2 p2 m1 p1 _ _ _ _ ry h3 h2 fm2 fp2 fm1 fp1
        (Or.inl ⟨rfl, rfl, rfl, rfl⟩)
      have nu := newPlayerRotation_far fuel1 y _ m1 _ p1 u em1 ep1 ho1 (by omega) hu
      have nv := newPlayerRotation_far fuel2 y _ m2 _ p2 v em2 ep2 ho2 (by omega) hv
      have := (normalizeAngle_of_gap p2 p1 (ofInt_rep _ _ fp2) (ofInt_rep _ _ fp1) g1 g2 g3 g4
        fuel2 fuel1 v u).1 nv nu
      exact fun h => this h.symm
    · have ry2 : (-y).natAbs % 2 ^ (bitLength (-y).natAbs - 24) = 0 := by
        rw [Int.natAbs_neg]; exact ry
      obtain ⟨g1, g2, g3, g4⟩ := facing_gap (-y) (-m1) (-p1) (-m2) (-p2) (-(90 * 2 ^ 149))
        (-(90 * 2 ^ 149)) (90 * 2 ^ 149) (-(90 * 2 ^ 149)) ry2 (by omega) (by omega)
        (ofInt_neg_eq _ _ _ fm1 (by ring)) (ofInt_neg_eq _ _ _ fp1 (by ring))
        (ofInt_neg_eq _ _ _ fm2 (by ring)) (ofInt_neg_eq _ _ _ fp2 (by ring))
        (Or.inr (Or.inr (Or.inl ⟨rfl, rfl, rfl, rfl⟩)))
      have nu := newPlayerRotation_far fuel1 y _ m1 _ p1 u em1 ep1 ho1 (by omega) hu
      have nv := newPlayerRotation_far fuel2 y _ m2 _ p2 v em2 ep2 ho2 (by omega) hv
      have rp1 : (-p1).natAbs % 2 ^ (bitLength (-p1).natAbs - 24) = 0 := by
        rw [Int.natAbs_neg]; exact ofInt_rep _ _ fp1
      have rp2 : (-p2).natAbs % 2 ^ (bitLength (-p2).natAbs - 24) = 0 := by
        rw [Int.natAbs_neg]; exact ofInt_rep _ _ fp2
      have key := (normalizeAngle_of_gap (-p1) (-p2) rp1 rp2 g1 g2 g3 g4 fuel1 fuel2 u v).2
      rw [neg_neg, neg_neg] at key
      exact key nu nv
  · rw [eo1] at ho1
    obtain ⟨p1, ep1, -, -, -, -⟩ := sum_bounded m1 (-(270 * 2 ^ 149)) bm1.1 bm1.2 (by omega)
      (by omega)
    have fp1 := ep1
    rw [fin_add_fin] at fp1
    rcases h3 with h3 | h3
    · obtain ⟨g1, g2, g3, g4⟩ := facing_gap y m1 p1 m2 p2 _ _ _ _ ry h3 h2 fm1 fp1 fm2 fp2
        (Or.inr (Or.inl ⟨rfl, rfl, rfl, rfl⟩))
      have nu := newPlayerRotation_far fuel1 y _ m1 _ p1 u em1 ep1 ho1 (by omega) hu
      have nv := newPlayerRotation_far fuel2 y _ m2 _ p2 v em2 ep2 ho2 (by omega) hv
      exact (normalizeAngle_of_gap p1 p2 (ofInt_rep _ _ fp1) (ofInt_rep _ _ fp2) g1 g2 g3 g4
        fuel1 fuel2 u v).1 nu nv
    · have ry2 : (-y).natAbs % 2 ^ (bitLength (-y).natAbs - 24) = 0 := by
        rw [Int.natAbs_neg]; exact ry
      obtain ⟨g1, g2, g3, g4⟩ := facing_gap (-y) (-m2) (-p2) (-m1) (-p1) (90 * 2 ^ 149)
        (-(90 * 2 ^ 149)) (-(90 * 2 ^ 149)) (270 * 2 ^ 149) ry2 (by omega) (by omega)
        (ofInt_neg_eq _ _ _ fm2 (by ring)) (ofInt_neg_eq _ _ _ fp2 (by ring))
        (ofInt_neg_eq _ _ _ fm1 (by ring)) (ofInt_neg_eq _ _ _ fp1 (by ring))
        (Or.inr (Or.inr (Or.inr ⟨rfl, rfl, rfl, rfl⟩)))
      have nu := newPlayerRotation_far fuel1 y _ m1 _ p1 u em1 ep1 ho1 (by omega) hu
      have nv := newPlayerRotation_far fuel2 y _ m2 _ p2 v em2 ep2 ho2 (by omega) hv
      have rp1 : (-p1).natAbs % 2 ^ (bitLength (-p1).natAbs - 24) = 0 := by
        rw [Int.natAbs_neg]; exact ofInt_rep _ _ fp1
      have rp2 : (-p2).natAbs % 2 ^ (bitLength (-p2).natAbs - 24) = 0 := by
        rw [Int.natAbs_neg]; exact ofInt_rep _ _ fp2
      have key := (normalizeAngle_of_gap (-p2) (-p1) rp2 rp1 g1 g2 g3 g4 fuel2 fuel1 v u).2
      rw [neg_neg, neg_neg] at key
      exact fun h => key nv nu h.symm

/-- C24 (amended): on binary32, for a camera yaw that is a value of the format
of magnitude below 2^31, a D request and an A request both return, given
enough fuel, and the facing angle of the D request differs from that of the A
request.  Finite values are counted in units of 2^-149. -/
theorem left_right_differ_binary32 (trig : Trig Binary32) (kd ka : Keys) (w : World Binary32)
    (y : Int)
    (hdw : kd.wPressed = false) (hds : kd.sPressed = false) (hda : kd.aPressed = false)
    (hdd : kd.dPressed = true) (haw : ka.wPressed = false) (has : ka.sPressed = false)
    (haa : ka.aPressed = true) (hy : w.yaw = Binary32.fin y)
    (hv : Binary32.isValue w.yaw = true)
    (h1 : -(2 ^ 31 * 2 ^ 149) < y) (h2 : y < 2 ^ 31 * 2 ^ 149) :
    (∃ n0 : Nat, ∀ fuel, n0 ≤ fuel →
      ∃ w1 w2, processInput fuel trig kd w = some w1 ∧ processInput fuel trig ka w = some w2) ∧
    (∀ fuel1 fuel2 w1 w2, processInput fuel1 trig kd w = some w1 →
      processInput fuel2 trig ka w = some w2 → w1.playerRotation ≠ w2.playerRotation) := by
  have hcase : (-(2 ^ 176) ≤ y ∧ y ≤ 2 ^ 176) ∨ (2 ^ 176 < y ∨ y < -(2 ^ 176)) := by omega
  rcases hcase with ⟨c1, c2⟩ | c3
  · exact left_right_differ_small trig kd ka w y hdw hds hda hdd haw has haa hy (by omega)
      (by omega)
  · have hkd : kd.wPressed = true ∨ kd.sPressed = true ∨ kd.aPressed = true ∨
        kd.dPressed = true := Or.inr (Or.inr (Or.inr hdd))
    have hka : ka.wPressed = true ∨ ka.sPressed = true ∨ ka.aPressed = true ∨
        ka.dPressed = true := Or.inr (Or.inr (Or.inl haa))
    obtain ⟨n1, _, _, _, _, _, -, -, -, hf1, -⟩ :=
      processInput_binary32 trig kd w y hkd hy (by omega) (by omega)
    obtain ⟨n2, _, _, _, _, _, -, -, -, hf2, -⟩ :=
      processInput_binary32 trig ka w y hka hy (by omega) (by omega)
    constructor
    · refine ⟨max n1 n2, fun fuel hf => ?_⟩
      obtain ⟨w1, e1⟩ := hf1 fuel (le_trans (le_max_left _ _) hf)
      obtain ⟨w2, e2⟩ := hf2 fuel (le_trans (le_max_right _ _) hf)
      exact ⟨w1, w2, e1, e2⟩
    · intro fuel1 fuel2 w1 w2 e1 e2
      obtain ⟨a1, ea1, -, -, -, -, k1⟩ := selectHeading_angle32 kd hkd
      obtain ⟨a2, ea2, -, -, -, k2, -⟩ := selectHeading_angle32 ka hka
      have r1 := (processInput_playerRotation fuel1 trig kd w
        (selectHeading_moving (F := Binary32) kd hkd)).2 w1 e1
      have r2 := (processInput_playerRotation fuel2 trig ka w
        (selectHeading_moving (F := Binary32) ka hka)).2 w2 e2
      rw [hy, ea1, k1 hdw hds hda] at r1
      rw [hy, ea2, k2 haw has haa] at r2
      rw [hy] at hv
      have ry : y.natAbs % 2 ^ (bitLength y.natAbs - 24) = 0 := (of_decide_eq_true hv).1
      exact facing_differ_large y fuel1 fuel2 _ _ ry (by omega) (by omega) c3 r1 r2

set_option maxRecDepth 100000 in
/-- C24 (amended) on binary32 at yaw -90: the D request leaves -270 and the A
request leaves -90; and at yaw 2^30 the two requests return and leave
different angles. -/
theorem left_right_differ_binary32_witness :
    (processInput 3 floatTrig ⟨false, false, false, true⟩
        (floatWorld (Binary32.fin (-(90 * 2 ^ 149))))).map (fun w1 => w1.playerRotation) =
      some (Binary32.fin (-(270 * 2 ^ 149))) ∧
    (processInput 3 floatTrig ⟨false, false, true, false⟩
        (floatWorld (Binary32.fin (-(90 * 2 ^ 149))))).map (fun w1 => w1.playerRotation) =
      some (Binary32.fin (-(90 * 2 ^ 149))) ∧
    (∀ w1 w2, processInput 3 floatTrig ⟨false, false, false, true⟩
        (floatWorld (Binary32.fin (-(90 * 2 ^ 149)))) = some w1 →
      processInput 3 floatTrig ⟨false, false, true, false⟩
        (floatWorld (Binary32.fin (-(90 * 2 ^ 149)))) = some w2 →
      w1.playerRotation ≠ w2.playerRotation) ∧
    Binary32.isValue (Binary32.fin (2 ^ 30 * 2 ^ 149)) = true ∧
    (∃ n0 : Nat, ∀ fuel, n0 ≤ fuel →
      ∃ w1 w2, processInput fuel floatTrig ⟨false, false, false, true⟩
          (floatWorld (Binary32.fin (2 ^ 30 * 2 ^ 149))) = some w1 ∧
        processInput fuel floatTrig ⟨false, false, true, false⟩
          (floatWorld (Binary32.fin (2 ^ 30 * 2 ^ 149))) = some w2) ∧
    ∀ fuel1 fuel2 w1 w2, processInput fuel1 floatTrig ⟨false, false, false, true⟩
        (floatWorld (Binary32.fin (2 ^ 30 * 2 ^ 149))) = some w1 →
      processInput fuel2 floatTrig ⟨false, false, true, false⟩
        (floatWorld (Binary32.fin (2 ^ 30 * 2 ^ 149))) = some w2 →
      w1.playerRotation ≠ w2.playerRotation :=
  ⟨by decide, by decide,
    (left_right_differ_binary32 floatTrig ⟨false, false, false, true⟩
      ⟨false, false, true, false⟩ (floatWorld (Binary32.fin (-(90 * 2 ^ 149))))
      (-(90 * 2 ^ 149)) rfl rfl rfl rfl rfl rfl rfl rfl (by decide) (by norm_num)
      (by norm_num)).2 3 3,
    by decide,
    left_right_differ_binary32 floatTrig ⟨false, false, false, true⟩
      ⟨false, false, true, false⟩ (floatWorld (Binary32.fin (2 ^ 30 * 2 ^ 149)))
      (2 ^ 30 * 2 ^ 149) rfl rfl rfl rfl rfl rfl rfl rfl (by decide) (by norm_num)
      (by norm_num)⟩

set_option maxRecDepth 100000 in
theorem add_90_at_2p31_exact :
    Binary32.fin (2 ^ 31 * 2 ^ 149) + Binary32.fin (90 * 2 ^ 149) =
      Binary32.fin (2 ^ 31 * 2 ^ 149) := by decide

set_option maxRecDepth 100000 in
theorem sub_90_at_2p31_exact :
    Binary32.fin (2 ^ 31 * 2 ^ 149) + Binary32.fin (-(90 * 2 ^ 149)) =
      Binary32.fin (2 ^ 31 * 2 ^ 149 - 128 * 2 ^ 149) := by decide

set_option maxRecDepth 100000 in
theorem add_90_below_2p31 :
    Binary32.fin (2 ^ 31 * 2 ^ 149 - 128 * 2 ^ 149) + Binary32.fin (90 * 2 ^ 149) =
      Binary32.fin (2 ^ 31 * 2 ^ 149) := by decide

/-- The bound 2^31 is sharp: at the yaw 2^31 itself, a value of the format,
`yaw + 90` is rounded to `yaw`, `yaw - 90` to `yaw - 128` and `yaw - 128 + 90`
to `yaw`, so a D request and an A request normalise the same number and leave
the same facing angle. -/
theorem facing_collide_at_2p31 :
    ∃ (n0 : Nat) (t : Int), ∀ fuel, n0 ≤ fuel →
      newPlayerRotation fuel (Binary32.fin (2 ^ 31 * 2 ^ 149)) (Binary32.fin (90 * 2 ^ 149)) =
        some (Binary32.fin t) ∧
      newPlayerRotation fuel (Binary32.fin (2 ^ 31 * 2 ^ 149))
        (Binary32.fin (-(90 * 2 ^ 149))) = some (Binary32.fin t) := by
  obtain ⟨n0, t, t1, -, -, -, t5⟩ := normalizeAngle_spec (2 ^ 31 * 2 ^ 149) (by norm_num)
    (by norm_num)
  have hd : (2 : Int) ^ 152 ∣ t := t5 ⟨2 ^ 28, by norm_num⟩
  refine ⟨n0, t, fun fuel hf => ⟨?_, ?_⟩⟩
  · have ho : rotationOffset fuel (Binary32.fin (90 * 2 ^ 149))
        (Binary32.fin (2 ^ 31 * 2 ^ 149) + Binary32.fin (90 * 2 ^ 149)) =
          some (Binary32.fin (90 * 2 ^ 149)) := by
      rw [rotationOffset_D32, add_90_at_2p31_exact, add_90_at_2p31_exact, t1 fuel hf]
      dsimp only
      rw [if_neg]
      apply not_near_of_far
      obtain ⟨c, hc⟩ := hd
      omega
    rw [newPlayerRotation_of_offset32 fuel _ _ _ ho (by omega), add_90_at_2p31_exact,
      add_90_at_2p31_exact]
    exact t1 fuel hf
  · rw [newPlayerRotation_of_offset32 fuel _ _ _ (rotationOffset_A32 fuel _) (by omega),
      sub_90_at_2p31_exact, add_90_below_2p31]
    exact t1 fuel hf

/-! ### The length of the normal that `glm::normalize` computes on binary32 -/

/-- The relative error of rounding a magnitude in the normal range is at most
2^-24. -/
theorem roundMagnitude_rel (extra a : Nat) (s : Bool) (h : 2 ^ (extra + 23) ≤ a) :
    2 ^ 24 * (roundMagnitude extra a s * 2 ^ extra) ≤ (2 ^ 24 + 1) * a ∧
    (2 ^ 24 - 1) * a ≤ 2 ^ 24 * (roundMagnitude extra a s * 2 ^ extra) := by
  have hb : extra + 23 < bitLength a := by
    by_contra hc
    have := (bitLength_le_iff a (extra + 23)).1 (by omega)
    omega
  have hk : max extra (bitLength a - 24) = bitLength a - 24 := by
    apply max_eq_right
    omega
  rw [roundMagnitude_eq, hk]
  obtain ⟨e1, e2⟩ := roundToMultiple_error a (bitLength a - 24) s
  have h2 := two_pow_le_of_lt_bitLength a (bitLength a - 24 + 23) (by omega)
  rw [pow_add] at h2
  generalize 2 ^ (bitLength a - 24) = P at *
  generalize roundToMultiple a (bitLength a - 24) s = R at *
  omega

/-- Without extra digits the relative error of rounding is at most 2^-24
for every magnitude. -/
theorem roundMagnitude_rel_zero (a : Nat) (s : Bool) :
    2 ^ 24 * roundMagnitude 0 a s ≤ (2 ^ 24 + 1) * a ∧
    (2 ^ 24 - 1) * a ≤ 2 ^ 24 * roundMagnitude 0 a s := by
  rcases Nat.lt_or_ge a (2 ^ 23) with h | h
  · have hb : bitLength a ≤ 23 := (bitLength_le_iff a 23).2 h
    have hr : roundMagnitude 0 a s = a := by
      unfold roundMagnitude
      have hk : max 0 (bitLength a - 24) = 0 := by omega
      rw [hk, roundToMultiple_exact _ _ _ (by rw [pow_zero, Nat.mod_one]), pow_zero,
        Nat.div_one]
    rw [hr]
    omega
  · have := roundMagnitude_rel 0 a s (by simpa using h)
    simpa using this

/-- The bitwise square root keeps `r * r ≤ x < (r + 2 ^ i) * (r + 2 ^ i)`. -/
theorem isqrtAux_spec (x : Nat) : ∀ (i r : Nat), r * r ≤ x → x < (r + 2 ^ i) * (r + 2 ^ i) →
    isqrtAux x i r * isqrtAux x i r ≤ x ∧ x < (isqrtAux x i r + 1) * (isqrtAux x i r + 1) := by
  intro i
  induction i with
  | zero =>
    intro r h1 h2
    simpa [isqrtAux] using ⟨h1, h2⟩
  | succ i ih =>
    intro r h1 h2
    rw [isqrtAux]
    split_ifs with c
    · apply ih _ c
      have : r + 2 ^ i + 2 ^ i = r + 2 ^ (i + 1) := by rw [pow_succ]; omega
      rw [this]
      exact h2
    · exact ih r h1 (by omega)

/-- The integer square root is the root rounded down. -/
theorem isqrt_spec (x : Nat) :
    isqrt x * isqrt x ≤ x ∧ x < (isqrt x + 1) * (isqrt x + 1) := by
  unfold isqrt
  apply isqrtAux_spec x _ 0 (Nat.zero_le _)
  rw [Nat.zero_add, ← pow_add]
  have h1 := lt_two_pow_bitLength x
  have h2 : bitLength x ≤ bitLength x / 2 + 1 + (bitLength x / 2 + 1) := by omega
  exact lt_of_lt_of_le h1 (Nat.pow_le_pow_right (by norm_num) h2)

theorem relErr_base_pos (k : Nat) : (0 : ℚ) < (1 + 1 / 2 ^ 22) ^ k := by positivity

theorem relErr_base_one_le (k : Nat) : (1 : ℚ) ≤ (1 + 1 / 2 ^ 22) ^ k :=
  one_le_pow₀ (by norm_num)

theorem relErr_refl (A : ℚ) : RelErr 0 A A := by
  unfold RelErr
  simp

theorem relErr_symm (k : Nat) (A B : ℚ) (h : RelErr k A B) : RelErr k B A := ⟨h.2, h.1⟩

theorem relErr_mono (j k : Nat) (A B : ℚ) (hjk : j ≤ k) (hA : 0 ≤ A) (hB : 0 ≤ B)
    (h : RelErr j A B) : RelErr k A B := by
  have hc : (1 + 1 / 2 ^ 22 : ℚ) ^ j ≤ (1 + 1 / 2 ^ 22) ^ k :=
    pow_le_pow_right₀ (by norm_num) hjk
  exact ⟨le_trans h.1 (mul_le_mul_of_nonneg_left hc hB),
    le_trans h.2 (mul_le_mul_of_nonneg_left hc hA)⟩

theorem relErr_trans (j k : Nat) (A B C : ℚ) (h1 : RelErr j A B) (h2 : RelErr k B C) :
    RelErr (j + k) A C := by
  have pj := relErr_base_pos j
  have pk := relErr_base_pos k
  unfold RelErr at *
  rw [pow_add]
  constructor
  · calc A ≤ B * (1 + 1 / 2 ^ 22) ^ j := h1.1
      _ ≤ C * (1 + 1 / 2 ^ 22) ^ k * (1 + 1 / 2 ^ 22) ^ j :=
        mul_le_mul_of_nonneg_right h2.1 (le_of_lt pj)
      _ = C * ((1 + 1 / 2 ^ 22) ^ j * (1 + 1 / 2 ^ 22) ^ k) := by ring
  · calc C ≤ B * (1 + 1 / 2 ^ 22) ^ k := h2.2
      _ ≤ A * (1 + 1 / 2 ^ 22) ^ j * (1 + 1 / 2 ^ 22) ^ k :=
        mul_le_mul_of_nonneg_right h1.2 (le_of_lt pk)
      _ = A * ((1 + 1 / 2 ^ 22) ^ j * (1 + 1 / 2 ^ 22) ^ k) := by ring

theorem relErr_add (k : Nat) (A B C D : ℚ) (h1 : RelErr k A B) (h2 : RelErr k C D) :
    RelErr k (A + C) (B + D) := by
  unfold RelErr at *
  constructor
  · rw [add_mul]; exact add_le_add h1.1 h2.1
  · rw [add_mul]; exact add_le_add h1.2 h2.2

theorem relErr_mul (j k : Nat) (A B C D : ℚ) (hA : 0 ≤ A) (hB : 0 ≤ B) (hC : 0 ≤ C)
    (hD : 0 ≤ D) (h1 : RelErr j A B) (h2 : RelErr k C D) : RelErr (j + k) (A * C) (B * D) := by
  have pj := relErr_base_pos j
  have pk := relErr_base_pos k
  unfold RelErr at *
  rw [pow_add]
  constructor
  · calc A * C ≤ (B * (1 + 1 / 2 ^ 22) ^ j) * (D * (1 + 1 / 2 ^ 22) ^ k) :=
        mul_le_mul h1.1 h2.1 hC (mul_nonneg hB (le_of_lt pj))
      _ = B * D * ((1 + 1 / 2 ^ 22) ^ j * (1 + 1 / 2 ^ 22) ^ k) := by ring
  · calc B * D ≤ (A * (1 + 1 / 2 ^ 22) ^ j) * (C * (1 + 1 / 2 ^ 22) ^ k) :=
        mul_le_mul h1.2 h2.2 hD (mul_nonneg hA (le_of_lt pj))
      _ = A * C * ((1 + 1 / 2 ^ 22) ^ j * (1 + 1 / 2 ^ 22) ^ k) := by ring

theorem relErr_const_mul (k : Nat) (t A B : ℚ) (ht : 0 ≤ t) (h : RelErr k A B) :
    RelErr k (t * A) (t * B) := by
  unfold RelErr at *
  constructor
  · rw [mul_assoc]; exact mul_le_mul_of_nonneg_left h.1 ht
  · rw [mul_assoc]; exact mul_le_mul_of_nonneg_left h.2 ht

theorem relErr_div (k : Nat) (t A B : ℚ) (ht : 0 ≤ t) (hA : 0 < A) (hB : 0 < B)
    (h : RelErr k A B) : RelErr k (t / A) (t / B) := by
  have pk := relErr_base_pos k
  unfold RelErr at *
  constructor
  · rw [div_mul_eq_mul_div, div_le_div_iff₀ hA hB]
    calc t * B ≤ t * (A * (1 + 1 / 2 ^ 22) ^ k) := mul_le_mul_of_nonneg_left h.2 ht
      _ = t * (1 + 1 / 2 ^ 22) ^ k * A := by ring
  · rw [div_mul_eq_mul_div, div_le_div_iff₀ hB hA]
    calc t * A ≤ t * (B * (1 + 1 / 2 ^ 22) ^ k) := mul_le_mul_of_nonneg_left h.1 ht
      _ = t * (1 + 1 / 2 ^ 22) ^ k * B := by ring

/-- A relative error of at most 2^-24 both ways is one rounding. -/
theorem relErr_of_nat (n a : Nat) (h1 : 2 ^ 24 * n ≤ (2 ^ 24 + 1) * a)
    (h2 : (2 ^ 24 - 1) * a ≤ 2 ^ 24 * n) : RelErr 1 (n : ℚ) (a : ℚ) := by
  have q1 : (2 ^ 24 : ℚ) * n ≤ (2 ^ 24 + 1) * a := by exact_mod_cast h1
  have q2 : ((2 ^ 24 - 1 : Nat) : ℚ) * a ≤ 2 ^ 24 * n := by exact_mod_cast h2
  have hn : (0 : ℚ) ≤ n := Nat.cast_nonneg n
  have ha : (0 : ℚ) ≤ a := Nat.cast_nonneg a
  unfold RelErr
  norm_num at q1 q2 ⊢
  constructor <;> linarith

/-- Within 12 roundings the error is at most 2^-18, within 14 a factor 2. -/
theorem relErr_bound (k : Nat) (A B : ℚ) (hk : k ≤ 14) (hA : 0 ≤ A) (hB : 0 ≤ B)
    (h : RelErr k A B) :
    A ≤ 2 * B ∧ B ≤ 2 * A ∧ (k ≤ 12 → A - B ≤ B / 2 ^ 18 ∧ B - A ≤ B / 2 ^ 18) := by
  have h14 := relErr_mono k 14 A B hk hA hB h
  have c14 : (1 + 1 / 2 ^ 22 : ℚ) ^ 14 ≤ 2 := by norm_num
  refine ⟨?_, ?_, fun hk12 => ?_⟩
  · exact le_trans h14.1 (by nlinarith)
  · exact le_trans h14.2 (by nlinarith)
  · have h12 := relErr_mono k 12 A B hk12 hA hB h
    have c12 : (1 + 1 / 2 ^ 22 : ℚ) ^ 12 ≤ 1 + 1 / 2 ^ 18 := by norm_num
    have d12 : (1 - 1 / 2 ^ 18 : ℚ) * (1 + 1 / 2 ^ 22) ^ 12 ≤ 1 := by norm_num
    have p12 := relErr_base_pos 12
    obtain ⟨u1, u2⟩ := h12
    constructor
    · have : B * (1 + 1 / 2 ^ 22) ^ 12 ≤ B * (1 + 1 / 2 ^ 18) :=
        mul_le_mul_of_nonneg_left c12 hB
      linarith
    · have e1 : B * (1 - 1 / 2 ^ 18) ≤ A * (1 + 1 / 2 ^ 22) ^ 12 * (1 - 1 / 2 ^ 18) :=
        mul_le_mul_of_nonneg_right u2 (by norm_num)
      have e2 : A * (1 + 1 / 2 ^ 22) ^ 12 * (1 - 1 / 2 ^ 18) ≤ A := by
        have := mul_le_mul_of_nonneg_left d12 hA
        linarith
      linarith

theorem roundMagnitude_zero (extra : Nat) (s : Bool) : roundMagnitude extra 0 s = 0 := by
  have h := roundMagnitude_eq extra 0 s
  have e : roundToMultiple 0 (max extra (bitLength 0 - 24)) s = 0 := by
    apply roundToMultiple_exact
    exact Nat.zero_mod _
  rw [e] at h
  have hp : 0 < 2 ^ extra := Nat.two_pow_pos extra
  rcases Nat.eq_zero_or_pos (roundMagnitude extra 0 s) with h0 | h0
  · exact h0
  · have := Nat.mul_pos h0 hp
    omega

/-- A product of magnitudes, rounded: within one rounding of the product when
the product is 0 or at least 2^-126 (2^172 in units of 2^-298). -/
theorem product_round (a b : Nat) (h : a * b = 0 ∨ 2 ^ 172 ≤ a * b) :
    RelErr 1 ((roundMagnitude 149 (a * b) false : ℚ) * 2 ^ 149) ((a : ℚ) * b) := by
  rcases h with h | h
  · rw [h, roundMagnitude_zero]
    have : (a : ℚ) * b = 0 := by exact_mod_cast h
    rw [this]
    unfold RelErr
    simp
  · obtain ⟨h1, h2⟩ := roundMagnitude_rel 149 (a * b) false (by simpa using h)
    have := relErr_of_nat _ _ h1 h2
    simp only [Nat.cast_mul, Nat.cast_pow, Nat.cast_ofNat] at this
    exact this

/-- A sum of magnitudes, rounded: within one rounding of the sum. -/
theorem sum_round (a b : Nat) :
    RelErr 1 (roundMagnitude 0 (a + b) false : ℚ) ((a : ℚ) + b) := by
  obtain ⟨h1, h2⟩ := roundMagnitude_rel_zero (a + b) false
  have := relErr_of_nat _ _ h1 h2
  simp only [Nat.cast_add] at this
  exact this

/-- The floor of a square root: its square is within one rounding of the
number, when the root is at least 2^23. -/
theorem relErr_sqrt_floor (q N : ℚ) (hq : 2 ^ 23 ≤ q) (h1 : q * q ≤ N)
    (h2 : N + 1 ≤ (q + 1) * (q + 1)) : RelErr 1 (q * q) N := by
  unfold RelErr
  rw [pow_one]
  constructor
  · have : (0 : ℚ) ≤ N := le_trans (mul_self_nonneg q) h1
    nlinarith
  · have : (2 ^ 23 : ℚ) * q ≤ q * q := mul_le_mul_of_nonneg_right hq (by linarith)
    nlinarith

/-- The square root of a magnitude between 2^-121 and 2^123, rounded: its
square is within three roundings of the magnitude; in units of 2^-149 and
2^-298. -/
theorem sqrt_round (d : Nat) (st : Bool) (hd : 2 ^ 28 ≤ d) (hd2 : d ≤ 2 ^ 272) :
    RelErr 3 ((roundMagnitude 1 (isqrt (d * 2 ^ 151)) st : ℚ) *
      (roundMagnitude 1 (isqrt (d * 2 ^ 151)) st : ℚ)) ((d : ℚ) * 2 ^ 149) ∧
    2 ^ 87 ≤ roundMagnitude 1 (isqrt (d * 2 ^ 151)) st ∧
    roundMagnitude 1 (isqrt (d * 2 ^ 151)) st ≤ 2 ^ 212 := by
  obtain ⟨q1, q2⟩ := isqrt_spec (d * 2 ^ 151)
  generalize isqrt (d * 2 ^ 151) = q at *
  have hq : 2 ^ 89 ≤ q := by
    by_contra hc
    have h1 : q + 1 ≤ 2 ^ 89 := by omega
    have h2 := Nat.mul_le_mul h1 h1
    have h3 : 2 ^ 28 * 2 ^ 151 ≤ d * 2 ^ 151 := Nat.mul_le_mul_right _ hd
    have h4 : (2 : Nat) ^ 89 * 2 ^ 89 ≤ 2 ^ 28 * 2 ^ 151 := by norm_num
    omega
  have hq2 : q ≤ 2 ^ 212 := by
    by_contra hc
    have h1 : 2 ^ 212 + 1 ≤ q := by omega
    have h2 := Nat.mul_le_mul h1 h1
    have h3 : d * 2 ^ 151 ≤ 2 ^ 272 * 2 ^ 151 := Nat.mul_le_mul_right _ hd2
    have h4 : (2 : Nat) ^ 272 * 2 ^ 151 < (2 ^ 212 + 1) * (2 ^ 212 + 1) := by norm_num
    omega
  obtain ⟨r1, r2⟩ := roundMagnitude_rel 1 q st (le_trans (by norm_num) hq)
  generalize roundMagnitude 1 q st = s at *
  have e1 := relErr_of_nat _ _ r1 r2
  simp only [Nat.cast_mul, Nat.cast_pow, Nat.cast_ofNat, pow_one] at e1
  have hs0 : (0 : ℚ) ≤ s := Nat.cast_nonneg s
  have hq0 : (0 : ℚ) ≤ q := Nat.cast_nonneg q
  have e2 := relErr_mul 1 1 _ _ _ _ (by positivity) hq0 (by positivity) hq0 e1 e1
  have e3 : RelErr 1 ((q : ℚ) * q) ((d : ℚ) * 2 ^ 151) := by
    have a1 : ((q * q : Nat) : ℚ) ≤ ((d * 2 ^ 151 : Nat) : ℚ) := by exact_mod_cast q1
    have a2 : ((d * 2 ^ 151 : Nat) : ℚ) + 1 ≤ (((q + 1) * (q + 1) : Nat) : ℚ) := by
      exact_mod_cast q2
    have a3 : ((2 ^ 23 : Nat) : ℚ) ≤ q := by
      apply Nat.cast_le.2
      exact le_trans (by norm_num) hq
    simp only [Nat.cast_mul, Nat.cast_pow, Nat.cast_ofNat, Nat.cast_add, Nat.cast_one] at a1 a2 a3
    exact relErr_sqrt_floor _ _ a3 a1 a2
  have e4 := relErr_trans _ _ _ _ _ e2 e3
  have e5 := relErr_const_mul _ (1 / 4) _ _ (by norm_num) e4
  have e6 : RelErr 3 ((s : ℚ) * s) ((d : ℚ) * 2 ^ 149) := by
    have i1 : (1 / 4 : ℚ) * ((s : ℚ) * 2 * ((s : ℚ) * 2)) = (s : ℚ) * s := by ring
    have i2 : (1 / 4 : ℚ) * ((d : ℚ) * 2 ^ 151) = (d : ℚ) * 2 ^ 149 := by ring
    rw [i1, i2] at e5
    exact e5
  refine ⟨e6, ?_, ?_⟩
  · omega
  · omega

/-- The floor of a quotient is within one rounding of the quotient, when it
is at least 2^22. -/
theorem relErr_div_floor (y s t : ℚ) (hs : 0 < s) (hy : 2 ^ 22 ≤ y) (h1 : y * s ≤ t)
    (h2 : t ≤ (y + 1) * s) : RelErr 1 y (t / s) := by
  unfold RelErr
  rw [pow_one]
  constructor
  · rw [div_mul_eq_mul_div, le_div_iff₀ hs]
    have : (0 : ℚ) ≤ t := le_trans (mul_nonneg (by linarith) (le_of_lt hs)) h1
    nlinarith
  · rw [div_le_iff₀ hs]
    have : s ≤ y * (1 / 2 ^ 22) * s := by
      have : (1 : ℚ) ≤ y * (1 / 2 ^ 22) := by
        rw [mul_one_div, le_div_iff₀ (by norm_num)]
        linarith
      nlinarith
    nlinarith

/-- The reciprocal `1 / s` of a magnitude between 2^-62 and 2^63, rounded:
within two roundings of the quotient; in units of 2^-149. -/
theorem recip_round (s : Nat) (st : Bool) (h1 : 2 ^ 87 ≤ s) (h2 : s ≤ 2 ^ 212) :
    RelErr 2 (roundMagnitude 1 (2 ^ 149 * 2 ^ 150 / s) st : ℚ) ((2 : ℚ) ^ 298 / s) ∧
    2 ^ 85 ≤ roundMagnitude 1 (2 ^ 149 * 2 ^ 150 / s) st ∧
    roundMagnitude 1 (2 ^ 149 * 2 ^ 150 / s) st ≤ 2 ^ 213 := by
  have hs : 0 < s := lt_of_lt_of_le (by norm_num) h1
  have d1 : 2 ^ 149 * 2 ^ 150 / s * s ≤ 2 ^ 149 * 2 ^ 150 := Nat.div_mul_le_self _ _
  have d2 : 2 ^ 149 * 2 ^ 150 < (2 ^ 149 * 2 ^ 150 / s + 1) * s := by
    have := Nat.lt_succ_self (2 ^ 149 * 2 ^ 150 / s)
    rw [Nat.div_lt_iff_lt_mul hs] at this
    exact this
  generalize 2 ^ 149 * 2 ^ 150 / s = y at *
  have hy1 : 2 ^ 87 ≤ y := by
    by_contra hc
    have a1 : y + 1 ≤ 2 ^ 87 := by omega
    have a2 := Nat.mul_le_mul a1 h2
    have a3 : (2 : Nat) ^ 87 * 2 ^ 212 ≤ 2 ^ 149 * 2 ^ 150 := by norm_num
    omega
  have hy2 : y ≤ 2 ^ 212 := by
    by_contra hc
    have a1 : 2 ^ 212 + 1 ≤ y := by omega
    have a2 := Nat.mul_le_mul a1 h1
    have a3 : (2 : Nat) ^ 149 * 2 ^ 150 < (2 ^ 212 + 1) * 2 ^ 87 := by norm_num
    omega
  obtain ⟨r1, r2⟩ := roundMagnitude_rel 1 y st (le_trans (by norm_num) hy1)
  generalize roundMagnitude 1 y st = r at *
  have e1 := relErr_of_nat _ _ r1 r2
  simp only [Nat.cast_mul, Nat.cast_pow, Nat.cast_ofNat, pow_one] at e1
  have q1 : ((y * s : Nat) : ℚ) ≤ ((2 ^ 149 * 2 ^ 150 : Nat) : ℚ) := by exact_mod_cast d1
  have q2 : ((2 ^ 149 * 2 ^ 150 : Nat) : ℚ) ≤ (((y + 1) * s : Nat) : ℚ) := by
    exact_mod_cast (le_of_lt d2)
  have q3 : ((2 ^ 22 : Nat) : ℚ) ≤ y := by
    apply Nat.cast_le.2
    exact le_trans (by norm_num) hy1
  simp only [Nat.cast_mul, Nat.cast_pow, Nat.cast_ofNat, Nat.cast_add, Nat.cast_one]
    at q1 q2 q3
  have hsq : (0 : ℚ) < s := by exact_mod_cast hs
  have e2 := relErr_div_floor _ _ _ hsq q3 q1 q2
  have e3 := relErr_trans _ _ _ _ _ e1 e2
  have e4 := relErr_const_mul _ (1 / 2) _ _ (by norm_num) e3
  have i1 : (1 / 2 : ℚ) * ((r : ℚ) * 2) = r := by ring
  have i2 : (1 / 2 : ℚ) * ((2 : ℚ) ^ 149 * 2 ^ 150 / s) = (2 : ℚ) ^ 298 / s := by
    rw [← pow_add]
    have : (2 : ℚ) ^ (149 + 150) = 2 * 2 ^ 298 := by rw [← pow_succ']
    rw [this]
    ring
  rw [i1, i2] at e4
  refine ⟨e4, ?_, ?_⟩
  · omega
  · omega

theorem square_bounds (a : Nat) (h : a = 0 ∨ (2 ^ 89 ≤ a ∧ a ≤ 2 ^ 209)) :
    (a * a = 0 ∨ 2 ^ 172 ≤ a * a) ∧ a * a ≤ 2 ^ 418 ∧ (a ≠ 0 → 2 ^ 178 ≤ a * a) := by
  rcases h with h | ⟨h1, h2⟩
  · rw [h]
    exact ⟨Or.inl rfl, by norm_num, fun c => absurd rfl c⟩
  · have l := Nat.mul_le_mul h1 h1
    have u := Nat.mul_le_mul h2 h2
    have c1 : (2 : Nat) ^ 89 * 2 ^ 89 = 2 ^ 178 := by norm_num
    have c2 : (2 : Nat) ^ 209 * 2 ^ 209 = 2 ^ 418 := by norm_num
    have c3 : (2 : Nat) ^ 172 ≤ 2 ^ 178 := by norm_num
    rw [c1] at l
    rw [c2] at u
    exact ⟨Or.inr (le_trans c3 l), u, fun _ => l⟩

theorem component_bounds (a r : Nat) (h : a = 0 ∨ (2 ^ 89 ≤ a ∧ a ≤ 2 ^ 209))
    (h1 : 2 ^ 85 ≤ r) (h2 : r ≤ 2 ^ 213) :
    (a * r = 0 ∨ 2 ^ 172 ≤ a * r) ∧ a * r ≤ 2 ^ 422 := by
  rcases h with h | ⟨h3, h4⟩
  · rw [h, Nat.zero_mul]
    exact ⟨Or.inl rfl, by norm_num⟩
  · have l := Nat.mul_le_mul h3 h1
    have u := Nat.mul_le_mul h4 h2
    have c1 : (2 : Nat) ^ 172 ≤ 2 ^ 89 * 2 ^ 85 := by norm_num
    have c2 : (2 : Nat) ^ 209 * 2 ^ 213 = 2 ^ 422 := by norm_num
    rw [c2] at u
    exact ⟨Or.inr (le_trans c1 l), u⟩

/-- The arithmetic of `glm::normalize` on the magnitudes `X`, `Y`, `Z` of the
components of a position, each 0 or between 2^-60 and 2^60, not all 0, in
units of 2^-149: no intermediate value overflows, the square root is not 0,
and the squares of the three components of the result add up to 1 within
2^-18. -/
theorem normal_length_nat (X Y Z : Nat) (t1 t2 : Bool)
    (hX : X = 0 ∨ (2 ^ 89 ≤ X ∧ X ≤ 2 ^ 209)) (hY : Y = 0 ∨ (2 ^ 89 ≤ Y ∧ Y ≤ 2 ^ 209))
    (hZ : Z = 0 ∨ (2 ^ 89 ≤ Z ∧ Z ≤ 2 ^ 209)) (hne : X ≠ 0 ∨ Y ≠ 0 ∨ Z ≠ 0)
    (sx sy sz b1 D s r mx my mz : Nat)
    (esx : sx = roundMagnitude 149 (X * X) false) (esy : sy = roundMagnitude 149 (Y * Y) false)
    (esz : sz = roundMagnitude 149 (Z * Z) false)
    (eb1 : b1 = roundMagnitude 0 (sx + sy) false) (eD : D = roundMagnitude 0 (b1 + sz) false)
    (es : s = roundMagnitude 1 (isqrt (D * 2 ^ 151)) t1)
    (er : r = roundMagnitude 1 (2 ^ 149 * 2 ^ 150 / s) t2)
    (emx : mx = roundMagnitude 149 (X * r) false) (emy : my = roundMagnitude 149 (Y * r) false)
    (emz : mz = roundMagnitude 149 (Z * r) false) :
    sx ≤ 2 ^ 272 ∧ sy ≤ 2 ^ 272 ∧ sz ≤ 2 ^ 272 ∧ b1 ≤ 2 ^ 272 ∧ D ≤ 2 ^ 272 ∧ 2 ^ 87 ≤ s ∧
    s ≤ 2 ^ 212 ∧ r ≤ 2 ^ 213 ∧ mx ≤ 2 ^ 275 ∧ my ≤ 2 ^ 275 ∧ mz ≤ 2 ^ 275 ∧
    mx * mx + my * my + mz * mz ≤ 2 ^ 298 + 2 ^ 280 ∧
    2 ^ 298 ≤ mx * mx + my * my + mz * mz + 2 ^ 280 := by
  obtain ⟨ax1, ax2, ax3⟩ := square_bounds X hX
  obtain ⟨ay1, ay2, ay3⟩ := square_bounds Y hY
  obtain ⟨az1, az2, az3⟩ := square_bounds Z hZ
  have hS1 : 2 ^ 178 ≤ X * X + Y * Y + Z * Z := by
    rcases hne with c | c | c
    · have := ax3 c; omega
    · have := ay3 c; omega
    · have := az3 c; omega
  -- the squares and their sum
  have pX := product_round X X ax1
  have pY := product_round Y Y ay1
  have pZ := product_round Z Z az1
  rw [← esx] at pX
  rw [← esy] at pY
  rw [← esz] at pZ
  have n0 : ∀ n : Nat, (0 : ℚ) ≤ n := fun n => Nat.cast_nonneg n
  have w0 : (0 : ℚ) < 2 ^ 149 := by positivity
  have s1 := relErr_add 1 _ _ _ _ pX pY
  have s2 := sum_round sx sy
  rw [← eb1] at s2
  have s3 := relErr_const_mul 1 (2 ^ 149) _ _ (le_of_lt w0) s2
  have i3 : (2 : ℚ) ^ 149 * ((sx : ℚ) + sy) = (sx : ℚ) * 2 ^ 149 + (sy : ℚ) * 2 ^ 149 := by ring
  rw [i3] at s3
  have s4 := relErr_trans 1 1 _ _ _ s3 s1
  have s5 := relErr_mono 1 2 _ _ (by norm_num) (mul_nonneg (n0 sz) (le_of_lt w0))
    (mul_nonneg (n0 Z) (n0 Z)) pZ
  have s6 := relErr_add 2 _ _ _ _ s4 s5
  have s7 := sum_round b1 sz
  rw [← eD] at s7
  have s8 := relErr_const_mul 1 (2 ^ 149) _ _ (le_of_lt w0) s7
  have i8 : (2 : ℚ) ^ 149 * ((b1 : ℚ) + sz) = 2 ^ 149 * (b1 : ℚ) + (sz : ℚ) * 2 ^ 149 := by ring
  rw [i8] at s8
  have s9 := relErr_trans 1 2 _ _ _ s8 s6
  -- magnitudes
  have bX := relErr_bound 1 _ _ (by norm_num) (mul_nonneg (n0 sx) (le_of_lt w0))
    (mul_nonneg (n0 X) (n0 X)) pX
  have bY := relErr_bound 1 _ _ (by norm_num) (mul_nonneg (n0 sy) (le_of_lt w0))
    (mul_nonneg (n0 Y) (n0 Y)) pY
  have bZ := relErr_bound 1 _ _ (by norm_num) (mul_nonneg (n0 sz) (le_of_lt w0))
    (mul_nonneg (n0 Z) (n0 Z)) pZ
  have bB := relErr_bound 2 _ _ (by norm_num) (mul_nonneg (le_of_lt w0) (n0 b1))
    (add_nonneg (mul_nonneg (n0 X) (n0 X)) (mul_nonneg (n0 Y) (n0 Y))) s4
  have bD := relErr_bound 3 _ _ (by norm_num) (mul_nonneg (le_of_lt w0) (n0 D))
    (add_nonneg (add_nonneg (mul_nonneg (n0 X) (n0 X)) (mul_nonneg (n0 Y) (n0 Y)))
      (mul_nonneg (n0 Z) (n0 Z))) s9
  have hsx : sx * 2 ^ 149 ≤ 2 * (X * X) := by exact_mod_cast bX.1
  have hsy : sy * 2 ^ 149 ≤ 2 * (Y * Y) := by exact_mod_cast bY.1
  have hsz : sz * 2 ^ 149 ≤ 2 * (Z * Z) := by exact_mod_cast bZ.1
  have hb1 : 2 ^ 149 * b1 ≤ 2 * (X * X + Y * Y) := by exact_mod_cast bB.1
  have hD1 : 2 ^ 149 * D ≤ 2 * (X * X + Y * Y + Z * Z) := by exact_mod_cast bD.1
  have hD2 : X * X + Y * Y + Z * Z ≤ 2 * (2 ^ 149 * D) := by exact_mod_cast bD.2.1
  have dlo : 2 ^ 28 ≤ D := by
    generalize X * X = a at *
    generalize Y * Y = b at *
    generalize Z * Z = c at *
    omega
  have dhi : D ≤ 2 ^ 272 := by
    generalize X * X = a at *
    generalize Y * Y = b at *
    generalize Z * Z = c at *
    omega
  -- the square root and the reciprocal
  obtain ⟨q1, q2, q3⟩ := sqrt_round D t1 dlo dhi
  rw [← es] at q1 q2 q3
  have hSpos : (0 : ℚ) < (X : ℚ) * X + (Y : ℚ) * Y + (Z : ℚ) * Z := by
    have : ((2 ^ 178 : Nat) : ℚ) ≤ ((X * X + Y * Y + Z * Z : Nat) : ℚ) := Nat.cast_le.2 hS1
    simp only [Nat.cast_add, Nat.cast_mul, Nat.cast_pow, Nat.cast_ofNat] at this
    exact lt_of_lt_of_le (by positivity) this
  have hspos : (0 : ℚ) < s := by
    have : 0 < s := lt_of_lt_of_le (by norm_num) q2
    exact_mod_cast this
  have i9 : (D : ℚ) * 2 ^ 149 = 2 ^ 149 * (D : ℚ) := mul_comm _ _
  rw [i9] at q1
  have s10 := relErr_trans 3 3 _ _ _ q1 s9
  obtain ⟨r1, r2, r3⟩ := recip_round s t2 q2 q3
  rw [← er] at r1 r2 r3
  have hq0 : (0 : ℚ) ≤ 2 ^ 298 / (s : ℚ) := by positivity
  have s11 := relErr_mul 2 2 _ _ _ _ (n0 r) hq0 (n0 r) hq0 r1 r1
  rw [div_mul_div_comm] at s11
  have s13 := relErr_div 6 ((2 : ℚ) ^ 298 * 2 ^ 298) _ _ (by positivity)
    (mul_pos hspos hspos) hSpos s10
  have s14 := relErr_trans _ _ _ _ _ s11 s13
  -- the components
  obtain ⟨cx1, cx2⟩ := component_bounds X r hX r2 r3
  obtain ⟨cy1, cy2⟩ := component_bounds Y r hY r2 r3
  obtain ⟨cz1, cz2⟩ := component_bounds Z r hZ r2 r3
  have mX := product_round X r cx1
  have mY := product_round Y r cy1
  have mZ := product_round Z r cz1
  rw [← emx] at mX
  rw [← emy] at mY
  rw [← emz] at mZ
  have gX := relErr_bound 1 _ _ (by norm_num) (mul_nonneg (n0 mx) (le_of_lt w0))
    (mul_nonneg (n0 X) (n0 r)) mX
  have gY := relErr_bound 1 _ _ (by norm_num) (mul_nonneg (n0 my) (le_of_lt w0))
    (mul_nonneg (n0 Y) (n0 r)) mY
  have gZ := relErr_bound 1 _ _ (by norm_num) (mul_nonneg (n0 mz) (le_of_lt w0))
    (mul_nonneg (n0 Z) (n0 r)) mZ
  have hmx : mx * 2 ^ 149 ≤ 2 * (X * r) := by exact_mod_cast gX.1
  have hmy : my * 2 ^ 149 ≤ 2 * (Y * r) := by exact_mod_cast gY.1
  have hmz : mz * 2 ^ 149 ≤ 2 * (Z * r) := by exact_mod_cast gZ.1
  have qX := relErr_mul 1 1 _ _ _ _ (mul_nonneg (n0 mx) (le_of_lt w0))
    (mul_nonneg (n0 X) (n0 r)) (mul_nonneg (n0 mx) (le_of_lt w0))
    (mul_nonneg (n0 X) (n0 r)) mX mX
  have qY := relErr_mul 1 1 _ _ _ _ (mul_nonneg (n0 my) (le_of_lt w0))
    (mul_nonneg (n0 Y) (n0 r)) (mul_nonneg (n0 my) (le_of_lt w0))
    (mul_nonneg (n0 Y) (n0 r)) mY mY
  have qZ := relErr_mul 1 1 _ _ _ _ (mul_nonneg (n0 mz) (le_of_lt w0))
    (mul_nonneg (n0 Z) (n0 r)) (mul_nonneg (n0 mz) (le_of_lt w0))
    (mul_nonneg (n0 Z) (n0 r)) mZ mZ
  have s15 := relErr_add 2 _ _ _ _ (relErr_add 2 _ _ _ _ qX qY) qZ
  have s16 := relErr_const_mul 10 ((X : ℚ) * X + (Y : ℚ) * Y + (Z : ℚ) * Z) _ _
    (le_of_lt hSpos) s14
  rw [mul_div_cancel₀ _ (ne_of_gt hSpos)] at s16
  have i16 : (X : ℚ) * r * ((X : ℚ) * r) + (Y : ℚ) * r * ((Y : ℚ) * r) +
      (Z : ℚ) * r * ((Z : ℚ) * r) =
      ((X : ℚ) * X + (Y : ℚ) * Y + (Z : ℚ) * Z) * ((r : ℚ) * r) := by ring
  rw [i16] at s15
  have s17 := relErr_trans 2 10 _ _ _ s15 s16
  have s18 := relErr_const_mul 12 (1 / 2 ^ 298) _ _ (by positivity) s17
  have i18 : (1 / 2 ^ 298 : ℚ) * ((mx : ℚ) * 2 ^ 149 * ((mx : ℚ) * 2 ^ 149) +
      (my : ℚ) * 2 ^ 149 * ((my : ℚ) * 2 ^ 149) + (mz : ℚ) * 2 ^ 149 * ((mz : ℚ) * 2 ^ 149)) =
      (mx : ℚ) * mx + (my : ℚ) * my + (mz : ℚ) * mz := by
    have : (2 : ℚ) ^ 298 = 2 ^ 149 * 2 ^ 149 := by rw [← pow_add]
    rw [this]
    field_simp
    ring
  have i19 : (1 / 2 ^ 298 : ℚ) * ((2 : ℚ) ^ 298 * 2 ^ 298) = 2 ^ 298 := by
    field_simp
  rw [i18, i19] at s18
  have fin := (relErr_bound 12 _ _ (by norm_num)
    (add_nonneg (add_nonneg (mul_nonneg (n0 mx) (n0 mx)) (mul_nonneg (n0 my) (n0 my)))
      (mul_nonneg (n0 mz) (n0 mz))) (by positivity) s18).2.2 (le_refl _)
  have i20 : (2 : ℚ) ^ 298 / 2 ^ 18 = 2 ^ 280 := by
    rw [div_eq_iff (by positivity), ← pow_add]
  rw [i20] at fin
  have f1 : (mx : ℚ) * mx + (my : ℚ) * my + (mz : ℚ) * mz ≤ 2 ^ 298 + 2 ^ 280 := by linarith [fin.1]
  have f2 : (2 : ℚ) ^ 298 ≤ (mx : ℚ) * mx + (my : ℚ) * my + (mz : ℚ) * mz + 2 ^ 280 := by
    linarith [fin.2]
  have g1 : mx * mx + my * my + mz * mz ≤ 2 ^ 298 + 2 ^ 280 := by exact_mod_cast f1
  have g2 : 2 ^ 298 ≤ mx * mx + my * my + mz * mz + 2 ^ 280 := by exact_mod_cast f2
  refine ⟨?_, ?_, ?_, ?_, dhi, q2, q3, r3, ?_, ?_, ?_, g1, g2⟩
  · generalize X * X = a at *
    omega
  · generalize Y * Y = a at *
    omega
  · generalize Z * Z = a at *
    omega
  · generalize X * X = a at *
    generalize Y * Y = b at *
    omega
  · generalize X * r = a at *
    omega
  · generalize Y * r = a at *
    omega
  · generalize Z * r = a at *
    omega

/-- A float product of finite values that does not overflow: finite, with the
rounded product of the magnitudes as its magnitude. -/
theorem fin_mul_fin_mag (a b : Int)
    (hb : roundMagnitude 149 (a.natAbs * b.natAbs) false < 2 ^ 128 * 2 ^ 149) :
    ∃ n : Int, Binary32.fin a * Binary32.fin b = Binary32.fin n ∧
      n.natAbs = roundMagnitude 149 (a.natAbs * b.natAbs) false := by
  rw [fin_mul_fin]
  rcases lt_or_le (a * b) 0 with h | h
  · rw [ofInt_of_neg 149 _ h, Int.natAbs_mul, if_neg (by omega)]
    exact ⟨_, rfl, by rw [Int.natAbs_neg, Int.natAbs_ofNat]⟩
  · rw [ofInt_of_nonneg 149 _ h, Int.natAbs_mul, if_neg (by omega)]
    exact ⟨_, rfl, Int.natAbs_ofNat _⟩

/-- A float sum of two non-negative finite values that does not overflow. -/
theorem fin_add_fin_nat (a b : Nat) (hb : roundMagnitude 0 (a + b) false < 2 ^ 128 * 2 ^ 149) :
    Binary32.fin (a : Int) + Binary32.fin (b : Int) =
      Binary32.fin (roundMagnitude 0 (a + b) false : Nat) := by
  rw [fin_add_fin, ofInt_of_nonneg 0 _ (by omega)]
  have : ((a : Int) + (b : Int)).natAbs = a + b := by omega
  rw [this, if_neg (by omega)]

/-- The float square root of a non-negative finite value. -/
theorem sqrt_fin_nat (d : Nat)
    (hb : roundMagnitude 1 (isqrt (d * 2 ^ 151))
      (decide (isqrt (d * 2 ^ 151) * isqrt (d * 2 ^ 151) ≠ d * 2 ^ 151)) < 2 ^ 128 * 2 ^ 149) :
    Binary32.sqrt (Binary32.fin (d : Int)) =
      Binary32.fin (roundMagnitude 1 (isqrt (d * 2 ^ 151))
        (decide (isqrt (d * 2 ^ 151) * isqrt (d * 2 ^ 151) ≠ d * 2 ^ 151)) : Nat) := by
  rw [Binary32.sqrt, if_neg (by omega)]
  unfold Binary32.round
  simp only [Int.natAbs_ofNat]
  rw [if_neg (by omega)]
  simp

/-- The float quotient `1 / s` for a positive finite value `s`. -/
theorem one_div_fin_nat (s : Nat) (hs : s ≠ 0)
    (hb : roundMagnitude 1 (2 ^ 149 * 2 ^ 150 / s) (decide (2 ^ 149 * 2 ^ 150 % s ≠ 0)) <
      2 ^ 128 * 2 ^ 149) :
    (1 : Binary32) / Binary32.fin (s : Int) =
      Binary32.fin (roundMagnitude 1 (2 ^ 149 * 2 ^ 150 / s)
        (decide (2 ^ 149 * 2 ^ 150 % s ≠ 0)) : Nat) := by
  show Binary32.div (Binary32.fin ((2 ^ 149 : Nat) : Int)) (Binary32.fin (s : Int)) = _
  rw [Binary32.div, if_neg (by omega)]
  unfold Binary32.round
  simp only [Int.natAbs_ofNat]
  rw [if_neg (by omega)]
  have h1 : decide (((2 ^ 149 : Nat) : Int) < 0) = false := by
    apply decide_eq_false
    omega
  have h2 : decide ((s : Int) < 0) = false := by
    apply decide_eq_false
    omega
  rw [h1, h2]
  simp

/-- A float square that does not overflow. -/
theorem fin_mul_self (a : Int)
    (hb : roundMagnitude 149 (a.natAbs * a.natAbs) false < 2 ^ 128 * 2 ^ 149) :
    Binary32.fin a * Binary32.fin a =
      Binary32.fin (roundMagnitude 149 (a.natAbs * a.natAbs) false : Nat) := by
  rw [fin_mul_fin, ofInt_of_nonneg 149 _ (mul_self_nonneg a), Int.natAbs_mul, if_neg (by omega)]

/-- The normal `glm::normalize(position)` computed on binary32 for a position
whose components are each 0 or of magnitude between 2^-60 and 2^60, not all
0: its components are finite and their squares add up to 1 within 2^-18
(components in units of 2^-149, so 1 is 2^298 and 2^-18 is 2^280). -/
theorem glmNormalize_length (x y z : Int)
    (hx : x = 0 ∨ (2 ^ 89 ≤ x.natAbs ∧ x.natAbs ≤ 2 ^ 209))
    (hy : y = 0 ∨ (2 ^ 89 ≤ y.natAbs ∧ y.natAbs ≤ 2 ^ 209))
    (hz : z = 0 ∨ (2 ^ 89 ≤ z.natAbs ∧ z.natAbs ≤ 2 ^ 209))
    (hne : x ≠ 0 ∨ y ≠ 0 ∨ z ≠ 0) :
    ∃ a b c : Int,
      glmNormalize Binary32.inversesqrt ⟨Binary32.fin x, Binary32.fin y, Binary32.fin z⟩ =
        ⟨Binary32.fin a, Binary32.fin b, Binary32.fin c⟩ ∧
      a * a + b * b + c * c ≤ 2 ^ 298 + 2 ^ 280 ∧ 2 ^ 298 ≤ a * a + b * b + c * c + 2 ^ 280 := by
  obtain ⟨sx, esx⟩ : ∃ sx, sx = roundMagnitude 149 (x.natAbs * x.natAbs) false := ⟨_, rfl⟩
  obtain ⟨sy, esy⟩ : ∃ sy, sy = roundMagnitude 149 (y.natAbs * y.natAbs) false := ⟨_, rfl⟩
  obtain ⟨sz, esz⟩ : ∃ sz, sz = roundMagnitude 149 (z.natAbs * z.natAbs) false := ⟨_, rfl⟩
  obtain ⟨b1, eb1⟩ : ∃ b1, b1 = roundMagnitude 0 (sx + sy) false := ⟨_, rfl⟩
  obtain ⟨D, eD⟩ : ∃ D, D = roundMagnitude 0 (b1 + sz) false := ⟨_, rfl⟩
  obtain ⟨s, es⟩ : ∃ s, s = roundMagnitude 1 (isqrt (D * 2 ^ 151))
    (decide (isqrt (D * 2 ^ 151) * isqrt (D * 2 ^ 151) ≠ D * 2 ^ 151)) := ⟨_, rfl⟩
  obtain ⟨r, er⟩ : ∃ r, r = roundMagnitude 1 (2 ^ 149 * 2 ^ 150 / s)
    (decide (2 ^ 149 * 2 ^ 150 % s ≠ 0)) := ⟨_, rfl⟩
  obtain ⟨mx, emx⟩ : ∃ mx, mx = roundMagnitude 149 (x.natAbs * r) false := ⟨_, rfl⟩
  obtain ⟨my, emy⟩ : ∃ my, my = roundMagnitude 149 (y.natAbs * r) false := ⟨_, rfl⟩
  obtain ⟨mz, emz⟩ : ∃ mz, mz = roundMagnitude 149 (z.natAbs * r) false := ⟨_, rfl⟩
  have hx1 : x.natAbs = 0 ∨ (2 ^ 89 ≤ x.natAbs ∧ x.natAbs ≤ 2 ^ 209) := by
    rcases hx with h | h
    · exact Or.inl (by rw [h]; rfl)
    · exact Or.inr h
  have hy1 : y.natAbs = 0 ∨ (2 ^ 89 ≤ y.natAbs ∧ y.natAbs ≤ 2 ^ 209) := by
    rcases hy with h | h
    · exact Or.inl (by rw [h]; rfl)
    · exact Or.inr h
  have hz1 : z.natAbs = 0 ∨ (2 ^ 89 ≤ z.natAbs ∧ z.natAbs ≤ 2 ^ 209) := by
    rcases hz with h | h
    · exact Or.inl (by rw [h]; rfl)
    · exact Or.inr h
  have hne1 : x.natAbs ≠ 0 ∨ y.natAbs ≠ 0 ∨ z.natAbs ≠ 0 := by omega
  obtain ⟨k1, k2, k3, k4, k5, k6, k7, k8, k9, k10, k11, k12, k13⟩ :=
    normal_length_nat x.natAbs y.natAbs z.natAbs _ _ hx1 hy1 hz1 hne1 sx sy sz b1 D s r mx my mz
      esx esy esz eb1 eD es er emx emy emz
  have E1 : Binary32.fin x * Binary32.fin x = Binary32.fin (sx : Int) := by
    rw [esx]
    exact fin_mul_self x (by rw [← esx]; omega)
  have E2 : Binary32.fin y * Binary32.fin y = Binary32.fin (sy : Int) := by
    rw [esy]
    exact fin_mul_self y (by rw [← esy]; omega)
  have E3 : Binary32.fin z * Binary32.fin z = Binary32.fin (sz : Int) := by
    rw [esz]
    exact fin_mul_self z (by rw [← esz]; omega)
  have E4 : Binary32.fin (sx : Int) + Binary32.fin (sy : Int) = Binary32.fin (b1 : Int) := by
    rw [eb1]
    exact fin_add_fin_nat sx sy (by rw [← eb1]; omega)
  have E5 : Binary32.fin (b1 : Int) + Binary32.fin (sz : Int) = Binary32.fin (D : Int) := by
    rw [eD]
    exact fin_add_fin_nat b1 sz (by rw [← eD]; omega)
  have E6 : Binary32.sqrt (Binary32.fin (D : Int)) = Binary32.fin (s : Int) := by
    rw [es]
    exact sqrt_fin_nat D (by rw [← es]; omega)
  have E7 : (1 : Binary32) / Binary32.fin (s : Int) = Binary32.fin (r : Int) := by
    rw [er]
    exact one_div_fin_nat s (by omega) (by rw [← er]; omega)
  obtain ⟨a, ea, ha⟩ := fin_mul_fin_mag x (r : Int)
    (by rw [Int.natAbs_ofNat, ← emx]; omega)
  obtain ⟨b, eb, hb⟩ := fin_mul_fin_mag y (r : Int)
    (by rw [Int.natAbs_ofNat, ← emy]; omega)
  obtain ⟨c, ec, hc⟩ := fin_mul_fin_mag z (r : Int)
    (by rw [Int.natAbs_ofNat, ← emz]; omega)
  rw [Int.natAbs_ofNat, ← emx] at ha
  rw [Int.natAbs_ofNat, ← emy] at hb
  rw [Int.natAbs_ofNat, ← emz] at hc
  refine ⟨a, b, c, ?_, ?_, ?_⟩
  · simp only [glmNormalize, Vec3.scale, Vec3.dot, Binary32.inversesqrt, E1, E2, E3, E4, E5,
      E6, E7, ea, eb, ec]
  · have := Int.ofNat_le.2 k12
    simp only [Nat.cast_add, Nat.cast_mul, Nat.cast_pow, Nat.cast_ofNat] at this
    rw [← ha, ← hb, ← hc, Int.natAbs_mul_self', Int.natAbs_mul_self',
      Int.natAbs_mul_self'] at this
    exact this
  · have := Int.ofNat_le.2 k13
    simp only [Nat.cast_add, Nat.cast_mul, Nat.cast_pow, Nat.cast_ofNat] at this
    rw [← ha, ← hb, ← hc, Int.natAbs_mul_self', Int.natAbs_mul_self',
      Int.natAbs_mul_self'] at this
    exact this

set_option maxRecDepth 100000 in
/-- C14 (amended): in `Model::loadOBJ` a reference without normal field (`p`
or `p/t`) yields the normal (0, 1, 0), a unit vector also on binary32; in
`loadOBJModel` every emitted vertex for which `normIndices` has no entry at
the counter of the vertex, or an entry that is no index into the normals, has
the normal `glm::normalize(position)`, which is `position * (1 /
sqrt(dot(position, position)))` computed on binary32; in real arithmetic
that formula gives a unit vector for every position other than the origin;
and on binary32, for a position other than the origin whose components are
each 0 or of magnitude between 2^-60 and 2^60, the components of the normal
are finite and their squares add up to 1 within 2^-18 (finite values in units
of 2^-149, so that 1 is 2^298 and 2^-18 is 2^280). -/
theorem fallback_normal :
    (∀ (env : LoaderEnv Binary32) (positions normals : List (Vec3 Binary32))
        (texCoords : List (Vec2 Binary32)) (pd td : List Char), DigitString pd → IndexField td →
        digitsValue pd ≤ 2147483647 → digitsValue td ≤ 2147483647 →
      (∃ v, parseFaceToken env positions normals texCoords (String.mk pd) = .ok v ∧
        v.Normal = ⟨0, 1, 0⟩) ∧
      (∃ v, parseFaceToken env positions normals texCoords (String.mk (pd ++ '/' :: td)) =
          .ok v ∧ v.Normal = ⟨0, 1, 0⟩)) ∧
    Vec3.dot (⟨0, 1, 0⟩ : Vec3 Binary32) ⟨0, 1, 0⟩ = 1 ∧
    (∀ (env : ObjEnv Binary32) (obj : GameObject Binary32) (lines : List (Line Binary32))
        (r : Bool × GameObject Binary32) (ps : ParseState Binary32),
      env.normalize = glmNormalize Binary32.inversesqrt →
      loadOBJModel env obj (some lines) = .ok r →
      parseLines ⟨[], [], [], ⟨[], [], []⟩⟩ lines = .ok ps →
      ∀ (j p : Nat), ps.ix.posIndices[j]? = some p →
        (∀ n, ps.ix.normIndices[j]? = some n → ps.normals.length ≤ n) →
        ∃ pos, ps.positions[p]? = some pos ∧
          r.2.vertices[8 * j]? = some pos.x ∧ r.2.vertices[8 * j + 1]? = some pos.y ∧
          r.2.vertices[8 * j + 2]? = some pos.z ∧
          r.2.vertices[8 * j + 5]? = some (glmNormalize Binary32.inversesqrt pos).x ∧
          r.2.vertices[8 * j + 6]? = some (glmNormalize Binary32.inversesqrt pos).y ∧
          r.2.vertices[8 * j + 7]? = some (glmNormalize Binary32.inversesqrt pos).z) ∧
    (∀ v : Vec3 ℝ, v ≠ ⟨0, 0, 0⟩ →
      Vec3.dot (glmNormalize (fun d => 1 / Real.sqrt d) v)
        (glmNormalize (fun d => 1 / Real.sqrt d) v) = 1) ∧
    (∀ x y z : Int, (x = 0 ∨ (2 ^ 89 ≤ x.natAbs ∧ x.natAbs ≤ 2 ^ 209)) →
      (y = 0 ∨ (2 ^ 89 ≤ y.natAbs ∧ y.natAbs ≤ 2 ^ 209)) →
      (z = 0 ∨ (2 ^ 89 ≤ z.natAbs ∧ z.natAbs ≤ 2 ^ 209)) → (x ≠ 0 ∨ y ≠ 0 ∨ z ≠ 0) →
      ∃ a b c : Int,
        glmNormalize Binary32.inversesqrt ⟨Binary32.fin x, Binary32.fin y, Binary32.fin z⟩ =
          ⟨Binary32.fin a, Binary32.fin b, Binary32.fin c⟩ ∧
        a * a + b * b + c * c ≤ 2 ^ 298 + 2 ^ 280 ∧
        2 ^ 298 ≤ a * a + b * b + c * c + 2 ^ 280) := by
  refine ⟨?_, by decide, ?_, glmNormalize_unit_real, glmNormalize_length⟩
  · intro env positions normals texCoords pd td hp ht vp vt
    obtain ⟨_, a2, a3⟩ := parseFaceToken_shapes env positions normals texCoords pd td [] hp ht
      (Or.inl rfl) vp vt (by decide)
    exact ⟨⟨_, a3, vertexAt_normal_absent env positions normals texCoords _ _⟩,
      ⟨_, a2, vertexAt_normal_absent env positions normals texCoords _ _⟩⟩
  · intro env obj lines r ps henv h hp j p hj hn
    simp only [loadOBJModel, hp] at h
    cases hb : buildVertices env ps.positions ps.texCoords ps.normals ps.ix.texIndices
        ps.ix.normIndices 0 ps.ix.posIndices ([], []) with
    | error e => rw [hb] at h; cases h
    | ok r1 =>
      rw [hb] at h
      simp only [Except.ok.injEq] at h
      subst h
      obtain ⟨t, ht, _, hel⟩ := buildVertices_fallback env ps.positions ps.texCoords ps.normals
        ps.ix.texIndices ps.ix.normIndices ps.ix.posIndices 0 ([], []) r1 hb
      simp only [List.nil_append] at ht
      simp only [ht]
      obtain ⟨pos, h0, h1, h2, h3, h4⟩ := hel j p hj
      obtain ⟨h5, h6, h7⟩ := h4 (by rw [Nat.zero_add]; exact hn)
      rw [henv] at h5 h6 h7
      exact ⟨pos, h0, h1, h2, h3, h5, h6, h7⟩

set_option maxRecDepth 100000 in
/-- C14 (amended) at the vertex (3, 4, 0) of a file without normal indices:
`loadOBJModel` gives it the normal (0.6, 0.8, 0) as rounded on binary32, whose
squared length is 1 within 2^-18; and the reference `1` of `Model::loadOBJ`
gets the normal (0, 1, 0). -/
theorem fallback_normal_witness :
    (loadOBJModel floatObjEnv (floatCube ⟨0, 0, 0⟩)
        (some [.v ((3 : ℕ) : Binary32) ((4 : ℕ) : Binary32) 0, .f ["1", "1", "1"]])).toOption.map
      (fun r => (r.2.vertices.getD 5 0, r.2.vertices.getD 6 0, r.2.vertices.getD 7 0)) =
      some (Binary32.fin (10066330 * 2 ^ 125), Binary32.fin (13421773 * 2 ^ 125),
        Binary32.fin 0) ∧
    (∃ v, parseFaceToken sampleEnv quadState.positions quadState.normals quadState.texCoords
        "1" = .ok v ∧ v.Normal = ⟨0, 1, 0⟩) ∧
    ∃ a b c : Int,
      glmNormalize Binary32.inversesqrt
          ⟨Binary32.fin (3 * 2 ^ 149), Binary32.fin (4 * 2 ^ 149), Binary32.fin 0⟩ =
        ⟨Binary32.fin a, Binary32.fin b, Binary32.fin c⟩ ∧
      a * a + b * b + c * c ≤ 2 ^ 298 + 2 ^ 280 ∧
      2 ^ 298 ≤ a * a + b * b + c * c + 2 ^ 280 :=
  ⟨by decide,
    ⟨_, rfl, rfl⟩,
    fallback_normal.2.2.2.2 (3 * 2 ^ 149) (4 * 2 ^ 149) 0 (Or.inr ⟨by decide, by decide⟩)
      (Or.inr ⟨by decide, by decide⟩) (Or.inl rfl) (Or.inl (by decide))⟩

end Game3D
